import Mathlib

/-!
# Signals over an intrusive list: a shallow embedding

The development embeds `src/intrusive_list.h` (link nodes and the sentinel ring) and
`src/signals.h` (connections, iteration tokens, signals) as functions over an explicit
memory state, and proves the properties the specification states about emission order
and about mutation during emission.

Memory is a family of fields indexed by address.  Objects (signals and connections) are
placed by a bump allocator, so an address is never reused.  The state also keeps which
addresses hold a live signal and which objects have been destroyed: a callable that names
an object of the wrong kind, or a destroyed one, is outside the model and the interpreter
stops.  Iteration tokens live in the
frames of `signal::operator()`; the token of the frame at call depth `d` has address `d`.
A signal and the sentinel node of its container share one address.

A callable is a script of actions, computed from the state in which the callable is
entered; a statement proved for every assignment `beh` of scripts holds whatever the
callables do.  The scenario theorems (hypothesis `Attached`) show that an emission returns
and describe the state it leaves.  The invariant `WF` of well-formed memory is kept by
every action and every emission (`exec_kept`); from it follows what one emission visits
under arbitrary callables (`emit_visits`).
-/

namespace Signals

/-- Write `v` at address `a` of a memory field. -/
def upd {α : Type} (m : Nat → α) (a : Nat) (v : α) : Nat → α :=
  fun b => if b = a then v else m b

/-- One call of a stored callable: the token (frame) of the emission that made the call,
the subscription that was called and the callable that ran. -/
structure Invocation where
  tok : Nat
  sub : Nat
  fn : Nat
deriving DecidableEq, Repr

/-- Memory of the program.
* `next`, `prev`: the two links of `intrusive::list_element`;
* `csig`, `slot`: the fields `sig` and `slot` of `signal::connection` (`none` is the null
  pointer, respectively the empty `std::function`);
* `top_token`: the field of `signal`;
* `tsig`, `tit`, `tnext`: the fields `sig`, `it`, `next` of `signal::iteration_token`;
* `alloc`: first address not yet handed out to an object;
* `depth`: number of live frames of `signal::operator()`.
The remaining fields observe the run and are never read by the embedded code:
* `ident`: the subscription a connection object currently stands for (the address at
  which that subscription was first constructed; relocation carries it along);
* `log`: the calls of callables made so far, oldest first;
* `sigs`: the addresses that hold a live signal;
* `freed`: the objects (signals and connections) that have been destroyed;
* `stale`: the addresses of destroyed objects that an emission loop has read. -/
structure State where
  next : Nat → Nat
  prev : Nat → Nat
  csig : Nat → Option Nat
  slot : Nat → Option Nat
  top_token : Nat → Option Nat
  tsig : Nat → Option Nat
  tit : Nat → Nat
  tnext : Nat → Option Nat
  alloc : Nat
  depth : Nat
  ident : Nat → Nat
  log : List Invocation
  sigs : List Nat
  freed : List Nat
  stale : List Nat

/-! ## `intrusive::list_element` and `intrusive::list` -/

/-- The constructor `list_element()`: `next(this), prev(this)`. -/
def list_element_ctor (s : State) (this : Nat) : State :=
  { s with next := upd s.next this this, prev := upd s.prev this this }

/-- The member `list_element::link(prev, next)`. -/
def link (s : State) (this p n : Nat) : State :=
  let s1 := { s with next := upd s.next this n }
  let s2 := { s1 with prev := upd s1.prev this p }
  let s3 := { s2 with prev := upd s2.prev n this }
  { s3 with next := upd s3.next p this }

/-- The member `list_element::unlink()`. -/
def unlink (s : State) (this : Nat) : State :=
  let s1 := { s with prev := upd s.prev (s.next this) (s.prev this) }
  let s2 := { s1 with next := upd s1.next (s1.prev this) (s1.next this) }
  let s3 := { s2 with next := upd s2.next this this }
  { s3 with prev := upd s3.prev this this }

/-- The constructor `list()`; `g` is the address of the sentinel `m_fake_node`. -/
def list_ctor (s : State) (g : Nat) : State :=
  let s1 := { s with prev := upd s.prev g g }
  { s1 with next := upd s1.next g g }

/-- The member `list::push_front(element)`. -/
def push_front (s : State) (g e : Nat) : State :=
  link s e g (s.next g)

/-- The member `list::insert(pos, element)`. -/
def insert (s : State) (pos e : Nat) : State :=
  link s e (s.prev pos) pos

/-- Front-to-back traversal of the container of `g`: from node `a`, follow `next` until the
sentinel is reached, for at most `n` nodes. -/
def walk (s : State) (g : Nat) : Nat → Nat → List Nat
  | 0, _ => []
  | n + 1, a => if a = g then [] else a :: walk s g n (s.next a)

/-! ## `signal::connection` -/

/-- The constructor `connection(signal* sig, slot_t slot)`, run on fresh storage.  The new
object is at the address `s.alloc`. -/
def connection_ctor (s : State) (sig : Option Nat) (f : Option Nat) : State :=
  let c := s.alloc
  let s1 := list_element_ctor { s with alloc := c + 1 } c
  let s2 := { s1 with csig := upd s1.csig c sig, slot := upd s1.slot c f,
                      ident := upd s1.ident c c }
  match sig with
  | some g => push_front s2 g c
  | none => s2

/-- The loop of `connection::disconnect()` over the token stack: every token positioned at
`this` steps back by one node.  The loop stops at a null token and at a token whose `sig`
is null. -/
def rewind (this : Nat) : Nat → Option Nat → State → Option State
  | _, none, s => some s
  | 0, some _, _ => none
  | n + 1, some t, s =>
    match s.tsig t with
    | none => some s
    | some _ =>
      let s1 := if s.tit t = this then { s with tit := upd s.tit t (s.prev (s.tit t)) } else s
      rewind this n (s1.tnext t) s1

/-- The member `connection::disconnect()`. -/
def disconnect (fuel : Nat) (s : State) (this : Nat) : Option State :=
  match s.csig this with
  | none => some s
  | some g =>
    (rewind this fuel (s.top_token g) s).map fun s1 =>
      let s2 := unlink s1 this
      { s2 with csig := upd s2.csig this none }

/-- The member `connection::replace(other)`. -/
def replace (fuel : Nat) (s : State) (this other : Nat) : Option State :=
  match s.csig this with
  | none => some s
  | some _ => disconnect fuel (insert s other this) other

/-- The constructor `connection(connection&& other)`, run on fresh storage `s.alloc`.  The
callable moves to the new object and `other.slot` is left empty. -/
def connection_move_ctor (fuel : Nat) (s : State) (other : Nat) : Option State :=
  let c := s.alloc
  let s1 := list_element_ctor { s with alloc := c + 1 } c
  let s2 := { s1 with csig := upd s1.csig c (s1.csig other) }
  let s3 := { s2 with slot := upd (upd s2.slot c (s2.slot other)) other none,
                      ident := upd s2.ident c (s2.ident other) }
  replace fuel s3 c other

/-- The operator `connection::operator=(connection&& other)`. -/
def connection_move_assign (fuel : Nat) (s : State) (this other : Nat) : Option State :=
  if this = other then some s
  else
    (disconnect fuel s this).bind fun s1 =>
      let s2 := { s1 with csig := upd s1.csig this (s1.csig other) }
      let s3 := { s2 with slot := upd (upd s2.slot this (s2.slot other)) other none,
                          ident := upd s2.ident this (s2.ident other) }
      replace fuel s3 this other

/-- The destructor `~connection()`, followed by the destructor of its `list_element`. -/
def connection_dtor (fuel : Nat) (s : State) (this : Nat) : Option State :=
  (match s.csig this with
   | none => some s
   | some _ => disconnect fuel s this).map fun s1 => unlink s1 this

/-! ## `signal::iteration_token` -/

/-- The constructor `iteration_token(signal const* sig)` for a non-null `sig`, run in a new
frame: the token has address `s.depth`. -/
def token_ctor (s : State) (g : Nat) : State :=
  let t := s.depth
  let s1 := { s with depth := t + 1, tsig := upd s.tsig t (some g) }
  let s2 := { s1 with tit := upd s1.tit t (s1.next g) }
  let s3 := { s2 with tnext := upd s2.tnext t (s2.top_token g) }
  { s3 with top_token := upd s3.top_token g (some t) }

/-- The destructor `~iteration_token()`, after which the frame is left. -/
def token_dtor (s : State) (t : Nat) : State :=
  let s1 := match s.tsig t with
    | some g => { s with top_token := upd s.top_token g (s.tnext t) }
    | none => s
  { s1 with depth := s1.depth - 1 }

/-! ## `signal` -/

/-- The constructor `signal()`, run on fresh storage `s.alloc`. -/
def signal_ctor (s : State) : State :=
  let g := s.alloc
  let s1 := list_ctor { s with alloc := g + 1, sigs := g :: s.sigs } g
  { s1 with top_token := upd s1.top_token g none }

/-- The member `signal::connect(slot)`: the returned connection is constructed in place at
address `s.alloc`. -/
def connect (s : State) (g f : Nat) : State :=
  connection_ctor s (some g) (some f)

/-- First loop of `~signal()`: disconnect every connection of the container, reading the
successor before the disconnection. -/
def dtor_connections (g : Nat) : Nat → Nat → State → Option State
  | 0, it, s => if it = g then some s else none
  | n + 1, it, s =>
    if it = g then some s
    else (disconnect n s it).bind (dtor_connections g n (s.next it))

/-- Second loop of `~signal()`: clear `sig` in every token of the stack. -/
def dtor_tokens : Nat → Option Nat → State → Option State
  | _, none, s => some s
  | 0, some _, _ => none
  | n + 1, some t, s => dtor_tokens n (s.tnext t) { s with tsig := upd s.tsig t none }

/-- The destructor `~signal()`, followed by the destructor of the sentinel node; the
signal is then recorded as destroyed. -/
def signal_dtor (fuel : Nat) (s : State) (g : Nat) : Option State :=
  (dtor_connections g fuel (s.next g) s).bind fun s1 =>
    (dtor_tokens fuel (s1.top_token g) s1).map fun s2 =>
      let s3 := unlink s2 g
      { s3 with sigs := s3.sigs.erase g, freed := g :: s3.freed }

/-! ## Callables and emission -/

/-- What a callable can do to the objects of this program. -/
inductive Action where
  | connect (g f : Nat)
  | disconnect (c : Nat)
  | move_construct (other : Nat)
  | move_assign (this other : Nat)
  | destroy_connection (c : Nat)
  | emit (g : Nat)
  | destroy_signal (g : Nat)
deriving DecidableEq, Repr

/-- Units of work of the interpreter: a callable body, a call of `signal::operator()`, and
the `while` loop of that operator for the token `t`. -/
inductive Cmd where
  | script (as : List Action)
  | emit (g : Nat)
  | loop (t g : Nat)

/-- Address `c` holds a connection object that a callable may use: it has been handed out,
it is not a signal and it has not been destroyed. -/
def IsConn (s : State) (c : Nat) : Prop :=
  c < s.alloc ∧ c ∉ s.sigs ∧ c ∉ s.freed

instance (s : State) (c : Nat) : Decidable (IsConn s c) := by
  unfold IsConn; infer_instance

/-- A read of node `a` by an emission loop; it is recorded when `a` is a destroyed
object. -/
def touch (s : State) (a : Nat) : State :=
  if a ∈ s.freed then { s with stale := s.stale ++ [a] } else s

/-- The call `(token.it->slot)(args...)` is entered: record it. -/
def record (s : State) (t f : Nat) : State :=
  { s with log := s.log ++ [⟨t, s.ident (s.tit t), f⟩] }

/-- The statement `token.it++` of the emission loop. -/
def advance (s : State) (t : Nat) : State :=
  let s1 := touch s (s.tit t)
  { s1 with tit := upd s1.tit t (s1.next (s1.tit t)) }

/-- One action of a callable other than an emission (which the interpreter runs itself).
The action is carried out only on objects of the right kind that are alive. -/
def act (fuel : Nat) (s : State) : Action → Option State
  | .connect g f => if g ∈ s.sigs then some (connect s g f) else none
  | .disconnect c => if IsConn s c then disconnect fuel s c else none
  | .move_construct o => if IsConn s o then connection_move_ctor fuel s o else none
  | .move_assign c o =>
    if IsConn s c ∧ IsConn s o then connection_move_assign fuel s c o else none
  | .destroy_connection c =>
    if IsConn s c then
      (connection_dtor fuel s c).map fun s1 => { s1 with freed := c :: s1.freed }
    else none
  | .destroy_signal g => if g ∈ s.sigs then signal_dtor fuel s g else none
  | .emit _ => none

/-- The interpreter.  `beh f s` is the body that callable `f` runs when it is called in
state `s`.  The result is `none` when `fuel` does not suffice, and when a callable names an
object that is not there. -/
def exec (beh : Nat → State → List Action) : Nat → Cmd → State → Option State
  | 0, _, _ => none
  | _ + 1, .script [], s => some s
  | n + 1, .script (a :: as), s =>
    (match a with
      | .emit g => if g ∈ s.sigs then exec beh n (.emit g) s else none
      | a => act n s a).bind fun s1 =>
        exec beh n (.script as) s1
  | n + 1, .emit g, s =>
    (exec beh n (.loop s.depth g) (token_ctor s g)).map fun s1 => token_dtor s1 s.depth
  | n + 1, .loop t g, s =>
    match s.tsig t with
    | none => some s
    | some _ =>
      if s.tit t = g then some s
      else
        let s0 := touch s (s.tit t)
        (match s0.slot (s0.tit t) with
          | none => some s0
          | some f => exec beh n (.script (beh f s0)) (record s0 t f)).bind fun s1 =>
            exec beh n (.loop t g) (advance s1 t)

/-- The whole call `signal::operator()` on signal `g`. -/
def emit (beh : Nat → State → List Action) (fuel : Nat) (s : State) (g : Nat) :
    Option State :=
  exec beh fuel (.emit g) s

/-- A state with no objects and no frames. -/
def State.init : State where
  next := fun a => a
  prev := fun a => a
  csig := fun _ => none
  slot := fun _ => none
  top_token := fun _ => none
  tsig := fun _ => none
  tit := fun _ => 0
  tnext := fun _ => none
  alloc := 0
  depth := 0
  ident := fun a => a
  log := []
  sigs := []
  freed := []
  stale := []


/-- The chain `a → l → b` under a successor function. -/
def Path (f : Nat → Nat) (a : Nat) (l : List Nat) (b : Nat) : Prop :=
  (a :: l).map f = l ++ [b]

instance (f : Nat → Nat) (a : Nat) (l : List Nat) (b : Nat) : Decidable (Path f a l b) := by
  unfold Path; infer_instance

/-- The container of signal `g` holds exactly the nodes `xs`, front to back: the sentinel
and the nodes are pairwise distinct, `next` runs `g → xs → g` and `prev` runs it backwards. -/
def Ring (s : State) (g : Nat) (xs : List Nat) : Prop :=
  (g :: xs).Nodup ∧ Path s.next g xs g ∧ Path s.prev g xs.reverse g

instance (s : State) (g : Nat) (xs : List Nat) : Decidable (Ring s g xs) := by
  unfold Ring; infer_instance

/-- Big-step execution: command `c` run from `s` returns and leaves the state `r`. -/
def Runs (beh : Nat → State → List Action) (c : Cmd) (s r : State) : Prop :=
  ∃ n, exec beh n c s = some r

/-- The log entries of an emission with token `t` that calls, one after the other, the
callables stored in the connections `m` (an empty slot is skipped). -/
def entries (s : State) (t : Nat) (m : List Nat) : List Invocation :=
  m.filterMap fun x => (s.slot x).map fun f => ⟨t, s.ident x, f⟩

/-- The state an emission on `g` leaves when it made the calls `es` and the callables
changed nothing: the log has grown and the frame of the call holds its dead token. -/
def emitted (s : State) (g : Nat) (es : List Invocation) : State :=
  { s with tsig := upd s.tsig s.depth (some g), tit := upd s.tit s.depth g,
           tnext := upd s.tnext s.depth (s.top_token g), log := s.log ++ es }

/-- Subscribe the callables `fs` to `g`, one after the other. -/
def subscribe_all (s : State) (g : Nat) (fs : List Nat) : State :=
  fs.foldl (fun s f => connect s g f) s

/-- The tokens reachable from `o` through `tnext`, innermost emission first, are `ts`. -/
def Stack (s : State) : Option Nat → List Nat → Prop
  | o, [] => o = none
  | o, t :: ts => o = some t ∧ Stack s (s.tnext t) ts

/-- The state after the token loop of `disconnect()` on node `this`, when the token stack
is `ts`: the tokens positioned at `this` have stepped back to its predecessor. -/
def rewound (s : State) (this : Nat) (ts : List Nat) : State :=
  { s with tit := fun t => if t ∈ ts ∧ s.tit t = this then s.prev this else s.tit t }

/-- The state after `disconnect()` on the connected node `this`, when the token stack of
its signal is `ts`. -/
def disconnected (s : State) (this : Nat) (ts : List Nat) : State :=
  let s2 := unlink (rewound s this ts) this
  { s2 with csig := upd s2.csig this none }

/-- A call made by the client of one signal: subscribe a callable, or disconnect the
`i`-th of the subscriptions the client has obtained so far (counted from 0). -/
inductive Op where
  | subscribe (f : Nat)
  | disconnect (i : Nat)
deriving DecidableEq, Repr

/-- The client makes one call on signal `g`.  It holds the connection objects `cs` it has
obtained, in the order of subscription. -/
def run_op (g fuel : Nat) : State × List Nat → Op → Option (State × List Nat)
  | (s, cs), .subscribe f => some (connect s g f, cs ++ [s.alloc])
  | (s, cs), .disconnect i =>
    match cs[i]? with
    | none => some (s, cs)
    | some c => (disconnect fuel s c).map fun s1 => (s1, cs)

/-- The client makes the calls `ops`, one after the other. -/
def run_ops (g fuel : Nat) : List Op → State × List Nat → Option (State × List Nat)
  | [], p => some p
  | op :: ops, p => (run_op g fuel p op).bind (run_ops g fuel ops)

/-- The specification's view of one call: how many subscriptions were made so far, and
which of them (by number) are currently connected, in the order of subscription. -/
def spec_op : Nat × List Nat → Op → Nat × List Nat
  | (n, L), .subscribe _ => (n + 1, L ++ [n])
  | (n, L), .disconnect i => (n, L.filter fun j => j ≠ i)

/-- The specification's view of a sequence of calls. -/
def spec_ops (ops : List Op) (p : Nat × List Nat) : Nat × List Nat :=
  ops.foldl spec_op p

/-- The memory agrees with the specification's view `(n, L)` of the calls made so far on
signal `g`: the client holds the `n` objects behind the signal, the container lists the
connected ones most recent first, exactly these refer to the signal, no emission runs. -/
structure Tracks (g : Nat) (s : State) (cs : List Nat) (n : Nat) (L : List Nat) : Prop where
  cs_eq : cs = List.range' (g + 1) n
  alloc_eq : s.alloc = g + 1 + n
  ring : Ring s g (L.reverse.map fun i => g + 1 + i)
  lt : ∀ i ∈ L, i < n
  con : ∀ i ∈ L, s.csig (g + 1 + i) = some g
  dis : ∀ i, i < n → i ∉ L → s.csig (g + 1 + i) = none
  top : s.top_token g = none

/-- Signal `g` is alive with the connected subscriptions `xs` in its container, front to
back, and the suspended emissions `ts` on its token stack, innermost first. -/
structure Attached (s : State) (g : Nat) (xs ts : List Nat) : Prop where
  alive : g ∈ s.sigs
  ring : Ring s g xs
  sig : ∀ x ∈ xs, s.csig x = some g
  conn : ∀ x ∈ xs, x ∉ s.sigs
  live : ∀ a ∈ g :: xs, a ∉ s.freed
  below : ∀ a ∈ g :: xs, a < s.alloc
  fresh : ∀ a ∈ s.freed ++ s.sigs, a < s.alloc
  stack : Stack s (s.top_token g) ts
  tok_sig : ∀ t ∈ ts, s.tsig t = some g
  tok_lt : ∀ t ∈ ts, t < s.depth

/-- The state of an emission on `g`, started in `s`, when its loop has called the
callables of the connections `l` (which changed nothing) and is positioned at `x`. -/
def reached (s : State) (g : Nat) (l : List Nat) (x : Nat) : State :=
  { token_ctor s g with
    tit := upd (token_ctor s g).tit s.depth x,
    log := s.log ++ entries s s.depth l }

/-- The state in which the emission with token `t` on `g` returns, when its loop, resumed
in `s`, still called the callables logged as `es` and these changed nothing. -/
def finish (s : State) (t g : Nat) (es : List Invocation) : State :=
  token_dtor { s with tit := upd s.tit t g, log := s.log ++ es } t

/-- The state after the first loop of `~signal()` on `g`, whose container holds `xs` and
whose token stack is `ts`: every node is unlinked, no connection refers to the signal, and
the tokens that stood at a connection stand at the sentinel. -/
def cleared (s : State) (g : Nat) (xs ts : List Nat) : State :=
  { s with next := fun a => if a ∈ g :: xs then a else s.next a,
           prev := fun a => if a ∈ g :: xs then a else s.prev a,
           csig := fun a => if a ∈ xs then none else s.csig a,
           tit := fun u => if u ∈ ts ∧ s.tit u ∈ xs then g else s.tit u }

/-- The state after the second loop of `~signal()`: every token of the stack has a null
`sig`. -/
def nulled (s : State) (ts : List Nat) : State :=
  { s with tsig := fun u => if u ∈ ts then none else s.tsig u }

/-- The state after `~signal()` on `g`. -/
def destroyed (s : State) (g : Nat) (xs ts : List Nat) : State :=
  let s2 := nulled (cleared s g xs ts) ts
  { s2 with sigs := s2.sigs.erase g, freed := g :: s2.freed }

/-- Well-formed memory, for every live signal at once.  `R g` is the container of the live
signal `g`, front to back, and `T g` its token stack, innermost emission first.
* the live signals are distinct, and none of them is destroyed;
* live and destroyed objects lie below the allocation mark;
* the container of a live signal is a ring of connection objects that refer to it, and a
  connection object that refers to a signal is in the container of that live signal;
* a connection object that refers to no signal is unlinked;
* the token stack of a live signal is linked through `tnext`, its tokens refer to the
  signal, live in frames that exist, and stand at a node of the container;
* the linked connections stand for distinct subscriptions, made below the allocation mark;
* when `F` holds, every linked connection stores a callable. -/
structure WF (F : Prop) (s : State) (R T : Nat → List Nat) : Prop where
  sigs_nodup : s.sigs.Nodup
  sigs_live : ∀ g ∈ s.sigs, g ∉ s.freed
  bound : ∀ a ∈ s.sigs ++ s.freed, a < s.alloc
  ring : ∀ g ∈ s.sigs, Ring s g (R g)
  mem : ∀ g ∈ s.sigs, ∀ x ∈ R g, IsConn s x ∧ s.csig x = some g
  att : ∀ c g, IsConn s c → s.csig c = some g → g ∈ s.sigs ∧ c ∈ R g
  det : ∀ c, IsConn s c → s.csig c = none → s.next c = c ∧ s.prev c = c
  stack : ∀ g ∈ s.sigs, Stack s (s.top_token g) (T g)
  tok : ∀ g ∈ s.sigs, ∀ t ∈ T g, s.tsig t = some g ∧ t < s.depth ∧ s.tit t ∈ g :: R g
  id_lt : ∀ g ∈ s.sigs, ∀ x ∈ R g, s.ident x < s.alloc
  id_inj : ∀ g ∈ s.sigs, ∀ g' ∈ s.sigs, ∀ x ∈ R g, ∀ y ∈ R g',
    s.ident x = s.ident y → x = y
  full : F → ∀ g ∈ s.sigs, ∀ x ∈ R g, s.slot x ≠ none

/-- The emission with token `t0` on `g0` has its position at the end of the stretch `pre`
of the container `pre ++ post`. -/
def Tracked (s : State) (R : Nat → List Nat) (g0 t0 : Nat) (pre post : List Nat) : Prop :=
  R g0 = pre ++ post ∧ s.tit t0 = pre.getLastD g0

/-- From `(s, pre, post)` to `(s', pre', post')` the subscriptions of `start` that still
lie behind the position only get fewer, in unchanged order, and none of them moves in
front of the position. -/
def Moves (start : List Nat) (s s' : State) (pre post pre' post' : List Nat) : Prop :=
  ((post'.map s'.ident).filter fun i => i ∈ start).Sublist
    ((post.map s.ident).filter fun i => i ∈ start) ∧
  ∀ x ∈ pre', s'.ident x ∈ start → ∃ y ∈ pre, s.ident y = s'.ident x

/-- The subscriptions called by the emission with token `t0` since the log had length
`k0`, oldest first. -/
def vis (t0 k0 : Nat) (s : State) : List Nat :=
  ((s.log.drop k0).filter fun e => e.tok = t0).map Invocation.sub

/-- What a step from `s` to `s'` keeps, for the token stacks `T` and the containers `R`
before and `R'` after: memory stays well formed; no frame is entered or left; the log only
grows by calls of `ex` and of emissions entered later; objects are only added; signals are only
destroyed; a null token stays null and the tokens of a destroyed signal are null; and
every suspended emission other than `ex` keeps its position (`Tracked`, `Moves`). -/
structure Kept (F : Prop) (start : List Nat) (ex : Option Nat) (s s' : State)
    (R T R' : Nat → List Nat) : Prop where
  wf : WF F s' R' T
  depth : s'.depth = s.depth
  log : ∃ ext, s'.log = s.log ++ ext ∧ ∀ e ∈ ext, s.depth ≤ e.tok ∨ some e.tok = ex
  alloc : s.alloc ≤ s'.alloc
  sigs : ∀ g ∈ s'.sigs, g ∈ s.sigs
  tsig_none : ∀ t, t < s.depth → s.tsig t = none → s'.tsig t = none
  dead : ∀ g ∈ s.sigs, g ∉ s'.sigs → ∀ t ∈ T g, s'.tsig t = none
  track : ∀ g0 t0 pre post, g0 ∈ s'.sigs → t0 ∈ T g0 → some t0 ≠ ex →
    Tracked s R g0 t0 pre post → (∀ i ∈ start, i < s.alloc) →
    ∃ pre' post', Tracked s' R' g0 t0 pre' post' ∧ Moves start s s' pre post pre' post'

/-- The fields of `other` taken over by `this` in the move constructor and in move
assignment: `sig`, the callable (which leaves `other`), and the subscription it stands
for. -/
def transferred (s : State) (this other : Nat) : State :=
  { s with csig := upd s.csig this (s.csig other),
           slot := upd (upd s.slot this (s.slot other)) other none,
           ident := upd s.ident this (s.ident other) }

/-- The state after `this.replace(other)` for a linked `other` whose signal has the token
stack `ts`: `this` stands where `other` stood and `other` is disconnected. -/
def relocated (s : State) (this other : Nat) (ts : List Nat) : State :=
  disconnected (insert (transferred s this other) other this) other ts

/-- What the interpreter needs before a command: an emitted signal is alive; the loop of
the emission with token `t` runs in the newest frame, and its token is on top of the stack
of its signal, or null when the signal has been destroyed. -/
def Pre (T : Nat → List Nat) : Cmd → State → Prop
  | .script _, _ => True
  | .emit g, s => g ∈ s.sigs
  | .loop t g, s =>
    t + 1 = s.depth ∧ (g ∈ s.sigs → ∃ rest, T g = t :: rest) ∧ (g ∉ s.sigs → s.tsig t = none)

/-- The emission whose position a command moves: the one of the loop it runs. -/
def mover : Cmd → Option Nat
  | .loop t _ => some t
  | _ => none

/-- A signal at address 0 to which the callables 10, 20 and 30 were subscribed in that
order: the subscriptions are A at 1, B at 2 and C at 3, and the container lists C, B, A. -/
def demo : State :=
  subscribe_all (signal_ctor State.init) 0 [10, 20, 30]

/-- The callables called so far, oldest first, as recorded in the result of a run. -/
def calls (o : Option State) : Option (List Nat) :=
  o.map fun s => s.log.map Invocation.fn

/-- The state `demo` inside an emission: the loop of the emission with token 0 stands at C
and has entered the callable of C. -/
def demo_suspended : State :=
  record (reached demo 0 [] 3) 0 30

/-- The containers of `demo`: the signal 0 holds C, B, A. -/
def demo_containers (g : Nat) : List Nat :=
  if g = 0 then [3, 2, 1] else []

/-- The token stacks of `demo`: no emission is running. -/
def demo_stacks (_ : Nat) : List Nat := []

/-- The subscriptions called by the emission with token `t` since the log had length `k`,
as recorded in the result of a run. -/
def visited (t k : Nat) (o : Option State) : Option (List Nat) :=
  o.map (vis t k)

/-- The token stacks of `demo_suspended`: the emission with token 0 runs on the signal. -/
def demo_suspended_stacks (g : Nat) : List Nat :=
  if g = 0 then [0] else []

/-! ## Further members of `intrusive::list` -/

/-- The member `list::empty()`. -/
def empty (s : State) (g : Nat) : Bool :=
  decide (s.next g = g) && decide (s.prev g = g)

/-- The member `list::clear()`: `m_fake_node.next = m_fake_node.prev = &m_fake_node`. -/
def clear (s : State) (g : Nat) : State :=
  let s1 := { s with prev := upd s.prev g g }
  { s1 with next := upd s1.next g g }

/-- The member `list::push_back(element)`. -/
def push_back (s : State) (g e : Nat) : State :=
  link s e (s.prev g) g

/-- The member `list::pop_back()`. -/
def pop_back (s : State) (g : Nat) : State :=
  unlink s (s.prev g)

/-- The member `list::pop_front()`. -/
def pop_front (s : State) (g : Nat) : State :=
  unlink s (s.next g)

/-- The member `list::erase(pos)`: `pos++; pos->prev->unlink(); return pos`.  The result is
the new state and the returned iterator. -/
def erase (s : State) (pos : Nat) : State × Nat :=
  let pos1 := s.next pos
  (unlink s (s.prev pos1), pos1)

/-- The member `list::splice(pos, other, begin, end)`; the parameter `other` is not used
by the code. -/
def splice (s : State) (pos b e : Nat) : State :=
  if b = e then s
  else
    let s1 := { s with next := upd s.next (s.prev b) e }
    let last := s1.prev e
    let s2 := { s1 with prev := upd s1.prev e (s1.prev b) }
    let s3 := { s2 with prev := upd s2.prev b (s2.prev pos) }
    let s4 := { s3 with next := upd s3.next (s3.prev pos) b }
    let s5 := { s4 with next := upd s4.next last pos }
    { s5 with prev := upd s5.prev pos last }

/-- The operator `list::operator=(list&& other)` of the container with sentinel `this`. -/
def list_move_assign (s : State) (this other : Nat) : State :=
  if other = this then s
  else if empty s other then clear s this
  else clear (link s this (s.prev other) (s.next other)) other

/-- The constructor `list(list&& other)`, run on the storage `this`. -/
def list_move_ctor (s : State) (this other : Nat) : State :=
  list_move_assign (list_ctor s this) this other

/-- The invariant of the link nodes: `n.next.prev = n` and `n.prev.next = n` for every
node `n`. -/
def Linked (s : State) : Prop :=
  ∀ n, s.prev (s.next n) = n ∧ s.next (s.prev n) = n

/-- Two containers for the examples: the container with sentinel `0` holds the elements
`1, 2, 3` and the container with sentinel `10` holds `11, 12`; every other node is unlinked. -/
def demo_lists : State :=
  push_back (push_back (push_back (push_back (push_back State.init 0 1) 0 2) 0 3) 10 11) 10 12

@[simp] theorem upd_same {α : Type} (m : Nat → α) (a : Nat) (v : α) : upd m a v a = v := by
  simp [upd]

theorem upd_other {α : Type} (m : Nat → α) {a b : Nat} (v : α) (h : b ≠ a) :
    upd m a v b = m b := by
  simp [upd, h]

theorem map_upd_of_not_mem {α : Type} (m : Nat → α) (a : Nat) (v : α) (l : List Nat)
    (h : a ∉ l) : l.map (upd m a v) = l.map m := by
  apply List.map_congr_left
  intro b hb
  exact upd_other m v (fun e => h (e ▸ hb))

theorem getLastD_mem (l : List Nat) (a : Nat) : l.getLastD a ∈ a :: l := by
  induction l generalizing a with
  | nil => simp
  | cons y l ih =>
    have := ih y
    simp only [List.getLastD_cons]
    exact List.mem_cons_of_mem _ this

theorem headD_mem (l : List Nat) (b : Nat) : l.headD b ∈ l ++ [b] := by
  cases l <;> simp

theorem path_nil {f : Nat → Nat} {a b : Nat} : Path f a [] b ↔ f a = b := by
  simp [Path]

theorem path_cons {f : Nat → Nat} {a x b : Nat} {l : List Nat} :
    Path f a (x :: l) b ↔ f a = x ∧ Path f x l b := by
  simp [Path]

theorem path_append {f : Nat → Nat} {x b : Nat} {r : List Nat} :
    ∀ (l : List Nat) (a : Nat), Path f a (l ++ x :: r) b ↔ Path f a l x ∧ Path f x r b
  | [], a => by simp [path_nil, path_cons]
  | y :: l, a => by
    simp only [List.cons_append, path_cons, path_append l y]
    tauto

theorem path_head {f : Nat → Nat} {a b : Nat} {l : List Nat} (h : Path f a l b) :
    f a = l.headD b := by
  cases l with
  | nil => simpa [path_nil] using h
  | cons y l => exact (path_cons.1 h).1

theorem path_last {f : Nat → Nat} {b : Nat} :
    ∀ (l : List Nat) (a : Nat), Path f a l b → f (l.getLastD a) = b
  | [], a, h => by simpa [path_nil] using h
  | y :: l, a, h => by
    simp only [List.getLastD_cons]
    exact path_last l y (path_cons.1 h).2

theorem path_congr {f f' : Nat → Nat} {a b : Nat} {l : List Nat}
    (h : Path f a l b) (hf : ∀ u ∈ a :: l, f' u = f u) : Path f' a l b := by
  unfold Path at *
  rw [← h]
  exact List.map_congr_left hf

theorem path_tail_eq {f : Nat → Nat} {a b : Nat} {r : List Nat} (h : Path f a r b) :
    r.headD b :: r.map f = r ++ [b] := by
  cases r with
  | nil => simp
  | cons y r =>
    have := (path_cons.1 h).2
    simpa [Path] using this

/-- Removing `x` from a chain by redirecting its predecessor. -/
theorem path_remove {f : Nat → Nat} {x b : Nat} {r : List Nat} :
    ∀ (l : List Nat) (a : Nat), (a :: (l ++ x :: r)).Nodup → Path f a (l ++ x :: r) b →
      Path (upd (upd f (l.getLastD a) (r.headD b)) x x) a (l ++ r) b
  | [], a, hn, h => by
    obtain ⟨_, hxr⟩ := path_cons.1 h
    simp only [List.nil_append, List.nodup_cons, List.mem_cons, not_or] at hn
    obtain ⟨⟨hax, har⟩, hxr', _⟩ := hn
    have e := path_tail_eq hxr
    simp only [List.getLastD_nil, List.nil_append, Path, List.map_cons]
    rw [map_upd_of_not_mem _ _ _ _ hxr', map_upd_of_not_mem _ _ _ _ har,
      upd_other _ _ hax, upd_same]
    exact e
  | y :: l, a, hn, h => by
    obtain ⟨hay, hy⟩ := path_cons.1 h
    have hn' : (y :: (l ++ x :: r)).Nodup := (List.nodup_cons.1 hn).2
    have ih := path_remove l y hn' hy
    simp only [List.cons_append, List.getLastD_cons]
    refine path_cons.2 ⟨?_, ih⟩
    have hax : a ≠ x := by
      intro e; subst e
      exact (List.nodup_cons.1 hn).1 (by simp)
    have hap : a ≠ l.getLastD y := by
      intro e
      have hm : l.getLastD y ∈ y :: l := getLastD_mem l y
      apply (List.nodup_cons.1 hn).1
      rw [e]
      exact List.mem_append_left (x :: r) hm
    rw [upd_other _ _ hax, upd_other _ _ hap, hay]

/-- Inserting a new node `c` into a chain, after the last node of `l`. -/
theorem path_insert {f : Nat → Nat} {c b : Nat} {r : List Nat} :
    ∀ (l : List Nat) (a : Nat), c ∉ a :: (l ++ r) → (a :: (l ++ r)).Nodup →
      Path f a (l ++ r) b →
      Path (upd (upd f c (r.headD b)) (l.getLastD a) c) a (l ++ c :: r) b
  | [], a, hc, hn, h => by
    simp only [List.nil_append, List.mem_cons, not_or] at hc
    simp only [List.nil_append, List.nodup_cons] at hn
    have e := path_tail_eq h
    simp only [List.getLastD_nil, List.nil_append]
    refine path_cons.2 ⟨upd_same _ _ _, ?_⟩
    simp only [Path, List.map_cons]
    rw [map_upd_of_not_mem _ _ _ _ hn.1, map_upd_of_not_mem _ _ _ _ hc.2,
      upd_other _ _ hc.1, upd_same]
    exact e
  | y :: l, a, hc, hn, h => by
    obtain ⟨hay, hy⟩ := path_cons.1 h
    have hn' : (y :: (l ++ r)).Nodup := (List.nodup_cons.1 hn).2
    have hc' : c ∉ y :: (l ++ r) := fun hm => hc (List.mem_cons_of_mem _ hm)
    have ih := path_insert l y hc' hn' hy
    simp only [List.cons_append, List.getLastD_cons]
    refine path_cons.2 ⟨?_, ih⟩
    have hac : a ≠ c := by
      intro e; subst e; exact hc (by simp)
    have hap : a ≠ l.getLastD y := by
      intro e
      have hm : l.getLastD y ∈ y :: l := getLastD_mem l y
      apply (List.nodup_cons.1 hn).1
      rw [e]
      exact List.mem_append_left r hm
    rw [upd_other _ _ hap, upd_other _ _ hac, hay]

/-! ## The sentinel ring -/

theorem headD_reverse (l : List Nat) (a : Nat) : l.reverse.headD a = l.getLastD a := by
  induction l generalizing a with
  | nil => rfl
  | cons y l ih =>
    simp only [List.reverse_cons, List.getLastD_cons]
    rw [← ih y]
    cases l.reverse <;> rfl

theorem getLastD_reverse (l : List Nat) (a : Nat) : l.reverse.getLastD a = l.headD a := by
  have := headD_reverse l.reverse a
  rw [List.reverse_reverse] at this
  exact this.symm

theorem upd_self_val {α : Type} (m : Nat → α) (a b : Nat) : upd m a (m b) b = m b := by
  unfold upd; split <;> rfl

theorem unlink_next (s : State) (x : Nat) :
    (unlink s x).next = upd (upd s.next (s.prev x) (s.next x)) x x := by
  simp only [unlink, upd_self_val]

theorem unlink_prev (s : State) (x : Nat) :
    (unlink s x).prev = upd (upd s.prev (s.next x) (s.prev x)) x x := rfl

theorem link_next (s : State) (c p n : Nat) :
    (link s c p n).next = upd (upd s.next c n) p c := rfl

theorem link_prev (s : State) (c p n : Nat) :
    (link s c p n).prev = upd (upd s.prev c p) n c := rfl

theorem Ring.of_eq {s s' : State} {g : Nat} {xs : List Nat} (h : Ring s g xs)
    (hn : s'.next = s.next) (hp : s'.prev = s.prev) : Ring s' g xs := by
  unfold Ring at *
  rw [hn, hp]
  exact h

theorem Ring.nodup {s : State} {g : Nat} {xs : List Nat} (h : Ring s g xs) :
    (g :: xs).Nodup := h.1

theorem Ring.next_sentinel {s : State} {g : Nat} {xs : List Nat} (h : Ring s g xs) :
    s.next g = xs.headD g := path_head h.2.1

theorem Ring.prev_sentinel {s : State} {g : Nat} {xs : List Nat} (h : Ring s g xs) :
    s.prev g = xs.getLastD g := by
  rw [← headD_reverse]
  exact path_head h.2.2

theorem Ring.next_mem {s : State} {g x : Nat} {l r : List Nat}
    (h : Ring s g (l ++ x :: r)) : s.next x = r.headD g :=
  path_head ((path_append l g).1 h.2.1).2

theorem Ring.prev_mem {s : State} {g x : Nat} {l r : List Nat}
    (h : Ring s g (l ++ x :: r)) : s.prev x = l.getLastD g := by
  have h2 := h.2.2
  rw [List.reverse_append, List.reverse_cons, List.append_assoc, List.singleton_append] at h2
  rw [← headD_reverse]
  exact path_head ((path_append r.reverse g).1 h2).2

theorem Ring.next_pred {s : State} {g x : Nat} {l r : List Nat}
    (h : Ring s g (l ++ x :: r)) : s.next (l.getLastD g) = x :=
  path_last l g ((path_append l g).1 h.2.1).1

theorem nodup_reverse_mid {g x : Nat} {l r : List Nat} (h : (g :: (l ++ x :: r)).Nodup) :
    (g :: (r.reverse ++ x :: l.reverse)).Nodup := by
  have e : g :: (r.reverse ++ x :: l.reverse) = g :: (l ++ x :: r).reverse := by simp
  rw [e]
  rw [List.nodup_cons] at h ⊢
  exact ⟨fun hm => h.1 (List.mem_reverse.1 hm), List.nodup_reverse.2 h.2⟩

/-- After `unlink` of a member the ring holds the other nodes, in the same order. -/
theorem Ring.unlink {s : State} {g x : Nat} {l r : List Nat}
    (h : Ring s g (l ++ x :: r)) : Ring (unlink s x) g (l ++ r) := by
  have hn := h.next_mem
  have hp := h.prev_mem
  obtain ⟨hnd, h1, h2⟩ := h
  refine ⟨?_, ?_, ?_⟩
  · have : (g :: (l ++ r)).Sublist (g :: (l ++ x :: r)) :=
      List.Sublist.cons₂ _ (List.Sublist.append_left (List.sublist_cons_self x r) l)
    exact hnd.sublist this
  · rw [unlink_next, hn, hp]
    exact path_remove l g hnd h1
  · rw [unlink_prev, hn, hp, List.reverse_append]
    rw [List.reverse_append, List.reverse_cons, List.append_assoc, List.singleton_append] at h2
    have := path_remove r.reverse g (nodup_reverse_mid hnd) h2
    rwa [getLastD_reverse, headD_reverse] at this

/-- After `link` of a new node between two neighbours the ring holds it at that place. -/
theorem Ring.link {s : State} {g c : Nat} {l r : List Nat}
    (h : Ring s g (l ++ r)) (hc : c ∉ g :: (l ++ r)) :
    Ring (link s c (l.getLastD g) (r.headD g)) g (l ++ c :: r) := by
  obtain ⟨hnd, h1, h2⟩ := h
  have hnd' : (g :: (r.reverse ++ l.reverse)).Nodup := by
    have e : g :: (r.reverse ++ l.reverse) = g :: (l ++ r).reverse := by simp
    rw [e]
    rw [List.nodup_cons] at hnd ⊢
    exact ⟨fun hm => hnd.1 (List.mem_reverse.1 hm), List.nodup_reverse.2 hnd.2⟩
  have hc' : c ∉ g :: (r.reverse ++ l.reverse) := by
    intro hm
    apply hc
    simp only [List.mem_cons, List.mem_append, List.mem_reverse] at hm ⊢
    tauto
  refine ⟨?_, ?_, ?_⟩
  · have hperm : (g :: (l ++ c :: r)).Perm (c :: g :: (l ++ r)) := by
      refine (List.Perm.cons g List.perm_middle).trans ?_
      exact List.Perm.swap c g (l ++ r)
    rw [hperm.nodup_iff]
    exact List.nodup_cons.2 ⟨hc, hnd⟩
  · rw [link_next]
    exact path_insert l g hc hnd h1
  · rw [link_prev, List.reverse_append, List.reverse_cons, List.append_assoc,
      List.singleton_append]
    rw [List.reverse_append] at h2
    have := path_insert r.reverse g hc' hnd' h2
    rwa [getLastD_reverse, headD_reverse] at this

/-- Walking the ring from any of its positions lists the nodes from there to the end. -/
theorem Ring.walk {s : State} {g : Nat} :
    ∀ (r l : List Nat) (n : Nat), Ring s g (l ++ r) → r.length < n →
      walk s g n (r.headD g) = r
  | [], l, n + 1, _, _ => by simp [Signals.walk]
  | x :: r, l, n + 1, h, hlt => by
    have hx : x ≠ g := by
      intro e
      have := h.nodup
      simp [e] at this
    have hnx : s.next x = r.headD g := h.next_mem
    have h' : Ring s g ((l ++ [x]) ++ r) := by simpa using h
    have ih := Ring.walk r (l ++ [x]) n h' (by simpa using hlt)
    simp only [Signals.walk, List.headD_cons, hx, if_false, hnx, ih]

theorem filter_ne_mid {c : Nat} {l r : List Nat} (h : (l ++ c :: r).Nodup) :
    (l ++ c :: r).filter (fun x => x ≠ c) = l ++ r := by
  have hl : c ∉ l := fun hm => (List.nodup_append.1 h).2.2 hm (List.mem_cons_self _ _)
  have hr : c ∉ r := (List.nodup_cons.1 (List.nodup_append.1 h).2.1).1
  rw [List.filter_append, List.filter_cons_of_neg (by simp)]
  congr 1
  · refine List.filter_eq_self.2 (fun a ha => ?_)
    have : a ≠ c := fun e => hl (e ▸ ha)
    simpa using this
  · refine List.filter_eq_self.2 (fun a ha => ?_)
    have : a ≠ c := fun e => hr (e ▸ ha)
    simpa using this

/-! ## More fuel never changes a result -/

theorem rewind_mono {this : Nat} :
    ∀ (n m : Nat) (o : Option Nat) (s r : State), n ≤ m →
      rewind this n o s = some r → rewind this m o s = some r
  | _, _, none, s, r, _, h => by
    simp only [rewind] at h ⊢
    exact h
  | 0, _, some _, _, _, _, h => by simp [rewind] at h
  | n + 1, 0, some _, _, _, hle, _ => by omega
  | n + 1, m + 1, some t, s, r, hle, h => by
    simp only [rewind] at h ⊢
    cases ht : s.tsig t with
    | none => simpa [ht] using h
    | some g =>
      simp only [ht] at h ⊢
      exact rewind_mono n m _ _ r (by omega) h

theorem disconnect_mono {n m : Nat} {s r : State} {c : Nat} (hle : n ≤ m)
    (h : disconnect n s c = some r) : disconnect m s c = some r := by
  unfold disconnect at *
  cases hc : s.csig c with
  | none => simpa [hc] using h
  | some g =>
    simp only [hc, Option.map_eq_some'] at h ⊢
    obtain ⟨a, ha, e⟩ := h
    exact ⟨a, rewind_mono n m _ _ _ hle ha, e⟩

theorem replace_mono {n m : Nat} {s r : State} {c o : Nat} (hle : n ≤ m)
    (h : replace n s c o = some r) : replace m s c o = some r := by
  unfold replace at *
  cases hc : s.csig c with
  | none => simpa [hc] using h
  | some g =>
    simp only [hc] at h ⊢
    exact disconnect_mono hle h

theorem connection_move_ctor_mono {n m : Nat} {s r : State} {o : Nat} (hle : n ≤ m)
    (h : connection_move_ctor n s o = some r) : connection_move_ctor m s o = some r := by
  unfold connection_move_ctor at *
  exact replace_mono hle h

theorem connection_move_assign_mono {n m : Nat} {s r : State} {c o : Nat} (hle : n ≤ m)
    (h : connection_move_assign n s c o = some r) :
    connection_move_assign m s c o = some r := by
  unfold connection_move_assign at *
  by_cases hco : c = o
  · simpa [hco] using h
  · simp only [hco, if_false, Option.bind_eq_some] at h ⊢
    obtain ⟨a, ha, e⟩ := h
    exact ⟨a, disconnect_mono hle ha, replace_mono hle e⟩

theorem connection_dtor_mono {n m : Nat} {s r : State} {c : Nat} (hle : n ≤ m)
    (h : connection_dtor n s c = some r) : connection_dtor m s c = some r := by
  unfold connection_dtor at *
  cases hc : s.csig c with
  | none => simpa [hc] using h
  | some g =>
    simp only [hc, Option.map_eq_some'] at h ⊢
    obtain ⟨a, ha, e⟩ := h
    exact ⟨a, disconnect_mono hle ha, e⟩

theorem dtor_connections_mono {g : Nat} :
    ∀ (n m : Nat) (it : Nat) (s r : State), n ≤ m →
      dtor_connections g n it s = some r → dtor_connections g m it s = some r
  | 0, 0, _, _, _, _, h => h
  | 0, m + 1, it, s, r, _, h => by
    simp only [dtor_connections] at h ⊢
    by_cases e : it = g
    · simpa [e] using h
    · simp [e] at h
  | n + 1, 0, _, _, _, hle, _ => by omega
  | n + 1, m + 1, it, s, r, hle, h => by
    simp only [dtor_connections] at h ⊢
    by_cases e : it = g
    · simpa [e] using h
    · simp only [e, if_false, Option.bind_eq_some] at h ⊢
      obtain ⟨a, ha, e'⟩ := h
      exact ⟨a, disconnect_mono (by omega) ha,
        dtor_connections_mono n m _ _ _ (by omega) e'⟩

theorem dtor_tokens_mono :
    ∀ (n m : Nat) (o : Option Nat) (s r : State), n ≤ m →
      dtor_tokens n o s = some r → dtor_tokens m o s = some r
  | _, _, none, s, r, _, h => by
    simp only [dtor_tokens] at h ⊢
    exact h
  | 0, _, some _, _, _, _, h => by simp [dtor_tokens] at h
  | n + 1, 0, some _, _, _, hle, _ => by omega
  | n + 1, m + 1, some t, s, r, hle, h => by
    simp only [dtor_tokens] at h ⊢
    exact dtor_tokens_mono n m _ _ r (by omega) h

theorem signal_dtor_mono {n m : Nat} {s r : State} {g : Nat} (hle : n ≤ m)
    (h : signal_dtor n s g = some r) : signal_dtor m s g = some r := by
  unfold signal_dtor at *
  simp only [Option.bind_eq_some, Option.map_eq_some'] at h ⊢
  obtain ⟨a, ha, b, hb, e⟩ := h
  exact ⟨a, dtor_connections_mono n m _ _ _ hle ha, b, dtor_tokens_mono n m _ _ _ hle hb, e⟩

theorem act_mono {n m : Nat} {s r : State} {a : Action} (hle : n ≤ m)
    (h : act n s a = some r) : act m s a = some r := by
  cases a with
  | connect g f => exact h
  | disconnect c =>
    simp only [act] at h ⊢
    by_cases hc : IsConn s c
    · simp only [hc, if_true] at h ⊢
      exact disconnect_mono hle h
    · simp [hc] at h
  | move_construct o =>
    simp only [act] at h ⊢
    by_cases hc : IsConn s o
    · simp only [hc, if_true] at h ⊢
      exact connection_move_ctor_mono hle h
    · simp [hc] at h
  | move_assign c o =>
    simp only [act] at h ⊢
    by_cases hc : IsConn s c ∧ IsConn s o
    · simp only [hc, and_self, if_true] at h ⊢
      exact connection_move_assign_mono hle h
    · simp only [hc, if_false] at h
      cases h
  | destroy_connection c =>
    simp only [act] at h ⊢
    by_cases hc : IsConn s c
    · simp only [hc, if_true, Option.map_eq_some'] at h ⊢
      obtain ⟨a, ha, e⟩ := h
      exact ⟨a, connection_dtor_mono hle ha, e⟩
    · simp [hc] at h
  | emit g => simp [act] at h
  | destroy_signal g =>
    simp only [act] at h ⊢
    by_cases hc : g ∈ s.sigs
    · simp only [hc, if_true] at h ⊢
      exact signal_dtor_mono hle h
    · simp [hc] at h

theorem exec_mono (beh : Nat → State → List Action) :
    ∀ (n m : Nat) (c : Cmd) (s r : State), n ≤ m →
      exec beh n c s = some r → exec beh m c s = some r
  | 0, _, _, _, _, _, h => by simp [exec] at h
  | n + 1, 0, _, _, _, hle, _ => by omega
  | n + 1, m + 1, .script [], s, r, _, h => by
    simp only [exec] at h ⊢
    exact h
  | n + 1, m + 1, .script (a :: as), s, r, hle, h => by
    have hle' : n ≤ m := by omega
    simp only [exec, Option.bind_eq_some] at h ⊢
    obtain ⟨s1, h1, h2⟩ := h
    refine ⟨s1, ?_, exec_mono beh n m _ _ _ hle' h2⟩
    cases a with
    | connect g f => exact act_mono hle' h1
    | disconnect c => exact act_mono hle' h1
    | move_construct o => exact act_mono hle' h1
    | move_assign c o => exact act_mono hle' h1
    | destroy_connection c => exact act_mono hle' h1
    | emit g =>
      by_cases hg : g ∈ s.sigs
      · simp only [hg, if_true] at h1 ⊢
        exact exec_mono beh n m _ _ _ hle' h1
      · simp [hg] at h1
    | destroy_signal g => exact act_mono hle' h1
  | n + 1, m + 1, .emit g, s, r, hle, h => by
    simp only [exec, Option.map_eq_some'] at h ⊢
    obtain ⟨s1, h1, e⟩ := h
    exact ⟨s1, exec_mono beh n m _ _ _ (by omega) h1, e⟩
  | n + 1, m + 1, .loop t g, s, r, hle, h => by
    have hle' : n ≤ m := by omega
    simp only [exec] at h ⊢
    cases ht : s.tsig t with
    | none => simpa [ht] using h
    | some g' =>
      simp only [ht] at h ⊢
      by_cases e : s.tit t = g
      · simpa [e] using h
      · simp only [e, if_false, Option.bind_eq_some] at h ⊢
        obtain ⟨s1, h1, h2⟩ := h
        refine ⟨s1, ?_, exec_mono beh n m _ _ _ hle' h2⟩
        cases hs : (touch s (s.tit t)).slot ((touch s (s.tit t)).tit t) with
        | none => simpa [hs] using h1
        | some f =>
          simp only [hs] at h1 ⊢
          exact exec_mono beh n m _ _ _ hle' h1

/-! ## Big-step rules -/

theorem Runs.mono {beh : Nat → State → List Action} {c : Cmd} {s r : State}
    (h : Runs beh c s r) : ∃ n, ∀ m, n ≤ m → exec beh m c s = some r := by
  obtain ⟨n, hn⟩ := h
  exact ⟨n, fun m hm => exec_mono beh n m c s r hm hn⟩

theorem Runs.script_nil {beh : Nat → State → List Action} {s : State} :
    Runs beh (.script []) s s := ⟨1, rfl⟩

/-- A callable body proceeds by one action other than an emission. -/
theorem Runs.script_act {beh : Nat → State → List Action} {s s1 r : State} {a : Action}
    {k : Nat} {as : List Action} (h1 : act k s a = some s1)
    (h : Runs beh (.script as) s1 r) : Runs beh (.script (a :: as)) s r := by
  obtain ⟨n, hn⟩ := h
  refine ⟨max n k + 1, ?_⟩
  have h1' := act_mono (le_max_right n k) h1
  have hn' := exec_mono beh n _ _ _ _ (le_max_left n k) hn
  cases a with
  | emit g => simp [act] at h1
  | connect g f => simp only [exec, h1', Option.some_bind, hn']
  | disconnect c => simp only [exec, h1', Option.some_bind, hn']
  | move_construct o => simp only [exec, h1', Option.some_bind, hn']
  | move_assign c o => simp only [exec, h1', Option.some_bind, hn']
  | destroy_connection c => simp only [exec, h1', Option.some_bind, hn']
  | destroy_signal g => simp only [exec, h1', Option.some_bind, hn']

theorem Runs.script_connect {beh : Nat → State → List Action} {s r : State} {g f : Nat}
    {as : List Action} (hg : g ∈ s.sigs) (h : Runs beh (.script as) (connect s g f) r) :
    Runs beh (.script (.connect g f :: as)) s r :=
  Runs.script_act (show act 0 s (.connect g f) = some _ by simp [act, hg]) h

theorem Runs.script_disconnect {beh : Nat → State → List Action} {s s1 r : State}
    {c k : Nat} {as : List Action} (hc : IsConn s c) (h1 : disconnect k s c = some s1)
    (h : Runs beh (.script as) s1 r) : Runs beh (.script (.disconnect c :: as)) s r :=
  Runs.script_act (show act k s (.disconnect c) = some _ by simp [act, hc, h1]) h

theorem Runs.script_emit {beh : Nat → State → List Action} {s s1 r : State} {g : Nat}
    {as : List Action} (hg : g ∈ s.sigs) (h1 : Runs beh (.emit g) s s1)
    (h : Runs beh (.script as) s1 r) : Runs beh (.script (.emit g :: as)) s r := by
  obtain ⟨n, hn⟩ := h
  obtain ⟨k, hk⟩ := h1
  refine ⟨max n k + 1, ?_⟩
  simp only [exec, hg, if_true, exec_mono beh k _ _ _ _ (le_max_right n k) hk,
    Option.some_bind]
  exact exec_mono beh n _ _ _ _ (le_max_left n k) hn

theorem Runs.script_destroy_signal {beh : Nat → State → List Action} {s s1 r : State}
    {g k : Nat} {as : List Action} (hg : g ∈ s.sigs) (h1 : signal_dtor k s g = some s1)
    (h : Runs beh (.script as) s1 r) : Runs beh (.script (.destroy_signal g :: as)) s r :=
  Runs.script_act (show act k s (.destroy_signal g) = some _ by simp [act, hg, h1]) h

theorem Runs.emit {beh : Nat → State → List Action} {s s1 : State} {g : Nat}
    (h : Runs beh (.loop s.depth g) (token_ctor s g) s1) :
    Runs beh (.emit g) s (token_dtor s1 s.depth) := by
  obtain ⟨n, hn⟩ := h
  exact ⟨n + 1, by simp [exec, hn]⟩

theorem Runs.loop_null {beh : Nat → State → List Action} {s : State} {t g : Nat}
    (h : s.tsig t = none) : Runs beh (.loop t g) s s :=
  ⟨1, by simp [exec, h]⟩

theorem Runs.loop_end {beh : Nat → State → List Action} {s : State} {t g : Nat}
    (h : s.tit t = g) : Runs beh (.loop t g) s s := by
  refine ⟨1, ?_⟩
  simp only [exec]
  cases s.tsig t <;> simp [h]

theorem Runs.loop_skip {beh : Nat → State → List Action} {s r : State} {t g g' : Nat}
    (hs : s.tsig t = some g') (hx : s.tit t ≠ g) (hf : s.slot (s.tit t) = none)
    (h : Runs beh (.loop t g) (advance (touch s (s.tit t)) t) r) :
    Runs beh (.loop t g) s r := by
  obtain ⟨n, hn⟩ := h
  refine ⟨n + 1, ?_⟩
  have e1 : (touch s (s.tit t)).slot = s.slot := by unfold touch; split <;> rfl
  have e2 : (touch s (s.tit t)).tit = s.tit := by unfold touch; split <;> rfl
  simp only [exec, hs, hx, if_false, e1, e2, hf, Option.some_bind, hn]

theorem Runs.loop_call {beh : Nat → State → List Action} {s s1 r : State}
    {t g g' f : Nat}
    (hs : s.tsig t = some g') (hx : s.tit t ≠ g) (hf : s.slot (s.tit t) = some f)
    (h1 : Runs beh (.script (beh f (touch s (s.tit t)))) (record (touch s (s.tit t)) t f) s1)
    (h : Runs beh (.loop t g) (advance s1 t) r) :
    Runs beh (.loop t g) s r := by
  obtain ⟨n, hn⟩ := h
  obtain ⟨k, hk⟩ := h1
  refine ⟨max n k + 1, ?_⟩
  have e1 : (touch s (s.tit t)).slot = s.slot := by unfold touch; split <;> rfl
  have e2 : (touch s (s.tit t)).tit = s.tit := by unfold touch; split <;> rfl
  simp only [exec, hs, hx, if_false, e1, e2, hf,
    exec_mono beh k _ _ _ _ (le_max_right n k) hk, Option.some_bind]
  exact exec_mono beh n _ _ _ _ (le_max_left n k) hn

theorem touch_of_not_mem {s : State} {a : Nat} (h : a ∉ s.freed) : touch s a = s := by
  simp [touch, h]

theorem advance_of_not_mem {s : State} {t : Nat} (h : s.tit t ∉ s.freed) :
    advance s t = { s with tit := upd s.tit t (s.next (s.tit t)) } := by
  unfold advance
  rw [touch_of_not_mem h]

theorem upd_upd_same {α : Type} (m : Nat → α) (a : Nat) (v w : α) :
    upd (upd m a v) a w = upd m a w := by
  funext b
  unfold upd
  split <;> rfl

/-- The emission loop walks a stretch `m` of connections whose callables do nothing: each
of them is called, the token ends just behind the stretch, and nothing else changes. -/
theorem loop_segment {beh : Nat → State → List Action} {g t : Nat} (r : List Nat) :
    ∀ (m l : List Nat) (s res : State) (g' : Nat), Ring s g (l ++ m ++ r) →
      s.tsig t = some g' → s.tit t = (m ++ r).headD g →
      (∀ a ∈ m, a ∉ s.freed) →
      (∀ x ∈ m, ∀ f, s.slot x = some f →
        ∀ s' : State, (∃ ext, s'.log = s.log ++ ext) → beh f s' = []) →
      Runs beh (.loop t g)
        { s with tit := upd s.tit t (r.headD g), log := s.log ++ entries s t m } res →
      Runs beh (.loop t g) s res
  | [], l, s, res, g', _, _, hit, _, _, h => by
    simp only [List.nil_append] at hit
    have e : ({ s with tit := upd s.tit t (r.headD g), log := s.log ++ entries s t [] } : State)
        = s := by
      have : upd s.tit t (r.headD g) = s.tit := by
        funext b
        unfold upd
        split
        · next hb => rw [hb, hit]
        · rfl
      rw [this]
      simp [entries]
    rw [e] at h
    exact h
  | x :: m, l, s, res, g', hring, hsig, hit, hlive, hin, h => by
    simp only [List.cons_append, List.headD_cons] at hit
    have hring' : Ring s g (l ++ x :: (m ++ r)) := by simpa using hring
    have hxg : x ≠ g := by
      intro e
      have := hring'.nodup
      simp [e] at this
    have hnx : s.next x = (m ++ r).headD g := hring'.next_mem
    have hxl : x ∉ s.freed := hlive x (List.mem_cons_self _ _)
    have htx : s.tit t ≠ g := by rw [hit]; exact hxg
    have hring2 : Ring s g ((l ++ [x]) ++ m ++ r) := by simpa using hring
    cases hf : s.slot x with
    | none =>
      refine Runs.loop_skip hsig htx (by rw [hit]; exact hf) ?_
      rw [hit, touch_of_not_mem hxl]
      have hadv : advance s t = { s with tit := upd s.tit t ((m ++ r).headD g) } := by
        rw [advance_of_not_mem (by rw [hit]; exact hxl), hit, hnx]
      rw [hadv]
      refine loop_segment r m (l ++ [x]) _ res g' (hring2.of_eq rfl rfl) hsig (upd_same _ _ _)
        (fun a ha => hlive a (List.mem_cons_of_mem _ ha))
        (fun y hy f hyf s' hs' => hin y (List.mem_cons_of_mem _ hy) f hyf s' hs') ?_
      simp only [upd_upd_same]
      simpa [entries, hf] using h
    | some f =>
      have hbeh : beh f s = [] := hin x (List.mem_cons_self _ _) f hf s ⟨[], by simp⟩
      have h1 : Runs beh (.script (beh f (touch s (s.tit t))))
          (record (touch s (s.tit t)) t f) (record s t f) := by
        rw [hit, touch_of_not_mem hxl, hbeh]
        exact Runs.script_nil
      refine Runs.loop_call hsig htx (by rw [hit]; exact hf) h1 ?_
      · have hadv : advance (record s t f) t =
            { s with tit := upd s.tit t ((m ++ r).headD g),
                     log := s.log ++ [⟨t, s.ident x, f⟩] } := by
          have hl : (record s t f).tit t ∉ (record s t f).freed := by
            show s.tit t ∉ s.freed
            rw [hit]
            exact hxl
          rw [advance_of_not_mem hl]
          simp only [record, hit, hnx]
        rw [hadv]
        refine loop_segment r m (l ++ [x]) _ res g' (hring2.of_eq rfl rfl) hsig (upd_same _ _ _)
          (fun a ha => hlive a (List.mem_cons_of_mem _ ha))
          (fun y hy f' hyf s' hs' => hin y (List.mem_cons_of_mem _ hy) f' hyf s' ?_) ?_
        · obtain ⟨ext, he⟩ := hs'
          exact ⟨⟨t, s.ident x, f⟩ :: ext, by simp [he]⟩
        · simp only [upd_upd_same]
          simpa [entries, hf] using h

/-! ## Emission over callables that do nothing -/

theorem upd_self {α : Type} (m : Nat → α) (a : Nat) : upd m a (m a) = m := by
  funext b
  unfold upd
  split
  · next h => rw [h]
  · rfl

/-- An emission over connections whose callables do nothing calls each of them once, front
to back, and returns. -/
theorem emit_inert {beh : Nat → State → List Action} {s : State} {g : Nat} {xs : List Nat}
    (hring : Ring s g xs) (hlive : ∀ a ∈ xs, a ∉ s.freed)
    (hin : ∀ x ∈ xs, ∀ f, s.slot x = some f →
      ∀ s' : State, (∃ ext, s'.log = s.log ++ ext) → beh f s' = []) :
    Runs beh (.emit g) s (emitted s g (entries s s.depth xs)) := by
  have hloop : Runs beh (.loop s.depth g) (token_ctor s g)
      { token_ctor s g with
        tit := upd (token_ctor s g).tit s.depth (([] : List Nat).headD g),
        log := (token_ctor s g).log ++ entries (token_ctor s g) s.depth xs } := by
    refine loop_segment [] xs [] (token_ctor s g) _ g ?_ ?_ ?_ hlive hin ?_
    · simpa using hring.of_eq rfl rfl
    · simp [token_ctor]
    · simp only [token_ctor, upd_same, List.append_nil]
      exact hring.next_sentinel
    · exact Runs.loop_end (upd_same _ _ _)
  have h := Runs.emit hloop
  have e : token_dtor { token_ctor s g with
        tit := upd (token_ctor s g).tit s.depth (([] : List Nat).headD g),
        log := (token_ctor s g).log ++ entries (token_ctor s g) s.depth xs } s.depth
      = emitted s g (entries s s.depth xs) := by
    simp only [token_dtor, token_ctor, emitted, upd_same, upd_upd_same, upd_self,
      List.headD_nil, Nat.add_sub_cancel, entries]
  rw [e] at h
  exact h

theorem Ring.frame {s s' : State} {g : Nat} {xs : List Nat} (h : Ring s g xs)
    (hn : ∀ a ∈ g :: xs, s'.next a = s.next a) (hp : ∀ a ∈ g :: xs, s'.prev a = s.prev a) :
    Ring s' g xs := by
  obtain ⟨h0, h1, h2⟩ := h
  refine ⟨h0, path_congr h1 hn, path_congr h2 ?_⟩
  intro u hu
  apply hp
  simp only [List.mem_cons, List.mem_reverse] at hu ⊢
  exact hu

@[simp] theorem connect_csig (s : State) (g f : Nat) :
    (connect s g f).csig = upd s.csig s.alloc (some g) := rfl

@[simp] theorem connect_slot (s : State) (g f : Nat) :
    (connect s g f).slot = upd s.slot s.alloc (some f) := rfl

@[simp] theorem connect_ident (s : State) (g f : Nat) :
    (connect s g f).ident = upd s.ident s.alloc s.alloc := rfl

@[simp] theorem connect_alloc (s : State) (g f : Nat) :
    (connect s g f).alloc = s.alloc + 1 := rfl

@[simp] theorem connect_top_token (s : State) (g f : Nat) :
    (connect s g f).top_token = s.top_token := rfl

@[simp] theorem connect_tsig (s : State) (g f : Nat) : (connect s g f).tsig = s.tsig := rfl

@[simp] theorem connect_tit (s : State) (g f : Nat) : (connect s g f).tit = s.tit := rfl

@[simp] theorem connect_tnext (s : State) (g f : Nat) : (connect s g f).tnext = s.tnext := rfl

@[simp] theorem connect_depth (s : State) (g f : Nat) : (connect s g f).depth = s.depth := rfl

@[simp] theorem connect_log (s : State) (g f : Nat) : (connect s g f).log = s.log := rfl

@[simp] theorem connect_freed (s : State) (g f : Nat) : (connect s g f).freed = s.freed := rfl

@[simp] theorem connect_stale (s : State) (g f : Nat) : (connect s g f).stale = s.stale := rfl

/-- A new subscription is linked at the front of the container. -/
theorem Ring.connect {s : State} {g : Nat} {xs : List Nat} (f : Nat) (h : Ring s g xs)
    (hlt : ∀ a ∈ g :: xs, a < s.alloc) : Ring (connect s g f) g (s.alloc :: xs) := by
  have hc : s.alloc ∉ g :: ([] ++ xs) := by
    intro hm
    exact Nat.lt_irrefl _ (hlt _ hm)
  have hg : g ≠ s.alloc := fun e => hc (by simp [e])
  let s2 : State := { list_element_ctor { s with alloc := s.alloc + 1 } s.alloc with
    csig := upd s.csig s.alloc (some g), slot := upd s.slot s.alloc (some f),
    ident := upd s.ident s.alloc s.alloc }
  have h2 : Ring s2 g ([] ++ xs) := by
    refine h.frame ?_ ?_
    · intro a ha
      exact upd_other _ _ (fun e => hc (by simpa [e] using ha))
    · intro a ha
      exact upd_other _ _ (fun e => hc (by simpa [e] using ha))
  have h3 := Ring.link h2 hc
  have e : Signals.connect s g f = Signals.link s2 s.alloc g (s2.next g) := rfl
  rw [e, h2.next_sentinel]
  exact h3

/-! ## Subscribing to a new signal -/

theorem ring_signal_ctor (s : State) : Ring (signal_ctor s) s.alloc [] := by
  refine ⟨by simp, ?_, ?_⟩
  · exact path_nil.2 (upd_same _ _ _)
  · exact path_nil.2 (upd_same _ _ _)

theorem entries_cons_some {s : State} {t x f : Nat} {xs : List Nat} (h : s.slot x = some f) :
    entries s t (x :: xs) = ⟨t, s.ident x, f⟩ :: entries s t xs := by
  simp [entries, h]

theorem entries_congr {s s' : State} {t : Nat} {xs : List Nat}
    (hs : ∀ x ∈ xs, s'.slot x = s.slot x) (hi : ∀ x ∈ xs, s'.ident x = s.ident x) :
    entries s' t xs = entries s t xs := by
  induction xs with
  | nil => rfl
  | cons x xs ih =>
    have e1 := hs x (List.mem_cons_self _ _)
    have e2 := hi x (List.mem_cons_self _ _)
    have ih' := ih (fun y hy => hs y (List.mem_cons_of_mem _ hy))
      (fun y hy => hi y (List.mem_cons_of_mem _ hy))
    unfold entries at ih' ⊢
    simp only [List.filterMap_cons, e1, e2, ih']

theorem subscribe_all_concat (s : State) (g : Nat) (fs : List Nat) (f : Nat) :
    subscribe_all s g (fs ++ [f]) = connect (subscribe_all s g fs) g f := by
  simp [subscribe_all]

/-- The state reached by subscribing `fs` to a new signal: the subscriptions occupy the
addresses after the signal, the container lists them most recent first. -/
theorem subscribe_all_spec (s0 : State) (fs : List Nat) :
    (subscribe_all (signal_ctor s0) s0.alloc fs).alloc = s0.alloc + 1 + fs.length ∧
    Ring (subscribe_all (signal_ctor s0) s0.alloc fs) s0.alloc
      (List.range' (s0.alloc + 1) fs.length).reverse ∧
    (subscribe_all (signal_ctor s0) s0.alloc fs).freed = s0.freed ∧
    (subscribe_all (signal_ctor s0) s0.alloc fs).log = s0.log ∧
    (subscribe_all (signal_ctor s0) s0.alloc fs).depth = s0.depth ∧
    (∀ x ∈ List.range' (s0.alloc + 1) fs.length, ∀ f,
      (subscribe_all (signal_ctor s0) s0.alloc fs).slot x = some f → f ∈ fs) ∧
    (∀ x ∈ List.range' (s0.alloc + 1) fs.length,
      (subscribe_all (signal_ctor s0) s0.alloc fs).csig x = some s0.alloc) ∧
    ∀ t, entries (subscribe_all (signal_ctor s0) s0.alloc fs) t
        (List.range' (s0.alloc + 1) fs.length).reverse =
      ((List.range' (s0.alloc + 1) fs.length).zip fs).reverse.map
        fun p => ⟨t, p.1, p.2⟩ := by
  induction fs using List.reverseRecOn with
  | nil =>
    refine ⟨rfl, ring_signal_ctor s0, rfl, rfl, rfl, ?_, ?_, ?_⟩
    · intro x hx; simp at hx
    · intro x hx; simp at hx
    · intro t; rfl
  | append_singleton fs f ih =>
    obtain ⟨ha, hr, hf, hl, hd, hs, hc, he⟩ := ih
    rw [subscribe_all_concat]
    have hlen : (fs ++ [f]).length = fs.length + 1 := by simp
    have hrange : List.range' (s0.alloc + 1) (fs ++ [f]).length =
        List.range' (s0.alloc + 1) fs.length ++ [s0.alloc + 1 + fs.length] := by
      rw [hlen, List.range'_concat]; simp
    rw [hrange]
    have hlt : ∀ a ∈ s0.alloc :: (List.range' (s0.alloc + 1) fs.length).reverse,
        a < (subscribe_all (signal_ctor s0) s0.alloc fs).alloc := by
      intro a hm
      rw [ha]
      simp only [List.mem_cons, List.mem_reverse, List.mem_range'_1] at hm
      omega
    have hnew : ∀ x ∈ List.range' (s0.alloc + 1) fs.length,
        x ≠ (subscribe_all (signal_ctor s0) s0.alloc fs).alloc := by
      intro x hx
      rw [ha]
      simp only [List.mem_range'_1] at hx
      omega
    refine ⟨?_, ?_, ?_, ?_, ?_, ?_, ?_, ?_⟩
    · simp [ha]; omega
    · rw [List.reverse_append, List.reverse_singleton, List.singleton_append, ← ha]
      exact hr.connect f hlt
    · simpa using hf
    · simpa using hl
    · simpa using hd
    · intro x hx f'
      simp only [List.mem_append, List.mem_singleton] at hx ⊢
      rcases hx with hx | hx
      · rw [connect_slot, upd_other _ _ (hnew x hx)]
        intro h
        exact Or.inl (hs x hx f' h)
      · rw [connect_slot, hx, ← ha, upd_same]
        intro h
        exact Or.inr (Option.some.inj h).symm
    · intro x hx
      simp only [List.mem_append, List.mem_singleton] at hx
      rcases hx with hx | hx
      · rw [connect_csig, upd_other _ _ (hnew x hx)]
        exact hc x hx
      · rw [connect_csig, hx, ← ha, upd_same]
    · intro t
      rw [List.reverse_append, List.reverse_singleton, List.singleton_append,
        List.zip_append (by simp), List.reverse_append]
      have hsl : (connect (subscribe_all (signal_ctor s0) s0.alloc fs) s0.alloc f).slot
          (s0.alloc + 1 + fs.length) = some f := by
        rw [connect_slot, ← ha, upd_same]
      rw [entries_cons_some hsl, connect_ident, ← ha, upd_same]
      have hcg : entries (connect (subscribe_all (signal_ctor s0) s0.alloc fs) s0.alloc f) t
          (List.range' (s0.alloc + 1) fs.length).reverse =
          entries (subscribe_all (signal_ctor s0) s0.alloc fs) t
            (List.range' (s0.alloc + 1) fs.length).reverse := by
        apply entries_congr
        · intro x hx
          rw [connect_slot, upd_other _ _ (hnew x (List.mem_reverse.1 hx))]
        · intro x hx
          rw [connect_ident, upd_other _ _ (hnew x (List.mem_reverse.1 hx))]
      rw [hcg, he t]
      simp

/-! ## The token stack and `disconnect()` -/

theorem Stack.of_tnext_eq {s s' : State} (h : s'.tnext = s.tnext) :
    ∀ {o : Option Nat} {ts : List Nat}, Stack s o ts → Stack s' o ts
  | _, [], hs => hs
  | _, t :: ts, hs => ⟨hs.1, by rw [h]; exact Stack.of_tnext_eq h hs.2⟩

theorem Stack.keep {s s' : State} {o : Option Nat} {ts : List Nat} (hs : Stack s o ts)
    (h : s'.tnext = s.tnext) : Stack s' o ts :=
  Stack.of_tnext_eq h hs

theorem Stack.unique {s : State} :
    ∀ {o : Option Nat} {ts ts' : List Nat}, Stack s o ts → Stack s o ts' → ts = ts'
  | _, [], [], _, _ => rfl
  | _, [], t :: _, h, h' => by
    have h1 : _ = none := h
    have h2 := h'.1
    rw [h1] at h2
    cases h2
  | _, t :: _, [], h, h' => by
    have h1 : _ = none := h'
    have h2 := h.1
    rw [h1] at h2
    cases h2
  | _, t :: ts, t' :: ts', h, h' => by
    have e : t = t' := Option.some.inj (h.1.symm.trans h'.1)
    subst e
    rw [Stack.unique h.2 h'.2]

theorem Stack.suffix {s : State} :
    ∀ {o : Option Nat} (a : List Nat) {t : Nat} {b : List Nat},
      Stack s o (a ++ t :: b) → Stack s (s.tnext t) b
  | _, [], _, _, h => h.2
  | _, _ :: a, _, _, h => Stack.suffix a h.2

theorem Stack.distinct {s : State} : ∀ {o : Option Nat} {ts : List Nat}, Stack s o ts → ts.Nodup
  | _, [], _ => List.nodup_nil
  | _, t :: ts, h => by
    refine List.nodup_cons.2 ⟨?_, Stack.distinct h.2⟩
    intro hm
    obtain ⟨a, b, e⟩ := List.append_of_mem hm
    have h2 := h.2
    rw [e] at h2
    have hb := Stack.suffix a h2
    have := Stack.unique h2 hb
    have hl := congrArg List.length this
    simp at hl
    omega

theorem rewound_nil (s : State) (this : Nat) : rewound s this [] = s := by
  simp [rewound]

theorem rewind_eq (this : Nat) :
    ∀ (ts : List Nat) (n : Nat) (o : Option Nat) (s : State), Stack s o ts →
      (∀ t ∈ ts, s.tsig t ≠ none) → ts.length ≤ n →
      rewind this n o s = some (rewound s this ts)
  | [], n, o, s, h, _, _ => by
    have e : o = none := h
    subst e
    rw [rewound_nil]
    cases n <;> rfl
  | t :: ts, 0, _, _, _, _, hlen => by simp at hlen
  | t :: ts, n + 1, o, s, h, hsig, hlen => by
    have e : o = some t := h.1
    subst e
    have hnd : t ∉ ts := (List.nodup_cons.1 (Stack.distinct h)).1
    obtain ⟨g, hg⟩ := Option.ne_none_iff_exists'.1 (hsig t (List.mem_cons_self _ _))
    simp only [rewind, hg]
    by_cases hit : s.tit t = this
    · simp only [hit, if_true]
      have ih := rewind_eq this ts n (s.tnext t)
        { s with tit := upd s.tit t (s.prev this) }
        (@Stack.of_tnext_eq s { s with tit := upd s.tit t (s.prev this) } rfl _ _ h.2)
        (fun u hu => hsig u (List.mem_cons_of_mem _ hu)) (by simpa using hlen)
      rw [ih]
      congr 1
      simp only [rewound]
      congr 1
      funext u
      by_cases hu : u = t
      · subst hu
        simp [hnd, hit]
      · simp [hu, upd_other _ _ hu]
    · simp only [hit, if_false]
      have ih := rewind_eq this ts n (s.tnext t) s h.2
        (fun u hu => hsig u (List.mem_cons_of_mem _ hu)) (by simpa using hlen)
      rw [ih]
      congr 1
      simp only [rewound]
      congr 1
      funext u
      by_cases hu : u = t
      · subst hu
        simp [hnd, hit]
      · simp [hu]

/-- The member `disconnect()` on a connected node returns, with the tokens at the node
stepped back, the node unlinked and its `sig` cleared. -/
theorem disconnect_eq {s : State} {c g n : Nat} {ts : List Nat} (hc : s.csig c = some g)
    (hst : Stack s (s.top_token g) ts) (hsig : ∀ t ∈ ts, s.tsig t ≠ none)
    (hlen : ts.length ≤ n) : disconnect n s c = some (disconnected s c ts) := by
  simp only [disconnect, hc, rewind_eq c ts n _ s hst hsig hlen, Option.map_some', disconnected]

theorem disconnect_null {s : State} {c n : Nat} (hc : s.csig c = none) :
    disconnect n s c = some s := by
  simp only [disconnect, hc]

theorem Ring.disconnected {s : State} {g c : Nat} {l r : List Nat} (ts : List Nat)
    (h : Ring s g (l ++ c :: r)) : Ring (disconnected s c ts) g (l ++ r) := by
  have h1 : Ring (rewound s c ts) g (l ++ c :: r) := h.of_eq rfl rfl
  exact h1.unlink.of_eq rfl rfl

/-! ## Emission on a live signal -/

theorem Stack.tnext_frame {s s' : State} :
    ∀ {o : Option Nat} {ts : List Nat}, Stack s o ts →
      (∀ u ∈ ts, s'.tnext u = s.tnext u) → Stack s' o ts
  | _, [], hs, _ => hs
  | _, t :: ts, hs, h => by
    refine ⟨hs.1, ?_⟩
    rw [h t (List.mem_cons_self _ _)]
    exact Stack.tnext_frame hs.2 (fun u hu => h u (List.mem_cons_of_mem _ hu))

/-- Entering an emission pushes its token on the stack of the signal. -/
theorem Stack.token_ctor {s : State} {g : Nat} {ts : List Nat}
    (h : Stack s (s.top_token g) ts) (hlt : ∀ u ∈ ts, u < s.depth) :
    Stack (token_ctor s g) ((token_ctor s g).top_token g) (s.depth :: ts) := by
  refine ⟨upd_same _ _ _, ?_⟩
  have e : (Signals.token_ctor s g).tnext s.depth = s.top_token g := upd_same _ _ _
  rw [e]
  refine Stack.tnext_frame h (fun u hu => ?_)
  exact upd_other _ _ (Nat.ne_of_lt (hlt u hu))

theorem Ring.next_getLastD {s : State} {g : Nat} {l r : List Nat} (h : Ring s g (l ++ r)) :
    s.next (l.getLastD g) = r.headD g := by
  cases r with
  | nil =>
    rw [List.append_nil] at h
    exact path_last l g h.2.1
  | cons y r => exact h.next_pred

theorem Ring.ne_sentinel {s : State} {g x : Nat} {xs : List Nat} (h : Ring s g xs)
    (hx : x ∈ xs) : x ≠ g := by
  intro e
  exact (List.nodup_cons.1 h.nodup).1 (e ▸ hx)

theorem entries_append (s : State) (t : Nat) (l r : List Nat) :
    entries s t (l ++ r) = entries s t l ++ entries s t r := by
  simp [entries]

theorem Attached.is_conn {s : State} {g x : Nat} {xs ts : List Nat} (h : Attached s g xs ts)
    (hx : x ∈ xs) : IsConn s x :=
  ⟨h.below x (List.mem_cons_of_mem _ hx), h.conn x hx, h.live x (List.mem_cons_of_mem _ hx)⟩

theorem getLastD_concat (l : List Nat) (x a : Nat) : (l ++ [x]).getLastD a = x := by
  induction l generalizing a with
  | nil => rfl
  | cons y l ih =>
    simp only [List.cons_append, List.getLastD_cons]
    exact ih y

@[simp] theorem token_dtor_next (s : State) (t : Nat) : (token_dtor s t).next = s.next := by
  unfold token_dtor; cases s.tsig t <;> rfl

@[simp] theorem token_dtor_prev (s : State) (t : Nat) : (token_dtor s t).prev = s.prev := by
  unfold token_dtor; cases s.tsig t <;> rfl

@[simp] theorem token_dtor_csig (s : State) (t : Nat) : (token_dtor s t).csig = s.csig := by
  unfold token_dtor; cases s.tsig t <;> rfl

@[simp] theorem token_dtor_slot (s : State) (t : Nat) : (token_dtor s t).slot = s.slot := by
  unfold token_dtor; cases s.tsig t <;> rfl

@[simp] theorem token_dtor_log (s : State) (t : Nat) : (token_dtor s t).log = s.log := by
  unfold token_dtor; cases s.tsig t <;> rfl

@[simp] theorem token_dtor_tsig (s : State) (t : Nat) : (token_dtor s t).tsig = s.tsig := by
  unfold token_dtor; cases s.tsig t <;> rfl

@[simp] theorem token_dtor_tit (s : State) (t : Nat) : (token_dtor s t).tit = s.tit := by
  unfold token_dtor; cases s.tsig t <;> rfl

@[simp] theorem token_dtor_tnext (s : State) (t : Nat) : (token_dtor s t).tnext = s.tnext := by
  unfold token_dtor; cases s.tsig t <;> rfl

@[simp] theorem token_dtor_freed (s : State) (t : Nat) : (token_dtor s t).freed = s.freed := by
  unfold token_dtor; cases s.tsig t <;> rfl

@[simp] theorem token_dtor_stale (s : State) (t : Nat) : (token_dtor s t).stale = s.stale := by
  unfold token_dtor; cases s.tsig t <;> rfl

@[simp] theorem token_dtor_ident (s : State) (t : Nat) : (token_dtor s t).ident = s.ident := by
  unfold token_dtor; cases s.tsig t <;> rfl

@[simp] theorem token_dtor_alloc (s : State) (t : Nat) : (token_dtor s t).alloc = s.alloc := by
  unfold token_dtor; cases s.tsig t <;> rfl

@[simp] theorem token_dtor_depth (s : State) (t : Nat) :
    (token_dtor s t).depth = s.depth - 1 := by
  unfold token_dtor; cases s.tsig t <;> rfl

/-- The rest of an emission loop over connections whose callables do nothing. -/
theorem loop_tail {beh : Nat → State → List Action} {g t : Nat} (m l : List Nat)
    (s : State) (g' : Nat) (hring : Ring s g (l ++ m)) (hsig : s.tsig t = some g')
    (hit : s.tit t = m.headD g) (hlive : ∀ a ∈ m, a ∉ s.freed)
    (hin : ∀ x ∈ m, ∀ f, s.slot x = some f →
      ∀ s' : State, (∃ ext, s'.log = s.log ++ ext) → beh f s' = []) :
    Runs beh (.loop t g) s { s with tit := upd s.tit t g, log := s.log ++ entries s t m } := by
  refine loop_segment [] m l s _ g' (by simpa using hring) hsig (by simpa using hit)
    hlive hin ?_
  exact Runs.loop_end (upd_same _ _ _)

/-- An emission whose leading callables do nothing reaches the call of the callable of `x`;
from there the body of that callable and the rest of the loop complete the emission. -/
theorem emit_via {beh : Nat → State → List Action} {s s1 s2 : State} {g x f : Nat}
    {l r ts : List Nat} (h : Attached s g (l ++ x :: r) ts) (hx : s.slot x = some f)
    (hin : ∀ y ∈ l, ∀ f', s.slot y = some f' →
      ∀ s' : State, (∃ ext, s'.log = s.log ++ ext) → beh f' s' = [])
    (hbody : Runs beh (.script (beh f (reached s g l x))) (record (reached s g l x) s.depth f)
      s1)
    (hrest : Runs beh (.loop s.depth g) (advance s1 s.depth) s2) :
    Runs beh (.emit g) s (token_dtor s2 s.depth) := by
  apply Runs.emit
  have hring : Ring (token_ctor s g) g ([] ++ l ++ x :: r) := by
    simpa using h.ring.of_eq rfl rfl
  have hxl : x ∉ s.freed := h.live x (by simp)
  refine loop_segment (x :: r) l [] (token_ctor s g) s2 g hring (upd_same _ _ _) ?_ ?_ hin ?_
  · show upd s.tit s.depth (s.next g) s.depth = (l ++ x :: r).headD g
    rw [upd_same]
    exact h.ring.next_sentinel
  · intro a ha
    exact h.live a (by simp [ha])
  · show Runs beh (.loop s.depth g) (reached s g l x) s2
    have hsig : (reached s g l x).tsig s.depth = some g := upd_same _ _ _
    have hit : (reached s g l x).tit s.depth = x := upd_same _ _ _
    have hxg : (reached s g l x).tit s.depth ≠ g := by
      rw [hit]
      exact h.ring.ne_sentinel (by simp)
    have hsl : (reached s g l x).slot ((reached s g l x).tit s.depth) = some f := by
      rw [hit]
      exact hx
    have hfr : (reached s g l x).tit s.depth ∉ (reached s g l x).freed := by
      rw [hit]
      exact hxl
    refine Runs.loop_call hsig hxg hsl ?_ hrest
    rw [touch_of_not_mem hfr]
    exact hbody

/-- An emission whose leading callables do nothing, whose callable at `x` leaves the token
at the end of a stretch `l2` of the container, and whose remaining callables `r2` do
nothing: it returns after calling `l`, `x` and `r2`. -/
theorem emit_pivot {beh : Nat → State → List Action} {s sc : State} {g x f : Nat}
    {l r ts l2 r2 : List Nat} (h : Attached s g (l ++ x :: r) ts) (hx : s.slot x = some f)
    (hin : ∀ y ∈ l, ∀ f', s.slot y = some f' →
      ∀ s' : State, (∃ ext, s'.log = s.log ++ ext) → beh f' s' = [])
    (hbody : Runs beh (.script (beh f (reached s g l x))) (record (reached s g l x) s.depth f)
      sc)
    (hring : Ring sc g (l2 ++ r2)) (htit : sc.tit s.depth = l2.getLastD g)
    (htsig : sc.tsig s.depth = some g) (hlive : ∀ a ∈ g :: (l2 ++ r2), a ∉ sc.freed)
    (hin2 : ∀ y ∈ r2, ∀ f', sc.slot y = some f' →
      ∀ s' : State, (∃ ext, s'.log = sc.log ++ ext) → beh f' s' = []) :
    Runs beh (.emit g) s (finish sc s.depth g (entries sc s.depth r2)) := by
  have hpl : l2.getLastD g ∉ sc.freed := by
    apply hlive
    rcases List.mem_cons.1 (getLastD_mem l2 g) with e | hm
    · rw [e]; simp
    · exact List.mem_cons_of_mem _ (List.mem_append_left _ hm)
  have hadv : advance sc s.depth = { sc with tit := upd sc.tit s.depth (r2.headD g) } := by
    rw [advance_of_not_mem (by rw [htit]; exact hpl), htit, hring.next_getLastD]
  have hrest : Runs beh (.loop s.depth g) (advance sc s.depth)
      { sc with tit := upd sc.tit s.depth g, log := sc.log ++ entries sc s.depth r2 } := by
    rw [hadv]
    have : Runs beh (.loop s.depth g) _ _ := loop_tail r2 l2 { sc with tit := upd sc.tit s.depth (r2.headD g) } g
      (hring.of_eq rfl rfl) htsig (upd_same _ _ _)
      (fun a ha => hlive a (by simp [ha])) hin2
    simp only [upd_upd_same] at this
    exact this
  exact emit_via h hx hin hbody hrest

@[simp] theorem finish_log (s : State) (t g : Nat) (es : List Invocation) :
    (finish s t g es).log = s.log ++ es := by
  simp [finish]

@[simp] theorem finish_next (s : State) (t g : Nat) (es : List Invocation) :
    (finish s t g es).next = s.next := by
  simp [finish]

@[simp] theorem finish_prev (s : State) (t g : Nat) (es : List Invocation) :
    (finish s t g es).prev = s.prev := by
  simp [finish]

@[simp] theorem finish_csig (s : State) (t g : Nat) (es : List Invocation) :
    (finish s t g es).csig = s.csig := by
  simp [finish]

@[simp] theorem finish_slot (s : State) (t g : Nat) (es : List Invocation) :
    (finish s t g es).slot = s.slot := by
  simp [finish]

theorem Ring.finish {s : State} {g : Nat} {xs : List Nat} (h : Ring s g xs) (t g' : Nat)
    (es : List Invocation) : Ring (finish s t g' es) g xs :=
  h.of_eq (finish_next _ _ _ _) (finish_prev _ _ _ _)

theorem Ring.walk_all {s : State} {g : Nat} {xs : List Nat} (h : Ring s g xs) :
    Signals.walk s g (xs.length + 1) (s.next g) = xs := by
  rw [h.next_sentinel]
  have h' : Ring s g ([] ++ xs) := h
  exact Ring.walk _ _ _ h' (Nat.lt_succ_self _)

@[simp] theorem token_dtor_sigs (s : State) (t : Nat) : (token_dtor s t).sigs = s.sigs := by
  unfold token_dtor; cases s.tsig t <;> rfl

@[simp] theorem finish_sigs (s : State) (t g : Nat) (es : List Invocation) :
    (finish s t g es).sigs = s.sigs := by
  simp [finish]

@[simp] theorem finish_freed (s : State) (t g : Nat) (es : List Invocation) :
    (finish s t g es).freed = s.freed := by
  simp [finish]

@[simp] theorem finish_stale (s : State) (t g : Nat) (es : List Invocation) :
    (finish s t g es).stale = s.stale := by
  simp [finish]

@[simp] theorem finish_alloc (s : State) (t g : Nat) (es : List Invocation) :
    (finish s t g es).alloc = s.alloc := by
  simp [finish]

@[simp] theorem finish_ident (s : State) (t g : Nat) (es : List Invocation) :
    (finish s t g es).ident = s.ident := by
  simp [finish]

@[simp] theorem finish_depth (s : State) (t g : Nat) (es : List Invocation) :
    (finish s t g es).depth = s.depth - 1 := by
  simp [finish]

@[simp] theorem finish_tsig (s : State) (t g : Nat) (es : List Invocation) :
    (finish s t g es).tsig = s.tsig := by
  simp [finish]

@[simp] theorem finish_tnext (s : State) (t g : Nat) (es : List Invocation) :
    (finish s t g es).tnext = s.tnext := by
  simp [finish]

@[simp] theorem finish_tit (s : State) (t g : Nat) (es : List Invocation) :
    (finish s t g es).tit = upd s.tit t g := by
  simp [finish]

theorem finish_top_token {s : State} {t g' : Nat} (g : Nat) (es : List Invocation)
    (h : s.tsig t = some g') :
    (finish s t g es).top_token = upd s.top_token g' (s.tnext t) := by
  simp [finish, token_dtor, h]

/-- When an emission on `g` has returned, the token stack of `g` is what it was before,
provided the callables left the older tokens and the stack links alone. -/
theorem Attached.stack_after {s sc : State} {g : Nat} {xs ts : List Nat}
    (h : Attached s g xs ts) (es : List Invocation)
    (hnext : sc.tnext = (token_ctor s g).tnext) (hsig : sc.tsig = (token_ctor s g).tsig)
    (hdepth : sc.depth = s.depth + 1) :
    Stack (finish sc s.depth g es) ((finish sc s.depth g es).top_token g) ts ∧
    (∀ t ∈ ts, (finish sc s.depth g es).tsig t = some g) ∧
    (∀ t ∈ ts, t < (finish sc s.depth g es).depth) ∧
    (finish sc s.depth g es).depth = s.depth := by
  have hts : sc.tsig s.depth = some g := by
    rw [hsig]; exact upd_same _ _ _
  refine ⟨?_, ?_, ?_, ?_⟩
  · rw [finish_top_token g es hts, upd_same, hnext]
    show Stack _ (upd s.tnext s.depth (s.top_token g) s.depth) ts
    rw [upd_same]
    refine Stack.tnext_frame h.stack (fun u hu => ?_)
    rw [finish_tnext, hnext]
    exact upd_other _ _ (Nat.ne_of_lt (h.tok_lt u hu))
  · intro u hu
    rw [finish_tsig, hsig]
    show upd s.tsig s.depth (some g) u = some g
    rw [upd_other _ _ (Nat.ne_of_lt (h.tok_lt u hu))]
    exact h.tok_sig u hu
  · intro u hu
    rw [finish_depth, hdepth]
    exact h.tok_lt u hu
  · rw [finish_depth, hdepth]
    rfl

/-- Inside an emission on `g` the token stack of `g` is the new token on top of the
older ones. -/
theorem Attached.stack_in_emission {s s' : State} {g : Nat} {xs ts : List Nat}
    (h : Attached s g xs ts) (htop : s'.top_token = (token_ctor s g).top_token)
    (hnext : s'.tnext = (token_ctor s g).tnext) (hsig : s'.tsig = (token_ctor s g).tsig) :
    Stack s' (s'.top_token g) (s.depth :: ts) ∧ ∀ u ∈ s.depth :: ts, s'.tsig u ≠ none := by
  constructor
  · rw [htop]
    exact Stack.of_tnext_eq hnext (Stack.token_ctor h.stack h.tok_lt)
  · intro u hu
    rw [hsig]
    rcases List.mem_cons.1 hu with e | hm
    · rw [e]
      show upd s.tsig s.depth (some g) s.depth ≠ none
      rw [upd_same]
      simp
    · show upd s.tsig s.depth (some g) u ≠ none
      rw [upd_other _ _ (Nat.ne_of_lt (h.tok_lt u hm)), h.tok_sig u hm]
      simp

theorem demo_attached : Attached demo 0 [3, 2, 1] [] where
  alive := by decide
  ring := by decide
  sig := by decide
  conn := by decide
  live := by decide
  below := by decide
  fresh := by decide
  stack := rfl
  tok_sig := by decide
  tok_lt := by decide

theorem demo_suspended_attached : Attached demo_suspended 0 [3, 2, 1] [0] where
  alive := by decide
  ring := by decide
  sig := by decide
  conn := by decide
  live := by decide
  below := by decide
  fresh := by decide
  stack := ⟨rfl, rfl⟩
  tok_sig := by decide
  tok_lt := by decide

/-! ## The destructor of a signal -/

theorem unlink_self {s : State} {g : Nat} (hn : s.next g = g) (hp : s.prev g = g) :
    unlink s g = s := by
  have e1 : (unlink s g).next = s.next := by
    rw [unlink_next, hn, hp]
    funext a
    unfold upd
    split
    · next h => rw [h, hn]
    · rfl
  have e2 : (unlink s g).prev = s.prev := by
    rw [unlink_prev, hn, hp]
    funext a
    unfold upd
    split
    · next h => rw [h, hp]
    · rfl
  have e3 : unlink s g = { s with next := (unlink s g).next, prev := (unlink s g).prev } := rfl
  rw [e3, e1, e2]

theorem cleared_nil {s : State} {g : Nat} (ts : List Nat) (h : Ring s g []) :
    cleared s g [] ts = s := by
  have hn : s.next g = g := h.next_sentinel
  have hp : s.prev g = g := h.prev_sentinel
  have e1 : (fun a => if a ∈ [g] then a else s.next a) = s.next := by
    funext a
    by_cases ha : a = g
    · simp [ha, hn]
    · simp [ha]
  have e2 : (fun a => if a ∈ [g] then a else s.prev a) = s.prev := by
    funext a
    by_cases ha : a = g
    · simp [ha, hp]
    · simp [ha]
  simp only [cleared, e1, e2]
  simp

theorem cleared_cons {s : State} {g x : Nat} {xs : List Nat} (ts : List Nat)
    (h : Ring s g (x :: xs)) :
    cleared (disconnected s x ts) g xs ts = cleared s g (x :: xs) ts := by
  have hr : Ring s g ([] ++ x :: xs) := h
  have hnx : s.next x = xs.headD g := hr.next_mem
  have hpx : s.prev x = g := hr.prev_mem
  have hnd := h.nodup
  have hgx : g ≠ x := by
    intro e
    rw [e] at hnd
    simp at hnd
  have hx : x ∉ xs := (List.nodup_cons.1 (List.nodup_cons.1 hnd).2).1
  have hg : g ∉ xs := fun hm => (List.nodup_cons.1 hnd).1 (List.mem_cons_of_mem _ hm)
  have hn : xs.headD g ∈ g :: xs := by
    have := headD_mem xs g
    simp only [List.mem_append, List.mem_singleton, List.mem_cons] at this ⊢
    tauto
  unfold cleared
  congr 1
  · funext a
    show (if a ∈ g :: xs then a else (unlink (rewound s x ts) x).next a) = _
    rw [unlink_next]
    show (if a ∈ g :: xs then a else upd (upd s.next (s.prev x) (s.next x)) x x a) = _
    by_cases ha : a ∈ g :: xs
    · rw [if_pos ha, if_pos]
      simp only [List.mem_cons] at ha ⊢
      tauto
    · rw [if_neg ha]
      by_cases hax : a = x
      · rw [hax, upd_same, if_pos (by simp)]
      · have hag : a ≠ g := fun e => ha (by simp [e])
        rw [upd_other _ _ hax, hpx, upd_other _ _ hag, if_neg]
        simp only [List.mem_cons, not_or] at ha ⊢
        exact ⟨ha.1, hax, ha.2⟩
  · funext a
    show (if a ∈ g :: xs then a else upd (upd s.prev (s.next x) (s.prev x)) x x a) = _
    by_cases ha : a ∈ g :: xs
    · rw [if_pos ha, if_pos]
      simp only [List.mem_cons] at ha ⊢
      tauto
    · rw [if_neg ha]
      by_cases hax : a = x
      · rw [hax, upd_same, if_pos (by simp)]
      · have han : a ≠ s.next x := by
          rw [hnx]
          intro e
          exact ha (e ▸ hn)
        rw [upd_other _ _ hax, upd_other _ _ han, if_neg]
        simp only [List.mem_cons, not_or] at ha ⊢
        exact ⟨ha.1, hax, ha.2⟩
  · funext a
    show (if a ∈ xs then none else upd s.csig x none a) = _
    by_cases ha : a ∈ xs
    · rw [if_pos ha, if_pos (List.mem_cons_of_mem _ ha)]
    · rw [if_neg ha]
      by_cases hax : a = x
      · rw [hax, upd_same, if_pos (by simp)]
      · rw [upd_other _ _ hax, if_neg]
        simp only [List.mem_cons, not_or]
        exact ⟨hax, ha⟩
  · funext u
    show (if u ∈ ts ∧ (if u ∈ ts ∧ s.tit u = x then s.prev x else s.tit u) ∈ xs then g
      else (if u ∈ ts ∧ s.tit u = x then s.prev x else s.tit u)) = _
    by_cases hu : u ∈ ts
    · by_cases hux : s.tit u = x
      · simp [hu, hux, hpx, hg]
      · by_cases hm : s.tit u ∈ xs
        · simp [hu, hux, hm]
        · simp [hu, hux, hm]
    · simp [hu]

/-- The first loop of `~signal()` returns, with every connection disconnected. -/
theorem dtor_connections_eq {g : Nat} {ts : List Nat} :
    ∀ (xs : List Nat) (n : Nat) (s : State), Ring s g xs → (∀ x ∈ xs, s.csig x = some g) →
      Stack s (s.top_token g) ts → (∀ t ∈ ts, s.tsig t ≠ none) →
      xs.length + ts.length ≤ n →
      dtor_connections g n (xs.headD g) s = some (cleared s g xs ts)
  | [], n, s, h, _, _, _, _ => by
    rw [cleared_nil ts h]
    cases n <;> simp [dtor_connections]
  | x :: xs, 0, _, _, _, _, _, hlen => by simp at hlen
  | x :: xs, n + 1, s, h, hc, hst, hsig, hlen => by
    have hr : Ring s g ([] ++ x :: xs) := h
    have hxg : x ≠ g := h.ne_sentinel (by simp)
    have hx : x ∉ xs := (List.nodup_cons.1 (List.nodup_cons.1 h.nodup).2).1
    have hd : disconnect n s x = some (disconnected s x ts) :=
      disconnect_eq (hc x (by simp)) hst hsig (by simp at hlen; omega)
    simp only [dtor_connections, List.headD_cons, hxg, if_false, hd, Option.some_bind]
    rw [hr.next_mem]
    have ih := dtor_connections_eq xs n (disconnected s x ts) (hr.disconnected ts)
      (fun y hy => by
        show upd s.csig x none y = some g
        have hyx : y ≠ x := fun e => hx (e ▸ hy)
        rw [upd_other _ _ hyx]
        exact hc y (List.mem_cons_of_mem _ hy))
      (@Stack.of_tnext_eq s (disconnected s x ts) rfl _ _ hst) hsig (by simp at hlen; omega)
    rw [ih, cleared_cons ts h]

/-- The second loop of `~signal()` returns, with every token of the stack nulled. -/
theorem dtor_tokens_eq :
    ∀ (ts : List Nat) (n : Nat) (o : Option Nat) (s : State), Stack s o ts →
      ts.length ≤ n → dtor_tokens n o s = some (nulled s ts)
  | [], n, o, s, h, _ => by
    have e : o = none := h
    subst e
    have : nulled s [] = s := by simp [nulled]
    rw [this]
    cases n <;> rfl
  | t :: ts, 0, _, _, _, hlen => by simp at hlen
  | t :: ts, n + 1, o, s, h, hlen => by
    have e : o = some t := h.1
    subst e
    simp only [dtor_tokens]
    have ih := dtor_tokens_eq ts n (s.tnext t) { s with tsig := upd s.tsig t none }
      (@Stack.of_tnext_eq s { s with tsig := upd s.tsig t none } rfl _ _ h.2)
      (by simpa using hlen)
    rw [ih]
    congr 1
    unfold nulled
    congr 1
    funext u
    by_cases hu : u = t
    · subst hu
      simp
    · simp [hu, upd_other _ _ hu]

/-- The destructor of a live signal returns. -/
theorem signal_dtor_eq {s : State} {g n : Nat} {xs ts : List Nat} (hr : Ring s g xs)
    (hc : ∀ x ∈ xs, s.csig x = some g) (hst : Stack s (s.top_token g) ts)
    (hsig : ∀ t ∈ ts, s.tsig t ≠ none) (hlen : xs.length + ts.length ≤ n) :
    signal_dtor n s g = some (destroyed s g xs ts) := by
  have h1 := dtor_connections_eq xs n s hr hc hst hsig hlen
  have hst' : Stack (cleared s g xs ts) ((cleared s g xs ts).top_token g) ts :=
    @Stack.of_tnext_eq s (cleared s g xs ts) rfl _ _ hst
  have h2 := dtor_tokens_eq ts n _ (cleared s g xs ts) hst' (by omega)
  have hn : (nulled (cleared s g xs ts) ts).next g = g := by
    show (if g ∈ g :: xs then g else s.next g) = g
    rw [if_pos (List.mem_cons_self _ _)]
  have hp : (nulled (cleared s g xs ts) ts).prev g = g := by
    show (if g ∈ g :: xs then g else s.prev g) = g
    rw [if_pos (List.mem_cons_self _ _)]
  simp only [signal_dtor, hr.next_sentinel, h1, Option.some_bind, h2, Option.map_some',
    unlink_self hn hp, destroyed]

@[simp] theorem advance_log (s : State) (t : Nat) : (advance s t).log = s.log := by
  unfold advance touch; split <;> rfl

@[simp] theorem advance_tsig (s : State) (t : Nat) : (advance s t).tsig = s.tsig := by
  unfold advance touch; split <;> rfl

@[simp] theorem advance_csig (s : State) (t : Nat) : (advance s t).csig = s.csig := by
  unfold advance touch; split <;> rfl

@[simp] theorem advance_freed (s : State) (t : Nat) : (advance s t).freed = s.freed := by
  unfold advance touch; split <;> rfl

@[simp] theorem advance_next (s : State) (t : Nat) : (advance s t).next = s.next := by
  unfold advance touch; split <;> rfl

theorem advance_stale_of_mem {s : State} {t : Nat} (h : s.tit t ∈ s.freed) :
    (advance s t).stale = s.stale ++ [s.tit t] := by
  unfold advance touch
  rw [if_pos h]

/-- A loop whose token has a null `sig` returns at once and changes nothing. -/
theorem exec_loop_null (beh : Nat → State → List Action) (n : Nat) {s : State} {t : Nat}
    (g : Nat) (h : s.tsig t = none) : exec beh (n + 1) (.loop t g) s = some s := by
  simp [exec, h]

/-- An emission in which the callable of `X` destroys the signal: the leading callables and
`X` are called, then the loop reads the `next` link of the destroyed sentinel and stops. -/
theorem emit_destroyer {beh : Nat → State → List Action} {s : State} {g X fX : Nat}
    {l r ts : List Nat} (h : Attached s g (l ++ X :: r) ts) (hX : s.slot X = some fX)
    (hbX : ∀ s' : State, beh fX s' = [.destroy_signal g])
    (hin : ∀ y ∈ l, ∀ f, s.slot y = some f → ∀ s' : State, beh f s' = []) :
    ∃ s', Runs beh (.emit g) s s' ∧
      s'.log = s.log ++ entries s s.depth (l ++ [X]) ∧
      s'.stale = s.stale ++ [g] ∧
      s'.freed = g :: s.freed ∧
      (∀ u ∈ ts, s'.tsig u = none) ∧
      (∀ x ∈ l ++ X :: r, s'.csig x = none) := by
  obtain ⟨sb, hsb⟩ : ∃ sb, sb = record (reached s g l X) s.depth fX := ⟨_, rfl⟩
  obtain ⟨sc, hsc⟩ : ∃ sc, sc = destroyed sb g (l ++ X :: r) (s.depth :: ts) := ⟨_, rfl⟩
  have hst : Stack sb (sb.top_token g) (s.depth :: ts) ∧ ∀ u ∈ s.depth :: ts, sb.tsig u ≠ none := by
    rw [hsb]
    exact h.stack_in_emission rfl rfl rfl
  have hd : signal_dtor ((l ++ X :: r).length + (s.depth :: ts).length) sb g = some sc := by
    rw [hsc]
    exact signal_dtor_eq (by rw [hsb]; exact h.ring.of_eq rfl rfl) (by rw [hsb]; exact h.sig)
      hst.1 hst.2 (Nat.le_refl _)
  have hbody : Runs beh (.script (beh fX (reached s g l X)))
      (record (reached s g l X) s.depth fX) sc := by
    rw [hbX, ← hsb]
    exact Runs.script_destroy_signal (by rw [hsb]; exact h.alive) hd Runs.script_nil
  have htit : sc.tit s.depth = g := by
    rw [hsc, hsb]
    show (if s.depth ∈ s.depth :: ts ∧
      upd (upd s.tit s.depth (s.next g)) s.depth X s.depth ∈ l ++ X :: r then g else _) = g
    rw [upd_same, if_pos ⟨List.mem_cons_self _ _, by simp⟩]
  have hfreed : sc.freed = g :: s.freed := by rw [hsc, hsb]; rfl
  have hstale : sc.stale = s.stale := by rw [hsc, hsb]; rfl
  have hlog : sc.log = s.log ++ entries s s.depth l ++ [⟨s.depth, s.ident X, fX⟩] := by
    rw [hsc, hsb]
    show s.log ++ entries s s.depth l ++ [⟨s.depth, s.ident (upd _ s.depth X s.depth), fX⟩] = _
    rw [upd_same]
  have htsig : ∀ u ∈ s.depth :: ts, sc.tsig u = none := by
    intro u hu
    rw [hsc]
    show (if u ∈ s.depth :: ts then none else _) = none
    rw [if_pos hu]
  have hcsig : ∀ x ∈ l ++ X :: r, sc.csig x = none := by
    intro x hx
    rw [hsc]
    show (if x ∈ l ++ X :: r then none else _) = none
    rw [if_pos hx]
  have hrest : Runs beh (.loop s.depth g) (advance sc s.depth) (advance sc s.depth) :=
    Runs.loop_null (by rw [advance_tsig]; exact htsig _ (List.mem_cons_self _ _))
  have hrun := emit_via h hX (fun y hy f hyf s' _ => hin y hy f hyf s') hbody hrest
  refine ⟨_, hrun, ?_, ?_, ?_, ?_, ?_⟩
  · rw [token_dtor_log, advance_log, hlog, entries_append, entries_cons_some hX]
    simp [entries]
  · rw [token_dtor_stale, advance_stale_of_mem (by rw [htit, hfreed]; simp), htit, hstale]
  · rw [token_dtor_freed, advance_freed, hfreed]
  · intro u hu
    rw [token_dtor_tsig, advance_tsig]
    exact htsig u (List.mem_cons_of_mem _ hu)
  · intro x hx
    rw [token_dtor_csig, advance_csig]
    exact hcsig x hx

/-! ## Well-formed memory and what every action keeps -/

theorem WF.disjoint {F : Prop} {s : State} {R T : Nat → List Nat} (h : WF F s R T)
    {g g' a : Nat} (hg : g ∈ s.sigs) (hg' : g' ∈ s.sigs) (hne : g ≠ g')
    (ha : a ∈ g :: R g) : a ∉ g' :: R g' := by
  intro ha'
  rcases List.mem_cons.1 ha with e | hm
  · rcases List.mem_cons.1 ha' with e' | hm'
    · exact hne (e.symm.trans e')
    · exact (h.mem g' hg' a hm').1.2.1 (e ▸ hg)
  · rcases List.mem_cons.1 ha' with e' | hm'
    · exact (h.mem g hg a hm).1.2.1 (e' ▸ hg')
    · have h1 := (h.mem g hg a hm).2
      have h2 := (h.mem g' hg' a hm').2
      rw [h1] at h2
      exact hne (Option.some.inj h2)

theorem WF.lt_alloc {F : Prop} {s : State} {R T : Nat → List Nat} (h : WF F s R T)
    {g a : Nat} (hg : g ∈ s.sigs) (ha : a ∈ g :: R g) : a < s.alloc := by
  rcases List.mem_cons.1 ha with e | hm
  · rw [e]
    exact h.bound g (List.mem_append_left _ hg)
  · exact (h.mem g hg a hm).1.1

theorem WF.not_freed {F : Prop} {s : State} {R T : Nat → List Nat} (h : WF F s R T)
    {g a : Nat} (hg : g ∈ s.sigs) (ha : a ∈ g :: R g) : a ∉ s.freed := by
  rcases List.mem_cons.1 ha with e | hm
  · rw [e]
    exact h.sigs_live g hg
  · exact (h.mem g hg a hm).1.2.2

theorem WF.token_unique {F : Prop} {s : State} {R T : Nat → List Nat} (h : WF F s R T)
    {g g' t : Nat} (hg : g ∈ s.sigs) (hg' : g' ∈ s.sigs) (ht : t ∈ T g) (ht' : t ∈ T g') :
    g = g' := by
  have h1 := (h.tok g hg t ht).1
  have h2 := (h.tok g' hg' t ht').1
  rw [h1] at h2
  exact Option.some.inj h2

theorem WF.detached_not_mem {F : Prop} {s : State} {R T : Nat → List Nat} (h : WF F s R T)
    {g a : Nat} (hg : g ∈ s.sigs) (hc : IsConn s a) (hd : s.csig a = none) :
    a ∉ g :: R g := by
  intro ha
  rcases List.mem_cons.1 ha with e | hm
  · exact hc.2.1 (e ▸ hg)
  · have := (h.mem g hg a hm).2
    rw [hd] at this
    cases this

theorem Ring.next_mem_ring {s : State} {g a : Nat} {xs : List Nat} (h : Ring s g xs)
    (ha : a ∈ g :: xs) : s.next a ∈ g :: xs := by
  have hmap : s.next a ∈ (g :: xs).map s.next := List.mem_map.2 ⟨a, ha, rfl⟩
  have e : (g :: xs).map s.next = xs ++ [g] := h.2.1
  rw [e] at hmap
  simp only [List.mem_append, List.mem_singleton, List.mem_cons] at hmap ⊢
  tauto

theorem Moves.rfl_of_agree {start : List Nat} {s s' : State} {pre post : List Nat}
    (h : ∀ x ∈ pre ++ post, s'.ident x = s.ident x) :
    Moves start s s' pre post pre post := by
  constructor
  · have e : post.map s'.ident = post.map s.ident :=
      List.map_congr_left (fun x hx => h x (List.mem_append_right _ hx))
    rw [e]
  · intro x hx _
    exact ⟨x, hx, (h x (List.mem_append_left _ hx)).symm⟩

theorem Moves.chain {start : List Nat} {s s1 s2 : State} {pre post pre1 post1 pre2 post2 :
    List Nat} (h1 : Moves start s s1 pre post pre1 post1)
    (h2 : Moves start s1 s2 pre1 post1 pre2 post2) :
    Moves start s s2 pre post pre2 post2 := by
  refine ⟨h2.1.trans h1.1, ?_⟩
  intro x hx hs
  obtain ⟨y, hy, e⟩ := h2.2 x hx hs
  obtain ⟨z, hz, e'⟩ := h1.2 y hy (e ▸ hs)
  exact ⟨z, hz, e'.trans e⟩

theorem Kept.refl {F : Prop} {start : List Nat} {ex : Option Nat} {s : State}
    {R T : Nat → List Nat} (h : WF F s R T) : Kept F start ex s s R T R where
  wf := h
  depth := rfl
  log := ⟨[], by simp, by simp⟩
  alloc := Nat.le_refl _
  sigs := fun _ hg => hg
  tsig_none := fun _ _ ht => ht
  dead := fun g hg hng => absurd hg hng
  track := fun _ _ pre post _ _ _ htr _ =>
    ⟨pre, post, htr, Moves.rfl_of_agree (fun _ _ => rfl)⟩

theorem Kept.trans {F : Prop} {start : List Nat} {ex : Option Nat} {s s1 s2 : State}
    {R T R1 R2 : Nat → List Nat} (hwf : WF F s R T) (h1 : Kept F start ex s s1 R T R1)
    (h2 : Kept F start ex s1 s2 R1 T R2) : Kept F start ex s s2 R T R2 where
  wf := h2.wf
  depth := h2.depth.trans h1.depth
  log := by
    obtain ⟨e1, he1, hb1⟩ := h1.log
    obtain ⟨e2, he2, hb2⟩ := h2.log
    refine ⟨e1 ++ e2, by rw [he2, he1, List.append_assoc], ?_⟩
    intro e he
    rcases List.mem_append.1 he with hm | hm
    · exact hb1 e hm
    · have := hb2 e hm
      rw [h1.depth] at this
      exact this
  alloc := Nat.le_trans h1.alloc h2.alloc
  sigs := fun g hg => h1.sigs g (h2.sigs g hg)
  tsig_none := fun t hlt ht => h2.tsig_none t (by rw [h1.depth]; exact hlt)
    (h1.tsig_none t hlt ht)
  dead := by
    intro g hg hng t ht
    by_cases hg1 : g ∈ s1.sigs
    · exact h2.dead g hg1 hng t ht
    · have hlt : t < s1.depth := by
        rw [h1.depth]
        exact (hwf.tok g hg t ht).2.1
      exact h2.tsig_none t hlt (h1.dead g hg hg1 t ht)
  track := by
    intro g0 t0 pre post hg0 ht0 hex htr hst
    obtain ⟨pre1, post1, htr1, hm1⟩ := h1.track g0 t0 pre post (h2.sigs g0 hg0) ht0 hex htr hst
    obtain ⟨pre2, post2, htr2, hm2⟩ := h2.track g0 t0 pre1 post1 hg0 ht0 hex htr1
      (fun i hi => Nat.lt_of_lt_of_le (hst i hi) h1.alloc)
    exact ⟨pre2, post2, htr2, hm1.chain hm2⟩

theorem Kept.weaken {F : Prop} {start : List Nat} {s s' : State} {R T R' : Nat → List Nat}
    (t : Nat) (h : Kept F start none s s' R T R') : Kept F start (some t) s s' R T R' where
  wf := h.wf
  depth := h.depth
  log := by
    obtain ⟨ext, he, hb⟩ := h.log
    refine ⟨ext, he, fun e hm => ?_⟩
    rcases hb e hm with h1 | h1
    · exact Or.inl h1
    · cases h1
  alloc := h.alloc
  sigs := h.sigs
  tsig_none := h.tsig_none
  dead := h.dead
  track := fun g0 t0 pre post hg0 ht0 _ htr hst =>
    h.track g0 t0 pre post hg0 ht0 (by simp) htr hst

@[simp] theorem connect_sigs (s : State) (g f : Nat) : (connect s g f).sigs = s.sigs := rfl

theorem connect_next {s : State} {g : Nat} (f : Nat) (hg : g ≠ s.alloc) :
    (connect s g f).next = upd (upd s.next s.alloc (s.next g)) g s.alloc := by
  show upd (upd (upd s.next s.alloc s.alloc) s.alloc (upd s.next s.alloc s.alloc g)) g
    s.alloc = _
  rw [upd_other _ _ hg, upd_upd_same]

theorem connect_prev {s : State} {g : Nat} (f : Nat) (hg : g ≠ s.alloc) :
    (connect s g f).prev = upd (upd s.prev s.alloc g) (s.next g) s.alloc := by
  show upd (upd (upd s.prev s.alloc s.alloc) s.alloc g) (upd s.next s.alloc s.alloc g)
    s.alloc = _
  rw [upd_other _ _ hg, upd_upd_same]

theorem getLastD_cons_of_ne_nil {l : List Nat} (c g : Nat) (h : l ≠ []) :
    (c :: l).getLastD g = l.getLastD g := by
  cases l with
  | nil => exact absurd rfl h
  | cons y l => rfl

theorem getLastD_eq_self_iff {s : State} {g : Nat} {pre post : List Nat}
    (h : Ring s g (pre ++ post)) : pre.getLastD g = g ↔ pre = [] := by
  constructor
  · intro e
    cases pre with
    | nil => rfl
    | cons y pre =>
      exfalso
      have hm : (y :: pre).getLastD g ∈ y :: pre := by
        simp only [List.getLastD_cons]
        exact getLastD_mem pre y
      rw [e] at hm
      exact (List.nodup_cons.1 h.nodup).1 (List.mem_append_left _ hm)
  · intro e
    rw [e]
    rfl

/-- The member `connect` keeps memory well formed: the new subscription is at the front
of the container of its signal, and an emission sees it only from the sentinel. -/
theorem connect_kept {F : Prop} {start : List Nat} {ex : Option Nat} {s : State}
    {R T : Nat → List Nat} {g : Nat} (f : Nat) (h : WF F s R T) (hg : g ∈ s.sigs) :
    Kept F start ex s (connect s g f) R T (Function.update R g (s.alloc :: R g)) := by
  have hgc : g ≠ s.alloc := Nat.ne_of_lt (h.bound g (List.mem_append_left _ hg))
  have hlt : ∀ g1 ∈ s.sigs, ∀ a ∈ g1 :: R g1, a ≠ s.alloc := fun g1 hg1 a ha =>
    Nat.ne_of_lt (h.lt_alloc hg1 ha)
  have hn : s.next g ∈ g :: R g := (h.ring g hg).next_mem_ring (List.mem_cons_self _ _)
  have hRg : Function.update R g (s.alloc :: R g) g = s.alloc :: R g :=
    Function.update_same _ _ _
  have hRo : ∀ g1, g1 ≠ g → Function.update R g (s.alloc :: R g) g1 = R g1 := fun g1 hne =>
    Function.update_noteq hne _ _
  have hconn : ∀ x, IsConn s x → IsConn (connect s g f) x := fun x hx =>
    ⟨Nat.lt_succ_of_lt hx.1, hx.2.1, hx.2.2⟩
  have hconn' : ∀ x, IsConn (connect s g f) x → x ≠ s.alloc → IsConn s x := fun x hx hne =>
    ⟨Nat.lt_of_le_of_ne (Nat.le_of_lt_succ hx.1) hne, hx.2.1, hx.2.2⟩
  have hnewconn : IsConn (connect s g f) s.alloc :=
    ⟨Nat.lt_succ_self _,
      fun hm => Nat.lt_irrefl _ (h.bound _ (List.mem_append_left _ hm)),
      fun hm => Nat.lt_irrefl _ (h.bound _ (List.mem_append_right _ hm))⟩
  have hframe : ∀ g1 ∈ s.sigs, g1 ≠ g → ∀ a ∈ g1 :: R g1,
      (connect s g f).next a = s.next a ∧ (connect s g f).prev a = s.prev a := by
    intro g1 hg1 hne a ha
    have hac : a ≠ s.alloc := hlt g1 hg1 a ha
    have hag : a ≠ g := fun e =>
      h.disjoint hg hg1 (Ne.symm hne) (List.mem_cons_self _ _) (e ▸ ha)
    have han : a ≠ s.next g := fun e => h.disjoint hg hg1 (Ne.symm hne) hn (e ▸ ha)
    rw [connect_next f hgc, connect_prev f hgc, upd_other _ _ hag, upd_other _ _ hac,
      upd_other _ _ han, upd_other _ _ hac]
    exact ⟨rfl, rfl⟩
  have hwf : WF F (connect s g f) (Function.update R g (s.alloc :: R g)) T := by
    refine ⟨h.sigs_nodup, h.sigs_live, ?_, ?_, ?_, ?_, ?_, ?_, ?_, ?_, ?_, ?_⟩
    · intro a ha
      exact Nat.lt_succ_of_lt (h.bound a ha)
    · intro g1 hg1
      by_cases e : g1 = g
      · rw [e, hRg]
        exact (h.ring g hg).connect f (fun a ha => h.lt_alloc hg ha)
      · rw [hRo g1 e]
        exact (h.ring g1 hg1).frame (fun a ha => (hframe g1 hg1 e a ha).1)
          (fun a ha => (hframe g1 hg1 e a ha).2)
    · intro g1 hg1 x hx
      by_cases e : g1 = g
      · rw [e, hRg] at hx
        rcases List.mem_cons.1 hx with ex | hm
        · rw [ex, connect_csig, upd_same, e]
          exact ⟨hnewconn, rfl⟩
        · rw [connect_csig, upd_other _ _ (hlt g hg x (List.mem_cons_of_mem _ hm)), e]
          exact ⟨hconn x (h.mem g hg x hm).1, (h.mem g hg x hm).2⟩
      · rw [hRo g1 e] at hx
        rw [connect_csig, upd_other _ _ (hlt g1 hg1 x (List.mem_cons_of_mem _ hx))]
        exact ⟨hconn x (h.mem g1 hg1 x hx).1, (h.mem g1 hg1 x hx).2⟩
    · intro c g1 hc hcs
      by_cases e : c = s.alloc
      · rw [e, connect_csig, upd_same] at hcs
        have e1 : g = g1 := Option.some.inj hcs
        rw [← e1, hRg, e]
        exact ⟨hg, List.mem_cons_self _ _⟩
      · rw [connect_csig, upd_other _ _ e] at hcs
        obtain ⟨h1, h2⟩ := h.att c g1 (hconn' c hc e) hcs
        refine ⟨h1, ?_⟩
        by_cases e1 : g1 = g
        · rw [e1, hRg]
          exact List.mem_cons_of_mem _ (e1 ▸ h2)
        · rw [hRo g1 e1]
          exact h2
    · intro c hc hcs
      have e : c ≠ s.alloc := by
        intro e
        rw [e, connect_csig, upd_same] at hcs
        cases hcs
      rw [connect_csig, upd_other _ _ e] at hcs
      have hc0 := hconn' c hc e
      have hcg : c ≠ g := fun e1 => hc0.2.1 (e1 ▸ hg)
      have hcn : c ≠ s.next g := fun e1 => h.detached_not_mem hg hc0 hcs (e1 ▸ hn)
      rw [connect_next f hgc, connect_prev f hgc, upd_other _ _ hcg, upd_other _ _ e,
        upd_other _ _ hcn, upd_other _ _ e]
      exact h.det c hc0 hcs
    · intro g1 hg1
      exact @Stack.of_tnext_eq s (connect s g f) rfl _ _ (h.stack g1 hg1)
    · intro g1 hg1 t ht
      obtain ⟨h1, h2, h3⟩ := h.tok g1 hg1 t ht
      refine ⟨h1, h2, ?_⟩
      by_cases e : g1 = g
      · rw [e, hRg]
        rw [e] at h3
        simp only [List.mem_cons] at h3 ⊢
        tauto
      · rw [hRo g1 e]
        exact h3
    · intro g1 hg1 x hx
      rw [connect_alloc, connect_ident]
      by_cases e : x = s.alloc
      · rw [e, upd_same]
        exact Nat.lt_succ_self _
      · rw [upd_other _ _ e]
        have hx' : x ∈ R g1 := by
          by_cases e1 : g1 = g
          · rw [e1, hRg] at hx
            rcases List.mem_cons.1 hx with ex | hm
            · exact absurd ex e
            · exact e1 ▸ hm
          · rw [hRo g1 e1] at hx
            exact hx
        exact Nat.lt_succ_of_lt (h.id_lt g1 hg1 x hx')
    · intro g1 hg1 g2 hg2 x hx y hy hid
      have key : ∀ g3 ∈ s.sigs, ∀ z ∈ Function.update R g (s.alloc :: R g) g3,
          z ≠ s.alloc → z ∈ R g3 := by
        intro g3 _ z hz hne
        by_cases e1 : g3 = g
        · rw [e1, hRg] at hz
          rcases List.mem_cons.1 hz with ez | hm
          · exact absurd ez hne
          · exact e1 ▸ hm
        · rw [hRo g3 e1] at hz
          exact hz
      rw [connect_ident] at hid
      by_cases ex : x = s.alloc
      · by_cases ey : y = s.alloc
        · rw [ex, ey]
        · exfalso
          rw [ex, upd_same, upd_other _ _ ey] at hid
          have := h.id_lt g2 hg2 y (key g2 hg2 y hy ey)
          omega
      · by_cases ey : y = s.alloc
        · exfalso
          rw [ey, upd_same, upd_other _ _ ex] at hid
          have := h.id_lt g1 hg1 x (key g1 hg1 x hx ex)
          omega
        · rw [upd_other _ _ ex, upd_other _ _ ey] at hid
          exact h.id_inj g1 hg1 g2 hg2 x (key g1 hg1 x hx ex) y (key g2 hg2 y hy ey) hid
    · intro hF g1 hg1 x hx
      rw [connect_slot]
      by_cases e : x = s.alloc
      · rw [e, upd_same]
        simp
      · rw [upd_other _ _ e]
        have hx' : x ∈ R g1 := by
          by_cases e1 : g1 = g
          · rw [e1, hRg] at hx
            rcases List.mem_cons.1 hx with ex | hm
            · exact absurd ex e
            · exact e1 ▸ hm
          · rw [hRo g1 e1] at hx
            exact hx
        exact h.full hF g1 hg1 x hx'
  refine ⟨hwf, rfl, ⟨[], by simp, by simp⟩, Nat.le_succ _, fun _ hg1 => hg1,
    fun _ _ ht => ht, fun g1 hg1 hng => absurd hg1 hng, ?_⟩
  intro g0 t0 pre post hg0 ht0 _ htr hst
  obtain ⟨hR, htit⟩ := htr
  have hag : ∀ x ∈ pre ++ post, (connect s g f).ident x = s.ident x := by
    intro x hx
    rw [connect_ident, upd_other _ _ (hlt g0 hg0 x (List.mem_cons_of_mem _ (hR ▸ hx)))]
  by_cases e : g0 = g
  · have hring : Ring s g0 (pre ++ post) := hR ▸ h.ring g0 hg0
    by_cases hp : pre = []
    · refine ⟨[], s.alloc :: post, ⟨?_, ?_⟩, ?_, ?_⟩
      · rw [e, hRg, ← e, hR, hp]
        rfl
      · rw [connect_tit, htit, hp]
      · have hnot : s.alloc ∉ start := fun hm => Nat.lt_irrefl _ (hst _ hm)
        have e1 : (s.alloc :: post).map (connect s g f).ident =
            s.alloc :: post.map s.ident := by
          rw [List.map_cons, connect_ident, upd_same]
          congr 1
          exact List.map_congr_left (fun x hx => hag x (List.mem_append_right _ hx))
        rw [e1, List.filter_cons_of_neg (by simpa using hnot)]
      · intro x hx
        simp at hx
    · refine ⟨s.alloc :: pre, post, ⟨?_, ?_⟩, ?_, ?_⟩
      · rw [e, hRg, ← e, hR]
        rfl
      · rw [connect_tit, htit, getLastD_cons_of_ne_nil _ _ hp]
      · have e1 : post.map (connect s g f).ident = post.map s.ident :=
          List.map_congr_left (fun x hx => hag x (List.mem_append_right _ hx))
        rw [e1]
      · intro x hx hs
        rcases List.mem_cons.1 hx with ex | hm
        · exfalso
          rw [ex, connect_ident, upd_same] at hs
          exact Nat.lt_irrefl _ (hst _ hs)
        · exact ⟨x, hm, (hag x (List.mem_append_left _ hm)).symm⟩
  · exact ⟨pre, post, ⟨by rw [hRo g0 e]; exact hR, htit⟩, Moves.rfl_of_agree hag⟩

theorem getLastD_of_ne_nil {l : List Nat} (a b : Nat) (h : l ≠ []) :
    l.getLastD a = l.getLastD b := by
  cases l with
  | nil => exact absurd rfl h
  | cons y l => rfl

theorem getLastD_filter_ne {c : Nat} :
    ∀ (l : List Nat) (g : Nat), l.getLastD g ≠ c →
      (l.filter fun x => x ≠ c).getLastD g = l.getLastD g
  | [], _, _ => rfl
  | y :: l, g, h => by
    rw [List.getLastD_cons] at h ⊢
    by_cases hy : y = c
    · rw [List.filter_cons_of_neg (by simpa using hy)]
      rw [hy] at h ⊢
      have ih := getLastD_filter_ne l c h
      have hne : (l.filter fun x => x ≠ c) ≠ [] := by
        intro e
        rw [e] at ih
        exact h ih.symm
      rw [getLastD_of_ne_nil g c hne, ih]
    · rw [List.filter_cons_of_pos (by simpa using hy), List.getLastD_cons]
      exact getLastD_filter_ne l y h

theorem eq_concat_of_getLastD_ne {l : List Nat} {g c : Nat} (h : l.getLastD g = c)
    (hne : c ≠ g) : ∃ a, l = a ++ [c] := by
  induction l using List.reverseRecOn with
  | nil => exact absurd h.symm hne
  | append_singleton a x _ =>
    rw [getLastD_concat] at h
    exact ⟨a, by rw [h]⟩

theorem disconnected_next (s : State) (c : Nat) (ts : List Nat) :
    (disconnected s c ts).next = upd (upd s.next (s.prev c) (s.next c)) c c := by
  show (unlink (rewound s c ts) c).next = _
  rw [unlink_next]
  rfl

theorem disconnected_prev (s : State) (c : Nat) (ts : List Nat) :
    (disconnected s c ts).prev = upd (upd s.prev (s.next c) (s.prev c)) c c := rfl

/-- The member `disconnect()` on a linked connection keeps memory well formed: the
connection leaves its container and the emissions positioned at it step back. -/
theorem disconnected_kept {F : Prop} {start : List Nat} {ex : Option Nat} {s : State}
    {R T : Nat → List Nat} {c g : Nat} (h : WF F s R T) (hc : IsConn s c)
    (hcs : s.csig c = some g) :
    Kept F start ex s (disconnected s c (T g)) R T
      (Function.update R g ((R g).filter fun x => x ≠ c)) := by
  obtain ⟨hg, hcm⟩ := h.att c g hc hcs
  obtain ⟨l, r, hsplit⟩ := List.append_of_mem hcm
  have hring : Ring s g (l ++ c :: r) := hsplit ▸ h.ring g hg
  have hnd : (l ++ c :: r).Nodup := (List.nodup_cons.1 hring.nodup).2
  have hfil : (R g).filter (fun x => x ≠ c) = l ++ r := by
    rw [hsplit]
    exact filter_ne_mid hnd
  have hp : s.prev c ∈ g :: R g := by
    rw [hring.prev_mem, hsplit]
    rcases List.mem_cons.1 (getLastD_mem l g) with e | hm
    · rw [e]; exact List.mem_cons_self _ _
    · exact List.mem_cons_of_mem _ (List.mem_append_left _ hm)
  have hn : s.next c ∈ g :: R g :=
    (h.ring g hg).next_mem_ring (List.mem_cons_of_mem _ hcm)
  have hRg : Function.update R g ((R g).filter fun x => x ≠ c) g =
      (R g).filter fun x => x ≠ c := Function.update_same _ _ _
  have hRo : ∀ g1, g1 ≠ g → Function.update R g ((R g).filter fun x => x ≠ c) g1 = R g1 :=
    fun g1 hne => Function.update_noteq hne _ _
  have hsub : ∀ g1 ∈ s.sigs, ∀ x,
      x ∈ Function.update R g ((R g).filter fun x => x ≠ c) g1 → x ∈ R g1 ∧ x ≠ c := by
    intro g1 hg1 x hx
    by_cases e : g1 = g
    · rw [e, hRg] at hx
      have := List.mem_filter.1 hx
      exact ⟨e ▸ this.1, by simpa using this.2⟩
    · rw [hRo g1 e] at hx
      refine ⟨hx, ?_⟩
      intro ex
      exact h.disjoint hg hg1 (Ne.symm e) (List.mem_cons_of_mem _ hcm)
        (List.mem_cons_of_mem _ (ex ▸ hx))
  have hsup : ∀ g1, ∀ x ∈ R g1, x ≠ c →
      x ∈ Function.update R g ((R g).filter fun x => x ≠ c) g1 := by
    intro g1 x hx hne
    by_cases e : g1 = g
    · rw [e, hRg]
      exact List.mem_filter.2 ⟨e ▸ hx, by simpa using hne⟩
    · rw [hRo g1 e]
      exact hx
  have hcsig : (disconnected s c (T g)).csig = upd s.csig c none := rfl
  have htit : (disconnected s c (T g)).tit =
      fun t => if t ∈ T g ∧ s.tit t = c then s.prev c else s.tit t := rfl
  have hframe : ∀ a, a ∉ g :: R g →
      (disconnected s c (T g)).next a = s.next a ∧
      (disconnected s c (T g)).prev a = s.prev a := by
    intro a ha
    have hac : a ≠ c := fun e => ha (e ▸ List.mem_cons_of_mem _ hcm)
    have hap : a ≠ s.prev c := fun e => ha (e ▸ hp)
    have han : a ≠ s.next c := fun e => ha (e ▸ hn)
    rw [disconnected_next, disconnected_prev, upd_other _ _ hac, upd_other _ _ hap,
      upd_other _ _ hac, upd_other _ _ han]
    exact ⟨rfl, rfl⟩
  have hwf : WF F (disconnected s c (T g)) (Function.update R g ((R g).filter fun x => x ≠ c))
      T := by
    refine ⟨h.sigs_nodup, h.sigs_live, h.bound, ?_, ?_, ?_, ?_, ?_, ?_, ?_, ?_, ?_⟩
    · intro g1 hg1
      by_cases e : g1 = g
      · rw [e, hRg, hfil]
        exact hring.disconnected (T g)
      · rw [hRo g1 e]
        refine (h.ring g1 hg1).frame (fun a ha => (hframe a ?_).1) (fun a ha => (hframe a ?_).2)
        · exact fun ha' => h.disjoint hg hg1 (Ne.symm e) ha' ha
        · exact fun ha' => h.disjoint hg hg1 (Ne.symm e) ha' ha
    · intro g1 hg1 x hx
      obtain ⟨hx1, hx2⟩ := hsub g1 hg1 x hx
      rw [hcsig, upd_other _ _ hx2]
      exact h.mem g1 hg1 x hx1
    · intro c1 g1 hc1 hcs1
      have hne : c1 ≠ c := by
        intro e
        rw [e, hcsig, upd_same] at hcs1
        cases hcs1
      rw [hcsig, upd_other _ _ hne] at hcs1
      obtain ⟨h1, h2⟩ := h.att c1 g1 hc1 hcs1
      exact ⟨h1, hsup g1 c1 h2 hne⟩
    · intro c1 hc1 hcs1
      by_cases e : c1 = c
      · rw [e, disconnected_next, disconnected_prev, upd_same, upd_same]
        exact ⟨rfl, rfl⟩
      · rw [hcsig, upd_other _ _ e] at hcs1
        have := hframe c1 (h.detached_not_mem hg hc1 hcs1)
        rw [this.1, this.2]
        exact h.det c1 hc1 hcs1
    · intro g1 hg1
      exact @Stack.of_tnext_eq s (disconnected s c (T g)) rfl _ _ (h.stack g1 hg1)
    · intro g1 hg1 t ht
      obtain ⟨h1, h2, h3⟩ := h.tok g1 hg1 t ht
      refine ⟨h1, h2, ?_⟩
      rw [htit]
      by_cases e : g1 = g
      · rw [e] at ht h3 ⊢
        rw [hRg, hfil]
        by_cases hit : s.tit t = c
        · simp only [ht, hit, and_self, if_true]
          rw [hring.prev_mem]
          rcases List.mem_cons.1 (getLastD_mem l g) with e1 | hm
          · rw [e1]; exact List.mem_cons_self _ _
          · exact List.mem_cons_of_mem _ (List.mem_append_left _ hm)
        · simp only [hit, and_false, if_false]
          rw [hsplit] at h3
          simp only [List.mem_cons, List.mem_append] at h3 ⊢
          tauto
      · have htn : t ∉ T g := fun hm => e (h.token_unique hg1 hg ht hm)
        simp only [htn, false_and, if_false]
        rw [hRo g1 e]
        exact h3
    · intro g1 hg1 x hx
      exact h.id_lt g1 hg1 x (hsub g1 hg1 x hx).1
    · intro g1 hg1 g2 hg2 x hx y hy hid
      exact h.id_inj g1 hg1 g2 hg2 x (hsub g1 hg1 x hx).1 y (hsub g2 hg2 y hy).1 hid
    · intro hF g1 hg1 x hx
      exact h.full hF g1 hg1 x (hsub g1 hg1 x hx).1
  refine ⟨hwf, rfl, ⟨[], (List.append_nil _).symm, by simp⟩, Nat.le_refl _, fun _ hg1 => hg1,
    fun _ _ ht => ht, fun g1 hg1 hng => absurd hg1 hng, ?_⟩
  intro g0 t0 pre post hg0 ht0 _ htr _
  obtain ⟨hR, hpos⟩ := htr
  by_cases e : g0 = g
  · refine ⟨pre.filter (fun x => x ≠ c), post.filter (fun x => x ≠ c), ⟨?_, ?_⟩, ?_, ?_⟩
    · rw [e, hRg, ← e, hR, List.filter_append]
    · rw [htit]
      rw [e] at ht0 hpos hR ⊢
      by_cases hit : s.tit t0 = c
      · simp only [ht0, hit, and_self, if_true]
        have hcg : c ≠ g := hring.ne_sentinel (by simp)
        obtain ⟨a, ha⟩ := eq_concat_of_getLastD_ne (hpos.symm.trans hit) hcg
        have hring2 : Ring s g (a ++ c :: post) := by
          have := h.ring g hg
          rw [hR, ha] at this
          simpa using this
        have hca : c ∉ a := by
          have hnd2 := (List.nodup_cons.1 hring2.nodup).2
          exact fun hm => (List.nodup_append.1 hnd2).2.2 hm (List.mem_cons_self _ _)
        rw [hring2.prev_mem, ha, List.filter_append,
          List.filter_cons_of_neg (by simp), List.filter_nil, List.append_nil]
        congr 1
        refine (List.filter_eq_self.2 (fun x hx => ?_)).symm
        have : x ≠ c := fun e1 => hca (e1 ▸ hx)
        simpa using this
      · simp only [hit, and_false, if_false]
        rw [hpos, getLastD_filter_ne pre g (by rw [← hpos]; exact hit)]
    · exact ((List.filter_sublist post).map _).filter _
    · intro x hx _
      exact ⟨x, (List.mem_filter.1 hx).1, rfl⟩
  · have htn : t0 ∉ T g := fun hm => e (h.token_unique hg0 hg ht0 hm)
    refine ⟨pre, post, ⟨by rw [hRo g0 e]; exact hR, ?_⟩, Moves.rfl_of_agree (fun _ _ => rfl)⟩
    rw [htit]
    simp only [htn, false_and, if_false]
    exact hpos

theorem disconnect_kept {F : Prop} {start : List Nat} {ex : Option Nat} {s s' : State}
    {R T : Nat → List Nat} {c n : Nat} (h : WF F s R T) (hc : IsConn s c)
    (hd : disconnect n s c = some s') : ∃ R', Kept F start ex s s' R T R' := by
  cases hcs : s.csig c with
  | none =>
    rw [disconnect_null hcs] at hd
    cases hd
    exact ⟨R, Kept.refl h⟩
  | some g =>
    obtain ⟨hg, _⟩ := h.att c g hc hcs
    have h1 : disconnect (max n (T g).length) s c = some (disconnected s c (T g)) :=
      disconnect_eq hcs (h.stack g hg)
        (fun t ht => by rw [(h.tok g hg t ht).1]; simp) (le_max_right _ _)
    have h2 := disconnect_mono (le_max_left n (T g).length) hd
    rw [h1] at h2
    cases h2
    exact ⟨_, disconnected_kept h hc hcs⟩

theorem getLastD_map (f : Nat → Nat) :
    ∀ (l : List Nat) (g : Nat), (l.map f).getLastD (f g) = f (l.getLastD g)
  | [], _ => rfl
  | y :: l, g => by
    rw [List.map_cons, List.getLastD_cons, List.getLastD_cons]
    exact getLastD_map f l y

theorem map_swap_mid {a b : Nat} {l r : List Nat} (h : (l ++ b :: r).Nodup) :
    (l ++ b :: r).map (fun x => if x = b then a else x) = l ++ a :: r := by
  have hl : b ∉ l := fun hm => (List.nodup_append.1 h).2.2 hm (List.mem_cons_self _ _)
  have hr : b ∉ r := (List.nodup_cons.1 (List.nodup_append.1 h).2.1).1
  have e1 : l.map (fun x => if x = b then a else x) = l := by
    conv_rhs => rw [← List.map_id l]
    refine List.map_congr_left (fun x hx => ?_)
    have : x ≠ b := fun e => hl (e ▸ hx)
    simp [this]
  have e2 : r.map (fun x => if x = b then a else x) = r := by
    conv_rhs => rw [← List.map_id r]
    refine List.map_congr_left (fun x hx => ?_)
    have : x ≠ b := fun e => hr (e ▸ hx)
    simp [this]
  rw [List.map_append, List.map_cons, e1, e2, if_pos rfl]

theorem relocated_next {s : State} {a b g : Nat} {l r : List Nat} (ts : List Nat)
    (h : Ring s g (l ++ b :: r)) (hab : a ≠ b) :
    (relocated s a b ts).next =
      upd (upd (upd (upd s.next a b) (s.prev b) a) a (s.next b)) b b := by
  have hbp : b ≠ s.prev b := by
    rw [h.prev_mem]
    intro e
    have hm := getLastD_mem l g
    rw [← e] at hm
    have hnd := h.nodup
    rcases List.mem_cons.1 hm with e1 | hm1
    · exact h.ne_sentinel (by simp) e1
    · exact (List.nodup_append.1 (List.nodup_cons.1 hnd).2).2.2 hm1 (List.mem_cons_self _ _)
  show (disconnected (insert (transferred s a b) b a) b ts).next = _
  rw [disconnected_next]
  show upd (upd (upd (upd s.next a b) (s.prev b) a)
    (upd (upd s.prev a (s.prev b)) b a b) (upd (upd s.next a b) (s.prev b) a b)) b b = _
  rw [upd_same, upd_other _ _ hbp, upd_other _ _ (Ne.symm hab)]

theorem relocated_prev {s : State} {a b : Nat} (ts : List Nat) (hab : a ≠ b)
    (hbp : b ≠ s.prev b) :
    (relocated s a b ts).prev =
      upd (upd (upd (upd s.prev a (s.prev b)) b a) (s.next b) a) b b := by
  show (disconnected (insert (transferred s a b) b a) b ts).prev = _
  rw [disconnected_prev]
  show upd (upd (upd (upd s.prev a (s.prev b)) b a)
    (upd (upd s.next a b) (s.prev b) a b) (upd (upd s.prev a (s.prev b)) b a b)) b b = _
  rw [upd_same, upd_other _ _ hbp, upd_other _ _ (Ne.symm hab)]

/-- Taking over the fields of an unlinked connection keeps memory well formed. -/
theorem transferred_kept {F : Prop} {start : List Nat} {ex : Option Nat} {s : State}
    {R T : Nat → List Nat} {a b : Nat} (h : WF F s R T) (ha : IsConn s a)
    (has : s.csig a = none) (hb : IsConn s b) (hbs : s.csig b = none) :
    Kept F start ex s (transferred s a b) R T R := by
  have hna : ∀ g1 ∈ s.sigs, ∀ x ∈ R g1, x ≠ a := fun g1 hg1 x hx e =>
    h.detached_not_mem hg1 ha has (e ▸ List.mem_cons_of_mem _ hx)
  have hnb : ∀ g1 ∈ s.sigs, ∀ x ∈ R g1, x ≠ b := fun g1 hg1 x hx e =>
    h.detached_not_mem hg1 hb hbs (e ▸ List.mem_cons_of_mem _ hx)
  have hcsig : (transferred s a b).csig = s.csig := by
    show upd s.csig a (s.csig b) = s.csig
    rw [hbs, ← has]
    exact upd_self _ _
  have hwf : WF F (transferred s a b) R T := by
    refine ⟨h.sigs_nodup, h.sigs_live, h.bound, fun g1 hg1 => (h.ring g1 hg1).of_eq rfl rfl,
      ?_, ?_, ?_, ?_, h.tok, ?_, ?_, ?_⟩
    · intro g1 hg1 x hx
      rw [hcsig]
      exact h.mem g1 hg1 x hx
    · intro c1 g1 hc1 hcs1
      rw [hcsig] at hcs1
      exact h.att c1 g1 hc1 hcs1
    · intro c1 hc1 hcs1
      rw [hcsig] at hcs1
      exact h.det c1 hc1 hcs1
    · intro g1 hg1
      exact @Stack.of_tnext_eq s (transferred s a b) rfl _ _ (h.stack g1 hg1)
    · intro g1 hg1 x hx
      show upd s.ident a (s.ident b) x < s.alloc
      rw [upd_other _ _ (hna g1 hg1 x hx)]
      exact h.id_lt g1 hg1 x hx
    · intro g1 hg1 g2 hg2 x hx y hy hid
      have hid' : upd s.ident a (s.ident b) x = upd s.ident a (s.ident b) y := hid
      rw [upd_other _ _ (hna g1 hg1 x hx), upd_other _ _ (hna g2 hg2 y hy)] at hid'
      exact h.id_inj g1 hg1 g2 hg2 x hx y hy hid'
    · intro hF g1 hg1 x hx
      show upd (upd s.slot a (s.slot b)) b none x ≠ none
      rw [upd_other _ _ (hnb g1 hg1 x hx), upd_other _ _ (hna g1 hg1 x hx)]
      exact h.full hF g1 hg1 x hx
  refine ⟨hwf, rfl, ⟨[], (List.append_nil _).symm, by simp⟩, Nat.le_refl _,
    fun _ hg1 => hg1, fun _ _ ht => ht, fun g1 hg1 hng => absurd hg1 hng, ?_⟩
  intro g0 t0 pre post hg0 _ _ htr _
  refine ⟨pre, post, htr, Moves.rfl_of_agree (fun x hx => ?_)⟩
  show upd s.ident a (s.ident b) x = s.ident x
  rw [upd_other _ _ (hna g0 hg0 x (htr.1 ▸ hx))]

/-- Relocation keeps memory well formed: the new object stands where the old one stood, the
emissions positioned at the old one are positioned at the new one, and the subscription
goes with it. -/
theorem relocated_kept {F : Prop} {start : List Nat} {ex : Option Nat} {s : State}
    {R T : Nat → List Nat} {a b g : Nat} (h : WF F s R T) (ha : IsConn s a)
    (has : s.csig a = none) (hb : IsConn s b) (hbs : s.csig b = some g) :
    Kept F start ex s (relocated s a b (T g)) R T
      (Function.update R g ((R g).map fun x => if x = b then a else x)) := by
  obtain ⟨hg, hbm⟩ := h.att b g hb hbs
  obtain ⟨l, r, hsplit⟩ := List.append_of_mem hbm
  have hring : Ring s g (l ++ b :: r) := hsplit ▸ h.ring g hg
  have hnd : (l ++ b :: r).Nodup := (List.nodup_cons.1 hring.nodup).2
  have hab : a ≠ b := by
    intro e
    rw [e, hbs] at has
    cases has
  have hna : ∀ g1 ∈ s.sigs, ∀ x ∈ g1 :: R g1, x ≠ a := fun g1 hg1 x hx e =>
    h.detached_not_mem hg1 ha has (e ▸ hx)
  have hmap : (R g).map (fun x => if x = b then a else x) = l ++ a :: r := by
    rw [hsplit]
    exact map_swap_mid hnd
  have hpm : s.prev b ∈ g :: R g := by
    rw [hring.prev_mem, hsplit]
    rcases List.mem_cons.1 (getLastD_mem l g) with e | hm
    · rw [e]; exact List.mem_cons_self _ _
    · exact List.mem_cons_of_mem _ (List.mem_append_left _ hm)
  have hnm : s.next b ∈ g :: R g :=
    (h.ring g hg).next_mem_ring (List.mem_cons_of_mem _ hbm)
  have hbp : b ≠ s.prev b := by
    rw [hring.prev_mem]
    intro e
    have hm := getLastD_mem l g
    rw [← e] at hm
    rcases List.mem_cons.1 hm with e1 | hm1
    · exact hring.ne_sentinel (by simp) e1
    · exact (List.nodup_append.1 hnd).2.2 hm1 (List.mem_cons_self _ _)
  have hRg : Function.update R g ((R g).map fun x => if x = b then a else x) g =
      l ++ a :: r := by
    rw [Function.update_same, hmap]
  have hRo : ∀ g1, g1 ≠ g →
      Function.update R g ((R g).map fun x => if x = b then a else x) g1 = R g1 :=
    fun g1 hne => Function.update_noteq hne _ _
  have hcsig : (relocated s a b (T g)).csig = upd (upd s.csig a (some g)) b none := by
    show upd (upd s.csig a (s.csig b)) b none = _
    rw [hbs]
  have hident : (relocated s a b (T g)).ident = upd s.ident a (s.ident b) := rfl
  have hslot : (relocated s a b (T g)).slot = upd (upd s.slot a (s.slot b)) b none := rfl
  have htit : (relocated s a b (T g)).tit =
      fun t => if t ∈ T g ∧ s.tit t = b then a else s.tit t := by
    show (fun t => if t ∈ T g ∧ s.tit t = b then upd (upd s.prev a (s.prev b)) b a b
      else s.tit t) = _
    rw [upd_same]
  have hring' : Ring (relocated s a b (T g)) g (l ++ a :: r) := by
    have h3 : Ring (transferred s a b) g (l ++ b :: r) := hring.of_eq rfl rfl
    have hc : a ∉ g :: (l ++ b :: r) := fun hm => hna g hg a (hsplit ▸ hm) rfl
    have h4 := Ring.link h3 hc
    have e1 : Signals.insert (transferred s a b) b a =
        Signals.link (transferred s a b) a (l.getLastD g) ((b :: r).headD g) := by
      show Signals.link (transferred s a b) a (s.prev b) b = _
      rw [hring.prev_mem]
      rfl
    have h5 : Ring (Signals.insert (transferred s a b) b a) g ((l ++ [a]) ++ b :: r) := by
      rw [e1]
      simpa using h4
    have h6 := h5.disconnected (T g)
    simpa using h6
  have hframe : ∀ x, x ∉ g :: R g → x ≠ a →
      (relocated s a b (T g)).next x = s.next x ∧
      (relocated s a b (T g)).prev x = s.prev x := by
    intro x hx hxa
    have hxb : x ≠ b := fun e => hx (e ▸ List.mem_cons_of_mem _ hbm)
    have hxp : x ≠ s.prev b := fun e => hx (e ▸ hpm)
    have hxn : x ≠ s.next b := fun e => hx (e ▸ hnm)
    rw [relocated_next (T g) hring hab, relocated_prev (T g) hab hbp, upd_other _ _ hxb,
      upd_other _ _ hxa, upd_other _ _ hxp, upd_other _ _ hxa, upd_other _ _ hxb,
      upd_other _ _ hxn, upd_other _ _ hxb, upd_other _ _ hxa]
    exact ⟨rfl, rfl⟩
  have horig : ∀ g1 ∈ s.sigs, ∀ x,
      x ∈ Function.update R g ((R g).map fun x => if x = b then a else x) g1 →
      x ≠ b ∧ ((x = a ∧ g1 = g) ∨ (x ≠ a ∧ x ∈ R g1)) := by
    intro g1 hg1 x hx
    by_cases e : g1 = g
    · rw [e, hRg] at hx
      have hxb : x ≠ b := by
        intro e1
        rw [e1] at hx
        rcases List.mem_append.1 hx with hm | hm
        · exact (List.nodup_append.1 hnd).2.2 hm (List.mem_cons_self _ _)
        · rcases List.mem_cons.1 hm with e2 | hm2
          · exact hab e2.symm
          · exact (List.nodup_cons.1 (List.nodup_append.1 hnd).2.1).1 hm2
      refine ⟨hxb, ?_⟩
      by_cases hxa : x = a
      · exact Or.inl ⟨hxa, e⟩
      · refine Or.inr ⟨hxa, ?_⟩
        rw [e, hsplit]
        simp only [List.mem_append, List.mem_cons] at hx ⊢
        tauto
    · rw [hRo g1 e] at hx
      refine ⟨?_, Or.inr ⟨hna g1 hg1 x (List.mem_cons_of_mem _ hx), hx⟩⟩
      intro e1
      exact h.disjoint hg hg1 (Ne.symm e) (List.mem_cons_of_mem _ hbm)
        (List.mem_cons_of_mem _ (e1 ▸ hx))
  have hwf : WF F (relocated s a b (T g))
      (Function.update R g ((R g).map fun x => if x = b then a else x)) T := by
    refine ⟨h.sigs_nodup, h.sigs_live, h.bound, ?_, ?_, ?_, ?_, ?_, ?_, ?_, ?_, ?_⟩
    · intro g1 hg1
      by_cases e : g1 = g
      · rw [e, hRg]
        exact hring'
      · rw [hRo g1 e]
        refine (h.ring g1 hg1).frame (fun x hx => (hframe x ?_ ?_).1)
          (fun x hx => (hframe x ?_ ?_).2)
        · exact fun hx' => h.disjoint hg hg1 (Ne.symm e) hx' hx
        · exact hna g1 hg1 x hx
        · exact fun hx' => h.disjoint hg hg1 (Ne.symm e) hx' hx
        · exact hna g1 hg1 x hx
    · intro g1 hg1 x hx
      obtain ⟨hxb, hor⟩ := horig g1 hg1 x hx
      rcases hor with ⟨hxa, e⟩ | ⟨hxa, hxm⟩
      · rw [hxa, e, hcsig, upd_other _ _ hab, upd_same]
        exact ⟨ha, rfl⟩
      · rw [hcsig, upd_other _ _ hxb, upd_other _ _ hxa]
        exact h.mem g1 hg1 x hxm
    · intro c1 g1 hc1 hcs1
      rw [hcsig] at hcs1
      by_cases e1 : c1 = b
      · rw [e1, upd_same] at hcs1
        cases hcs1
      · rw [upd_other _ _ e1] at hcs1
        by_cases e2 : c1 = a
        · rw [e2, upd_same] at hcs1
          have e3 : g = g1 := Option.some.inj hcs1
          rw [← e3, hRg, e2]
          exact ⟨hg, by simp⟩
        · rw [upd_other _ _ e2] at hcs1
          obtain ⟨h1, h2⟩ := h.att c1 g1 hc1 hcs1
          refine ⟨h1, ?_⟩
          by_cases e : g1 = g
          · rw [e, hRg]
            rw [e, hsplit] at h2
            simp only [List.mem_append, List.mem_cons] at h2 ⊢
            tauto
          · rw [hRo g1 e]
            exact h2
    · intro c1 hc1 hcs1
      rw [hcsig] at hcs1
      by_cases e1 : c1 = b
      · rw [e1, relocated_next (T g) hring hab, relocated_prev (T g) hab hbp, upd_same,
          upd_same]
        exact ⟨rfl, rfl⟩
      · rw [upd_other _ _ e1] at hcs1
        have e2 : c1 ≠ a := by
          intro e2
          rw [e2, upd_same] at hcs1
          cases hcs1
        rw [upd_other _ _ e2] at hcs1
        have := hframe c1 (h.detached_not_mem hg hc1 hcs1) e2
        rw [this.1, this.2]
        exact h.det c1 hc1 hcs1
    · intro g1 hg1
      exact @Stack.of_tnext_eq s (relocated s a b (T g)) rfl _ _ (h.stack g1 hg1)
    · intro g1 hg1 t ht
      obtain ⟨h1, h2, h3⟩ := h.tok g1 hg1 t ht
      refine ⟨h1, h2, ?_⟩
      rw [htit]
      by_cases e : g1 = g
      · rw [e] at ht h3 ⊢
        rw [hRg]
        by_cases hit : s.tit t = b
        · simp only [ht, hit, and_self, if_true]
          simp
        · simp only [hit, and_false, if_false]
          rw [hsplit] at h3
          simp only [List.mem_cons, List.mem_append] at h3 ⊢
          tauto
      · have htn : t ∉ T g := fun hm => e (h.token_unique hg1 hg ht hm)
        simp only [htn, false_and, if_false]
        rw [hRo g1 e]
        exact h3
    · intro g1 hg1 x hx
      obtain ⟨_, hor⟩ := horig g1 hg1 x hx
      rw [hident]
      rcases hor with ⟨hxa, _⟩ | ⟨hxa, hxm⟩
      · rw [hxa, upd_same]
        exact h.id_lt g hg b hbm
      · rw [upd_other _ _ hxa]
        exact h.id_lt g1 hg1 x hxm
    · intro g1 hg1 g2 hg2 x hx y hy hid
      obtain ⟨hxb, horx⟩ := horig g1 hg1 x hx
      obtain ⟨hyb, hory⟩ := horig g2 hg2 y hy
      rw [hident] at hid
      rcases horx with ⟨hxa, _⟩ | ⟨hxa, hxm⟩
      · rcases hory with ⟨hya, _⟩ | ⟨hya, hym⟩
        · rw [hxa, hya]
        · exfalso
          rw [hxa, upd_same, upd_other _ _ hya] at hid
          exact hyb (h.id_inj g hg g2 hg2 b hbm y hym hid).symm
      · rcases hory with ⟨hya, _⟩ | ⟨hya, hym⟩
        · exfalso
          rw [hya, upd_same, upd_other _ _ hxa] at hid
          exact hxb (h.id_inj g1 hg1 g hg x hxm b hbm hid)
        · rw [upd_other _ _ hxa, upd_other _ _ hya] at hid
          exact h.id_inj g1 hg1 g2 hg2 x hxm y hym hid
    · intro hF g1 hg1 x hx
      obtain ⟨hxb, hor⟩ := horig g1 hg1 x hx
      rw [hslot, upd_other _ _ hxb]
      rcases hor with ⟨hxa, _⟩ | ⟨hxa, hxm⟩
      · rw [hxa, upd_same]
        exact h.full hF g hg b hbm
      · rw [upd_other _ _ hxa]
        exact h.full hF g1 hg1 x hxm
  refine ⟨hwf, rfl, ⟨[], (List.append_nil _).symm, by simp⟩, Nat.le_refl _,
    fun _ hg1 => hg1, fun _ _ ht => ht, fun g1 hg1 hng => absurd hg1 hng, ?_⟩
  intro g0 t0 pre post hg0 ht0 _ htr _
  obtain ⟨hR, hpos⟩ := htr
  by_cases e : g0 = g
  · have hgb : g ≠ b := fun e1 => hb.2.1 (e1 ▸ hg)
    have hidm : ∀ x ∈ pre ++ post,
        (relocated s a b (T g)).ident (if x = b then a else x) = s.ident x := by
      intro x hx
      rw [hident]
      by_cases hxb : x = b
      · rw [if_pos hxb, upd_same, hxb]
      · rw [if_neg hxb, upd_other _ _ (hna g0 hg0 x (List.mem_cons_of_mem _ (hR ▸ hx)))]
    refine ⟨pre.map (fun x => if x = b then a else x),
      post.map (fun x => if x = b then a else x), ⟨?_, ?_⟩, ?_, ?_⟩
    · rw [e, Function.update_same, ← e, hR, List.map_append]
    · rw [htit]
      rw [e] at ht0 hpos
      have e1 := getLastD_map (fun x => if x = b then a else x) pre g
      simp only [hgb, if_false] at e1
      rw [e, e1, ← hpos]
      by_cases hit : s.tit t0 = b
      · simp only [ht0, hit, and_self, if_true]
      · simp only [hit, and_false, if_false]
    · have e1 : (post.map fun x => if x = b then a else x).map (relocated s a b (T g)).ident =
          post.map s.ident := by
        rw [List.map_map]
        exact List.map_congr_left (fun x hx => hidm x (List.mem_append_right _ hx))
      rw [e1]
    · intro x hx _
      obtain ⟨y, hy, hxy⟩ := List.mem_map.1 hx
      refine ⟨y, hy, ?_⟩
      rw [← hxy, hidm y (List.mem_append_left _ hy)]
  · have htn : t0 ∉ T g := fun hm => e (h.token_unique hg0 hg ht0 hm)
    refine ⟨pre, post, ⟨by rw [hRo g0 e]; exact hR, ?_⟩, Moves.rfl_of_agree (fun x hx => ?_)⟩
    · rw [htit]
      simp only [htn, false_and, if_false]
      exact hpos
    · rw [hident, upd_other _ _ (hna g0 hg0 x (List.mem_cons_of_mem _ (hR ▸ hx)))]

/-- The destructor of a live signal keeps the memory of the other signals well formed; the
tokens of the destroyed signal are null. -/
theorem destroyed_kept {F : Prop} {start : List Nat} {ex : Option Nat} {s : State}
    {R T : Nat → List Nat} {g : Nat} (h : WF F s R T) (hg : g ∈ s.sigs) :
    Kept F start ex s (destroyed s g (R g) (T g)) R T R := by
  have hsigs : (destroyed s g (R g) (T g)).sigs = s.sigs.erase g := rfl
  have hfreed : (destroyed s g (R g) (T g)).freed = g :: s.freed := rfl
  have hmem : ∀ g1, g1 ∈ s.sigs.erase g ↔ g1 ≠ g ∧ g1 ∈ s.sigs := fun g1 =>
    h.sigs_nodup.mem_erase_iff
  have hnext : ∀ a, a ∉ g :: R g → (destroyed s g (R g) (T g)).next a = s.next a := by
    intro a ha
    show (if a ∈ g :: R g then a else s.next a) = s.next a
    rw [if_neg ha]
  have hprev : ∀ a, a ∉ g :: R g → (destroyed s g (R g) (T g)).prev a = s.prev a := by
    intro a ha
    show (if a ∈ g :: R g then a else s.prev a) = s.prev a
    rw [if_neg ha]
  have hcsig : ∀ a, (destroyed s g (R g) (T g)).csig a =
      if a ∈ R g then none else s.csig a := fun _ => rfl
  have htsig : ∀ t, (destroyed s g (R g) (T g)).tsig t =
      if t ∈ T g then none else s.tsig t := fun _ => rfl
  have htit : ∀ t, t ∉ T g → (destroyed s g (R g) (T g)).tit t = s.tit t := by
    intro t ht
    show (if t ∈ T g ∧ s.tit t ∈ R g then g else s.tit t) = s.tit t
    rw [if_neg (fun hc => ht hc.1)]
  have hconn : ∀ c, IsConn (destroyed s g (R g) (T g)) c → IsConn s c ∧ c ≠ g := by
    intro c hc
    have hcg : c ≠ g := fun e => hc.2.2 (by rw [hfreed, e]; exact List.mem_cons_self _ _)
    refine ⟨⟨hc.1, ?_, ?_⟩, hcg⟩
    · intro hm
      exact hc.2.1 (by rw [hsigs]; exact (hmem c).2 ⟨hcg, hm⟩)
    · intro hm
      exact hc.2.2 (by rw [hfreed]; exact List.mem_cons_of_mem _ hm)
  have hwf : WF F (destroyed s g (R g) (T g)) R T := by
    refine ⟨h.sigs_nodup.erase g, ?_, ?_, ?_, ?_, ?_, ?_, ?_, ?_, ?_, ?_, ?_⟩
    · intro g1 hg1
      rw [hsigs] at hg1
      obtain ⟨hne, hm⟩ := (hmem g1).1 hg1
      rw [hfreed]
      intro hc
      rcases List.mem_cons.1 hc with e | hm'
      · exact hne e
      · exact h.sigs_live g1 hm hm'
    · intro a ha
      rw [hsigs, hfreed] at ha
      show a < s.alloc
      rcases List.mem_append.1 ha with hm | hm
      · exact h.bound a (List.mem_append_left _ ((hmem a).1 hm).2)
      · rcases List.mem_cons.1 hm with e | hm'
        · rw [e]
          exact h.bound g (List.mem_append_left _ hg)
        · exact h.bound a (List.mem_append_right _ hm')
    · intro g1 hg1
      rw [hsigs] at hg1
      obtain ⟨hne, hm⟩ := (hmem g1).1 hg1
      exact (h.ring g1 hm).frame
        (fun a ha => hnext a (fun ha' => h.disjoint hg hm (Ne.symm hne) ha' ha))
        (fun a ha => hprev a (fun ha' => h.disjoint hg hm (Ne.symm hne) ha' ha))
    · intro g1 hg1 x hx
      rw [hsigs] at hg1
      obtain ⟨hne, hm⟩ := (hmem g1).1 hg1
      have hxg : x ∉ g :: R g := fun hx' =>
        h.disjoint hg hm (Ne.symm hne) hx' (List.mem_cons_of_mem _ hx)
      obtain ⟨hc, hcs⟩ := h.mem g1 hm x hx
      refine ⟨⟨hc.1, ?_, ?_⟩, ?_⟩
      · rw [hsigs]
        exact fun hm' => hc.2.1 ((hmem x).1 hm').2
      · rw [hfreed]
        intro hc'
        rcases List.mem_cons.1 hc' with e | hm'
        · exact hxg (e ▸ List.mem_cons_self _ _)
        · exact hc.2.2 hm'
      · rw [hcsig, if_neg (fun hm' => hxg (List.mem_cons_of_mem _ hm'))]
        exact hcs
    · intro c1 g1 hc1 hcs1
      obtain ⟨hc, _⟩ := hconn c1 hc1
      rw [hcsig] at hcs1
      by_cases hm : c1 ∈ R g
      · rw [if_pos hm] at hcs1
        cases hcs1
      · rw [if_neg hm] at hcs1
        obtain ⟨h1, h2⟩ := h.att c1 g1 hc hcs1
        refine ⟨?_, h2⟩
        rw [hsigs]
        exact (hmem g1).2 ⟨fun e => hm (e ▸ h2), h1⟩
    · intro c1 hc1 hcs1
      obtain ⟨hc, hcg⟩ := hconn c1 hc1
      rw [hcsig] at hcs1
      by_cases hm : c1 ∈ R g
      · constructor
        · show (if c1 ∈ g :: R g then c1 else s.next c1) = c1
          rw [if_pos (List.mem_cons_of_mem _ hm)]
        · show (if c1 ∈ g :: R g then c1 else s.prev c1) = c1
          rw [if_pos (List.mem_cons_of_mem _ hm)]
      · rw [if_neg hm] at hcs1
        have hn : c1 ∉ g :: R g := by
          intro hc'
          rcases List.mem_cons.1 hc' with e | hm'
          · exact hcg e
          · exact hm hm'
        rw [hnext c1 hn, hprev c1 hn]
        exact h.det c1 hc hcs1
    · intro g1 hg1
      rw [hsigs] at hg1
      obtain ⟨_, hm⟩ := (hmem g1).1 hg1
      exact @Stack.of_tnext_eq s (destroyed s g (R g) (T g)) rfl _ _ (h.stack g1 hm)
    · intro g1 hg1 t ht
      rw [hsigs] at hg1
      obtain ⟨hne, hm⟩ := (hmem g1).1 hg1
      have htn : t ∉ T g := fun hm' => hne (h.token_unique hm hg ht hm')
      rw [htsig, if_neg htn, htit t htn]
      exact h.tok g1 hm t ht
    · intro g1 hg1 x hx
      rw [hsigs] at hg1
      exact h.id_lt g1 ((hmem g1).1 hg1).2 x hx
    · intro g1 hg1 g2 hg2 x hx y hy hid
      rw [hsigs] at hg1 hg2
      exact h.id_inj g1 ((hmem g1).1 hg1).2 g2 ((hmem g2).1 hg2).2 x hx y hy hid
    · intro hF g1 hg1 x hx
      rw [hsigs] at hg1
      exact h.full hF g1 ((hmem g1).1 hg1).2 x hx
  refine ⟨hwf, rfl, ⟨[], (List.append_nil _).symm, by simp⟩, Nat.le_refl _, ?_, ?_, ?_, ?_⟩
  · intro g1 hg1
    rw [hsigs] at hg1
    exact ((hmem g1).1 hg1).2
  · intro t _ ht
    rw [htsig, ht]
    simp
  · intro g1 hg1 hng t ht
    have e : g1 = g := by
      by_contra hne
      exact hng (by rw [hsigs]; exact (hmem g1).2 ⟨hne, hg1⟩)
    rw [htsig, if_pos (e ▸ ht)]
  · intro g0 t0 pre post hg0 ht0 _ htr _
    rw [hsigs] at hg0
    obtain ⟨hne, hm⟩ := (hmem g0).1 hg0
    have htn : t0 ∉ T g := fun hm' => hne (h.token_unique hm hg ht0 hm')
    exact ⟨pre, post, ⟨htr.1, by rw [htit t0 htn]; exact htr.2⟩,
      Moves.rfl_of_agree (fun _ _ => rfl)⟩

theorem signal_dtor_kept {F : Prop} {start : List Nat} {ex : Option Nat} {s s' : State}
    {R T : Nat → List Nat} {g n : Nat} (h : WF F s R T) (hg : g ∈ s.sigs)
    (hd : signal_dtor n s g = some s') : ∃ R', Kept F start ex s s' R T R' := by
  have h1 : signal_dtor (max n ((R g).length + (T g).length)) s g =
      some (destroyed s g (R g) (T g)) :=
    signal_dtor_eq (h.ring g hg) (fun x hx => (h.mem g hg x hx).2) (h.stack g hg)
      (fun t ht => by rw [(h.tok g hg t ht).1]; simp) (le_max_right _ _)
  have h2 := signal_dtor_mono (le_max_left n ((R g).length + (T g).length)) hd
  rw [h1] at h2
  cases h2
  exact ⟨R, destroyed_kept h hg⟩

theorem disconnect_cases {F : Prop} {s s' : State} {R T : Nat → List Nat} {c n : Nat}
    (h : WF F s R T) (hc : IsConn s c) (hd : disconnect n s c = some s') :
    (s.csig c = none ∧ s' = s) ∨ ∃ g, s.csig c = some g ∧ s' = disconnected s c (T g) := by
  cases hcs : s.csig c with
  | none =>
    rw [disconnect_null hcs] at hd
    cases hd
    exact Or.inl ⟨rfl, rfl⟩
  | some g =>
    obtain ⟨hg, _⟩ := h.att c g hc hcs
    have h1 : disconnect (max n (T g).length) s c = some (disconnected s c (T g)) :=
      disconnect_eq hcs (h.stack g hg)
        (fun t ht => by rw [(h.tok g hg t ht).1]; simp) (le_max_right _ _)
    have h2 := disconnect_mono (le_max_left n (T g).length) hd
    rw [h1] at h2
    cases h2
    exact Or.inr ⟨g, rfl, rfl⟩

/-- The tail of the move constructor and of move assignment, `replace(other)` after the
fields were taken over, keeps memory well formed. -/
theorem replace_kept {F : Prop} {start : List Nat} {ex : Option Nat} {s s' : State}
    {R T : Nat → List Nat} {a b n : Nat} (h : WF F s R T) (ha : IsConn s a)
    (has : s.csig a = none) (hb : IsConn s b) (hab : a ≠ b)
    (hd : replace n (transferred s a b) a b = some s') :
    ∃ R', Kept F start ex s s' R T R' := by
  have hca : (transferred s a b).csig a = s.csig b := upd_same _ _ _
  cases hbs : s.csig b with
  | none =>
    simp only [replace, hca, hbs] at hd
    cases hd
    exact ⟨R, transferred_kept h ha has hb hbs⟩
  | some g =>
    simp only [replace, hca, hbs] at hd
    obtain ⟨hg, _⟩ := h.att b g hb hbs
    have hcb : (insert (transferred s a b) b a).csig b = some g := by
      show upd s.csig a (s.csig b) b = some g
      rw [upd_other _ _ (Ne.symm hab)]
      exact hbs
    have hst : Stack (insert (transferred s a b) b a)
        ((insert (transferred s a b) b a).top_token g) (T g) :=
      @Stack.of_tnext_eq s (insert (transferred s a b) b a) rfl _ _ (h.stack g hg)
    have h1 : disconnect (max n (T g).length) (insert (transferred s a b) b a) b =
        some (relocated s a b (T g)) :=
      disconnect_eq hcb hst
        (fun t ht => by
          show s.tsig t ≠ none
          rw [(h.tok g hg t ht).1]
          simp) (le_max_right _ _)
    have h2 := disconnect_mono (le_max_left n (T g).length) hd
    rw [h1] at h2
    cases h2
    exact ⟨_, relocated_kept h ha has hb hbs⟩

theorem move_assign_kept {F : Prop} {start : List Nat} {ex : Option Nat} {s s' : State}
    {R T : Nat → List Nat} {a b n : Nat} (h : WF F s R T) (ha : IsConn s a)
    (hb : IsConn s b) (hd : connection_move_assign n s a b = some s') :
    ∃ R', Kept F start ex s s' R T R' := by
  unfold connection_move_assign at hd
  by_cases hab : a = b
  · simp only [hab, if_true] at hd
    cases hd
    exact ⟨R, Kept.refl h⟩
  · simp only [hab, if_false, Option.bind_eq_some] at hd
    obtain ⟨s1, hd1, hd2⟩ := hd
    have hd2' : replace n (transferred s1 a b) a b = some s' := hd2
    rcases disconnect_cases h ha hd1 with ⟨hcs, e⟩ | ⟨g, hcs, e⟩
    · rw [e] at hd2'
      exact replace_kept h ha hcs hb hab hd2'
    · have hk : Kept F start ex s s1 R T _ := e ▸ disconnected_kept h ha hcs
      have ha1 : IsConn s1 a := by rw [e]; exact ha
      have hb1 : IsConn s1 b := by rw [e]; exact hb
      have has1 : s1.csig a = none := by
        rw [e]
        exact upd_same _ _ _
      obtain ⟨R2, hk2⟩ := @replace_kept F start ex s1 s' _ T a b n hk.wf ha1 has1 hb1 hab hd2'
      exact ⟨R2, Kept.trans h hk hk2⟩

/-- A new, unlinked connection object keeps memory well formed. -/
theorem allocated_kept {F : Prop} {start : List Nat} {ex : Option Nat} {s : State}
    {R T : Nat → List Nat} (h : WF F s R T) :
    Kept F start ex s
      { list_element_ctor { s with alloc := s.alloc + 1 } s.alloc with
        csig := upd s.csig s.alloc none } R T R := by
  have hlt : ∀ g1 ∈ s.sigs, ∀ a ∈ g1 :: R g1, a ≠ s.alloc := fun g1 hg1 a ha =>
    Nat.ne_of_lt (h.lt_alloc hg1 ha)
  have hconn : ∀ x, IsConn s x → IsConn
      { list_element_ctor { s with alloc := s.alloc + 1 } s.alloc with
        csig := upd s.csig s.alloc none } x :=
    fun x hx => ⟨Nat.lt_succ_of_lt hx.1, hx.2.1, hx.2.2⟩
  have hconn' : ∀ x, IsConn
      { list_element_ctor { s with alloc := s.alloc + 1 } s.alloc with
        csig := upd s.csig s.alloc none } x → x ≠ s.alloc → IsConn s x :=
    fun x hx hne => ⟨Nat.lt_of_le_of_ne (Nat.le_of_lt_succ hx.1) hne, hx.2.1, hx.2.2⟩
  have hwf : WF F
      { list_element_ctor { s with alloc := s.alloc + 1 } s.alloc with
        csig := upd s.csig s.alloc none } R T := by
    refine ⟨h.sigs_nodup, h.sigs_live, ?_, ?_, ?_, ?_, ?_, ?_, h.tok, ?_, h.id_inj, h.full⟩
    · intro a ha
      exact Nat.lt_succ_of_lt (h.bound a ha)
    · intro g1 hg1
      exact (h.ring g1 hg1).frame (fun a ha => upd_other _ _ (hlt g1 hg1 a ha))
        (fun a ha => upd_other _ _ (hlt g1 hg1 a ha))
    · intro g1 hg1 x hx
      refine ⟨hconn x (h.mem g1 hg1 x hx).1, ?_⟩
      show upd s.csig s.alloc none x = some g1
      rw [upd_other _ _ (hlt g1 hg1 x (List.mem_cons_of_mem _ hx))]
      exact (h.mem g1 hg1 x hx).2
    · intro c1 g1 hc1 hcs1
      have hcs1' : upd s.csig s.alloc none c1 = some g1 := hcs1
      by_cases e : c1 = s.alloc
      · rw [e, upd_same] at hcs1'
        cases hcs1'
      · rw [upd_other _ _ e] at hcs1'
        exact h.att c1 g1 (hconn' c1 hc1 e) hcs1'
    · intro c1 hc1 hcs1
      have hcs1' : upd s.csig s.alloc none c1 = none := hcs1
      show upd s.next s.alloc s.alloc c1 = c1 ∧ upd s.prev s.alloc s.alloc c1 = c1
      by_cases e : c1 = s.alloc
      · rw [e, upd_same, upd_same]
        exact ⟨rfl, rfl⟩
      · rw [upd_other _ _ e] at hcs1'
        rw [upd_other _ _ e, upd_other _ _ e]
        exact h.det c1 (hconn' c1 hc1 e) hcs1'
    · intro g1 hg1
      exact (h.stack g1 hg1).keep rfl
    · intro g1 hg1 x hx
      exact Nat.lt_succ_of_lt (h.id_lt g1 hg1 x hx)
  exact ⟨hwf, rfl, ⟨[], (List.append_nil _).symm, by simp⟩, Nat.le_succ _,
    fun _ hg1 => hg1, fun _ _ ht => ht, fun g1 hg1 hng => absurd hg1 hng,
    fun g0 t0 pre post _ _ _ htr _ => ⟨pre, post, htr, Moves.rfl_of_agree (fun _ _ => rfl)⟩⟩

theorem move_ctor_kept {F : Prop} {start : List Nat} {ex : Option Nat} {s s' : State}
    {R T : Nat → List Nat} {b n : Nat} (h : WF F s R T) (hb : IsConn s b)
    (hd : connection_move_ctor n s b = some s') : ∃ R', Kept F start ex s s' R T R' := by
  have hk := @allocated_kept F start ex s R T h
  have hba : s.alloc ≠ b := (Nat.ne_of_lt hb.1).symm
  have e : transferred
      { list_element_ctor { s with alloc := s.alloc + 1 } s.alloc with
        csig := upd s.csig s.alloc none } s.alloc b =
      transferred (list_element_ctor { s with alloc := s.alloc + 1 } s.alloc) s.alloc b := by
    unfold transferred
    congr 1
    show upd (upd s.csig s.alloc none) s.alloc (upd s.csig s.alloc none b) =
      upd s.csig s.alloc (s.csig b)
    rw [upd_upd_same, upd_other _ _ (Ne.symm hba)]
  have hd' : replace n (transferred
      { list_element_ctor { s with alloc := s.alloc + 1 } s.alloc with
        csig := upd s.csig s.alloc none } s.alloc b) s.alloc b = some s' := by
    rw [e]
    exact hd
  have ha1 : IsConn
      { list_element_ctor { s with alloc := s.alloc + 1 } s.alloc with
        csig := upd s.csig s.alloc none } s.alloc :=
    ⟨Nat.lt_succ_self _,
      fun hm => Nat.lt_irrefl _ (h.bound _ (List.mem_append_left _ hm)),
      fun hm => Nat.lt_irrefl _ (h.bound _ (List.mem_append_right _ hm))⟩
  have hb1 : IsConn
      { list_element_ctor { s with alloc := s.alloc + 1 } s.alloc with
        csig := upd s.csig s.alloc none } b := ⟨Nat.lt_succ_of_lt hb.1, hb.2.1, hb.2.2⟩
  obtain ⟨R2, hk2⟩ := @replace_kept F start ex _ s' R T s.alloc b n hk.wf ha1
    (upd_same _ _ _) hb1 hba hd'
  exact ⟨R2, Kept.trans h hk hk2⟩

/-- Recording an unlinked connection object as destroyed keeps memory well formed. -/
theorem freed_kept {F : Prop} {start : List Nat} {ex : Option Nat} {s : State}
    {R T : Nat → List Nat} {c : Nat} (h : WF F s R T) (hc : IsConn s c)
    (hcs : s.csig c = none) :
    Kept F start ex s { s with freed := c :: s.freed } R T R := by
  have hnc : ∀ g1 ∈ s.sigs, ∀ x ∈ g1 :: R g1, x ≠ c := fun g1 hg1 x hx e =>
    h.detached_not_mem hg1 hc hcs (e ▸ hx)
  have hconn' : ∀ x, IsConn { s with freed := c :: s.freed } x → IsConn s x :=
    fun x hx => ⟨hx.1, hx.2.1, fun hm => hx.2.2 (List.mem_cons_of_mem _ hm)⟩
  have hwf : WF F { s with freed := c :: s.freed } R T := by
    refine ⟨h.sigs_nodup, ?_, ?_, fun g1 hg1 => (h.ring g1 hg1).of_eq rfl rfl, ?_, ?_, ?_,
      ?_, h.tok, h.id_lt, h.id_inj, h.full⟩
    · intro g1 hg1 hm
      rcases List.mem_cons.1 hm with e | hm'
      · exact hnc g1 hg1 g1 (List.mem_cons_self _ _) e
      · exact h.sigs_live g1 hg1 hm'
    · intro a ha
      show a < s.alloc
      rcases List.mem_append.1 ha with hm | hm
      · exact h.bound a (List.mem_append_left _ hm)
      · rcases List.mem_cons.1 hm with e | hm'
        · rw [e]
          exact hc.1
        · exact h.bound a (List.mem_append_right _ hm')
    · intro g1 hg1 x hx
      obtain ⟨hx1, hx2⟩ := h.mem g1 hg1 x hx
      refine ⟨⟨hx1.1, hx1.2.1, ?_⟩, hx2⟩
      intro hm
      rcases List.mem_cons.1 hm with e | hm'
      · exact hnc g1 hg1 x (List.mem_cons_of_mem _ hx) e
      · exact hx1.2.2 hm'
    · intro c1 g1 hc1 hcs1
      exact h.att c1 g1 (hconn' c1 hc1) hcs1
    · intro c1 hc1 hcs1
      exact h.det c1 (hconn' c1 hc1) hcs1
    · intro g1 hg1
      exact (h.stack g1 hg1).keep rfl
  exact ⟨hwf, rfl, ⟨[], (List.append_nil _).symm, by simp⟩, Nat.le_refl _,
    fun _ hg1 => hg1, fun _ _ ht => ht, fun g1 hg1 hng => absurd hg1 hng,
    fun g0 t0 pre post _ _ _ htr _ => ⟨pre, post, htr, Moves.rfl_of_agree (fun _ _ => rfl)⟩⟩

theorem connection_dtor_kept {F : Prop} {start : List Nat} {ex : Option Nat} {s s' : State}
    {R T : Nat → List Nat} {c n : Nat} (h : WF F s R T) (hc : IsConn s c)
    (hd : connection_dtor n s c = some s') :
    ∃ R', Kept F start ex s { s' with freed := c :: s'.freed } R T R' := by
  have key : ∀ s1 : State, disconnect n s c = some s1 →
      ∃ R', Kept F start ex s { unlink s1 c with freed := c :: (unlink s1 c).freed } R T R' := by
    intro s1 hd1
    rcases disconnect_cases h hc hd1 with ⟨hcs, e⟩ | ⟨g, hcs, e⟩
    · rw [e]
      obtain ⟨hn, hp⟩ := h.det c hc hcs
      rw [unlink_self hn hp]
      exact ⟨R, freed_kept h hc hcs⟩
    · have hk : Kept F start ex s s1 R T _ := e ▸ disconnected_kept h hc hcs
      have hc1 : IsConn s1 c := by rw [e]; exact hc
      have hcs1 : s1.csig c = none := by
        rw [e]
        exact upd_same _ _ _
      obtain ⟨hn, hp⟩ := hk.wf.det c hc1 hcs1
      rw [unlink_self hn hp]
      exact ⟨_, Kept.trans h hk (freed_kept hk.wf hc1 hcs1)⟩
  unfold connection_dtor at hd
  cases hcs : s.csig c with
  | none =>
    simp only [hcs, Option.map_some', Option.some.injEq] at hd
    rw [← hd]
    exact key s (disconnect_null hcs)
  | some g =>
    simp only [hcs, Option.map_eq_some'] at hd
    obtain ⟨s1, hd1, e⟩ := hd
    rw [← e]
    exact key s1 hd1

/-- Every action of a callable other than an emission keeps memory well formed and the
positions of the suspended emissions. -/
theorem act_kept {F : Prop} {start : List Nat} {ex : Option Nat} {s s' : State}
    {R T : Nat → List Nat} {a : Action} {n : Nat} (h : WF F s R T)
    (hd : act n s a = some s') : ∃ R', Kept F start ex s s' R T R' := by
  cases a with
  | connect g f =>
    simp only [act] at hd
    by_cases hg : g ∈ s.sigs
    · simp only [hg, if_true, Option.some.injEq] at hd
      rw [← hd]
      exact ⟨_, connect_kept f h hg⟩
    · simp [hg] at hd
  | disconnect c =>
    simp only [act] at hd
    by_cases hc : IsConn s c
    · simp only [hc, if_true] at hd
      exact disconnect_kept h hc hd
    · simp [hc] at hd
  | move_construct o =>
    simp only [act] at hd
    by_cases hc : IsConn s o
    · simp only [hc, if_true] at hd
      exact move_ctor_kept h hc hd
    · simp [hc] at hd
  | move_assign c o =>
    simp only [act] at hd
    by_cases hc : IsConn s c ∧ IsConn s o
    · simp only [hc, and_self, if_true] at hd
      exact move_assign_kept h hc.1 hc.2 hd
    · simp only [hc, if_false] at hd
      cases hd
  | destroy_connection c =>
    simp only [act] at hd
    by_cases hc : IsConn s c
    · simp only [hc, if_true, Option.map_eq_some'] at hd
      obtain ⟨s1, hd1, e⟩ := hd
      rw [← e]
      exact connection_dtor_kept h hc hd1
    · simp [hc] at hd
  | emit g => simp [act] at hd
  | destroy_signal g =>
    simp only [act] at hd
    by_cases hg : g ∈ s.sigs
    · simp only [hg, if_true] at hd
      exact signal_dtor_kept h hg hd
    · simp [hg] at hd

theorem advance_eq (s : State) (t : Nat) :
    ∃ st, advance s t = { s with tit := upd s.tit t (s.next (s.tit t)), stale := st } := by
  unfold advance touch
  split
  · exact ⟨_, rfl⟩
  · exact ⟨_, rfl⟩

/-- Logging a call of the emission `t` keeps memory well formed. -/
theorem record_kept {F : Prop} {start : List Nat} {s : State} {R T : Nat → List Nat}
    (t f : Nat) (h : WF F s R T) : Kept F start (some t) s (record s t f) R T R where
  wf := ⟨h.sigs_nodup, h.sigs_live, h.bound, fun g1 hg1 => (h.ring g1 hg1).of_eq rfl rfl,
    h.mem, h.att, h.det, fun g1 hg1 => (h.stack g1 hg1).keep rfl, h.tok, h.id_lt, h.id_inj,
    h.full⟩
  depth := rfl
  log := ⟨[⟨t, s.ident (s.tit t), f⟩], rfl, by simp⟩
  alloc := Nat.le_refl _
  sigs := fun _ hg => hg
  tsig_none := fun _ _ ht => ht
  dead := fun g hg hng => absurd hg hng
  track := fun _ _ pre post _ _ _ htr _ =>
    ⟨pre, post, htr, Moves.rfl_of_agree (fun _ _ => rfl)⟩

/-- The statement `token.it++` keeps memory well formed; it moves the emission `t` only. -/
theorem advance_kept {F : Prop} {start : List Nat} {s : State} {R T : Nat → List Nat}
    (t : Nat) (h : WF F s R T) : Kept F start (some t) s (advance s t) R T R := by
  obtain ⟨st, e⟩ := advance_eq s t
  rw [e]
  refine ⟨⟨h.sigs_nodup, h.sigs_live, h.bound, fun g1 hg1 => (h.ring g1 hg1).of_eq rfl rfl,
    h.mem, h.att, h.det, fun g1 hg1 => (h.stack g1 hg1).keep rfl, ?_, h.id_lt, h.id_inj,
    h.full⟩, rfl, ⟨[], (List.append_nil _).symm, by simp⟩, Nat.le_refl _, fun _ hg => hg,
    fun _ _ ht => ht, fun g hg hng => absurd hg hng, ?_⟩
  · intro g1 hg1 t1 ht1
    obtain ⟨h1, h2, h3⟩ := h.tok g1 hg1 t1 ht1
    refine ⟨h1, h2, ?_⟩
    show upd s.tit t (s.next (s.tit t)) t1 ∈ g1 :: R g1
    by_cases e1 : t1 = t
    · rw [e1, upd_same]
      rw [e1] at h3
      exact (h.ring g1 hg1).next_mem_ring h3
    · rw [upd_other _ _ e1]
      exact h3
  · intro g0 t0 pre post _ _ hex htr _
    have hne : t0 ≠ t := fun e1 => hex (by rw [e1])
    refine ⟨pre, post, ⟨htr.1, ?_⟩, Moves.rfl_of_agree (fun _ _ => rfl)⟩
    show upd s.tit t (s.next (s.tit t)) t0 = _
    rw [upd_other _ _ hne]
    exact htr.2

/-- Entering an emission on a live signal keeps memory well formed, with the new token on
top of the stack of the signal. -/
theorem token_ctor_wf {F : Prop} {s : State} {R T : Nat → List Nat} {g : Nat}
    (h : WF F s R T) (hg : g ∈ s.sigs) :
    WF F (token_ctor s g) R (Function.update T g (s.depth :: T g)) := by
  have hTg : Function.update T g (s.depth :: T g) g = s.depth :: T g :=
    Function.update_same _ _ _
  have hTo : ∀ g1, g1 ≠ g → Function.update T g (s.depth :: T g) g1 = T g1 :=
    fun g1 hne => Function.update_noteq hne _ _
  have hlt : ∀ g1 ∈ s.sigs, ∀ t ∈ T g1, t ≠ s.depth := fun g1 hg1 t ht =>
    Nat.ne_of_lt (h.tok g1 hg1 t ht).2.1
  refine ⟨h.sigs_nodup, h.sigs_live, h.bound, fun g1 hg1 => (h.ring g1 hg1).of_eq rfl rfl,
    h.mem, h.att, h.det, ?_, ?_, h.id_lt, h.id_inj, h.full⟩
  · intro g1 hg1
    by_cases e : g1 = g
    · rw [e, hTg]
      exact Stack.token_ctor (h.stack g hg) (fun u hu => (h.tok g hg u hu).2.1)
    · rw [hTo g1 e]
      have e1 : (Signals.token_ctor s g).top_token g1 = s.top_token g1 := upd_other _ _ e
      rw [e1]
      exact Stack.tnext_frame (h.stack g1 hg1) (fun u hu => upd_other _ _ (hlt g1 hg1 u hu))
  · intro g1 hg1 t ht
    have key : ∀ t1 ∈ T g1, (Signals.token_ctor s g).tsig t1 = some g1 ∧
        t1 < (Signals.token_ctor s g).depth ∧ (Signals.token_ctor s g).tit t1 ∈ g1 :: R g1 := by
      intro t1 ht1
      obtain ⟨h1, h2, h3⟩ := h.tok g1 hg1 t1 ht1
      have hne := hlt g1 hg1 t1 ht1
      refine ⟨?_, Nat.lt_succ_of_lt h2, ?_⟩
      · show upd s.tsig s.depth (some g) t1 = some g1
        rw [upd_other _ _ hne]
        exact h1
      · show upd s.tit s.depth (s.next g) t1 ∈ g1 :: R g1
        rw [upd_other _ _ hne]
        exact h3
    by_cases e : g1 = g
    · rw [e, hTg] at ht
      rcases List.mem_cons.1 ht with e1 | hm
      · rw [e1, e]
        refine ⟨upd_same _ _ _, Nat.lt_succ_self _, ?_⟩
        show upd s.tit s.depth (s.next g) s.depth ∈ g :: R g
        rw [upd_same]
        exact (h.ring g hg).next_mem_ring (List.mem_cons_self _ _)
      · exact key t (e ▸ hm)
    · rw [hTo g1 e] at ht
      exact key t ht

theorem token_dtor_cases (s : State) (t : Nat) :
    (s.tsig t = none ∧ token_dtor s t = { s with depth := s.depth - 1 }) ∨
    ∃ g, s.tsig t = some g ∧ token_dtor s t =
      { s with top_token := upd s.top_token g (s.tnext t), depth := s.depth - 1 } := by
  unfold token_dtor
  cases h : s.tsig t with
  | none => exact Or.inl ⟨rfl, rfl⟩
  | some g => exact Or.inr ⟨g, rfl, rfl⟩

theorem touch_eq (s : State) (a : Nat) : ∃ st, touch s a = { s with stale := st } := by
  unfold touch
  split
  · exact ⟨_, rfl⟩
  · exact ⟨_, rfl⟩

/-- A read by an emission loop keeps memory well formed. -/
theorem touch_kept {F : Prop} {start : List Nat} {ex : Option Nat} {s : State}
    {R T : Nat → List Nat} (a : Nat) (h : WF F s R T) :
    Kept F start ex s (touch s a) R T R := by
  obtain ⟨st, e⟩ := touch_eq s a
  rw [e]
  exact ⟨⟨h.sigs_nodup, h.sigs_live, h.bound, fun g1 hg1 => (h.ring g1 hg1).of_eq rfl rfl,
    h.mem, h.att, h.det, fun g1 hg1 => (h.stack g1 hg1).keep rfl, h.tok, h.id_lt, h.id_inj,
    h.full⟩, rfl, ⟨[], (List.append_nil _).symm, by simp⟩, Nat.le_refl _, fun _ hg => hg,
    fun _ _ ht => ht, fun g hg hng => absurd hg hng,
    fun _ _ pre post _ _ _ htr _ => ⟨pre, post, htr, Moves.rfl_of_agree (fun _ _ => rfl)⟩⟩

theorem mem_update_push {T : Nat → List Nat} {g g1 d t : Nat} (h : t ∈ T g1) :
    t ∈ Function.update T g (d :: T g) g1 := by
  by_cases e : g1 = g
  · rw [e, Function.update_same]
    exact List.mem_cons_of_mem _ (e ▸ h)
  · rw [Function.update_noteq e]
    exact h

/-- Leaving the newest frame pops its token and keeps memory well formed. -/
theorem token_dtor_wf {F : Prop} {s1 : State} {R1 T : Nat → List Nat} {g t : Nat}
    (h1 : WF F s1 R1 (Function.update T g (t :: T g))) (hd : s1.depth = t + 1)
    (hdead : g ∉ s1.sigs → s1.tsig t = none) : WF F (token_dtor s1 t) R1 T := by
  have hTg : Function.update T g (t :: T g) g = t :: T g := Function.update_same _ _ _
  have hTo : ∀ g1, g1 ≠ g → Function.update T g (t :: T g) g1 = T g1 :=
    fun g1 hne => Function.update_noteq hne _ _
  have htok : ∀ g1 ∈ s1.sigs, ∀ u ∈ T g1,
      s1.tsig u = some g1 ∧ u < s1.depth - 1 ∧ s1.tit u ∈ g1 :: R1 g1 := by
    intro g1 hg1 u hu
    obtain ⟨a, b, c⟩ := h1.tok g1 hg1 u (mem_update_push hu)
    refine ⟨a, ?_, c⟩
    have hne : u ≠ t := by
      intro e
      rw [e] at a hu
      by_cases hg : g ∈ s1.sigs
      · have a2 := (h1.tok g hg t (by rw [hTg]; exact List.mem_cons_self _ _)).1
        rw [a] at a2
        have e2 : g1 = g := Option.some.inj a2
        rw [e2] at hu
        have hnd := Stack.distinct (h1.stack g hg)
        rw [hTg] at hnd
        exact (List.nodup_cons.1 hnd).1 hu
      · rw [hdead hg] at a
        cases a
    omega
  rcases token_dtor_cases s1 t with ⟨hn, e⟩ | ⟨g2, hs, e⟩
  · rw [e]
    have hng : g ∉ s1.sigs := by
      intro hg
      have a2 := (h1.tok g hg t (by rw [hTg]; exact List.mem_cons_self _ _)).1
      rw [hn] at a2
      cases a2
    have hne : ∀ g1 ∈ s1.sigs, g1 ≠ g := fun g1 hg1 e1 => hng (e1 ▸ hg1)
    refine ⟨h1.sigs_nodup, h1.sigs_live, h1.bound,
      fun g1 hg1 => (h1.ring g1 hg1).of_eq rfl rfl, h1.mem, h1.att, h1.det, ?_, htok,
      h1.id_lt, h1.id_inj, h1.full⟩
    intro g1 hg1
    have := h1.stack g1 hg1
    rw [hTo g1 (hne g1 hg1)] at this
    exact this.keep rfl
  · rw [e]
    have hg : g ∈ s1.sigs := by
      by_contra hng
      rw [hdead hng] at hs
      cases hs
    have a2 := (h1.tok g hg t (by rw [hTg]; exact List.mem_cons_self _ _)).1
    rw [hs] at a2
    have e2 : g2 = g := Option.some.inj a2
    rw [e2]
    refine ⟨h1.sigs_nodup, h1.sigs_live, h1.bound,
      fun g1 hg1 => (h1.ring g1 hg1).of_eq rfl rfl, h1.mem, h1.att, h1.det, ?_, htok,
      h1.id_lt, h1.id_inj, h1.full⟩
    intro g1 hg1
    by_cases e1 : g1 = g
    · rw [e1]
      have hst := h1.stack g hg
      rw [hTg] at hst
      have e3 : upd s1.top_token g (s1.tnext t) g = s1.tnext t := upd_same _ _ _
      show Stack _ (upd s1.top_token g (s1.tnext t) g) (T g)
      rw [e3]
      exact hst.2.keep rfl
    · have hst := h1.stack g1 hg1
      rw [hTo g1 e1] at hst
      have e3 : upd s1.top_token g (s1.tnext t) g1 = s1.top_token g1 := upd_other _ _ e1
      show Stack _ (upd s1.top_token g (s1.tnext t) g1) (T g1)
      rw [e3]
      exact hst.keep rfl

/-- An emission keeps what its loop keeps: the token is pushed before the loop and popped
after it. -/
theorem emit_kept {F : Prop} {start : List Nat} {s s1 : State} {R T R1 : Nat → List Nat}
    {g : Nat} (h : WF F s R T) (hg : g ∈ s.sigs)
    (hk : Kept F start (some s.depth) (token_ctor s g) s1 R
      (Function.update T g (s.depth :: T g)) R1) :
    Kept F start none s (token_dtor s1 s.depth) R T R1 where
  wf := token_dtor_wf hk.wf hk.depth (fun hng => hk.dead g hg hng s.depth
    (by rw [Function.update_same]; exact List.mem_cons_self _ _))
  depth := by
    rw [token_dtor_depth, hk.depth]
    rfl
  log := by
    obtain ⟨ext, he, hb⟩ := hk.log
    refine ⟨ext, by rw [token_dtor_log, he]; rfl, fun e hm => ?_⟩
    rcases hb e hm with h1 | h1
    · exact Or.inl (Nat.le_of_succ_le h1)
    · exact Or.inl (Nat.le_of_eq (Option.some.inj h1).symm)
  alloc := by
    rw [token_dtor_alloc]
    exact hk.alloc
  sigs := fun g1 hg1 => hk.sigs g1 (by rw [token_dtor_sigs] at hg1; exact hg1)
  tsig_none := fun t hlt ht => by
    rw [token_dtor_tsig]
    refine hk.tsig_none t (Nat.lt_succ_of_lt hlt) ?_
    show upd s.tsig s.depth (some g) t = none
    rw [upd_other _ _ (Nat.ne_of_lt hlt)]
    exact ht
  dead := fun g1 hg1 hng t ht => by
    rw [token_dtor_tsig]
    rw [token_dtor_sigs] at hng
    exact hk.dead g1 hg1 hng t (mem_update_push ht)
  track := by
    intro g0 t0 pre post hg0 ht0 _ htr hst
    rw [token_dtor_sigs] at hg0
    have hlt : t0 < s.depth := (h.tok g0 (hk.sigs g0 hg0) t0 ht0).2.1
    have htr0 : Tracked (token_ctor s g) R g0 t0 pre post := by
      refine ⟨htr.1, ?_⟩
      show upd s.tit s.depth (s.next g) t0 = _
      rw [upd_other _ _ (Nat.ne_of_lt hlt)]
      exact htr.2
    have hex : some t0 ≠ some s.depth := fun e => Nat.ne_of_lt hlt (Option.some.inj e)
    obtain ⟨pre1, post1, htr1, hm⟩ :=
      hk.track g0 t0 pre post hg0 (mem_update_push ht0) hex htr0 hst
    refine ⟨pre1, post1, ⟨htr1.1, ?_⟩, ?_⟩
    · rw [token_dtor_tit]
      exact htr1.2
    · unfold Moves at hm ⊢
      rw [token_dtor_ident]
      exact hm

/-- The ways in which the emission loop returns. -/
theorem exec_loop_inv {beh : Nat → State → List Action} {n t g : Nat} {s s' : State}
    (hd : exec beh (n + 1) (.loop t g) s = some s') :
    (s.tsig t = none ∧ s' = s) ∨ (s.tit t = g ∧ s' = s) ∨
    (s.tsig t ≠ none ∧ s.tit t ≠ g ∧ ∃ s1,
      ((s.slot (s.tit t) = none ∧ s1 = touch s (s.tit t)) ∨
        ∃ f, s.slot (s.tit t) = some f ∧
          exec beh n (.script (beh f (touch s (s.tit t)))) (record (touch s (s.tit t)) t f) =
            some s1) ∧
      exec beh n (.loop t g) (advance s1 t) = some s') := by
  have e1 : (touch s (s.tit t)).slot = s.slot := by unfold touch; split <;> rfl
  have e2 : (touch s (s.tit t)).tit = s.tit := by unfold touch; split <;> rfl
  cases hs : s.tsig t with
  | none =>
    simp only [exec, hs] at hd
    exact Or.inl ⟨rfl, (Option.some.inj hd).symm⟩
  | some g1 =>
    by_cases hx : s.tit t = g
    · simp only [exec, hs, hx, if_true] at hd
      exact Or.inr (Or.inl ⟨hx, (Option.some.inj hd).symm⟩)
    · simp only [exec, hs, hx, if_false, e1, e2] at hd
      refine Or.inr (Or.inr ⟨by simp, hx, ?_⟩)
      cases hf : s.slot (s.tit t) with
      | none =>
        rw [hf] at hd
        simp only [Option.some_bind] at hd
        exact ⟨_, Or.inl ⟨rfl, rfl⟩, hd⟩
      | some f =>
        rw [hf] at hd
        simp only [Option.bind_eq_some] at hd
        obtain ⟨s1, h1, h2⟩ := hd
        exact ⟨s1, Or.inr ⟨f, rfl, h1⟩, h2⟩

/-- Every command that returns keeps memory well formed and the positions of the suspended
emissions, whatever the callables do. -/
theorem exec_kept {F : Prop} {start : List Nat} (beh : Nat → State → List Action) :
    ∀ (n : Nat) (c : Cmd) (s s' : State) (R T : Nat → List Nat),
      exec beh n c s = some s' → WF F s R T → Pre T c s →
      ∃ R', Kept F start (mover c) s s' R T R'
  | 0, _, _, _, _, _, hd, _, _ => by simp [exec] at hd
  | n + 1, .script [], s, s', R, T, hd, h, _ => by
    simp only [exec, Option.some.injEq] at hd
    rw [← hd]
    exact ⟨R, Kept.refl h⟩
  | n + 1, .script (a :: as), s, s', R, T, hd, h, _ => by
    simp only [exec, Option.bind_eq_some] at hd
    obtain ⟨s1, h1, h2⟩ := hd
    have hk1 : ∃ R1, Kept F start none s s1 R T R1 := by
      cases a with
      | emit g =>
        by_cases hg : g ∈ s.sigs
        · simp only [hg, if_true] at h1
          exact exec_kept beh n (.emit g) s s1 R T h1 h hg
        · simp [hg] at h1
      | connect g f => exact act_kept h h1
      | disconnect c => exact act_kept h h1
      | move_construct o => exact act_kept h h1
      | move_assign c o => exact act_kept h h1
      | destroy_connection c => exact act_kept h h1
      | destroy_signal g => exact act_kept h h1
    obtain ⟨R1, hk1⟩ := hk1
    obtain ⟨R2, hk2⟩ := exec_kept beh n (.script as) s1 s' R1 T h2 hk1.wf trivial
    exact ⟨R2, Kept.trans h hk1 hk2⟩
  | n + 1, .emit g, s, s', R, T, hd, h, hp => by
    simp only [exec, Option.map_eq_some'] at hd
    obtain ⟨s1, h1, e⟩ := hd
    have hpre : Pre (Function.update T g (s.depth :: T g)) (.loop s.depth g)
        (token_ctor s g) :=
      ⟨rfl, fun _ => ⟨T g, Function.update_same _ _ _⟩, fun hng => absurd hp hng⟩
    obtain ⟨R1, hk⟩ := exec_kept beh n (.loop s.depth g) (token_ctor s g) s1 R _ h1
      (token_ctor_wf h hp) hpre
    rw [← e]
    exact ⟨R1, emit_kept h hp hk⟩
  | n + 1, .loop t g, s, s', R, T, hd, h, hp => by
    obtain ⟨hdep, hlive, hdeadp⟩ := hp
    rcases exec_loop_inv hd with ⟨_, e⟩ | ⟨_, e⟩ | ⟨hs, hx, s1, hbody, hrest⟩
    · rw [e]
      exact ⟨R, Kept.refl h⟩
    · rw [e]
      exact ⟨R, Kept.refl h⟩
    · have hg : g ∈ s.sigs := by
        by_contra hng
        exact hs (hdeadp hng)
      have hk1 : ∃ R1, Kept F start (some t) s s1 R T R1 := by
        rcases hbody with ⟨_, e⟩ | ⟨f, _, hb⟩
        · rw [e]
          exact ⟨R, touch_kept _ h⟩
        · have ha : Kept F start (some t) s (touch s (s.tit t)) R T R := touch_kept _ h
          have hb1 : Kept F start (some t) (touch s (s.tit t))
              (record (touch s (s.tit t)) t f) R T R := record_kept t f ha.wf
          obtain ⟨R1, hc⟩ := exec_kept beh n (.script (beh f (touch s (s.tit t))))
            (record (touch s (s.tit t)) t f) s1 R T hb hb1.wf trivial
          exact ⟨R1, Kept.trans h ha (Kept.trans ha.wf hb1 (hc.weaken t))⟩
      obtain ⟨R1, hk1⟩ := hk1
      have hk2 : Kept F start (some t) s (advance s1 t) R T R1 :=
        Kept.trans h hk1 (advance_kept t hk1.wf)
      have hpre : Pre T (.loop t g) (advance s1 t) := by
        refine ⟨by rw [hk2.depth]; exact hdep, fun hg1 => hlive (hk2.sigs g hg1), ?_⟩
        intro hng
        obtain ⟨rest, er⟩ := hlive hg
        exact hk2.dead g hg hng t (by rw [er]; exact List.mem_cons_self _ _)
      obtain ⟨R2, hk3⟩ := exec_kept beh n (.loop t g) (advance s1 t) s' R1 T hrest hk2.wf hpre
      exact ⟨R2, Kept.trans h hk2 hk3⟩

/-! ## What one emission visits -/

@[simp] theorem advance_sigs (s : State) (t : Nat) : (advance s t).sigs = s.sigs := by
  unfold advance touch; split <;> rfl

@[simp] theorem advance_depth (s : State) (t : Nat) : (advance s t).depth = s.depth := by
  unfold advance touch; split <;> rfl

@[simp] theorem advance_ident (s : State) (t : Nat) : (advance s t).ident = s.ident := by
  unfold advance touch; split <;> rfl

theorem advance_tit (s : State) (t : Nat) :
    (advance s t).tit = upd s.tit t (s.next (s.tit t)) := by
  unfold advance touch; split <;> rfl

theorem vis_congr {t0 k0 : Nat} {s s' : State} (h : s'.log = s.log) :
    vis t0 k0 s' = vis t0 k0 s := by
  unfold vis
  rw [h]

theorem vis_of_log {t0 k0 : Nat} {s s' : State} {ext : List Invocation}
    (hk : k0 ≤ s.log.length) (he : s'.log = s.log ++ ext) :
    vis t0 k0 s' = vis t0 k0 s ++ ((ext.filter fun e => e.tok = t0).map Invocation.sub) := by
  unfold vis
  rw [he, List.drop_append_of_le_length hk, List.filter_append, List.map_append]

/-- A step that moves no position of the emission `t0` adds nothing to what it has
called. -/
theorem vis_kept {F : Prop} {start : List Nat} {ex : Option Nat} {s s' : State}
    {R T R' : Nat → List Nat} {t0 k0 : Nat} (h : Kept F start ex s s' R T R')
    (ht : t0 < s.depth) (hex : some t0 ≠ ex) (hk : k0 ≤ s.log.length) :
    vis t0 k0 s' = vis t0 k0 s := by
  obtain ⟨ext, he, hb⟩ := h.log
  rw [vis_of_log hk he]
  have e0 : (ext.filter fun e => e.tok = t0) = [] := by
    rw [List.filter_eq_nil_iff]
    intro e hm
    simp only [decide_eq_true_eq]
    intro e1
    rcases hb e hm with h1 | h1
    · omega
    · exact hex (by rw [← h1, e1])
  rw [e0]
  simp

theorem exec_loop_dead {beh : Nat → State → List Action} {n t g : Nat} {s s' : State}
    (hd : exec beh n (.loop t g) s = some s') (h : s.tsig t = none) : s' = s := by
  cases n with
  | zero => simp [exec] at hd
  | succ n =>
    rw [exec_loop_null beh n g h] at hd
    exact (Option.some.inj hd).symm

/-- One turn of the emission loop up to the statement `token.it++`: the state `sb` in which
the callable is entered (or skipped), and what the callable keeps from there. -/
theorem body_inv {F : Prop} {start : List Nat} {beh : Nat → State → List Action}
    {n t0 k0 : Nat} {s s1 : State} {R T : Nat → List Nat} (h : WF F s R T)
    (hk : k0 ≤ s.log.length) {g0 : Nat} (hg : g0 ∈ s.sigs) (hx : s.tit t0 ∈ R g0)
    (hbody : (s.slot (s.tit t0) = none ∧ s1 = touch s (s.tit t0)) ∨
      ∃ f, s.slot (s.tit t0) = some f ∧
        exec beh n (.script (beh f (touch s (s.tit t0)))) (record (touch s (s.tit t0)) t0 f) =
          some s1) :
    ∃ sb R1, Kept F start none sb s1 R T R1 ∧ WF F sb R T ∧ sb.depth = s.depth ∧
      sb.alloc = s.alloc ∧ sb.ident = s.ident ∧ sb.tit = s.tit ∧ sb.sigs = s.sigs ∧
      k0 ≤ sb.log.length ∧
      ∃ v, vis t0 k0 sb = vis t0 k0 s ++ v ∧ v.Sublist [s.ident (s.tit t0)] ∧
        (F → s.ident (s.tit t0) ∈ v) := by
  have ha : Kept F start none s (touch s (s.tit t0)) R T R := touch_kept _ h
  obtain ⟨st, et⟩ := touch_eq s (s.tit t0)
  rcases hbody with ⟨hn, e⟩ | ⟨f, hf, hb⟩
  · rw [e]
    refine ⟨touch s (s.tit t0), R, Kept.refl ha.wf, ha.wf, ?_, ?_, ?_, ?_, ?_, ?_, [], ?_, ?_, ?_⟩
    · rw [et]
    · rw [et]
    · rw [et]
    · rw [et]
    · rw [et]
    · rw [et]
      exact hk
    · rw [et, List.append_nil]
      rfl
    · exact List.nil_sublist _
    · intro hF
      exact absurd hn (h.full hF g0 hg _ hx)
  · have hb1 : Kept F start (some t0) (touch s (s.tit t0))
        (record (touch s (s.tit t0)) t0 f) R T R := record_kept t0 f ha.wf
    obtain ⟨R1, hc⟩ := @exec_kept F start beh n (.script (beh f (touch s (s.tit t0))))
      (record (touch s (s.tit t0)) t0 f) s1 R T hb hb1.wf trivial
    refine ⟨record (touch s (s.tit t0)) t0 f, R1, hc, hb1.wf, ?_, ?_, ?_, ?_, ?_, ?_,
      [s.ident (s.tit t0)], ?_, List.Sublist.refl _, fun _ => List.mem_singleton.2 rfl⟩
    · rw [et]
      rfl
    · rw [et]
      rfl
    · rw [et]
      rfl
    · rw [et]
      rfl
    · rw [et]
      rfl
    · rw [et]
      show k0 ≤ (s.log ++ _).length
      rw [List.length_append]
      omega
    · rw [et]
      have e1 : (record { s with stale := st } t0 f).log =
          s.log ++ [⟨t0, s.ident (s.tit t0), f⟩] := rfl
      rw [vis_of_log hk e1]
      simp

/-- The loop of the emission with token `t0` on `g0`, entered with the container split at
its position into `pre ++ post`: what the emission has called of `start`, followed by what
of `start` still lies behind the position, stays a sublist of `start`; and when every
linked connection stores a callable, whatever of `start` is in front of the position has
been called. -/
theorem loop_visits {F : Prop} {start : List Nat} (beh : Nat → State → List Action)
    (g0 t0 k0 : Nat) (T : Nat → List Nat) (ht0 : t0 ∈ T g0) :
    ∀ (n : Nat) (s s' : State) (R : Nat → List Nat) (pre post : List Nat),
      exec beh n (.loop t0 g0) s = some s' → WF F s R T → t0 + 1 = s.depth → g0 ∈ s.sigs →
      R g0 = pre ++ post → s.tit t0 = post.headD g0 → k0 ≤ s.log.length →
      (∀ i ∈ start, i < s.alloc) →
      (((vis t0 k0 s).filter fun i => i ∈ start) ++
        ((post.map s.ident).filter fun i => i ∈ start)).Sublist start →
      (F → ∀ x ∈ pre, s.ident x ∈ start → s.ident x ∈ vis t0 k0 s) →
      ((vis t0 k0 s').filter fun i => i ∈ start).Sublist start ∧
        (F → g0 ∈ s'.sigs → ∃ xs, Ring s' g0 xs ∧
          ∀ x ∈ xs, s'.ident x ∈ start → s'.ident x ∈ vis t0 k0 s')
  | 0, _, _, _, _, _, hd, _, _, _, _, _, _, _, _, _ => by simp [exec] at hd
  | n + 1, s, s', R, pre, post, hd, h, hdep, hg, hR, hit, hk, hst, hsub, hF => by
    have hts : s.tsig t0 = some g0 := (h.tok g0 hg t0 ht0).1
    rcases exec_loop_inv hd with ⟨hn, _⟩ | ⟨hx, e⟩ | ⟨_, hx, s1, hbody, hrest⟩
    · rw [hts] at hn
      cases hn
    · have hp : post = [] := by
        cases post with
        | nil => rfl
        | cons y p =>
          exfalso
          have hy : y ∈ R g0 := by
            rw [hR]
            exact List.mem_append_right _ (List.mem_cons_self _ _)
          exact (h.ring g0 hg).ne_sentinel hy (hit.symm.trans hx)
      subst hp
      rw [e]
      refine ⟨?_, fun hf _ => ⟨R g0, h.ring g0 hg, ?_⟩⟩
      · simpa using hsub
      · intro x hx1
        rw [hR, List.append_nil] at hx1
        exact hF hf x hx1
    · obtain ⟨x, post1, hpost⟩ : ∃ x p, post = x :: p := by
        cases post with
        | nil => exact absurd hit hx
        | cons y p => exact ⟨y, p, rfl⟩
      subst hpost
      have hxe : s.tit t0 = x := hit
      have hxm : s.tit t0 ∈ R g0 := by
        rw [hR, hxe]
        exact List.mem_append_right _ (List.mem_cons_self _ _)
      obtain ⟨sb, R1, hk1, hwb, ebd, eba, ebi, ebt, ebs, hkb, v, hv, hvs, hvF⟩ :=
        @body_inv F start beh n t0 k0 s s1 R T h hk g0 hg hxm hbody
      rw [hxe] at hvs hvF
      have hvis1 : vis t0 k0 (advance s1 t0) = vis t0 k0 s ++ v := by
        rw [vis_congr (advance_log s1 t0), vis_kept hk1 (by omega) (by simp) hkb, hv]
      have hka : Kept F start (some t0) s1 (advance s1 t0) R1 T R1 :=
        advance_kept t0 hk1.wf
      have hsplit : ((x :: post1).map s.ident).filter (fun i => i ∈ start) =
          [s.ident x].filter (fun i => i ∈ start) ++
            (post1.map s.ident).filter (fun i => i ∈ start) := by
        rw [← List.filter_append]
        rfl
      rw [hsplit] at hsub
      by_cases hg1 : g0 ∈ s1.sigs
      · have htr : Tracked sb R g0 t0 (pre ++ [x]) post1 := by
          refine ⟨?_, ?_⟩
          · rw [hR, List.append_assoc]
            rfl
          · rw [getLastD_concat, ebt]
            exact hxe
        obtain ⟨pre2, post2, htr2, hmv⟩ := hk1.track g0 t0 _ _ hg1 ht0 (by simp) htr
          (by rw [eba]; exact hst)
        have hring := hk1.wf.ring g0 hg1
        rw [htr2.1] at hring
        refine loop_visits beh g0 t0 k0 T ht0 n _ s' R1 pre2 post2 hrest hka.wf ?_ ?_ htr2.1
          ?_ ?_ ?_ ?_ ?_
        · rw [advance_depth, hk1.depth, ebd]
          exact hdep
        · rw [advance_sigs]
          exact hg1
        · rw [advance_tit, upd_same, htr2.2]
          exact hring.next_getLastD
        · rw [advance_log]
          obtain ⟨ext, he, _⟩ := hk1.log
          rw [he, List.length_append]
          omega
        · intro i hi
          have h1 := hst i hi
          have h2 := hk1.alloc
          have h3 := hka.alloc
          omega
        · rw [hvis1, advance_ident, List.filter_append, List.append_assoc]
          refine List.Sublist.trans ?_ hsub
          refine List.Sublist.append (List.Sublist.refl _) ?_
          have hm1 := hmv.1
          rw [ebi] at hm1
          exact List.Sublist.append (hvs.filter _) hm1
        · intro hf y hy hys
          rw [advance_ident] at hys ⊢
          rw [hvis1]
          obtain ⟨z, hz, ez⟩ := hmv.2 y hy hys
          rw [← ez, ebi]
          rw [← ez, ebi] at hys
          rcases List.mem_append.1 hz with hz1 | hz1
          · exact List.mem_append_left _ (hF hf z hz1 hys)
          · rw [List.mem_singleton.1 hz1]
            exact List.mem_append_right _ (hvF hf)
      · have hnone : (advance s1 t0).tsig t0 = none := by
          rw [advance_tsig]
          exact hk1.dead g0 (by rw [ebs]; exact hg) hg1 t0 ht0
        have e := exec_loop_dead hrest hnone
        rw [e]
        refine ⟨?_, fun _ hg2 => absurd (by rwa [advance_sigs] at hg2) hg1⟩
        rw [hvis1, List.filter_append]
        refine List.Sublist.trans ?_ hsub
        refine List.Sublist.append (List.Sublist.refl _) ?_
        exact (hvs.filter _).trans (List.sublist_append_left _ _)

/-- What one emission on the live signal `g0` visits of the subscriptions `start` that
its container held when it was entered. -/
theorem emit_visits {F : Prop} (beh : Nat → State → List Action) {n : Nat} {s s' : State}
    {R T : Nat → List Nat} {g0 : Nat} (hd : exec beh n (.emit g0) s = some s')
    (h : WF F s R T) (hg : g0 ∈ s.sigs) :
    ((vis s.depth s.log.length s').filter fun i => i ∈ (R g0).map s.ident).Sublist
        ((R g0).map s.ident) ∧
      (F → g0 ∈ s'.sigs → ∃ xs, Ring s' g0 xs ∧
        ∀ x ∈ xs, s'.ident x ∈ (R g0).map s.ident →
          s'.ident x ∈ vis s.depth s.log.length s') := by
  cases n with
  | zero => simp [exec] at hd
  | succ n =>
    simp only [exec, Option.map_eq_some'] at hd
    obtain ⟨s1, h1, e⟩ := hd
    have hw := @token_ctor_wf F s R T g0 h hg
    have hvis0 : vis s.depth s.log.length (token_ctor s g0) = [] := by
      unfold vis
      have e0 : (Signals.token_ctor s g0).log = s.log := rfl
      rw [e0, List.drop_length]
      rfl
    have hmain := @loop_visits F ((R g0).map s.ident) beh g0 s.depth s.log.length
      (Function.update T g0 (s.depth :: T g0))
      (by rw [Function.update_same]; exact List.mem_cons_self _ _) n (token_ctor s g0) s1 R
      [] (R g0) h1 hw rfl hg rfl ?_ (Nat.le_refl _) ?_ ?_ ?_
    · rw [← e]
      refine ⟨?_, ?_⟩
      · rw [vis_congr (token_dtor_log s1 s.depth)]
        exact hmain.1
      · intro hf hg2
        rw [token_dtor_sigs] at hg2
        obtain ⟨xs, hr, hx⟩ := hmain.2 hf hg2
        refine ⟨xs, hr.of_eq (token_dtor_next _ _) (token_dtor_prev _ _), ?_⟩
        intro x hxm hxs
        rw [token_dtor_ident] at hxs ⊢
        rw [vis_congr (token_dtor_log s1 s.depth)]
        exact hx x hxm hxs
    · show upd s.tit s.depth (s.next g0) s.depth = (R g0).headD g0
      rw [upd_same]
      exact @Ring.next_getLastD s g0 [] (R g0) (h.ring g0 hg)
    · intro i hi
      obtain ⟨x, hx, ex⟩ := List.mem_map.1 hi
      rw [← ex]
      exact h.id_lt g0 hg x hx
    · rw [hvis0]
      have e1 : ((R g0).map s.ident).filter (fun i => i ∈ (R g0).map s.ident) =
          (R g0).map s.ident := List.filter_eq_self.2 (fun a ha => by simpa using ha)
      show ([] ++ ((R g0).map s.ident).filter fun i => i ∈ (R g0).map s.ident).Sublist _
      rw [List.nil_append, e1]
    · intro _ x hx
      cases hx

/-! ## What the rest of an emission can still call -/

theorem demo_wf {F : Prop} : WF F demo demo_containers demo_stacks where
  sigs_nodup := by decide
  sigs_live := by decide
  bound := by decide
  ring := by decide
  mem := by decide
  att := by
    intro c g hc h
    have hlt : c < 4 := hc.1
    have hns : c ∉ [0] := hc.2.1
    interval_cases c
    · exact absurd (List.mem_singleton.2 rfl) hns
    · have e : demo.csig 1 = some 0 := by decide
      rw [e] at h
      cases h
      decide
    · have e : demo.csig 2 = some 0 := by decide
      rw [e] at h
      cases h
      decide
    · have e : demo.csig 3 = some 0 := by decide
      rw [e] at h
      cases h
      decide
  det := by
    intro c hc h
    have hlt : c < 4 := hc.1
    have hns : c ∉ [0] := hc.2.1
    interval_cases c
    · exact absurd (List.mem_singleton.2 rfl) hns
    · have e : demo.csig 1 = some 0 := by decide
      rw [e] at h
      cases h
    · have e : demo.csig 2 = some 0 := by decide
      rw [e] at h
      cases h
    · have e : demo.csig 3 = some 0 := by decide
      rw [e] at h
      cases h
  stack := by
    intro g hg
    have e : g = 0 := List.mem_singleton.1 hg
    rw [e]
    rfl
  tok := by
    intro g _ t ht
    cases ht
  id_lt := by decide
  id_inj := by decide
  full := fun _ => by decide

/-- The subscriptions linked in the container of a live signal are distinct. -/
theorem WF.start_nodup {F : Prop} {s : State} {R T : Nat → List Nat} (h : WF F s R T)
    {g : Nat} (hg : g ∈ s.sigs) : ((R g).map s.ident).Nodup :=
  List.Nodup.map_on (fun x hx y hy e => h.id_inj g hg g hg x hx y hy e)
    (List.nodup_cons.1 (h.ring g hg).nodup).2

/-- A list whose members of the duplicate-free `start` form a sublist of `start` holds
each member of `start` at most once. -/
theorem count_le_one_of_sublist {start l : List Nat} (hn : start.Nodup)
    (hs : (l.filter fun i => i ∈ start).Sublist start) {i : Nat} (hi : i ∈ start) :
    l.count i ≤ 1 := by
  have h1 : (l.filter fun i => i ∈ start).count i = l.count i :=
    List.count_filter (by simpa using hi)
  have h2 := hs.count_le i
  rw [h1, List.count_eq_one_of_mem hn hi] at h2
  exact h2

/-- Memory without objects is well formed. -/
theorem init_wf {F : Prop} : WF F State.init (fun _ => []) (fun _ => []) where
  sigs_nodup := List.nodup_nil
  sigs_live := fun _ hg => by cases hg
  bound := fun _ ha => by cases ha
  ring := fun _ hg => by cases hg
  mem := fun _ hg => by cases hg
  att := fun c _ hc _ => absurd hc.1 (Nat.not_lt_zero c)
  det := fun c hc _ => absurd hc.1 (Nat.not_lt_zero c)
  stack := fun _ hg => by cases hg
  tok := fun _ hg => by cases hg
  id_lt := fun _ hg => by cases hg
  id_inj := fun _ hg => by cases hg
  full := fun _ _ hg => by cases hg

/-- Constructing a signal keeps memory well formed; the new signal has an empty container
and an empty token stack. -/
theorem signal_ctor_wf {F : Prop} {s : State} {R T : Nat → List Nat} (h : WF F s R T) :
    WF F (signal_ctor s) (Function.update R s.alloc []) (Function.update T s.alloc []) := by
  have hRg : Function.update R s.alloc [] s.alloc = [] := Function.update_same _ _ _
  have hTg : Function.update T s.alloc [] s.alloc = [] := Function.update_same _ _ _
  have hlt : ∀ g ∈ s.sigs, g < s.alloc := fun g hg => h.bound g (List.mem_append_left _ hg)
  have hne : ∀ g ∈ s.sigs, g ≠ s.alloc := fun g hg => Nat.ne_of_lt (hlt g hg)
  have hR : ∀ g ∈ s.sigs, Function.update R s.alloc [] g = R g :=
    fun g hg => Function.update_noteq (hne g hg) _ _
  have hT : ∀ g ∈ s.sigs, Function.update T s.alloc [] g = T g :=
    fun g hg => Function.update_noteq (hne g hg) _ _
  have hnew : s.alloc ∉ s.sigs := fun hm => Nat.lt_irrefl _ (hlt _ hm)
  have hsigs : ∀ g ∈ (signal_ctor s).sigs, g = s.alloc ∨ g ∈ s.sigs :=
    fun g hg => List.mem_cons.1 hg
  have hconn : ∀ c, IsConn (signal_ctor s) c → IsConn s c ∧ c ≠ s.alloc := by
    intro c hc
    have h1 : c < s.alloc + 1 := hc.1
    have h2 : c ∉ s.alloc :: s.sigs := hc.2.1
    have h3 : c ≠ s.alloc := fun e => h2 (e ▸ List.mem_cons_self _ _)
    exact ⟨⟨by omega, fun hm => h2 (List.mem_cons_of_mem _ hm), hc.2.2⟩, h3⟩
  have hconn2 : ∀ c, IsConn s c → IsConn (signal_ctor s) c := by
    intro c hc
    refine ⟨Nat.lt_succ_of_lt hc.1, ?_, hc.2.2⟩
    intro hm
    rcases List.mem_cons.1 hm with e | hm1
    · exact Nat.ne_of_lt hc.1 e
    · exact hc.2.1 hm1
  refine ⟨?_, ?_, ?_, ?_, ?_, ?_, ?_, ?_, ?_, ?_, ?_, ?_⟩
  · exact List.nodup_cons.2 ⟨hnew, h.sigs_nodup⟩
  · intro g hg
    rcases hsigs g hg with e | hm
    · rw [e]
      intro hf
      exact Nat.lt_irrefl _ (h.bound _ (List.mem_append_right _ hf))
    · exact h.sigs_live g hm
  · intro a ha
    show a < s.alloc + 1
    rcases List.mem_append.1 ha with h1 | h1
    · rcases hsigs a h1 with e | hm
      · omega
      · exact Nat.lt_succ_of_lt (hlt a hm)
    · exact Nat.lt_succ_of_lt (h.bound a (List.mem_append_right _ h1))
  · intro g hg
    rcases hsigs g hg with e | hm
    · rw [e, hRg]
      refine ⟨List.nodup_singleton _, ?_, ?_⟩
      · show [upd s.next s.alloc s.alloc s.alloc] = [s.alloc]
        rw [upd_same]
      · show [upd s.prev s.alloc s.alloc s.alloc] = [s.alloc]
        rw [upd_same]
    · rw [hR g hm]
      refine (h.ring g hm).frame (fun a ha => ?_) (fun a ha => ?_)
      · exact upd_other _ _ (Nat.ne_of_lt (h.lt_alloc hm ha))
      · exact upd_other _ _ (Nat.ne_of_lt (h.lt_alloc hm ha))
  · intro g hg x hx
    rcases hsigs g hg with e | hm
    · rw [e, hRg] at hx
      cases hx
    · rw [hR g hm] at hx
      exact ⟨hconn2 x (h.mem g hm x hx).1, (h.mem g hm x hx).2⟩
  · intro c g hc hcs
    obtain ⟨h1, h2⟩ := h.att c g (hconn c hc).1 hcs
    exact ⟨List.mem_cons_of_mem _ h1, by rw [hR g h1]; exact h2⟩
  · intro c hc hcs
    obtain ⟨h1, h2⟩ := h.det c (hconn c hc).1 hcs
    refine ⟨?_, ?_⟩
    · show upd s.next s.alloc s.alloc c = c
      rw [upd_other _ _ (hconn c hc).2]
      exact h1
    · show upd s.prev s.alloc s.alloc c = c
      rw [upd_other _ _ (hconn c hc).2]
      exact h2
  · intro g hg
    rcases hsigs g hg with e | hm
    · rw [e, hTg]
      show upd s.top_token s.alloc none s.alloc = none
      rw [upd_same]
    · rw [hT g hm]
      have e1 : (signal_ctor s).top_token g = s.top_token g := upd_other _ _ (hne g hm)
      rw [e1]
      exact (h.stack g hm).keep rfl
  · intro g hg t ht
    rcases hsigs g hg with e | hm
    · rw [e, hTg] at ht
      cases ht
    · rw [hT g hm] at ht
      rw [hR g hm]
      exact h.tok g hm t ht
  · intro g hg x hx
    rcases hsigs g hg with e | hm
    · rw [e, hRg] at hx
      cases hx
    · rw [hR g hm] at hx
      exact Nat.lt_succ_of_lt (h.id_lt g hm x hx)
  · intro g hg g1 hg1 x hx y hy
    rcases hsigs g hg with e | hm
    · rw [e, hRg] at hx
      cases hx
    · rcases hsigs g1 hg1 with e1 | hm1
      · rw [e1, hRg] at hy
        cases hy
      · rw [hR g hm] at hx
        rw [hR g1 hm1] at hy
        exact h.id_inj g hm g1 hm1 x hx y hy
  · intro hF g hg x hx
    rcases hsigs g hg with e | hm
    · rw [e, hRg] at hx
      cases hx
    · rw [hR g hm] at hx
      exact h.full hF g hm x hx

theorem demo_suspended_wf {F : Prop} :
    WF F demo_suspended demo_containers demo_suspended_stacks where
  sigs_nodup := by decide
  sigs_live := by decide
  bound := by decide
  ring := by decide
  mem := by decide
  att := by
    intro c g hc h
    have hlt : c < 4 := hc.1
    have hns : c ∉ [0] := hc.2.1
    interval_cases c
    · exact absurd (List.mem_singleton.2 rfl) hns
    · have e : demo_suspended.csig 1 = some 0 := by decide
      rw [e] at h
      cases h
      decide
    · have e : demo_suspended.csig 2 = some 0 := by decide
      rw [e] at h
      cases h
      decide
    · have e : demo_suspended.csig 3 = some 0 := by decide
      rw [e] at h
      cases h
      decide
  det := by
    intro c hc h
    have hlt : c < 4 := hc.1
    have hns : c ∉ [0] := hc.2.1
    interval_cases c
    · exact absurd (List.mem_singleton.2 rfl) hns
    · have e : demo_suspended.csig 1 = some 0 := by decide
      rw [e] at h
      cases h
    · have e : demo_suspended.csig 2 = some 0 := by decide
      rw [e] at h
      cases h
    · have e : demo_suspended.csig 3 = some 0 := by decide
      rw [e] at h
      cases h
  stack := by
    intro g hg
    have e : g = 0 := List.mem_singleton.1 hg
    rw [e]
    exact ⟨rfl, rfl⟩
  tok := by decide
  id_lt := by decide
  id_inj := by decide
  full := fun _ => by decide

/-! ## Relocation: the state it leaves -/

theorem WF.congr_containers {F : Prop} {s : State} {R R' T : Nat → List Nat}
    (h : WF F s R T) (e : ∀ g ∈ s.sigs, R' g = R g) : WF F s R' T where
  sigs_nodup := h.sigs_nodup
  sigs_live := h.sigs_live
  bound := h.bound
  ring := fun g hg => by rw [e g hg]; exact h.ring g hg
  mem := fun g hg x hx => h.mem g hg x (by rw [← e g hg]; exact hx)
  att := fun c g hc hcs => by
    obtain ⟨h1, h2⟩ := h.att c g hc hcs
    exact ⟨h1, by rw [e g h1]; exact h2⟩
  det := h.det
  stack := h.stack
  tok := fun g hg t ht => by rw [e g hg]; exact h.tok g hg t ht
  id_lt := fun g hg x hx => h.id_lt g hg x (by rw [← e g hg]; exact hx)
  id_inj := fun g hg g1 hg1 x hx y hy =>
    h.id_inj g hg g1 hg1 x (by rw [← e g hg]; exact hx) y (by rw [← e g1 hg1]; exact hy)
  full := fun hF g hg x hx => h.full hF g hg x (by rw [← e g hg]; exact hx)

theorem map_swap_of_not_mem {a b : Nat} {l : List Nat} (h : b ∉ l) :
    l.map (fun x => if x = b then a else x) = l := by
  have e : l.map (fun x => if x = b then a else x) = l.map id := by
    refine List.map_congr_left (fun x hx => ?_)
    have hne : x ≠ b := fun e1 => h (e1 ▸ hx)
    rw [if_neg hne]
    rfl
  rw [e, List.map_id]

/-- The call `replace(other)` on a connected `other`, after the fields were taken over:
it returns the relocated state. -/
theorem replace_eq {F : Prop} {s : State} {R T : Nat → List Nat} {a b g n : Nat}
    (h : WF F s R T) (hb : IsConn s b) (hab : a ≠ b) (hbs : s.csig b = some g)
    (hn : (T g).length ≤ n) :
    replace n (transferred s a b) a b = some (relocated s a b (T g)) := by
  have hca : (transferred s a b).csig a = s.csig b := upd_same _ _ _
  obtain ⟨hg, _⟩ := h.att b g hb hbs
  have hcb : (insert (transferred s a b) b a).csig b = some g := by
    show upd s.csig a (s.csig b) b = some g
    rw [upd_other _ _ (Ne.symm hab)]
    exact hbs
  have hst : Stack (insert (transferred s a b) b a)
      ((insert (transferred s a b) b a).top_token g) (T g) :=
    @Stack.of_tnext_eq s (insert (transferred s a b) b a) rfl _ _ (h.stack g hg)
  simp only [replace, hca, hbs]
  exact disconnect_eq hcb hst
    (fun t ht => by
      show s.tsig t ≠ none
      rw [(h.tok g hg t ht).1]
      simp) hn

theorem replace_null {s : State} {a b n : Nat} (hbs : s.csig b = none) :
    replace n (transferred s a b) a b = some (transferred s a b) := by
  have hca : (transferred s a b).csig a = s.csig b := upd_same _ _ _
  simp only [replace, hca, hbs]

/-- The move constructor is `replace` after a new, unlinked object took the fields of
`other` over. -/
theorem move_ctor_unfold {s : State} {b n : Nat} (hb : b ≠ s.alloc) :
    connection_move_ctor n s b =
      replace n (transferred
        { list_element_ctor { s with alloc := s.alloc + 1 } s.alloc with
          csig := upd s.csig s.alloc none } s.alloc b) s.alloc b := by
  have e : transferred
      { list_element_ctor { s with alloc := s.alloc + 1 } s.alloc with
        csig := upd s.csig s.alloc none } s.alloc b =
      transferred (list_element_ctor { s with alloc := s.alloc + 1 } s.alloc) s.alloc b := by
    unfold transferred
    congr 1
    show upd (upd s.csig s.alloc none) s.alloc (upd s.csig s.alloc none b) =
      upd s.csig s.alloc (s.csig b)
    rw [upd_upd_same, upd_other _ _ hb]
  rw [e]
  rfl

theorem filter_ne_of_not_mem {a : Nat} {l : List Nat} (h : a ∉ l) :
    l.filter (fun x => x ≠ a) = l := by
  refine List.filter_eq_self.2 (fun x hx => ?_)
  have hne : x ≠ a := fun e1 => h (e1 ▸ hx)
  simpa using hne

/-- The call `disconnect()` on a connection object returns and leaves memory well
formed, with the object filtered out of every container. -/
theorem disconnect_result {F : Prop} {s : State} {R T : Nat → List Nat} {a : Nat}
    (h : WF F s R T) (ha : IsConn s a) :
    ∃ s1 N, (∀ n, N ≤ n → disconnect n s a = some s1) ∧
      WF F s1 (fun g => (R g).filter fun x => x ≠ a) T ∧
      s1.alloc = s.alloc ∧ s1.sigs = s.sigs ∧ s1.freed = s.freed ∧ s1.slot = s.slot ∧
      s1.ident = s.ident ∧ s1.csig a = none ∧ (∀ x, x ≠ a → s1.csig x = s.csig x) ∧
      s1.next a = a ∧ s1.prev a = a := by
  cases hcs : s.csig a with
  | none =>
    obtain ⟨hn, hp⟩ := h.det a ha hcs
    refine ⟨s, 0, fun n _ => disconnect_null hcs, ?_, rfl, rfl, rfl, rfl, rfl, hcs,
      fun _ _ => rfl, hn, hp⟩
    exact h.congr_containers (fun g hg => filter_ne_of_not_mem
      (fun hm => h.detached_not_mem hg ha hcs (List.mem_cons_of_mem _ hm)))
  | some g =>
    obtain ⟨hg, hmem⟩ := h.att a g ha hcs
    have hk : Kept F [] none s (disconnected s a (T g)) R T _ := disconnected_kept h ha hcs
    refine ⟨disconnected s a (T g), (T g).length, fun n hn => ?_, ?_, rfl, rfl, rfl, rfl, rfl,
      upd_same _ _ _, fun x hx => upd_other _ _ hx, ?_, ?_⟩
    · exact disconnect_eq hcs (h.stack g hg) (fun t ht => by rw [(h.tok g hg t ht).1]; simp) hn
    · refine hk.wf.congr_containers (fun g1 hg1 => ?_)
      by_cases e : g1 = g
      · rw [e, Function.update_same]
      · rw [Function.update_noteq e]
        refine filter_ne_of_not_mem (fun hm => ?_)
        exact h.disjoint hg hg1 (Ne.symm e) (List.mem_cons_of_mem _ hmem)
          (List.mem_cons_of_mem _ hm)
    · rw [disconnected_next]
      exact upd_same _ _ _
    · rw [disconnected_prev]
      exact upd_same _ _ _

/-- The call `replace(other)` after the fields were taken over returns and leaves memory
well formed, with `this` in the place of `other` in every container. -/
theorem relocate_result {F : Prop} {s : State} {R T : Nat → List Nat} {a b : Nat}
    (h : WF F s R T) (ha : IsConn s a) (has : s.csig a = none) (hb : IsConn s b)
    (hab : a ≠ b) :
    ∃ s' N, (∀ n, N ≤ n → replace n (transferred s a b) a b = some s') ∧
      WF F s' (fun g => (R g).map fun x => if x = b then a else x) T ∧
      s'.alloc = s.alloc ∧ s'.sigs = s.sigs ∧ s'.slot a = s.slot b ∧ s'.csig a = s.csig b ∧
      s'.ident a = s.ident b ∧ s'.csig b = none ∧ s'.next b = b ∧ s'.prev b = b := by
  cases hcs : s.csig b with
  | none =>
    obtain ⟨hn, hp⟩ := h.det b hb hcs
    have hk1 : Kept F [] none s (transferred s a b) R T R := transferred_kept h ha has hb hcs
    refine ⟨transferred s a b, 0, fun n _ => replace_null hcs, ?_, rfl, rfl, ?_, ?_,
      upd_same _ _ _, ?_, hn, hp⟩
    · exact hk1.wf.congr_containers (fun g hg => map_swap_of_not_mem
        (fun hm => h.detached_not_mem hg hb hcs (List.mem_cons_of_mem _ hm)))
    · show upd (upd s.slot a (s.slot b)) b none a = s.slot b
      rw [upd_other _ _ hab, upd_same]
    · show upd s.csig a (s.csig b) a = none
      rw [upd_same]
      exact hcs
    · show upd s.csig a (s.csig b) b = none
      rw [upd_other _ _ (Ne.symm hab)]
      exact hcs
  | some g =>
    obtain ⟨hg, hmem⟩ := h.att b g hb hcs
    have hk1 : Kept F [] none s (relocated s a b (T g)) R T _ := relocated_kept h ha has hb hcs
    refine ⟨relocated s a b (T g), (T g).length, fun n hn => replace_eq h hb hab hcs hn, ?_,
      rfl, rfl, ?_, ?_, ?_, upd_same _ _ _, ?_, ?_⟩
    · refine hk1.wf.congr_containers (fun g1 hg1 => ?_)
      by_cases e : g1 = g
      · rw [e, Function.update_same]
      · rw [Function.update_noteq e]
        refine map_swap_of_not_mem (fun hm => ?_)
        exact h.disjoint hg hg1 (Ne.symm e) (List.mem_cons_of_mem _ hmem)
          (List.mem_cons_of_mem _ hm)
    · show upd (upd s.slot a (s.slot b)) b none a = s.slot b
      rw [upd_other _ _ hab, upd_same]
    · show upd (upd s.csig a (s.csig b)) b none a = some g
      rw [upd_other _ _ hab, upd_same]
      exact hcs
    · show upd s.ident a (s.ident b) a = s.ident b
      rw [upd_same]
    · show (disconnected _ b (T g)).next b = b
      rw [disconnected_next]
      exact upd_same _ _ _
    · show (disconnected _ b (T g)).prev b = b
      rw [disconnected_prev]
      exact upd_same _ _ _

/-- The call `replace(other)` on a connected `other` whose signal has the token stack
`ts`, after the fields were taken over. -/
theorem replace_eq_of_stack {s : State} {a b g n : Nat} {ts : List Nat} (hab : a ≠ b)
    (hbs : s.csig b = some g) (hst : Stack s (s.top_token g) ts)
    (hsig : ∀ t ∈ ts, s.tsig t ≠ none) (hn : ts.length ≤ n) :
    replace n (transferred s a b) a b = some (relocated s a b ts) := by
  have hca : (transferred s a b).csig a = s.csig b := upd_same _ _ _
  have hcb : (insert (transferred s a b) b a).csig b = some g := by
    show upd s.csig a (s.csig b) b = some g
    rw [upd_other _ _ (Ne.symm hab)]
    exact hbs
  have hst1 : Stack (insert (transferred s a b) b a)
      ((insert (transferred s a b) b a).top_token g) ts :=
    @Stack.of_tnext_eq s (insert (transferred s a b) b a) rfl _ _ hst
  simp only [replace, hca, hbs]
  exact disconnect_eq hcb hst1 hsig hn

/-- Relocation puts the new node in the place of the old one. -/
theorem Ring.relocated {s : State} {g a b : Nat} {l r : List Nat} (ts : List Nat)
    (h : Ring s g (l ++ b :: r)) (ha : a ∉ g :: (l ++ b :: r)) :
    Ring (relocated s a b ts) g (l ++ a :: r) := by
  have h3 : Ring (transferred s a b) g (l ++ b :: r) := h.of_eq rfl rfl
  have h4 := Ring.link h3 ha
  have e1 : Signals.insert (transferred s a b) b a =
      Signals.link (transferred s a b) a (l.getLastD g) ((b :: r).headD g) := by
    show Signals.link (transferred s a b) a (s.prev b) b = _
    rw [h.prev_mem]
    rfl
  have h5 : Ring (Signals.insert (transferred s a b) b a) g ((l ++ [a]) ++ b :: r) := by
    rw [e1]
    simpa using h4
  have h6 := h5.disconnected ts
  simpa using h6

/-- Relocation moves the tokens that stood at the old node to the new one. -/
theorem relocated_tit {s : State} {a b : Nat} (ts : List Nat) (t : Nat) :
    (relocated s a b ts).tit t = if t ∈ ts ∧ s.tit t = b then a else s.tit t := by
  show (if t ∈ ts ∧ s.tit t = b then (link (transferred s a b) a (s.prev b) b).prev b
    else s.tit t) = _
  rw [link_prev, upd_same]

/-! ## Emission over callables that do nothing where they are called -/

/-- The emission loop walks a stretch `m` of connections whose callables do nothing in the
very states in which the loop calls them: each of them is called, the token ends just
behind the stretch, and nothing else changes. -/
theorem loop_stretch {beh : Nat → State → List Action} {g t : Nat} (r : List Nat) :
    ∀ (m l : List Nat) (s res : State) (g' : Nat), Ring s g (l ++ m ++ r) →
      s.tsig t = some g' → s.tit t = (m ++ r).headD g →
      (∀ a ∈ m, a ∉ s.freed) →
      (∀ p y q, m = p ++ y :: q → ∀ f, s.slot y = some f →
        beh f { s with tit := upd s.tit t y, log := s.log ++ entries s t p } = []) →
      Runs beh (.loop t g)
        { s with tit := upd s.tit t (r.headD g), log := s.log ++ entries s t m } res →
      Runs beh (.loop t g) s res
  | [], l, s, res, g', _, _, hit, _, _, h => by
    simp only [List.nil_append] at hit
    have e : ({ s with tit := upd s.tit t (r.headD g), log := s.log ++ entries s t [] } : State)
        = s := by
      have : upd s.tit t (r.headD g) = s.tit := by
        funext b
        unfold upd
        split
        · next hb => rw [hb, hit]
        · rfl
      rw [this]
      simp [entries]
    rw [e] at h
    exact h
  | x :: m, l, s, res, g', hring, hsig, hit, hlive, hin, h => by
    simp only [List.cons_append, List.headD_cons] at hit
    have hring' : Ring s g (l ++ x :: (m ++ r)) := by simpa using hring
    have hxg : x ≠ g := by
      intro e
      have := hring'.nodup
      simp [e] at this
    have hnx : s.next x = (m ++ r).headD g := hring'.next_mem
    have hxl : x ∉ s.freed := hlive x (List.mem_cons_self _ _)
    have htx : s.tit t ≠ g := by rw [hit]; exact hxg
    have hring2 : Ring s g ((l ++ [x]) ++ m ++ r) := by simpa using hring
    cases hf : s.slot x with
    | none =>
      refine Runs.loop_skip hsig htx (by rw [hit]; exact hf) ?_
      rw [hit, touch_of_not_mem hxl]
      have hadv : advance s t = { s with tit := upd s.tit t ((m ++ r).headD g) } := by
        rw [advance_of_not_mem (by rw [hit]; exact hxl), hit, hnx]
      rw [hadv]
      refine loop_stretch r m (l ++ [x]) _ res g' (hring2.of_eq rfl rfl) hsig (upd_same _ _ _)
        (fun a ha => hlive a (List.mem_cons_of_mem _ ha)) ?_ ?_
      · intro p y q hm f hyf
        have h0 := hin (x :: p) y q (by rw [hm]; rfl) f hyf
        simp only [upd_upd_same]
        simpa [entries, hf] using h0
      · simp only [upd_upd_same]
        simpa [entries, hf] using h
    | some f =>
      have e0 : ({ s with tit := upd s.tit t x, log := s.log ++ entries s t [] } : State) = s := by
        have : upd s.tit t x = s.tit := by
          funext b
          unfold upd
          split
          · next hb => rw [hb, hit]
          · rfl
        rw [this]
        simp [entries]
      have hbeh : beh f s = [] := by
        have h0 := hin [] x m rfl f hf
        rw [e0] at h0
        exact h0
      have h1 : Runs beh (.script (beh f (touch s (s.tit t))))
          (record (touch s (s.tit t)) t f) (record s t f) := by
        rw [hit, touch_of_not_mem hxl, hbeh]
        exact Runs.script_nil
      refine Runs.loop_call hsig htx (by rw [hit]; exact hf) h1 ?_
      · have hadv : advance (record s t f) t =
            { s with tit := upd s.tit t ((m ++ r).headD g),
                     log := s.log ++ [⟨t, s.ident x, f⟩] } := by
          have hl : (record s t f).tit t ∉ (record s t f).freed := by
            show s.tit t ∉ s.freed
            rw [hit]
            exact hxl
          rw [advance_of_not_mem hl]
          simp only [record, hit, hnx]
        rw [hadv]
        refine loop_stretch r m (l ++ [x]) _ res g' (hring2.of_eq rfl rfl) hsig (upd_same _ _ _)
          (fun a ha => hlive a (List.mem_cons_of_mem _ ha)) ?_ ?_
        · intro p y q hm f' hyf
          have h0 := hin (x :: p) y q (by rw [hm]; rfl) f' hyf
          simp only [upd_upd_same]
          simpa [entries, hf] using h0
        · simp only [upd_upd_same]
          simpa [entries, hf] using h

/-- An emission whose leading callables do nothing in the states in which they are called
reaches the call of the callable of `x`; from there the body of that callable and the rest
of the loop complete the emission. -/
theorem emit_via_at {beh : Nat → State → List Action} {s s1 s2 : State} {g x f : Nat}
    {l r ts : List Nat} (h : Attached s g (l ++ x :: r) ts) (hx : s.slot x = some f)
    (hin : ∀ p y q, l = p ++ y :: q → ∀ f', s.slot y = some f' →
      beh f' (reached s g p y) = [])
    (hbody : Runs beh (.script (beh f (reached s g l x))) (record (reached s g l x) s.depth f)
      s1)
    (hrest : Runs beh (.loop s.depth g) (advance s1 s.depth) s2) :
    Runs beh (.emit g) s (token_dtor s2 s.depth) := by
  apply Runs.emit
  have hring : Ring (token_ctor s g) g ([] ++ l ++ x :: r) := by
    simpa using h.ring.of_eq rfl rfl
  have hxl : x ∉ s.freed := h.live x (by simp)
  refine loop_stretch (x :: r) l [] (token_ctor s g) s2 g hring (upd_same _ _ _) ?_ ?_ ?_ ?_
  · show upd s.tit s.depth (s.next g) s.depth = (l ++ x :: r).headD g
    rw [upd_same]
    exact h.ring.next_sentinel
  · intro a ha
    exact h.live a (by simp [ha])
  · intro p y q hl f' hyf
    have h0 := hin p y q hl f' hyf
    have e : ({ token_ctor s g with
        tit := upd (token_ctor s g).tit s.depth y,
        log := (token_ctor s g).log ++ entries (token_ctor s g) s.depth p } : State) =
        reached s g p y := rfl
    rw [e]
    exact h0
  · show Runs beh (.loop s.depth g) (reached s g l x) s2
    have hsig : (reached s g l x).tsig s.depth = some g := upd_same _ _ _
    have hit : (reached s g l x).tit s.depth = x := upd_same _ _ _
    have hxg : (reached s g l x).tit s.depth ≠ g := by
      rw [hit]
      exact h.ring.ne_sentinel (by simp)
    have hsl : (reached s g l x).slot ((reached s g l x).tit s.depth) = some f := by
      rw [hit]
      exact hx
    have hfr : (reached s g l x).tit s.depth ∉ (reached s g l x).freed := by
      rw [hit]
      exact hxl
    refine Runs.loop_call hsig hxg hsl ?_ hrest
    rw [touch_of_not_mem hfr]
    exact hbody

/-- An emission whose leading callables do nothing in the states in which they are called,
whose callable at `x` leaves the token at the end of a stretch `l2` of the container, and
whose remaining callables `r2` do nothing: it returns after calling `l`, `x` and `r2`. -/
theorem emit_pivot_at {beh : Nat → State → List Action} {s sc : State} {g x f : Nat}
    {l r ts l2 r2 : List Nat} (h : Attached s g (l ++ x :: r) ts) (hx : s.slot x = some f)
    (hin : ∀ p y q, l = p ++ y :: q → ∀ f', s.slot y = some f' →
      beh f' (reached s g p y) = [])
    (hbody : Runs beh (.script (beh f (reached s g l x))) (record (reached s g l x) s.depth f)
      sc)
    (hring : Ring sc g (l2 ++ r2)) (htit : sc.tit s.depth = l2.getLastD g)
    (htsig : sc.tsig s.depth = some g) (hlive : ∀ a ∈ g :: (l2 ++ r2), a ∉ sc.freed)
    (hin2 : ∀ y ∈ r2, ∀ f', sc.slot y = some f' →
      ∀ s' : State, (∃ ext, s'.log = sc.log ++ ext) → beh f' s' = []) :
    Runs beh (.emit g) s (finish sc s.depth g (entries sc s.depth r2)) := by
  have hpl : l2.getLastD g ∉ sc.freed := by
    apply hlive
    rcases List.mem_cons.1 (getLastD_mem l2 g) with e | hm
    · rw [e]; simp
    · exact List.mem_cons_of_mem _ (List.mem_append_left _ hm)
  have hadv : advance sc s.depth = { sc with tit := upd sc.tit s.depth (r2.headD g) } := by
    rw [advance_of_not_mem (by rw [htit]; exact hpl), htit, hring.next_getLastD]
  have hrest : Runs beh (.loop s.depth g) (advance sc s.depth)
      { sc with tit := upd sc.tit s.depth g, log := sc.log ++ entries sc s.depth r2 } := by
    rw [hadv]
    have : Runs beh (.loop s.depth g) _ _ :=
      loop_tail r2 l2 { sc with tit := upd sc.tit s.depth (r2.headD g) } g
        (hring.of_eq rfl rfl) htsig (upd_same _ _ _)
        (fun a ha => hlive a (by simp [ha])) hin2
    simp only [upd_upd_same] at this
    exact this
  exact emit_via_at h hx hin hbody hrest

/-- Inside an emission on `g`, when the loop has entered a callable, the signal is alive
with the same container and with the token of the emission on top of its stack. -/
theorem Attached.in_emission {s : State} {g : Nat} {xs ts : List Nat}
    (h : Attached s g xs ts) (l : List Nat) (x f : Nat) :
    Attached (record (reached s g l x) s.depth f) g xs (s.depth :: ts) where
  alive := h.alive
  ring := h.ring.of_eq rfl rfl
  sig := h.sig
  conn := h.conn
  live := h.live
  below := h.below
  fresh := h.fresh
  stack := (@Attached.stack_in_emission s (record (reached s g l x) s.depth f) g xs ts h
    rfl rfl rfl).1
  tok_sig := by
    intro t ht
    show upd s.tsig s.depth (some g) t = some g
    rcases List.mem_cons.1 ht with e | hm
    · rw [e, upd_same]
    · rw [upd_other _ _ (Nat.ne_of_lt (h.tok_lt t hm))]
      exact h.tok_sig t hm
  tok_lt := by
    intro t ht
    show t < s.depth + 1
    rcases List.mem_cons.1 ht with e | hm
    · omega
    · exact Nat.lt_succ_of_lt (h.tok_lt t hm)

/-! The state in which a callable is entered, field by field. -/

theorem entered_next (s : State) (g : Nat) (l : List Nat) (x f : Nat) :
    (record (reached s g l x) s.depth f).next = s.next := rfl

theorem entered_prev (s : State) (g : Nat) (l : List Nat) (x f : Nat) :
    (record (reached s g l x) s.depth f).prev = s.prev := rfl

theorem entered_csig (s : State) (g : Nat) (l : List Nat) (x f : Nat) :
    (record (reached s g l x) s.depth f).csig = s.csig := rfl

theorem entered_slot (s : State) (g : Nat) (l : List Nat) (x f : Nat) :
    (record (reached s g l x) s.depth f).slot = s.slot := rfl

theorem entered_ident (s : State) (g : Nat) (l : List Nat) (x f : Nat) :
    (record (reached s g l x) s.depth f).ident = s.ident := rfl

theorem entered_alloc (s : State) (g : Nat) (l : List Nat) (x f : Nat) :
    (record (reached s g l x) s.depth f).alloc = s.alloc := rfl

theorem entered_sigs (s : State) (g : Nat) (l : List Nat) (x f : Nat) :
    (record (reached s g l x) s.depth f).sigs = s.sigs := rfl

theorem entered_freed (s : State) (g : Nat) (l : List Nat) (x f : Nat) :
    (record (reached s g l x) s.depth f).freed = s.freed := rfl

theorem entered_depth (s : State) (g : Nat) (l : List Nat) (x f : Nat) :
    (record (reached s g l x) s.depth f).depth = s.depth + 1 := rfl

theorem entered_tsig (s : State) (g : Nat) (l : List Nat) (x f : Nat) :
    (record (reached s g l x) s.depth f).tsig = upd s.tsig s.depth (some g) := rfl

theorem entered_tit (s : State) (g : Nat) (l : List Nat) (x f : Nat) :
    (record (reached s g l x) s.depth f).tit = upd s.tit s.depth x := by
  show upd (upd s.tit s.depth (s.next g)) s.depth x = _
  rw [upd_upd_same]

theorem entered_log (s : State) (g : Nat) (l : List Nat) (x f : Nat) :
    (record (reached s g l x) s.depth f).log =
      s.log ++ entries s s.depth l ++ [⟨s.depth, s.ident x, f⟩] := by
  show s.log ++ entries s s.depth l ++ [⟨s.depth, s.ident (upd _ s.depth x s.depth), f⟩] = _
  rw [upd_same]

theorem entered_is_conn {s : State} {c : Nat} (g : Nat) (l : List Nat) (x f : Nat)
    (h : IsConn s c) : IsConn (record (reached s g l x) s.depth f) c := h

theorem disconnected_slot (s : State) (c : Nat) (ts : List Nat) :
    (disconnected s c ts).slot = s.slot := rfl

theorem disconnected_ident (s : State) (c : Nat) (ts : List Nat) :
    (disconnected s c ts).ident = s.ident := rfl

theorem disconnected_freed (s : State) (c : Nat) (ts : List Nat) :
    (disconnected s c ts).freed = s.freed := rfl

theorem disconnected_log (s : State) (c : Nat) (ts : List Nat) :
    (disconnected s c ts).log = s.log := rfl

theorem disconnected_tsig (s : State) (c : Nat) (ts : List Nat) :
    (disconnected s c ts).tsig = s.tsig := rfl

theorem disconnected_tit (s : State) (c : Nat) (ts : List Nat) (t : Nat) :
    (disconnected s c ts).tit t = if t ∈ ts ∧ s.tit t = c then s.prev c else s.tit t := rfl

/-! ## Cutting a stretch out of a chain and pasting it into a chain -/

theorem ne_of_nodup_append {l1 l2 : List Nat} (h : (l1 ++ l2).Nodup) {u v : Nat}
    (hu : u ∈ l1) (hv : v ∈ l2) : u ≠ v :=
  fun e => (List.nodup_append.1 h).2.2 hu (e ▸ hv)

theorem path_initial {f : Nat → Nat} {b : Nat} {r : List Nat} (l : List Nat) (a : Nat)
    (h : Path f a (l ++ r) b) : Path f a l (r.headD b) := by
  cases r with
  | nil => simpa using h
  | cons y r => exact ((path_append l a).1 h).1

theorem path_suffix {f : Nat → Nat} {b y : Nat} {r : List Nat} (l : List Nat) (a : Nat)
    (h : Path f a (l ++ y :: r) b) : Path f y r b :=
  ((path_append l a).1 h).2

/-- A chain stays a chain, with a new end, when the function changes at its last node
only. -/
theorem path_relink {f f' : Nat → Nat} {b b' : Nat} :
    ∀ (l : List Nat) (a : Nat), (a :: l).Nodup → Path f a l b → f' (l.getLastD a) = b' →
      (∀ u ∈ a :: l, u ≠ l.getLastD a → f' u = f u) → Path f' a l b'
  | [], _, _, _, hl, _ => path_nil.2 hl
  | y :: l, a, hn, h, hl, hm => by
    obtain ⟨h1, h2⟩ := path_cons.1 h
    have hay : a ≠ (y :: l).getLastD a := by
      rw [List.getLastD_cons]
      intro e
      have hmem := getLastD_mem l y
      rw [← e] at hmem
      exact (List.nodup_cons.1 hn).1 hmem
    refine path_cons.2 ⟨?_, ?_⟩
    · rw [hm a (List.mem_cons_self _ _) hay]
      exact h1
    · refine path_relink l y (List.nodup_cons.1 hn).2 h2
        (by rw [List.getLastD_cons] at hl; exact hl) ?_
      intro u hu hne
      exact hm u (List.mem_cons_of_mem _ hu) (by rw [List.getLastD_cons]; exact hne)

/-- Cutting the stretch `m` out of the chain `l ++ m ++ r`. -/
theorem path_cut {f f' : Nat → Nat} {a0 b0 : Nat} {l m r : List Nat}
    (hn : (a0 :: (l ++ m ++ r)).Nodup) (h : Path f a0 (l ++ m ++ r) b0)
    (hl : f' (l.getLastD a0) = r.headD b0)
    (hm : ∀ u ∈ a0 :: (l ++ r), u ≠ l.getLastD a0 → f' u = f u) :
    Path f' a0 (l ++ r) b0 := by
  have hnl : (a0 :: l).Nodup := by
    have : (a0 :: l ++ (m ++ r)).Nodup := by simpa using hn
    exact (List.nodup_append.1 this).1
  have h1 : Path f a0 l ((m ++ r).headD b0) :=
    path_initial l a0 (by simpa using h)
  cases r with
  | nil =>
    rw [List.append_nil]
    refine path_relink l a0 hnl h1 hl (fun u hu hne => hm u (by simpa using hu) hne)
  | cons y r =>
    refine (path_append l a0).2 ⟨?_, ?_⟩
    · exact path_relink l a0 hnl h1 hl
        (fun u hu hne => hm u (by
          simp only [List.mem_cons, List.mem_append] at hu ⊢
          tauto) hne)
    · have h2 : Path f y r b0 := path_suffix (l ++ m) a0 (by simpa using h)
      refine path_congr h2 (fun u hu => hm u ?_ ?_)
      · simp only [List.mem_cons, List.mem_append] at hu ⊢
        tauto
      · have hd : (a0 :: l ++ (m ++ y :: r)).Nodup := by simpa using hn
        exact (ne_of_nodup_append hd (getLastD_mem l a0)
          (List.mem_append_right _ hu)).symm

/-- Pasting the chain `x :: m` into the chain `l ++ r`, between `l` and `r`. -/
theorem path_paste {f f' : Nat → Nat} {a0 b0 e0 x : Nat} {l m r : List Nat}
    (hn : (a0 :: (l ++ x :: m ++ r)).Nodup) (h : Path f a0 (l ++ r) b0)
    (hseg : Path f x m e0) (hl : f' (l.getLastD a0) = x)
    (hlast : f' (m.getLastD x) = r.headD b0)
    (hm : ∀ u ∈ a0 :: (l ++ x :: m ++ r), u ≠ l.getLastD a0 → u ≠ m.getLastD x →
      f' u = f u) :
    Path f' a0 (l ++ x :: m ++ r) b0 := by
  have hd : (a0 :: l ++ (x :: m ++ r)).Nodup := by simpa using hn
  have hnl : (a0 :: l).Nodup := (List.nodup_append.1 hd).1
  have hnm : (x :: m ++ r).Nodup := (List.nodup_append.1 hd).2.1
  have hnxm : (x :: m).Nodup := (List.nodup_append.1 hnm).1
  have hlast_mem : m.getLastD x ∈ x :: m := getLastD_mem m x
  have hpre_mem : l.getLastD a0 ∈ a0 :: l := getLastD_mem l a0
  have e1 : l ++ x :: m ++ r = l ++ x :: (m ++ r) := by simp
  rw [e1]
  refine (path_append l a0).2 ⟨?_, ?_⟩
  · refine path_relink l a0 hnl (path_initial l a0 h) hl (fun u hu hne => hm u ?_ hne ?_)
    · simp only [List.mem_cons, List.mem_append] at hu ⊢
      tauto
    · exact ne_of_nodup_append hd hu (List.mem_append_left _ hlast_mem)
  · cases r with
    | nil =>
      rw [List.append_nil]
      refine path_relink m x hnxm hseg hlast (fun u hu hne => hm u ?_ ?_ hne)
      · simp only [List.mem_cons, List.mem_append] at hu ⊢
        tauto
      · exact (ne_of_nodup_append hd hpre_mem (List.mem_append_left _ hu)).symm
    | cons y r =>
      refine (path_append m x).2 ⟨?_, ?_⟩
      · refine path_relink m x hnxm hseg hlast (fun u hu hne => hm u ?_ ?_ hne)
        · simp only [List.mem_cons, List.mem_append] at hu ⊢
          tauto
        · exact (ne_of_nodup_append hd hpre_mem (List.mem_append_left _ hu)).symm
      · have h2 : Path f y r b0 := path_suffix l a0 h
        refine path_congr h2 (fun u hu => hm u ?_ ?_ ?_)
        · simp only [List.mem_cons, List.mem_append] at hu ⊢
          tauto
        · exact (ne_of_nodup_append hd hpre_mem (List.mem_append_right _ hu)).symm
        · exact (ne_of_nodup_append hnm hlast_mem hu).symm

theorem path_paste_list {f f' : Nat → Nat} {a0 b0 e0 : Nat} {l M r : List Nat} (hM : M ≠ [])
    (hn : (a0 :: (l ++ M ++ r)).Nodup) (h : Path f a0 (l ++ r) b0)
    (hseg : M.map f = M.tail ++ [e0]) (hl : f' (l.getLastD a0) = M.headD a0)
    (hlast : f' (M.getLastD a0) = r.headD b0)
    (hm : ∀ u ∈ a0 :: (l ++ M ++ r), u ≠ l.getLastD a0 → u ≠ M.getLastD a0 → f' u = f u) :
    Path f' a0 (l ++ M ++ r) b0 := by
  cases M with
  | nil => exact absurd rfl hM
  | cons x m =>
    have h1 := @path_paste f f' a0 b0 e0 x l m r (by simpa using hn) h hseg hl
      (by rw [List.getLastD_cons] at hlast; exact hlast)
      (fun u hu h1 h2 => hm u (by simpa using hu) h1 (by rw [List.getLastD_cons]; exact h2))
    simpa using h1

theorem nodup_cons_reverse {g : Nat} {l : List Nat} (h : (g :: l).Nodup) :
    (g :: l.reverse).Nodup := by
  rw [List.nodup_cons] at h ⊢
  exact ⟨fun hm => h.1 (List.mem_reverse.1 hm), List.nodup_reverse.2 h.2⟩

theorem headD_of_ne_nil {l : List Nat} (a b : Nat) (h : l ≠ []) : l.headD a = l.headD b := by
  cases l with
  | nil => exact absurd rfl h
  | cons x l => rfl

theorem Ring.prev_headD {s : State} {g : Nat} {l r : List Nat} (h : Ring s g (l ++ r)) :
    s.prev (r.headD g) = l.getLastD g := by
  cases r with
  | nil =>
    rw [List.append_nil] at h
    exact h.prev_sentinel
  | cons y r => exact h.prev_mem

/-- The links inside a stretch of a ring: each node of the stretch but the last has its
successor behind it, each node but the first its predecessor in front of it. -/
theorem Ring.stretch {s : State} {g : Nat} {a M b : List Nat} (hM : M ≠ [])
    (h : Ring s g (a ++ M ++ b)) :
    M.map s.next = M.tail ++ [b.headD g] ∧
    M.reverse.map s.prev = M.reverse.tail ++ [a.getLastD g] := by
  obtain ⟨_, h1, h2⟩ := h
  constructor
  · cases M with
    | nil => exact absurd rfl hM
    | cons x m =>
      have h3 : Path s.next x (m ++ b) g := path_suffix a g (by simpa using h1)
      exact path_initial m x h3
  · have e : (a ++ M ++ b).reverse = b.reverse ++ M.reverse ++ a.reverse := by
      simp [List.append_assoc]
    rw [e] at h2
    cases hr : M.reverse with
    | nil => exact absurd (List.reverse_eq_nil_iff.1 hr) hM
    | cons y t =>
      rw [hr] at h2
      have h3 : Path s.prev y (t ++ a.reverse) g := path_suffix b.reverse g (by simpa using h2)
      have h4 := path_initial t y h3
      rw [headD_reverse] at h4
      exact h4

theorem getLastD_mem_of_ne_nil {M : List Nat} (h : M ≠ []) (a : Nat) : M.getLastD a ∈ M := by
  cases M with
  | nil => exact absurd rfl h
  | cons x m =>
    rw [List.getLastD_cons]
    exact getLastD_mem m x

theorem headD_mem_of_ne_nil {M : List Nat} (h : M ≠ []) (a : Nat) : M.headD a ∈ M := by
  cases M with
  | nil => exact absurd rfl h
  | cons x m => exact List.mem_cons_self _ _

/-- Cutting a stretch out of a ring: its predecessor and its successor are linked to each
other, and the ring holds the other nodes in unchanged order. -/
theorem Ring.cut {s : State} {g : Nat} {a M b : List Nat} (h : Ring s g (a ++ M ++ b)) :
    Ring { s with next := upd s.next (a.getLastD g) (b.headD g),
                  prev := upd s.prev (b.headD g) (a.getLastD g) } g (a ++ b) := by
  obtain ⟨hnd, h1, h2⟩ := h
  have e : (a ++ M ++ b).reverse = b.reverse ++ M.reverse ++ a.reverse := by
    simp [List.append_assoc]
  refine ⟨?_, ?_, ?_⟩
  · have hs : (g :: (a ++ b)).Sublist (g :: (a ++ M ++ b)) :=
      List.Sublist.cons₂ g
        (List.Sublist.append (List.sublist_append_left a M) (List.Sublist.refl b))
    exact hnd.sublist hs
  · exact path_cut hnd h1 (upd_same _ _ _) (fun u _ hne => upd_other _ _ hne)
  · have hnd' : (g :: (b.reverse ++ M.reverse ++ a.reverse)).Nodup :=
      e ▸ nodup_cons_reverse hnd
    rw [e] at h2
    rw [List.reverse_append]
    refine path_cut hnd' h2 ?_ ?_
    · show upd s.prev (b.headD g) (a.getLastD g) (b.reverse.getLastD g) = a.reverse.headD g
      rw [getLastD_reverse, headD_reverse, upd_same]
    · intro u _ hne
      rw [getLastD_reverse] at hne
      exact upd_other _ _ hne

/-- Pasting a chained stretch into a ring, between `l` and `r`. -/
theorem Ring.paste {s : State} {g e0 p0 : Nat} {l M r : List Nat} (hM : M ≠ [])
    (h : Ring s g (l ++ r)) (hn : (g :: (l ++ M ++ r)).Nodup)
    (hsn : M.map s.next = M.tail ++ [e0])
    (hsp : M.reverse.map s.prev = M.reverse.tail ++ [p0]) :
    Ring { s with
        next := upd (upd s.next (l.getLastD g) (M.headD g)) (M.getLastD g) (r.headD g),
        prev := upd (upd s.prev (M.headD g) (l.getLastD g)) (r.headD g) (M.getLastD g) }
      g (l ++ M ++ r) := by
  obtain ⟨_, h1, h2⟩ := h
  have hd : (g :: l ++ (M ++ r)).Nodup := by simpa using hn
  have hlm : l.getLastD g ≠ M.getLastD g :=
    ne_of_nodup_append hd (getLastD_mem l g)
      (List.mem_append_left _ (getLastD_mem_of_ne_nil hM g))
  have hmr : M.headD g ≠ r.headD g := by
    intro e1
    have hm1 : M.headD g ∈ M := headD_mem_of_ne_nil hM g
    have hm2 : r.headD g ∈ r ++ [g] := headD_mem r g
    rw [← e1] at hm2
    rcases List.mem_append.1 hm2 with hr | hg
    · exact ne_of_nodup_append (List.nodup_append.1 hd).2.1 hm1 hr rfl
    · rw [List.mem_singleton] at hg
      have hg2 : g ∈ l ++ M ++ r := by
        rw [← hg]
        exact List.mem_append_left _ (List.mem_append_right _ hm1)
      exact (List.nodup_cons.1 hn).1 hg2
  have e : (l ++ M ++ r).reverse = r.reverse ++ M.reverse ++ l.reverse := by
    simp [List.append_assoc]
  refine ⟨hn, ?_, ?_⟩
  · refine path_paste_list hM hn h1 hsn ?_ (upd_same _ _ _) ?_
    · show upd (upd s.next (l.getLastD g) (M.headD g)) (M.getLastD g) (r.headD g)
        (l.getLastD g) = M.headD g
      rw [upd_other _ _ hlm, upd_same]
    · intro u _ hu1 hu2
      show upd (upd s.next (l.getLastD g) (M.headD g)) (M.getLastD g) (r.headD g) u = s.next u
      rw [upd_other _ _ hu2, upd_other _ _ hu1]
  · have hn' : (g :: (r.reverse ++ M.reverse ++ l.reverse)).Nodup := e ▸ nodup_cons_reverse hn
    have h2' : Path s.prev g (r.reverse ++ l.reverse) g := by
      rw [← List.reverse_append]
      exact h2
    have hMr : M.reverse ≠ [] := fun hr => hM (List.reverse_eq_nil_iff.1 hr)
    rw [e]
    refine path_paste_list hMr hn' h2' hsp ?_ ?_ ?_
    · show upd (upd s.prev (M.headD g) (l.getLastD g)) (r.headD g) (M.getLastD g)
        (r.reverse.getLastD g) = M.reverse.headD g
      rw [getLastD_reverse, headD_reverse, upd_same]
    · show upd (upd s.prev (M.headD g) (l.getLastD g)) (r.headD g) (M.getLastD g)
        (M.reverse.getLastD g) = l.reverse.headD g
      rw [getLastD_reverse, headD_reverse, upd_other _ _ hmr, upd_same]
    · intro u _ hu1 hu2
      rw [getLastD_reverse] at hu1 hu2
      show upd (upd s.prev (M.headD g) (l.getLastD g)) (r.headD g) (M.getLastD g) u = s.prev u
      rw [upd_other _ _ hu1, upd_other _ _ hu2]

/-! ## `list::splice` -/

/-- The state after `splice` of a non-empty range to a position that is neither its first
node nor its end: three `next` links and three `prev` links are rewritten. -/
theorem splice_eq {s : State} {pos b e : Nat} (hbe : b ≠ e) (hpb : pos ≠ b) (hpe : pos ≠ e) :
    splice s pos b e =
      { s with
        next := upd (upd (upd s.next (s.prev b) e) (s.prev pos) b) (s.prev e) pos,
        prev := upd (upd (upd s.prev e (s.prev b)) b (s.prev pos)) pos (s.prev e) } := by
  unfold splice
  rw [if_neg hbe]
  simp only [upd_other _ _ hpe, upd_other _ _ hpb]

/-- A range spliced to its own end stays where it is. -/
theorem splice_end {s : State} {b e : Nat} (hb : s.next (s.prev b) = b)
    (he : s.next (s.prev e) = e) : splice s e b e = s := by
  unfold splice
  by_cases hbe : b = e
  · rw [if_pos hbe]
  · rw [if_neg hbe]
    have e1 : upd (upd (upd s.next (s.prev b) e)
        (upd (upd s.prev e (s.prev b)) b (upd s.prev e (s.prev b) e) e) b) (s.prev e) e =
        s.next := by
      funext u
      rw [upd_other _ _ (Ne.symm hbe), upd_same]
      unfold upd
      split
      · next h => rw [h, he]
      · split
        · next h => rw [h, hb]
        · rfl
    have e2 : upd (upd (upd s.prev e (s.prev b)) b (upd s.prev e (s.prev b) e)) e (s.prev e) =
        s.prev := by
      funext u
      rw [upd_same]
      unfold upd
      split
      · next h => rw [h]
      · split
        · next h => rw [h]
        · rfl
    simp only [e1, e2]

theorem getLastD_append_cons (l : List Nat) (x : Nat) (m : List Nat) (a : Nat) :
    (l ++ x :: m).getLastD a = m.getLastD x := by
  induction l generalizing a with
  | nil => rw [List.nil_append, List.getLastD_cons]
  | cons y l ih =>
    rw [List.cons_append, List.getLastD_cons]
    exact ih y

theorem nodup_paste_within {g x : Nat} {a m b l r : List Nat}
    (h : (g :: (a ++ x :: m ++ b)).Nodup) (e : a ++ b = l ++ r) :
    (g :: (l ++ x :: m ++ r)).Nodup := by
  have p1 : (a ++ (x :: m ++ b)).Perm ((x :: m) ++ (a ++ b)) :=
    List.perm_append_comm_assoc _ _ _
  have p2 : (l ++ (x :: m ++ r)).Perm ((x :: m) ++ (l ++ r)) :=
    List.perm_append_comm_assoc _ _ _
  have p3 : (a ++ x :: m ++ b).Perm (l ++ x :: m ++ r) := by
    have q1 : (a ++ x :: m ++ b).Perm ((x :: m) ++ (a ++ b)) := by simpa using p1
    have q2 : (l ++ x :: m ++ r).Perm ((x :: m) ++ (l ++ r)) := by simpa using p2
    rw [e] at q1
    exact q1.trans q2.symm
  exact ((List.Perm.cons g p3).nodup_iff).1 h

theorem nodup_paste_between {g1 g2 x : Nat} {a m b l r : List Nat}
    (h : (g1 :: (a ++ x :: m ++ b) ++ g2 :: (l ++ r)).Nodup) :
    (g2 :: (l ++ x :: m ++ r)).Nodup := by
  have p2 : (l ++ (x :: m ++ r)).Perm ((x :: m) ++ (l ++ r)) :=
    List.perm_append_comm_assoc _ _ _
  have p3 : (g2 :: (l ++ x :: m ++ r)).Perm ((x :: m) ++ g2 :: (l ++ r)) := by
    have q2 : (l ++ x :: m ++ r).Perm ((x :: m) ++ (l ++ r)) := by simpa using p2
    exact (List.Perm.cons g2 q2).trans List.perm_middle.symm
  refine (p3.nodup_iff).2 (h.sublist ?_)
  refine List.Sublist.append ?_ (List.Sublist.refl _)
  refine List.Sublist.cons _ ?_
  have s1 : (x :: m).Sublist (a ++ x :: m) := List.sublist_append_right _ _
  exact s1.trans (List.sublist_append_left _ _)

/-- The state after `splice` in terms of the containers: the range `x :: m`, which stood
between `a` and `b`, is cut out and pasted in front of the position `pos`, whose
predecessor is `q`. -/
theorem splice_cut_paste {s : State} {g1 x pos q : Nat} {a m b : List Nat}
    (h1 : Ring s g1 (a ++ x :: m ++ b)) (hq : s.prev pos = q) (hpx : pos ≠ x)
    (hpe : pos ≠ b.headD g1) :
    splice s pos x (b.headD g1) =
      { s with
        next := upd (upd (upd s.next (a.getLastD g1) (b.headD g1)) q x) (m.getLastD x) pos,
        prev := upd (upd (upd s.prev (b.headD g1) (a.getLastD g1)) x q) pos (m.getLastD x) } := by
  have hd : (g1 :: a ++ (x :: m ++ b)).Nodup := by simpa using h1.nodup
  have hxe : x ≠ b.headD g1 := by
    intro e1
    have hm2 : b.headD g1 ∈ b ++ [g1] := headD_mem b g1
    rw [← e1] at hm2
    rcases List.mem_append.1 hm2 with hr | hg
    · exact ne_of_nodup_append (List.nodup_append.1 hd).2.1
        (List.mem_cons_self x m) hr rfl
    · rw [List.mem_singleton] at hg
      exact ne_of_nodup_append hd (List.mem_cons_self g1 a)
        (List.mem_append_left _ (List.mem_cons_self x m)) hg.symm
  have hp : s.prev x = a.getLastD g1 := by
    have h1' : Ring s g1 (a ++ (x :: (m ++ b))) := by simpa using h1
    exact h1'.prev_mem
  have hl : s.prev (b.headD g1) = m.getLastD x := by
    have h1' : Ring s g1 ((a ++ x :: m) ++ b) := by simpa using h1
    rw [h1'.prev_headD, getLastD_append_cons]
  rw [splice_eq hxe hpx hpe, hp, hl, hq]

theorem split_unique {g : Nat} :
    ∀ (l a r b : List Nat), (g :: (l ++ r)).Nodup → l ++ r = a ++ b →
      r.headD g = b.headD g → l = a ∧ r = b
  | [], [], _, _, _, e, _ => ⟨rfl, by simpa using e⟩
  | [], y :: a, r, b, hn, e, hh => by
    exfalso
    have er : r = y :: (a ++ b) := by simpa using e
    rw [er] at hh hn
    have hy : y = b.headD g := hh
    have hm2 : b.headD g ∈ b ++ [g] := headD_mem b g
    rw [← hy] at hm2
    have hn1 : ([g] ++ (y :: (a ++ b))).Nodup := by simpa using hn
    rcases List.mem_append.1 hm2 with hb | hg
    · have hn2 : ([y] ++ (a ++ b)).Nodup := (List.nodup_append.1 hn1).2.1
      exact ne_of_nodup_append hn2 (List.mem_singleton.2 rfl) (List.mem_append_right _ hb) rfl
    · rw [List.mem_singleton] at hg
      exact ne_of_nodup_append hn1 (List.mem_singleton.2 rfl) (List.mem_cons_self _ _) hg.symm
  | z :: l, [], r, b, hn, e, hh => by
    exfalso
    have eb : b = z :: (l ++ r) := by simpa using e.symm
    rw [eb] at hh
    have hz : r.headD g = z := hh
    have hm2 : r.headD g ∈ r ++ [g] := headD_mem r g
    rw [hz] at hm2
    have hn1 : ([g] ++ (z :: (l ++ r))).Nodup := by simpa using hn
    rcases List.mem_append.1 hm2 with hr | hg
    · have hn2 : ([z] ++ (l ++ r)).Nodup := (List.nodup_append.1 hn1).2.1
      exact ne_of_nodup_append hn2 (List.mem_singleton.2 rfl) (List.mem_append_right _ hr) rfl
    · rw [List.mem_singleton] at hg
      exact ne_of_nodup_append hn1 (List.mem_singleton.2 rfl) (List.mem_cons_self _ _) hg.symm
  | z :: l, y :: a, r, b, hn, e, hh => by
    have e1 : z = y ∧ l ++ r = a ++ b := by simpa using e
    have hn1 : (g :: (l ++ r)).Nodup := by
      have hs : (g :: (l ++ r)).Sublist (g :: (z :: l ++ r)) :=
        List.Sublist.cons₂ g (List.sublist_cons_self z (l ++ r))
      exact hn.sublist hs
    obtain ⟨h1, h2⟩ := split_unique l a r b hn1 e1.2 hh
    exact ⟨by rw [e1.1, h1], h2⟩

/-- The nodes at the cut points of a ring belong to it. -/
theorem mem_ring_cut {g x : Nat} {a m b : List Nat} :
    a.getLastD g ∈ g :: (a ++ b) ∧ b.headD g ∈ g :: (a ++ b) ∧
    m.getLastD x ∈ x :: m ∧
    (∀ u ∈ g :: (a ++ b), u ∈ g :: (a ++ x :: m ++ b)) ∧
    (∀ u ∈ x :: m, u ∈ g :: (a ++ x :: m ++ b)) := by
  refine ⟨?_, ?_, getLastD_mem m x, ?_, ?_⟩
  · have := getLastD_mem a g
    simp only [List.mem_cons, List.mem_append] at this ⊢
    tauto
  · have := headD_mem b g
    simp only [List.mem_cons, List.mem_append, List.mem_singleton] at this ⊢
    tauto
  · intro u hu
    simp only [List.mem_cons, List.mem_append] at hu ⊢
    tauto
  · intro u hu
    simp only [List.mem_cons, List.mem_append] at hu ⊢
    tauto

/-- The stretch that is cut out of a ring stays chained in the state after the cut. -/
theorem Ring.stretch_cut {s : State} {g x : Nat} {a m b : List Nat}
    (h : Ring s g (a ++ x :: m ++ b)) :
    (x :: m).map (upd s.next (a.getLastD g) (b.headD g)) = (x :: m).tail ++ [b.headD g] ∧
    (x :: m).reverse.map (upd s.prev (b.headD g) (a.getLastD g)) =
      (x :: m).reverse.tail ++ [a.getLastD g] := by
  obtain ⟨h1, h2⟩ := @Ring.stretch s g a (x :: m) b (List.cons_ne_nil _ _) h
  obtain ⟨hp, he, _, hsub, hseg⟩ := @mem_ring_cut g x a m b
  have hd : ((g :: (a ++ b)) ++ (x :: m)).Nodup := by
    have p1 : ((g :: (a ++ b)) ++ (x :: m)).Perm (g :: (a ++ x :: m ++ b)) := by
      have q : ((a ++ b) ++ (x :: m)).Perm (a ++ x :: m ++ b) := by
        have q1 : (a ++ (b ++ x :: m)).Perm (a ++ (x :: m ++ b)) :=
          List.Perm.append_left a List.perm_append_comm
        simpa using q1
      exact List.Perm.cons g q
    exact (p1.nodup_iff).2 h.nodup
  constructor
  · rw [map_upd_of_not_mem _ _ _ _ (fun hm => ne_of_nodup_append hd hp hm rfl)]
    exact h1
  · rw [map_upd_of_not_mem _ _ _ _
      (fun hm => ne_of_nodup_append hd he (List.mem_reverse.1 hm) rfl)]
    exact h2

/-- `splice` of the range `x :: m` of one container to a position of another container:
the range leaves the first container and stands in front of the position in the second
one. -/
theorem Ring.splice_between {s : State} {g1 g2 x : Nat} {a m b l r : List Nat}
    (h1 : Ring s g1 (a ++ x :: m ++ b)) (h2 : Ring s g2 (l ++ r))
    (hnd : (g1 :: (a ++ x :: m ++ b) ++ g2 :: (l ++ r)).Nodup) :
    Ring (splice s (r.headD g2) x (b.headD g1)) g1 (a ++ b) ∧
    Ring (splice s (r.headD g2) x (b.headD g1)) g2 (l ++ x :: m ++ r) := by
  obtain ⟨hp1, he1, hl1, hsub1, hseg1⟩ := @mem_ring_cut g1 x a m b
  have hq2 : l.getLastD g2 ∈ g2 :: (l ++ r) := by
    have := getLastD_mem l g2
    simp only [List.mem_cons, List.mem_append] at this ⊢
    tauto
  have hpos2 : r.headD g2 ∈ g2 :: (l ++ r) := by
    have := headD_mem r g2
    simp only [List.mem_cons, List.mem_append, List.mem_singleton] at this ⊢
    tauto
  have hdis : ∀ u ∈ g1 :: (a ++ x :: m ++ b), ∀ v ∈ g2 :: (l ++ r), u ≠ v :=
    fun u hu v hv => ne_of_nodup_append hnd hu hv
  have hpx : r.headD g2 ≠ x :=
    (hdis x (hseg1 x (List.mem_cons_self _ _)) _ hpos2).symm
  have hpe : r.headD g2 ≠ b.headD g1 := (hdis _ (hsub1 _ he1) _ hpos2).symm
  rw [splice_cut_paste h1 h2.prev_headD hpx hpe]
  obtain ⟨sc, hsc⟩ : ∃ sc, sc =
      { s with next := upd s.next (a.getLastD g1) (b.headD g1),
               prev := upd s.prev (b.headD g1) (a.getLastD g1) } := ⟨_, rfl⟩
  have hc1 : Ring sc g1 (a ++ b) := by
    rw [hsc]
    exact h1.cut
  have hc2 : Ring sc g2 (l ++ r) := by
    rw [hsc]
    exact h2.frame (fun u hu => upd_other _ _ (hdis _ (hsub1 _ hp1) u hu).symm)
      (fun u hu => upd_other _ _ (hdis _ (hsub1 _ he1) u hu).symm)
  obtain ⟨hsn, hsp⟩ := h1.stretch_cut
  have hpaste := @Ring.paste sc g2 _ _ l (x :: m) r (List.cons_ne_nil _ _) hc2
    (nodup_paste_between hnd) (by rw [hsc]; exact hsn) (by rw [hsc]; exact hsp)
  rw [hsc] at hpaste hc1
  rw [List.getLastD_cons] at hpaste
  refine ⟨?_, hpaste⟩
  have hnd1 := h1.nodup
  have hd : ((g1 :: (a ++ b)) ++ (x :: m)).Nodup := by
    have p1 : ((g1 :: (a ++ b)) ++ (x :: m)).Perm (g1 :: (a ++ x :: m ++ b)) := by
      have q : ((a ++ b) ++ (x :: m)).Perm (a ++ x :: m ++ b) := by
        have q1 : (a ++ (b ++ x :: m)).Perm (a ++ (x :: m ++ b)) :=
          List.Perm.append_left a List.perm_append_comm
        simpa using q1
      exact List.Perm.cons g1 q
    exact (p1.nodup_iff).2 hnd1
  refine hc1.frame (fun u hu => ?_) (fun u hu => ?_)
  · show upd (upd (upd s.next (a.getLastD g1) (b.headD g1)) (l.getLastD g2) x)
      (m.getLastD x) (r.headD g2) u = upd s.next (a.getLastD g1) (b.headD g1) u
    rw [upd_other _ _ (ne_of_nodup_append hd hu hl1),
      upd_other _ _ (hdis u (hsub1 u hu) _ hq2)]
  · show upd (upd (upd s.prev (b.headD g1) (a.getLastD g1)) x (l.getLastD g2))
      (r.headD g2) (m.getLastD x) u = upd s.prev (b.headD g1) (a.getLastD g1) u
    rw [upd_other _ _ (hdis u (hsub1 u hu) _ hpos2),
      upd_other _ _ (ne_of_nodup_append hd hu (List.mem_cons_self x m))]

theorem nodup_cut {g x : Nat} {a m b : List Nat} (h : (g :: (a ++ x :: m ++ b)).Nodup) :
    ((g :: (a ++ b)) ++ (x :: m)).Nodup := by
  have p1 : ((g :: (a ++ b)) ++ (x :: m)).Perm (g :: (a ++ x :: m ++ b)) := by
    have q : ((a ++ b) ++ (x :: m)).Perm (a ++ x :: m ++ b) := by
      have q1 : (a ++ (b ++ x :: m)).Perm (a ++ (x :: m ++ b)) :=
        List.Perm.append_left a List.perm_append_comm
      simpa using q1
    exact List.Perm.cons g q
  exact (p1.nodup_iff).2 h

/-- `splice` of the range `x :: m` of a container to a position of the same container
outside the range: the range stands in front of the position and the other nodes keep
their order.  Spliced to its own end the range stays where it is. -/
theorem Ring.splice_within {s : State} {g x : Nat} {a m b l r : List Nat}
    (h : Ring s g (a ++ x :: m ++ b)) (e : a ++ b = l ++ r) :
    Ring (splice s (r.headD g) x (b.headD g)) g (l ++ x :: m ++ r) := by
  obtain ⟨hp1, he1, hl1, hsub1, hseg1⟩ := @mem_ring_cut g x a m b
  have hd := nodup_cut h.nodup
  have hcut := @Ring.cut s g a (x :: m) b h
  by_cases hpe : r.headD g = b.headD g
  · obtain ⟨e1, e2⟩ := split_unique l a r b (e ▸ hcut.nodup) e.symm hpe
    have h1 : Ring s g (a ++ (x :: (m ++ b))) := by simpa using h
    have h2 : Ring s g ((a ++ x :: m) ++ b) := by simpa using h
    have hb : s.next (s.prev x) = x := by
      rw [h1.prev_mem]
      exact h1.next_pred
    have hee : s.next (s.prev (b.headD g)) = b.headD g := by
      rw [h2.prev_headD]
      exact h2.next_getLastD
    rw [hpe, splice_end hb hee, e1, e2]
    exact h
  · have hpos : r.headD g ∈ g :: (a ++ b) := by
      rw [e]
      have := headD_mem r g
      simp only [List.mem_cons, List.mem_append, List.mem_singleton] at this ⊢
      tauto
    have hq0 : l.getLastD g ∈ g :: (a ++ b) := by
      rw [e]
      have := getLastD_mem l g
      simp only [List.mem_cons, List.mem_append] at this ⊢
      tauto
    have hpx : r.headD g ≠ x := ne_of_nodup_append hd hpos (List.mem_cons_self x m)
    have hcut2 := hcut
    rw [e] at hcut2
    have hq : s.prev (r.headD g) = l.getLastD g := by
      have h3 := hcut2.prev_headD
      have h4 : upd s.prev (b.headD g) (a.getLastD g) (r.headD g) = l.getLastD g := h3
      rw [upd_other _ _ hpe] at h4
      exact h4
    rw [splice_cut_paste h hq hpx hpe]
    obtain ⟨hsn, hsp⟩ := h.stretch_cut
    have hpaste := @Ring.paste _ g _ _ l (x :: m) r (List.cons_ne_nil _ _) hcut2
      (nodup_paste_within h.nodup e) hsn hsp
    rw [List.getLastD_cons] at hpaste
    exact hpaste

/-! ## The two-way link invariant -/

theorem inv_injective {f g : Nat → Nat} (hfg : ∀ u, g (f u) = u) {a b : Nat} (e : f a = f b) :
    a = b := by
  rw [← hfg a, ← hfg b, e]

/-- Removing a node from a pair of mutually inverse link maps leaves them mutually inverse. -/
theorem inv_unlink {f g : Nat → Nat} (hfg : ∀ u, g (f u) = u) (x u : Nat) :
    upd (upd g (f x) (g x)) x x (upd (upd f (g x) (f x)) x x u) = u := by
  by_cases hux : u = x
  · rw [hux, upd_same, upd_same]
  · rw [upd_other _ _ hux]
    by_cases hup : u = g x
    · rw [hup, upd_same]
      have hfx : f x ≠ x := by
        intro e
        apply hux
        rw [hup, ← e, hfg, e]
      rw [upd_other _ _ hfx, upd_same]
    · rw [upd_other _ _ hup]
      have h1 : f u ≠ x := by
        intro e
        apply hup
        rw [← e, hfg]
      have h2 : f u ≠ f x := fun e => hux (inv_injective hfg e)
      rw [upd_other _ _ h1, upd_other _ _ h2, hfg]

/-- Putting an unlinked node between two adjacent nodes leaves the link maps mutually
inverse. -/
theorem inv_link {f g : Nat → Nat} (hfg : ∀ u, g (f u) = u)
    {c p n : Nat} (hc : f c = c) (hpn : f p = n) (u : Nat) :
    upd (upd g c p) n c (upd (upd f c n) p c u) = u := by
  have hgn : g n = p := by rw [← hpn, hfg]
  by_cases hup : u = p
  · rw [hup, upd_same]
    by_cases hcn : c = n
    · rw [hcn, upd_same]
      rw [← hgn, ← hcn, ← hc, hfg, hc]
    · rw [upd_other _ _ hcn, upd_same]
  · rw [upd_other _ _ hup]
    by_cases huc : u = c
    · rw [huc, upd_same, upd_same]
    · rw [upd_other _ _ huc]
      have h1 : f u ≠ n := by
        intro e
        apply hup
        rw [← hgn, ← e, hfg]
      have h2 : f u ≠ c := by
        intro e
        apply huc
        rw [← hc] at e
        exact inv_injective hfg e
      rw [upd_other _ _ h1, upd_other _ _ h2, hfg]

/-- The first half of the invariant after a relinking of three boundaries. -/
theorem inv_splice_fwd {f g : Nat → Nat} (hfg : ∀ u, g (f u) = u)
    {pos b e : Nat} (hbe : b ≠ e) (hpb : pos ≠ b) (hpe : pos ≠ e) (u : Nat) :
    upd (upd (upd g e (g b)) b (g pos)) pos (g e)
      (upd (upd (upd f (g b) e) (g pos) b) (g e) pos u) = u := by
  by_cases h1 : u = g e
  · rw [h1, upd_same, upd_same]
  · rw [upd_other _ _ h1]
    by_cases h2 : u = g pos
    · rw [h2, upd_same, upd_other _ _ (Ne.symm hpb), upd_same]
    · rw [upd_other _ _ h2]
      by_cases h3 : u = g b
      · rw [h3, upd_same, upd_other _ _ (Ne.symm hpe), upd_other _ _ (Ne.symm hbe), upd_same]
      · rw [upd_other _ _ h3]
        have k1 : f u ≠ pos := by
          intro e1
          apply h2
          rw [← e1, hfg]
        have k2 : f u ≠ b := by
          intro e1
          apply h3
          rw [← e1, hfg]
        have k3 : f u ≠ e := by
          intro e1
          apply h1
          rw [← e1, hfg]
        rw [upd_other _ _ k1, upd_other _ _ k2, upd_other _ _ k3, hfg]

/-- The second half of the invariant after a relinking of three boundaries. -/
theorem inv_splice_bwd {f g : Nat → Nat} (hgf : ∀ u, f (g u) = u)
    {pos b e : Nat} (hbe : b ≠ e) (hpb : pos ≠ b) (hpe : pos ≠ e) (u : Nat) :
    upd (upd (upd f (g b) e) (g pos) b) (g e) pos
      (upd (upd (upd g e (g b)) b (g pos)) pos (g e) u) = u := by
  have ginj : ∀ {a c : Nat}, g a = g c → a = c := fun e1 => inv_injective hgf e1
  by_cases h1 : u = pos
  · rw [h1, upd_same, upd_same]
  · rw [upd_other _ _ h1]
    by_cases h2 : u = b
    · have k : g pos ≠ g e := fun e1 => hpe (ginj e1)
      rw [h2, upd_same, upd_other _ _ k, upd_same]
    · rw [upd_other _ _ h2]
      by_cases h3 : u = e
      · have k1 : g b ≠ g e := fun e1 => hbe (ginj e1)
        have k2 : g b ≠ g pos := fun e1 => hpb (ginj e1).symm
        rw [h3, upd_same, upd_other _ _ k1, upd_other _ _ k2, upd_same]
      · rw [upd_other _ _ h3]
        have k1 : g u ≠ g e := fun e1 => h3 (ginj e1)
        have k2 : g u ≠ g pos := fun e1 => h1 (ginj e1)
        have k3 : g u ≠ g b := fun e1 => h2 (ginj e1)
        rw [upd_other _ _ k1, upd_other _ _ k2, upd_other _ _ k3, hgf]

/-- Handing the chain of one sentinel to another, unlinked, sentinel leaves the link maps
mutually inverse. -/
theorem inv_move {f g : Nat → Nat} (hfg : ∀ u, g (f u) = u)
    {a o : Nat} (hne : a ≠ o) (hfa : f a = a) (hga : g a = a) (hfo : f o ≠ o) (u : Nat) :
    upd (upd (upd g a (g o)) (f o) a) o o (upd (upd (upd f a (f o)) (g o) a) o o u) = u := by
  by_cases h1 : u = o
  · rw [h1, upd_same, upd_same]
  · rw [upd_other _ _ h1]
    by_cases h2 : u = g o
    · have k : a ≠ f o := by
        intro e1
        apply hne
        rw [← hga, e1, hfg]
      rw [h2, upd_same, upd_other _ _ hne, upd_other _ _ k, upd_same]
    · rw [upd_other _ _ h2]
      by_cases h3 : u = a
      · rw [h3, upd_same, upd_other _ _ hfo, upd_same]
      · rw [upd_other _ _ h3]
        have k1 : f u ≠ o := by
          intro e1
          apply h2
          rw [← e1, hfg]
        have k2 : f u ≠ f o := fun e1 => h1 (inv_injective hfg e1)
        have k3 : f u ≠ a := by
          intro e1
          apply h3
          rw [← hfa] at e1
          exact inv_injective hfg e1
        rw [upd_other _ _ k1, upd_other _ _ k2, upd_other _ _ k3, hfg]

theorem Linked.next_prev {s : State} (h : Linked s) (n : Nat) : s.next (s.prev n) = n :=
  (h n).2

theorem Linked.prev_next {s : State} (h : Linked s) (n : Nat) : s.prev (s.next n) = n :=
  (h n).1

theorem init_linked : Linked State.init := fun _ => ⟨rfl, rfl⟩

/-- The member `unlink` keeps the two-way link invariant, whatever node it is applied to. -/
theorem Linked.after_unlink {s : State} (h : Linked s) (x : Nat) : Linked (Signals.unlink s x) := by
  intro u
  rw [unlink_next, unlink_prev]
  exact ⟨inv_unlink h.prev_next x u, inv_unlink h.next_prev x u⟩

/-- The member `link` keeps the two-way link invariant when it puts an unlinked node between
two adjacent nodes. -/
theorem Linked.after_link {s : State} (h : Linked s) {c p n : Nat} (hcn : s.next c = c)
    (hcp : s.prev c = c) (hpn : s.next p = n) : Linked (Signals.link s c p n) := by
  have hnp : s.prev n = p := by rw [← hpn, h.prev_next]
  intro u
  rw [link_next, link_prev]
  exact ⟨inv_link h.prev_next hcn hpn u, inv_link h.next_prev hcp hnp u⟩

theorem unlink_unlink (s : State) (x : Nat) :
    Signals.unlink (Signals.unlink s x) x = Signals.unlink s x := by
  apply unlink_self
  · rw [unlink_next, upd_same]
  · rw [unlink_prev, upd_same]

theorem clear_of_empty {s : State} {g : Nat} (h : empty s g = true) : clear s g = s := by
  unfold empty at h
  rw [Bool.and_eq_true, decide_eq_true_eq, decide_eq_true_eq] at h
  have e1 : upd s.prev g g = s.prev := by
    funext a
    unfold upd
    split
    · next k => rw [k, h.2]
    · rfl
  have e2 : upd s.next g g = s.next := by
    funext a
    unfold upd
    split
    · next k => rw [k, h.1]
    · rfl
  unfold clear
  simp only [e1, e2]

/-- The member `splice` keeps the two-way link invariant, unless the position is the first
element of a non-empty range. -/
theorem Linked.after_splice {s : State} (h : Linked s) {pos b e : Nat} (hp : b = e ∨ pos ≠ b) :
    Linked (splice s pos b e) := by
  by_cases hbe : b = e
  · unfold splice
    rw [if_pos hbe]
    exact h
  · have hpb : pos ≠ b := hp.resolve_left hbe
    by_cases hpe : pos = e
    · rw [hpe, splice_end (h.next_prev b) (h.next_prev e)]
      exact h
    · rw [splice_eq hbe hpb hpe]
      intro u
      exact ⟨inv_splice_fwd h.prev_next hbe hpb hpe u,
        inv_splice_bwd h.next_prev hbe hpb hpe u⟩

theorem list_move_assign_next {s : State} {this other : Nat} (hne : other ≠ this)
    (he : empty s other = false) :
    (list_move_assign s this other).next
      = upd (upd (upd s.next this (s.next other)) (s.prev other) this) other other := by
  unfold list_move_assign
  rw [if_neg hne, he]
  rfl

theorem list_move_assign_prev {s : State} {this other : Nat} (hne : other ≠ this)
    (he : empty s other = false) :
    (list_move_assign s this other).prev
      = upd (upd (upd s.prev this (s.prev other)) (s.next other) this) other other := by
  unfold list_move_assign
  rw [if_neg hne, he]
  rfl

/-- The move-assignment of a container keeps the two-way link invariant when the
destination is empty. -/
theorem Linked.after_move_assign {s : State} (h : Linked s) {this other : Nat}
    (he : empty s this = true) : Linked (list_move_assign s this other) := by
  by_cases hne : other = this
  · unfold list_move_assign
    rw [if_pos hne]
    exact h
  · cases ho : empty s other with
    | true =>
      unfold list_move_assign
      rw [if_neg hne, ho, if_pos rfl, clear_of_empty he]
      exact h
    | false =>
      unfold empty at he
      rw [Bool.and_eq_true, decide_eq_true_eq, decide_eq_true_eq] at he
      have hno : s.next other ≠ other := by
        intro e1
        have e2 : s.prev other = other := by
          have := h.prev_next other
          rwa [e1] at this
        unfold empty at ho
        rw [e1, e2] at ho
        simp at ho
      have hpo : s.prev other ≠ other := by
        intro e1
        apply hno
        have := h.next_prev other
        rwa [e1] at this
      intro u
      rw [list_move_assign_next hne ho, list_move_assign_prev hne ho]
      exact ⟨inv_move h.prev_next (Ne.symm hne) he.1 he.2 hno u,
        inv_move h.next_prev (Ne.symm hne) he.2 he.1 hpo u⟩

/-! ## Moving a whole container -/

/-- A closed chain through one sentinel is a closed chain through another node, once the
two ends are attached to that node. -/
theorem path_reroot {f f' : Nat → Nat} {o a x : Nat} {m : List Nat} (hn : (x :: m).Nodup)
    (h : Path f o (x :: m) o) (ha : f' a = x) (hl : f' (m.getLastD x) = a)
    (hm : ∀ u ∈ x :: m, u ≠ m.getLastD x → f' u = f u) : Path f' a (x :: m) a :=
  path_cons.2 ⟨ha, path_relink m x hn (path_cons.1 h).2 hl hm⟩

theorem empty_of_ring_nil {s : State} {g : Nat} (h : Ring s g []) : empty s g = true := by
  have h1 : s.next g = g := h.next_sentinel
  have h2 : s.prev g = g := h.prev_sentinel
  unfold empty
  rw [h1, h2]
  simp

theorem empty_of_ring_cons {s : State} {g x : Nat} {m : List Nat} (h : Ring s g (x :: m)) :
    empty s g = false := by
  have h1 : s.next g = x := h.next_sentinel
  have hx : x ≠ g := by
    intro e
    have := h.nodup
    rw [e] at this
    exact (List.nodup_cons.1 this).1 (List.mem_cons_self _ _)
  unfold empty
  rw [h1]
  simp [hx]

theorem clear_next (s : State) (g : Nat) : (clear s g).next = upd s.next g g := rfl

theorem clear_prev (s : State) (g : Nat) : (clear s g).prev = upd s.prev g g := rfl

theorem ring_clear (s : State) (g : Nat) : Ring (clear s g) g [] := by
  refine ⟨List.nodup_singleton g, ?_, ?_⟩
  · rw [path_nil, clear_next, upd_same]
  · rw [List.reverse_nil, path_nil, clear_prev, upd_same]

/-- The move-assignment of a container: the destination holds the elements of the source in
the same order and the source is empty. -/
theorem Ring.move_assigned {s : State} {this other : Nat} {xs : List Nat}
    (h : Ring s other xs) (hthis : this ∉ other :: xs) :
    Ring (list_move_assign s this other) this xs ∧
    Ring (list_move_assign s this other) other [] := by
  have hne : other ≠ this := fun e => hthis (e ▸ List.mem_cons_self _ _)
  cases xs with
  | nil =>
    have he := empty_of_ring_nil h
    have e : list_move_assign s this other = clear s this := by
      unfold list_move_assign
      rw [if_neg hne, he, if_pos rfl]
    rw [e]
    refine ⟨ring_clear s this, h.frame ?_ ?_⟩
    · intro a ha
      rw [List.mem_singleton] at ha
      rw [clear_next, upd_other _ _ (ha ▸ hne)]
    · intro a ha
      rw [List.mem_singleton] at ha
      rw [clear_prev, upd_other _ _ (ha ▸ hne)]
  | cons x m =>
    have he := empty_of_ring_cons h
    have hnd := h.nodup
    have hfirst : s.next other = x := h.next_sentinel
    have hlast : s.prev other = m.getLastD x := by
      rw [h.prev_sentinel, List.getLastD_cons]
    have hxs : (x :: m).Nodup := (List.nodup_cons.1 hnd).2
    have hoth : ∀ u ∈ x :: m, u ≠ other := by
      intro u hu e
      exact (List.nodup_cons.1 hnd).1 (e ▸ hu)
    have hths : ∀ u ∈ x :: m, u ≠ this := by
      intro u hu e
      exact hthis (List.mem_cons_of_mem _ (e ▸ hu))
    have hlm : m.getLastD x ∈ x :: m := getLastD_mem m x
    have hxm : x ∈ x :: m := List.mem_cons_self _ _
    refine ⟨⟨?_, ?_, ?_⟩, ⟨List.nodup_singleton other, ?_, ?_⟩⟩
    · exact List.nodup_cons.2 ⟨fun hm => hthis (List.mem_cons_of_mem _ hm), hxs⟩
    · rw [list_move_assign_next hne he, hfirst, hlast]
      refine path_reroot hxs h.2.1 ?_ ?_ ?_
      · rw [upd_other _ _ (Ne.symm hne), upd_other _ _ (Ne.symm (hths _ hlm)), upd_same]
      · rw [upd_other _ _ (hoth _ hlm), upd_same]
      · intro u hu hul
        rw [upd_other _ _ (hoth u hu), upd_other _ _ hul, upd_other _ _ (hths u hu)]
    · rw [list_move_assign_prev hne he, hfirst, hlast]
      have h2 := h.2.2
      cases hr : (x :: m).reverse with
      | nil => exact absurd (List.reverse_eq_nil_iff.1 hr) (List.cons_ne_nil _ _)
      | cons y t =>
        rw [hr] at h2
        have hy : y = m.getLastD x := by
          have := headD_reverse (x :: m) other
          rw [hr, List.getLastD_cons] at this
          exact this
        have ht : t.getLastD y = x := by
          have := getLastD_reverse (x :: m) other
          rw [hr, List.getLastD_cons] at this
          exact this
        have hyt : (y :: t).Nodup := by
          rw [← hr]
          exact List.nodup_reverse.2 hxs
        have hmem : ∀ u ∈ y :: t, u ∈ x :: m := by
          intro u hu
          rw [← hr] at hu
          exact List.mem_reverse.1 hu
        refine path_reroot hyt h2 ?_ ?_ ?_
        · rw [upd_other _ _ (Ne.symm hne), upd_other _ _ (Ne.symm (hths _ hxm)), upd_same, hy]
        · rw [ht, upd_other _ _ (hoth _ hxm), upd_same]
        · intro u hu hux
          rw [ht] at hux
          rw [upd_other _ _ (hoth u (hmem u hu)), upd_other _ _ hux,
            upd_other _ _ (hths u (hmem u hu))]
    · rw [path_nil, list_move_assign_next hne he, upd_same]
    · rw [List.reverse_nil, path_nil, list_move_assign_prev hne he, upd_same]

theorem list_ctor_next (s : State) (g : Nat) : (list_ctor s g).next = upd s.next g g := rfl

theorem list_ctor_prev (s : State) (g : Nat) : (list_ctor s g).prev = upd s.prev g g := rfl

/-- The move-construction of a container: the new container holds the elements of the source
in the same order and the source is empty. -/
theorem Ring.move_constructed {s : State} {this other : Nat} {xs : List Nat}
    (h : Ring s other xs) (hthis : this ∉ other :: xs) :
    Ring (list_move_ctor s this other) this xs ∧
    Ring (list_move_ctor s this other) other [] := by
  have h1 : Ring (list_ctor s this) other xs := by
    refine h.frame ?_ ?_
    · intro a ha
      have hne : a ≠ this := fun e => hthis (e ▸ ha)
      rw [list_ctor_next, upd_other _ _ hne]
    · intro a ha
      have hne : a ≠ this := fun e => hthis (e ▸ ha)
      rw [list_ctor_prev, upd_other _ _ hne]
  exact h1.move_assigned hthis

/-! ## The container operations and the two-way link invariant -/

theorem Linked.after_push_back {s : State} (h : Linked s) {g e : Nat} (hn : s.next e = e)
    (hp : s.prev e = e) : Linked (push_back s g e) :=
  h.after_link hn hp (h.next_prev g)

theorem Linked.after_push_front {s : State} (h : Linked s) {g e : Nat} (hn : s.next e = e)
    (hp : s.prev e = e) : Linked (push_front s g e) :=
  h.after_link hn hp rfl

theorem Linked.after_insert {s : State} (h : Linked s) {pos e : Nat} (hn : s.next e = e)
    (hp : s.prev e = e) : Linked (Signals.insert s pos e) :=
  h.after_link hn hp (h.next_prev pos)

theorem demo_lists_linked : Linked demo_lists :=
  ((((init_linked.after_push_back rfl rfl).after_push_back (by decide)
    (by decide)).after_push_back (by decide) (by decide)).after_push_back (by decide)
    (by decide)).after_push_back (by decide) (by decide)

/-- The member `insert` puts the element in front of the position. -/
theorem Ring.inserted {s : State} {g e : Nat} {l r : List Nat} (h : Ring s g (l ++ r))
    (he : e ∉ g :: (l ++ r)) : Ring (Signals.insert s (r.headD g) e) g (l ++ e :: r) := by
  unfold Signals.insert
  rw [h.prev_headD]
  exact h.link he

/-- The member `push_front` puts the element first. -/
theorem Ring.pushed_front {s : State} {g e : Nat} {xs : List Nat} (h : Ring s g xs)
    (he : e ∉ g :: xs) : Ring (push_front s g e) g (e :: xs) := by
  unfold push_front
  rw [h.next_sentinel]
  have h1 : Ring s g ([] ++ xs) := h
  exact h1.link he

/-- The member `push_back` puts the element last. -/
theorem Ring.pushed_back {s : State} {g e : Nat} {xs : List Nat} (h : Ring s g xs)
    (he : e ∉ g :: xs) : Ring (push_back s g e) g (xs ++ [e]) := by
  unfold push_back
  rw [h.prev_sentinel]
  have h1 : Ring s g (xs ++ []) := by
    rw [List.append_nil]
    exact h
  have he1 : e ∉ g :: (xs ++ []) := by
    rw [List.append_nil]
    exact he
  exact h1.link he1

/-- The member `pop_front` removes the first element. -/
theorem Ring.popped_front {s : State} {g x : Nat} {r : List Nat} (h : Ring s g (x :: r)) :
    Ring (pop_front s g) g r := by
  unfold pop_front
  have e : s.next g = x := h.next_sentinel
  rw [e]
  have h1 : Ring s g ([] ++ x :: r) := h
  exact h1.unlink

/-- The member `pop_back` removes the last element. -/
theorem Ring.popped_back {s : State} {g x : Nat} {l : List Nat} (h : Ring s g (l ++ [x])) :
    Ring (pop_back s g) g l := by
  unfold pop_back
  have e : s.prev g = x := by
    rw [h.prev_sentinel, List.getLastD_eq_getLast?, List.getLast?_concat]
    rfl
  rw [e]
  have := h.unlink
  rw [List.append_nil] at this
  exact this

/-- The member `erase` removes the element at the position and returns the position after
it. -/
theorem Ring.erased {s : State} {g x : Nat} {l r : List Nat} (h : Ring s g (l ++ x :: r)) :
    Ring (erase s x).1 g (l ++ r) ∧ (erase s x).2 = r.headD g := by
  have e1 : s.next x = r.headD g := h.next_mem
  have h1 : Ring s g ((l ++ [x]) ++ r) := by
    rw [List.append_assoc]
    exact h
  have e2 : s.prev (r.headD g) = x := by
    rw [h1.prev_headD, List.getLastD_eq_getLast?, List.getLast?_concat]
    rfl
  unfold erase
  refine ⟨?_, e1⟩
  show Ring (Signals.unlink s (s.prev (s.next x))) g (l ++ r)
  rw [e1, e2]
  exact h.unlink

/-- The operations that keep the two-way link invariant.  When every node `n` satisfies
`n.next.prev = n` and `n.prev.next = n`, then it does so after `unlink` of any node, after
`push_front`, `push_back` and `insert` of an unlinked element, after `pop_front`, `pop_back`
and `erase`, after `splice` unless the position is the first element of a non-empty range,
after `clear` of an empty container and after the move-assignment to an empty container;
`unlink` is idempotent; and for a container `g` that holds `xs`, the walk along `next` from
the sentinel yields `xs` and returns to the sentinel, also after each insertion and
removal, with the element added or removed at its place. -/
theorem link_invariant_kept (s : State) (hL : Linked s) :
    (∀ x, Linked (unlink s x)) ∧
    (∀ g e, s.next e = e → s.prev e = e →
      Linked (push_front s g e) ∧ Linked (push_back s g e) ∧ Linked (insert s g e)) ∧
    (∀ g, Linked (pop_front s g) ∧ Linked (pop_back s g) ∧ Linked (erase s g).1 ∧
      (erase s g).1 = unlink s g) ∧
    (∀ pos b e, b = e ∨ pos ≠ b → Linked (splice s pos b e)) ∧
    (∀ g, empty s g = true → Linked (clear s g)) ∧
    (∀ this other, empty s this = true → Linked (list_move_assign s this other)) ∧
    (∀ x, unlink (unlink s x) x = unlink s x) ∧
    (∀ g xs, Ring s g xs →
      walk s g (xs.length + 1) (s.next g) = xs ∧ s.next (xs.getLastD g) = g ∧
      (∀ l x r, xs = l ++ x :: r →
        walk (unlink s x) g ((l ++ r).length + 1) ((unlink s x).next g) = l ++ r ∧
        walk (erase s x).1 g ((l ++ r).length + 1) ((erase s x).1.next g) = l ++ r) ∧
      (∀ x r, xs = x :: r →
        walk (pop_front s g) g (r.length + 1) ((pop_front s g).next g) = r) ∧
      (∀ l x, xs = l ++ [x] →
        walk (pop_back s g) g (l.length + 1) ((pop_back s g).next g) = l) ∧
      (∀ e, e ∉ g :: xs →
        walk (push_front s g e) g ((e :: xs).length + 1) ((push_front s g e).next g)
          = e :: xs ∧
        walk (push_back s g e) g ((xs ++ [e]).length + 1) ((push_back s g e).next g)
          = xs ++ [e] ∧
        ∀ l r, xs = l ++ r →
          walk (insert s (r.headD g) e) g ((l ++ e :: r).length + 1)
            ((insert s (r.headD g) e).next g) = l ++ e :: r)) := by
  refine ⟨fun x => hL.after_unlink x, ?_, ?_, ?_, ?_, ?_, unlink_unlink s, ?_⟩
  · intro g e hn hp
    exact ⟨hL.after_push_front hn hp, hL.after_push_back hn hp, hL.after_insert hn hp⟩
  · intro g
    have e : (erase s g).1 = unlink s g := by
      show unlink s (s.prev (s.next g)) = unlink s g
      rw [hL.prev_next]
    refine ⟨hL.after_unlink _, hL.after_unlink _, ?_, e⟩
    rw [e]
    exact hL.after_unlink g
  · intro pos b e hp
    exact hL.after_splice hp
  · intro g hg
    rw [clear_of_empty hg]
    exact hL
  · intro this other he
    exact hL.after_move_assign he
  · intro g xs h
    refine ⟨h.walk_all, ?_, ?_, ?_, ?_, ?_⟩
    · have h1 : Ring s g (xs ++ []) := by
        rw [List.append_nil]
        exact h
      exact h1.next_getLastD
    · intro l x r e
      subst e
      exact ⟨h.unlink.walk_all, h.erased.1.walk_all⟩
    · intro x r e
      subst e
      exact h.popped_front.walk_all
    · intro l x e
      subst e
      exact h.popped_back.walk_all
    · intro e he
      refine ⟨(h.pushed_front he).walk_all, (h.pushed_back he).walk_all, ?_⟩
      intro l r e1
      subst e1
      exact (h.inserted he).walk_all

/-! ## Emission order (C1) -/

/-- C1: on a new signal to which the callables `fs` were subscribed in that order, all
still connected and none of them doing anything to the signal, one `emit()` returns after
calling every subscription exactly once, the most recently subscribed first: the calls it
logs are those of the subscriptions in reverse order of subscription. -/
theorem C1_emit_calls_most_recent_first (beh : Nat → State → List Action) (s0 : State)
    (fs : List Nat) (hfreed : ∀ a ∈ s0.freed, a < s0.alloc)
    (hin : ∀ f ∈ fs, ∀ s : State, beh f s = []) :
    ∃ s' N, (∀ fuel, N ≤ fuel →
        emit beh fuel (subscribe_all (signal_ctor s0) s0.alloc fs) s0.alloc = some s') ∧
      s'.log = (subscribe_all (signal_ctor s0) s0.alloc fs).log ++
        ((List.range' (s0.alloc + 1) fs.length).zip fs).reverse.map
          (fun p => ⟨(subscribe_all (signal_ctor s0) s0.alloc fs).depth, p.1, p.2⟩) ∧
      walk s' s0.alloc (fs.length + 1) (s'.next s0.alloc) =
        (List.range' (s0.alloc + 1) fs.length).reverse := by
  obtain ⟨_, hr, hf, _, _, hs, _, he⟩ := subscribe_all_spec s0 fs
  have hlive : ∀ a ∈ (List.range' (s0.alloc + 1) fs.length).reverse,
      a ∉ (subscribe_all (signal_ctor s0) s0.alloc fs).freed := by
    intro a ha hm
    rw [hf] at hm
    have := hfreed a hm
    simp only [List.mem_reverse, List.mem_range'_1] at ha
    omega
  have hrun : Runs beh (.emit s0.alloc) _ _ := emit_inert hr hlive
    (fun x hx f hxf s' _ => hin f (hs x (List.mem_reverse.1 hx) f hxf) s')
  obtain ⟨N, hN⟩ := hrun.mono
  refine ⟨_, N, hN, ?_, ?_⟩
  · simp only [emitted, he]
  · have hr' : Ring (emitted (subscribe_all (signal_ctor s0) s0.alloc fs) s0.alloc
        (entries (subscribe_all (signal_ctor s0) s0.alloc fs)
          (subscribe_all (signal_ctor s0) s0.alloc fs).depth
          (List.range' (s0.alloc + 1) fs.length).reverse)) s0.alloc
        ([] ++ (List.range' (s0.alloc + 1) fs.length).reverse) := hr.of_eq rfl rfl
    have hw := Ring.walk _ _ (fs.length + 1) hr' (by simp)
    rw [hr'.next_sentinel]
    exact hw

/-- C1 at a concrete input: subscribe the callables 10, 20, 30 to a new signal; the
emission calls 30, 20, 10. -/
theorem C1_emit_calls_most_recent_first_witness :
    (∀ a ∈ State.init.freed, a < State.init.alloc) ∧
    (∀ f ∈ [10, 20, 30], ∀ s : State, (fun _ _ => ([] : List Action)) f s = []) ∧
    ∃ s' N, (∀ fuel, N ≤ fuel →
        emit (fun _ _ => []) fuel (subscribe_all (signal_ctor State.init) State.init.alloc
          [10, 20, 30]) State.init.alloc = some s') ∧
      s'.log = (subscribe_all (signal_ctor State.init) State.init.alloc [10, 20, 30]).log ++
        ((List.range' (State.init.alloc + 1) [10, 20, 30].length).zip [10, 20, 30]).reverse.map
          (fun p => ⟨(subscribe_all (signal_ctor State.init) State.init.alloc
            [10, 20, 30]).depth, p.1, p.2⟩) ∧
      walk s' State.init.alloc ([10, 20, 30].length + 1) (s'.next State.init.alloc) =
        (List.range' (State.init.alloc + 1) [10, 20, 30].length).reverse :=
  ⟨by simp [State.init], fun _ _ _ => rfl,
    C1_emit_calls_most_recent_first (fun _ _ => []) State.init [10, 20, 30]
      (by simp [State.init]) (fun _ _ _ => rfl)⟩

/-! ## Subscribe and disconnect without emission (C2) -/

theorem Tracks.subscribe {g : Nat} {s : State} {cs : List Nat} {n : Nat} {L : List Nat}
    (h : Tracks g s cs n L) (f : Nat) :
    Tracks g (connect s g f) (cs ++ [s.alloc]) (n + 1) (L ++ [n]) := by
  have hlt : ∀ a ∈ g :: (L.reverse.map fun i => g + 1 + i), a < s.alloc := by
    intro a ha
    rw [h.alloc_eq]
    simp only [List.mem_cons, List.mem_map, List.mem_reverse] at ha
    rcases ha with ha | ⟨i, hi, ha⟩
    · omega
    · have := h.lt i hi
      omega
  refine ⟨?_, ?_, ?_, ?_, ?_, ?_, ?_⟩
  · rw [h.cs_eq, h.alloc_eq, List.range'_concat]; simp
  · rw [connect_alloc, h.alloc_eq]; omega
  · have := h.ring.connect f hlt
    rw [h.alloc_eq] at this
    simpa using this
  · intro i hi
    rcases List.mem_append.1 hi with hi | hi
    · have := h.lt i hi
      omega
    · simp at hi; omega
  · intro i hi
    rw [connect_csig, h.alloc_eq]
    rcases List.mem_append.1 hi with hi | hi
    · have := h.lt i hi
      rw [upd_other _ _ (by omega)]
      exact h.con i hi
    · simp at hi
      rw [hi, upd_same]
  · intro i hi hni
    rw [connect_csig, h.alloc_eq]
    have hne : i ≠ n := fun e => hni (by simp [e])
    rw [upd_other _ _ (by omega)]
    exact h.dis i (by omega) (fun hm => hni (List.mem_append_left _ hm))
  · rw [connect_top_token]
    exact h.top

theorem Tracks.disconnect {g : Nat} {s : State} {cs : List Nat} {n : Nat} {L : List Nat}
    (h : Tracks g s cs n L) (i fuel : Nat) :
    ∃ s', run_op g fuel (s, cs) (.disconnect i) = some (s', cs) ∧
      Tracks g s' cs n (L.filter fun j => j ≠ i) := by
  by_cases hi : i ∈ L
  · have hin := h.lt i hi
    have hcs : cs[i]? = some (g + 1 + i) := by
      rw [h.cs_eq, List.getElem?_range' _ _ hin]; simp
    have hmem : g + 1 + i ∈ L.reverse.map fun i => g + 1 + i :=
      List.mem_map.2 ⟨i, List.mem_reverse.2 hi, rfl⟩
    obtain ⟨l, r, e⟩ := List.append_of_mem hmem
    have hst : Stack s (s.top_token g) [] := h.top
    have hd : Signals.disconnect fuel s (g + 1 + i) = some _ :=
      disconnect_eq (h.con i hi) hst (by simp) (by simp)
    refine ⟨disconnected s (g + 1 + i) [], ?_, ?_⟩
    · simp only [run_op, hcs, hd, Option.map_some']
    · have hring := h.ring
      rw [e] at hring
      have hnd : (l ++ (g + 1 + i) :: r).Nodup := (List.nodup_cons.1 hring.nodup).2
      have hfil : (L.filter fun j => j ≠ i).reverse.map (fun i => g + 1 + i) = l ++ r := by
        rw [← filter_ne_mid hnd, ← e, ← List.filter_reverse, List.filter_map]
        congr 1
        apply List.filter_congr
        intro j _
        simp
      refine ⟨h.cs_eq, h.alloc_eq, ?_, ?_, ?_, ?_, h.top⟩
      · rw [hfil]
        exact hring.disconnected []
      · intro j hj
        exact h.lt j (List.mem_filter.1 hj).1
      · intro j hj
        obtain ⟨hjL, hji⟩ := List.mem_filter.1 hj
        have hne : j ≠ i := by simpa using hji
        show upd s.csig (g + 1 + i) none (g + 1 + j) = some g
        rw [upd_other _ _ (by omega)]
        exact h.con j hjL
      · intro j hj hnj
        show upd s.csig (g + 1 + i) none (g + 1 + j) = none
        by_cases hji : j = i
        · rw [hji, upd_same]
        · rw [upd_other _ _ (by omega)]
          exact h.dis j hj (fun hm => hnj (List.mem_filter.2 ⟨hm, by simpa using hji⟩))
  · have hfil : (L.filter fun j => j ≠ i) = L := by
      refine List.filter_eq_self.2 (fun j hj => ?_)
      have : j ≠ i := fun e => hi (e ▸ hj)
      simpa using this
    rw [hfil]
    refine ⟨s, ?_, h⟩
    by_cases hin : i < n
    · have hcs : cs[i]? = some (g + 1 + i) := by
        rw [h.cs_eq, List.getElem?_range' _ _ hin]; simp
      simp only [run_op, hcs, disconnect_null (h.dis i hin hi), Option.map_some']
    · have hcs : cs[i]? = none := by
        rw [h.cs_eq]
        apply List.getElem?_eq_none
        simp
        omega
      simp only [run_op, hcs]

theorem Tracks.run_ops {g fuel : Nat} :
    ∀ (ops : List Op) (s : State) (cs : List Nat) (n : Nat) (L : List Nat),
      Tracks g s cs n L →
      ∃ s' cs', Signals.run_ops g fuel ops (s, cs) = some (s', cs') ∧
        Tracks g s' cs' (spec_ops ops (n, L)).1 (spec_ops ops (n, L)).2
  | [], s, cs, n, L, h => ⟨s, cs, rfl, h⟩
  | .subscribe f :: ops, s, cs, n, L, h => by
    obtain ⟨s', cs', h1, h2⟩ := Tracks.run_ops ops _ _ _ _ (h.subscribe f)
    exact ⟨s', cs', by simpa [Signals.run_ops, run_op] using h1, h2⟩
  | .disconnect i :: ops, s, cs, n, L, h => by
    obtain ⟨s1, hs1, ht⟩ := h.disconnect i fuel
    obtain ⟨s', cs', h1, h2⟩ := Tracks.run_ops ops _ _ _ _ ht
    refine ⟨s', cs', ?_, h2⟩
    simp only [Signals.run_ops, hs1, Option.some_bind]
    exact h1

theorem Tracks.init (s0 : State) : Tracks s0.alloc (signal_ctor s0) [] 0 [] := by
  refine ⟨rfl, rfl, ring_signal_ctor s0, ?_, ?_, ?_, ?_⟩
  · intro i hi; simp at hi
  · intro i hi; simp at hi
  · intro i hi; omega
  · exact upd_same _ _ _

/-- C2: after any sequence of subscribe and disconnect calls on a new signal, with no
emission in between, every call has returned and the container, walked front to back from
the sentinel, holds exactly the subscriptions that are currently connected, in the reverse
of the order in which they were subscribed; its length is their number; exactly these refer
to the signal; and when none is connected the container is empty. -/
theorem C2_container_is_connected_reversed (s0 : State) (ops : List Op) (fuel : Nat) :
    ∃ s', run_ops s0.alloc fuel ops (signal_ctor s0, []) =
        some (s', List.range' (s0.alloc + 1) (spec_ops ops (0, [])).1) ∧
      (∀ k, (spec_ops ops (0, [])).2.length < k →
        walk s' s0.alloc k (s'.next s0.alloc) =
          (spec_ops ops (0, [])).2.reverse.map fun i => s0.alloc + 1 + i) ∧
      (walk s' s0.alloc ((spec_ops ops (0, [])).2.length + 1) (s'.next s0.alloc)).length =
        (spec_ops ops (0, [])).2.length ∧
      (∀ i, i < (spec_ops ops (0, [])).1 →
        (s'.csig (s0.alloc + 1 + i) = some s0.alloc ↔ i ∈ (spec_ops ops (0, [])).2)) ∧
      ((spec_ops ops (0, [])).2 = [] →
        s'.next s0.alloc = s0.alloc ∧ s'.prev s0.alloc = s0.alloc) := by
  obtain ⟨s', cs', hrun, ht⟩ := @Tracks.run_ops s0.alloc fuel ops _ _ _ _ (Tracks.init s0)
  have hwalk : ∀ k, (spec_ops ops (0, [])).2.length < k →
      walk s' s0.alloc k (s'.next s0.alloc) =
        (spec_ops ops (0, [])).2.reverse.map fun i => s0.alloc + 1 + i := by
    intro k hk
    have hr : Ring s' s0.alloc
        ([] ++ (spec_ops ops (0, [])).2.reverse.map fun i => s0.alloc + 1 + i) := ht.ring
    rw [ht.ring.next_sentinel]
    exact Ring.walk _ _ k hr (by simpa using hk)
  refine ⟨s', ?_, hwalk, ?_, ?_, ?_⟩
  · rw [hrun, ht.cs_eq]
  · rw [hwalk _ (Nat.lt_succ_self _)]
    simp
  · intro i hi
    constructor
    · intro hc
      by_contra hni
      rw [ht.dis i hi hni] at hc
      cases hc
    · exact ht.con i
  · intro hL
    have hr := ht.ring
    rw [hL] at hr
    exact ⟨hr.next_sentinel, hr.prev_sentinel⟩
/-! ## Emission under arbitrary callables (C3) -/

/-- C4: whatever the callables do during an `emit()` call (subscribe, disconnect any
subscription, relocate by move construction or move assignment, destroy a connection or
the signal, emit again), the subscriptions that the container held at the start are
distinct, those of them that the call has invoked when it returns were invoked in the
front-to-back order they had at the start, and each of them at most once. -/
theorem C4_start_subscriptions_at_most_once_in_order (beh : Nat → State → List Action)
    (fuel : Nat) (s s' : State) (R T : Nat → List Nat) (g : Nat)
    (h : WF False s R T) (hg : g ∈ s.sigs) (hd : emit beh fuel s g = some s') :
    ((R g).map s.ident).Nodup ∧
    ((vis s.depth s.log.length s').filter fun i => i ∈ (R g).map s.ident).Sublist
      ((R g).map s.ident) ∧
    ∀ i ∈ (R g).map s.ident, (vis s.depth s.log.length s').count i ≤ 1 := by
  have h1 := (emit_visits beh hd h hg).1
  exact ⟨h.start_nodup hg, h1, fun i hi => count_le_one_of_sublist (h.start_nodup hg) h1 hi⟩

/-- C4 at a concrete input: container C, B, A where the callable of C subscribes D and
disconnects A, and the callable of B, in the outer emission only, relocates B and emits
again.  The callables run are C, B, D, C, B; the outer emission invokes C and B, once
each. -/
theorem C4_start_subscriptions_at_most_once_in_order_witness :
    WF False demo demo_containers demo_stacks ∧ 0 ∈ demo.sigs ∧
    (demo_containers 0).map demo.ident = [3, 2, 1] ∧
    calls (emit (fun f s =>
        if f = 30 then [.connect 0 40, .disconnect 1]
        else if f = 20 ∧ s.depth = 1 then [.move_construct 2, .emit 0] else []) 30 demo 0) =
      some [30, 20, 40, 30, 20] ∧
    ∃ s', emit (fun f s =>
        if f = 30 then [.connect 0 40, .disconnect 1]
        else if f = 20 ∧ s.depth = 1 then [.move_construct 2, .emit 0] else []) 30 demo 0 =
        some s' ∧
      vis demo.depth demo.log.length s' = [3, 2] ∧
      ((demo_containers 0).map demo.ident).Nodup ∧
      ((vis demo.depth demo.log.length s').filter fun i =>
        i ∈ (demo_containers 0).map demo.ident).Sublist ((demo_containers 0).map demo.ident) ∧
      ∀ i ∈ (demo_containers 0).map demo.ident,
        (vis demo.depth demo.log.length s').count i ≤ 1 := by
  have hc : visited 0 0 (emit (fun f s =>
      if f = 30 then [.connect 0 40, .disconnect 1]
      else if f = 20 ∧ s.depth = 1 then [.move_construct 2, .emit 0] else []) 30 demo 0) =
      some [3, 2] := by decide
  obtain ⟨s', hs, hv⟩ := Option.map_eq_some'.1 hc
  exact ⟨demo_wf, by decide, by decide, by decide, s', hs, hv,
    C4_start_subscriptions_at_most_once_in_order _ 30 demo s' demo_containers demo_stacks 0
      demo_wf (by decide) hs⟩

/-! ## A callable that disconnects its own subscription (C5) -/

/-- C5: in a live signal with the connected subscriptions `l ++ X :: r`, where the callable
of `X` disconnects `X` itself and the other callables do nothing, `emit()` returns after
calling every subscription exactly once, front to back, `X` included and its successor not
skipped; afterwards `X` is disconnected and the container holds the others in unchanged
order. -/
theorem C5_self_disconnect_skips_nothing (beh : Nat → State → List Action) (s : State)
    (g X fX : Nat) (l r ts : List Nat) (h : Attached s g (l ++ X :: r) ts)
    (hX : s.slot X = some fX) (hbX : ∀ s' : State, beh fX s' = [.disconnect X])
    (hin : ∀ y ∈ l ++ r, ∀ f, s.slot y = some f → ∀ s' : State, beh f s' = []) :
    ∃ s' N, (∀ fuel, N ≤ fuel → emit beh fuel s g = some s') ∧
      s'.log = s.log ++ entries s s.depth (l ++ X :: r) ∧
      s'.csig X = none ∧
      Ring s' g (l ++ r) ∧
      walk s' g ((l ++ r).length + 1) (s'.next g) = l ++ r := by
  obtain ⟨sb, hsb⟩ : ∃ sb, sb = record (reached s g l X) s.depth fX := ⟨_, rfl⟩
  obtain ⟨sc, hsc⟩ : ∃ sc, sc = disconnected sb X (s.depth :: ts) := ⟨_, rfl⟩
  have hst : Stack sb (sb.top_token g) (s.depth :: ts) ∧ ∀ u ∈ s.depth :: ts, sb.tsig u ≠ none := by
    rw [hsb]
    exact h.stack_in_emission rfl rfl rfl
  have hd : disconnect (ts.length + 1) sb X = some sc := by
    rw [hsc]
    exact disconnect_eq (by rw [hsb]; exact h.sig X (by simp)) hst.1 hst.2 (by simp)
  have hbody : Runs beh (.script (beh fX (reached s g l X)))
      (record (reached s g l X) s.depth fX) sc := by
    rw [hbX, ← hsb]
    exact Runs.script_disconnect (by rw [hsb]; exact h.is_conn (by simp)) hd Runs.script_nil
  have hring : Ring sc g (l ++ r) := by
    have h0 : Ring sb g (l ++ X :: r) := by
      rw [hsb]
      exact h.ring.of_eq rfl rfl
    rw [hsc]
    exact h0.disconnected _
  have htit : sc.tit s.depth = l.getLastD g := by
    rw [hsc, hsb]
    show (if s.depth ∈ s.depth :: ts ∧ upd (upd s.tit s.depth (s.next g)) s.depth X s.depth = X
      then s.prev X else _) = _
    rw [upd_same, if_pos ⟨List.mem_cons_self _ _, rfl⟩]
    exact h.ring.prev_mem
  have hfreed : sc.freed = s.freed := by rw [hsc, hsb]; rfl
  have hslot : sc.slot = s.slot := by rw [hsc, hsb]; rfl
  have hident : sc.ident = s.ident := by rw [hsc, hsb]; rfl
  have hlog : sc.log = s.log ++ entries s s.depth l ++ [⟨s.depth, s.ident X, fX⟩] := by
    rw [hsc, hsb]
    show s.log ++ entries s s.depth l ++ [⟨s.depth, s.ident (upd _ s.depth X s.depth), fX⟩] = _
    rw [upd_same]
  have htsig : sc.tsig s.depth = some g := by
    rw [hsc, hsb]
    exact upd_same _ _ _
  have hcsig : sc.csig X = none := by
    rw [hsc]
    exact upd_same _ _ _
  have hrun : Runs beh (.emit g) s _ := emit_pivot h hX
    (fun y hy f hyf s' _ => hin y (List.mem_append_left _ hy) f hyf s') hbody hring htit htsig
    (fun a ha => by
      rw [hfreed]
      apply h.live
      simp only [List.mem_cons, List.mem_append] at ha ⊢
      tauto)
    (fun y hy f hyf s' _ => hin y (List.mem_append_right _ hy) f (by rw [← hslot]; exact hyf) s')
  obtain ⟨N, hN⟩ := hrun.mono
  have hfin := hring.finish s.depth g (entries sc s.depth r)
  refine ⟨_, N, hN, ?_, ?_, hfin, hfin.walk_all⟩
  · have he : entries sc s.depth r = entries s s.depth r :=
      entries_congr (fun x _ => by rw [hslot]) (fun x _ => by rw [hident])
    rw [finish_log, entries_append, entries_cons_some hX, hlog, he]
    simp
  · rw [finish_csig]
    exact hcsig

/-- C5 at a concrete input: container C, B, A (callables 30, 20, 10) where B disconnects
itself; the emission calls C, B, A. -/
theorem C5_self_disconnect_skips_nothing_witness :
    Attached demo 0 ([3] ++ 2 :: [1]) [] ∧
    calls (emit (fun f _ => if f = 20 then [.disconnect 2] else []) 10 demo 0) =
      some [30, 20, 10] ∧
    ∃ s' N, (∀ fuel, N ≤ fuel →
        emit (fun f _ => if f = 20 then [.disconnect 2] else []) fuel demo 0 = some s') ∧
      s'.log = demo.log ++ entries demo demo.depth ([3] ++ 2 :: [1]) ∧
      s'.csig 2 = none ∧
      Ring s' 0 ([3] ++ [1]) ∧
      walk s' 0 (([3] ++ [1]).length + 1) (s'.next 0) = [3] ++ [1] :=
  ⟨demo_attached, by decide,
    C5_self_disconnect_skips_nothing (fun f _ => if f = 20 then [.disconnect 2] else [])
      demo 0 2 20 [3] [1] [] demo_attached rfl (fun _ => rfl)
      (by
        intro y hy f hf s'
        simp only [List.mem_append, List.mem_singleton] at hy
        rcases hy with e | e
        · subst e
          have : f = 30 := (Option.some.inj hf).symm
          subst this
          rfl
        · subst e
          have : f = 10 := (Option.some.inj hf).symm
          subst this
          rfl)⟩

/-! ## A callable that disconnects a later subscription (C6) -/

/-- C6: in a live signal with the connected subscriptions `l ++ X :: m ++ Y :: r`, where
the callable of `X` disconnects `Y` (which lies behind `X`) and the other callables do
nothing, `emit()` returns after calling every subscription except `Y` exactly once, front
to back; `Y` is not called, it is disconnected and the others stay in the container. -/
theorem C6_later_disconnected_not_called (beh : Nat → State → List Action) (s : State)
    (g X Y fX : Nat) (l m r ts : List Nat) (h : Attached s g (l ++ X :: (m ++ Y :: r)) ts)
    (hX : s.slot X = some fX) (hbX : ∀ s' : State, beh fX s' = [.disconnect Y])
    (hin : ∀ y ∈ l ++ (m ++ r), ∀ f, s.slot y = some f → ∀ s' : State, beh f s' = []) :
    ∃ s' N, (∀ fuel, N ≤ fuel → emit beh fuel s g = some s') ∧
      s'.log = s.log ++ entries s s.depth (l ++ X :: (m ++ r)) ∧
      s'.csig Y = none ∧
      Ring s' g (l ++ X :: (m ++ r)) ∧
      walk s' g ((l ++ X :: (m ++ r)).length + 1) (s'.next g) = l ++ X :: (m ++ r) := by
  obtain ⟨sb, hsb⟩ : ∃ sb, sb = record (reached s g l X) s.depth fX := ⟨_, rfl⟩
  obtain ⟨sc, hsc⟩ : ∃ sc, sc = disconnected sb Y (s.depth :: ts) := ⟨_, rfl⟩
  have hYmem : Y ∈ l ++ X :: (m ++ Y :: r) := by simp
  have hXY : X ≠ Y := by
    intro e
    have hnd := (List.nodup_cons.1 h.ring.nodup).2
    rw [e] at hnd
    have := (List.nodup_cons.1 (List.nodup_append.1 hnd).2.1).1
    exact this (by simp)
  have hst : Stack sb (sb.top_token g) (s.depth :: ts) ∧ ∀ u ∈ s.depth :: ts, sb.tsig u ≠ none := by
    rw [hsb]
    exact h.stack_in_emission rfl rfl rfl
  have hd : disconnect (ts.length + 1) sb Y = some sc := by
    rw [hsc]
    exact disconnect_eq (by rw [hsb]; exact h.sig Y hYmem) hst.1 hst.2 (by simp)
  have hbody : Runs beh (.script (beh fX (reached s g l X)))
      (record (reached s g l X) s.depth fX) sc := by
    rw [hbX, ← hsb]
    exact Runs.script_disconnect (by rw [hsb]; exact h.is_conn hYmem) hd Runs.script_nil
  have hring : Ring sc g ((l ++ [X]) ++ (m ++ r)) := by
    have h0 : Ring sb g ((l ++ X :: m) ++ Y :: r) := by
      rw [hsb]
      have := h.ring
      simp only [List.append_assoc, List.cons_append] at this ⊢
      exact this.of_eq rfl rfl
    rw [hsc]
    have := h0.disconnected (s.depth :: ts)
    simpa using this
  have htit : sc.tit s.depth = (l ++ [X]).getLastD g := by
    rw [hsc, hsb, getLastD_concat]
    show (if s.depth ∈ s.depth :: ts ∧ upd (upd s.tit s.depth (s.next g)) s.depth X s.depth = Y
      then _ else upd (upd s.tit s.depth (s.next g)) s.depth X s.depth) = _
    rw [upd_same, if_neg (fun hc => hXY hc.2)]
  have hfreed : sc.freed = s.freed := by rw [hsc, hsb]; rfl
  have hslot : sc.slot = s.slot := by rw [hsc, hsb]; rfl
  have hident : sc.ident = s.ident := by rw [hsc, hsb]; rfl
  have hlog : sc.log = s.log ++ entries s s.depth l ++ [⟨s.depth, s.ident X, fX⟩] := by
    rw [hsc, hsb]
    show s.log ++ entries s s.depth l ++ [⟨s.depth, s.ident (upd _ s.depth X s.depth), fX⟩] = _
    rw [upd_same]
  have htsig : sc.tsig s.depth = some g := by
    rw [hsc, hsb]
    exact upd_same _ _ _
  have hcsig : sc.csig Y = none := by
    rw [hsc]
    exact upd_same _ _ _
  have hrun : Runs beh (.emit g) s _ := emit_pivot h hX
    (fun y hy f hyf s' _ => hin y (List.mem_append_left _ hy) f hyf s') hbody hring htit htsig
    (fun a ha => by
      rw [hfreed]
      apply h.live
      simp only [List.mem_cons, List.mem_append, List.mem_singleton] at ha ⊢
      tauto)
    (fun y hy f hyf s' _ => hin y (List.mem_append_right _ hy) f (by rw [← hslot]; exact hyf) s')
  obtain ⟨N, hN⟩ := hrun.mono
  have hfin : Ring (finish sc s.depth g (entries sc s.depth (m ++ r))) g
      (l ++ X :: (m ++ r)) := by
    have := hring.finish s.depth g (entries sc s.depth (m ++ r))
    simpa using this
  refine ⟨_, N, hN, ?_, ?_, hfin, hfin.walk_all⟩
  · have he : entries sc s.depth (m ++ r) = entries s s.depth (m ++ r) :=
      entries_congr (fun x _ => by rw [hslot]) (fun x _ => by rw [hident])
    rw [finish_log, he, hlog, entries_append s s.depth l, entries_cons_some hX]
    simp
  · rw [finish_csig]
    exact hcsig

/-- C6 at a concrete input: container C, B, A (callables 30, 20, 10) where C disconnects
A; the emission calls C, B. -/
theorem C6_later_disconnected_not_called_witness :
    Attached demo 0 ([] ++ 3 :: ([2] ++ 1 :: [])) [] ∧
    calls (emit (fun f _ => if f = 30 then [.disconnect 1] else []) 10 demo 0) =
      some [30, 20] ∧
    ∃ s' N, (∀ fuel, N ≤ fuel →
        emit (fun f _ => if f = 30 then [.disconnect 1] else []) fuel demo 0 = some s') ∧
      s'.log = demo.log ++ entries demo demo.depth ([] ++ 3 :: ([2] ++ [])) ∧
      s'.csig 1 = none ∧
      Ring s' 0 ([] ++ 3 :: ([2] ++ [])) ∧
      walk s' 0 (([] ++ 3 :: ([2] ++ [])).length + 1) (s'.next 0) = [] ++ 3 :: ([2] ++ []) :=
  ⟨demo_attached, by decide,
    C6_later_disconnected_not_called (fun f _ => if f = 30 then [.disconnect 1] else [])
      demo 0 3 1 30 [] [2] [] [] demo_attached rfl (fun _ => rfl)
      (by
        intro y hy f hf s'
        simp only [List.nil_append, List.append_nil, List.mem_singleton] at hy
        subst hy
        have : f = 20 := (Option.some.inj hf).symm
        subst this
        rfl)⟩

/-! ## A callable that subscribes during emission (C7) -/

/-- An emission in which the callable of `B` subscribes a new callable `fD` and the other
callables do nothing: it calls exactly the subscriptions present at its start; afterwards
the new subscription stands at the front of the container. -/
theorem emit_subscriber {beh : Nat → State → List Action} {s : State} {g B fB fD : Nat}
    {l r ts : List Nat} (h : Attached s g (l ++ B :: r) ts) (hB : s.slot B = some fB)
    (hbB : ∀ s' : State, beh fB s' = [.connect g fD])
    (hin : ∀ y ∈ l ++ r, ∀ f, s.slot y = some f → ∀ s' : State, beh f s' = []) :
    ∃ s1, Runs beh (.emit g) s s1 ∧
      s1.log = s.log ++ entries s s.depth (l ++ B :: r) ∧
      Attached s1 g (s.alloc :: l ++ B :: r) ts ∧
      s1.slot = upd s.slot s.alloc (some fD) ∧
      s1.ident = upd s.ident s.alloc s.alloc ∧
      s1.depth = s.depth ∧ s1.alloc = s.alloc + 1 := by
  obtain ⟨sb, hsb⟩ : ∃ sb, sb = record (reached s g l B) s.depth fB := ⟨_, rfl⟩
  obtain ⟨sc, hsc⟩ : ∃ sc, sc = connect sb g fD := ⟨_, rfl⟩
  have halloc : sb.alloc = s.alloc := by rw [hsb]; rfl
  have hbody : Runs beh (.script (beh fB (reached s g l B)))
      (record (reached s g l B) s.depth fB) sc := by
    rw [hbB, ← hsb, hsc]
    exact Runs.script_connect (by rw [hsb]; exact h.alive) Runs.script_nil
  have hring0 : Ring sc g (s.alloc :: (l ++ B :: r)) := by
    have h0 : Ring sb g (l ++ B :: r) := by
      rw [hsb]
      exact h.ring.of_eq rfl rfl
    rw [hsc, ← halloc]
    exact h0.connect fD (by rw [halloc]; exact h.below)
  have hring : Ring sc g ((s.alloc :: l ++ [B]) ++ r) := by simpa using hring0
  have htit : sc.tit s.depth = (s.alloc :: l ++ [B]).getLastD g := by
    have e : s.alloc :: l ++ [B] = (s.alloc :: l) ++ [B] := rfl
    rw [e, getLastD_concat, hsc, hsb]
    exact upd_same _ _ _
  have hfreed : sc.freed = s.freed := by rw [hsc, hsb]; rfl
  have hsigs : sc.sigs = s.sigs := by rw [hsc, hsb]; rfl
  have hslot : sc.slot = upd s.slot s.alloc (some fD) := by rw [hsc, hsb]; rfl
  have hident : sc.ident = upd s.ident s.alloc s.alloc := by rw [hsc, hsb]; rfl
  have hcsig : sc.csig = upd s.csig s.alloc (some g) := by rw [hsc, hsb]; rfl
  have hlog : sc.log = s.log ++ entries s s.depth l ++ [⟨s.depth, s.ident B, fB⟩] := by
    rw [hsc, hsb]
    show s.log ++ entries s s.depth l ++ [⟨s.depth, s.ident (upd _ s.depth B s.depth), fB⟩] = _
    rw [upd_same]
  have htsig : sc.tsig s.depth = some g := by
    rw [hsc, hsb]
    exact upd_same _ _ _
  have hnew : ∀ a ∈ g :: (l ++ B :: r), a ≠ s.alloc := fun a ha =>
    Nat.ne_of_lt (h.below a ha)
  have hDf : s.alloc ∉ s.freed := fun hm =>
    Nat.lt_irrefl _ (h.fresh _ (List.mem_append_left _ hm))
  have hDs : s.alloc ∉ s.sigs := fun hm =>
    Nat.lt_irrefl _ (h.fresh _ (List.mem_append_right _ hm))
  have hrun : Runs beh (.emit g) s _ := emit_pivot h hB
    (fun y hy f hyf s' _ => hin y (List.mem_append_left _ hy) f hyf s') hbody hring htit htsig
    (fun a ha => by
      rw [hfreed]
      simp only [List.mem_cons, List.mem_append, List.mem_singleton, List.cons_append] at ha
      rcases ha with e | e | e
      · rw [e]; exact h.live g (by simp)
      · rw [e]; exact hDf
      · apply h.live
        simp only [List.mem_cons, List.mem_append]
        tauto)
    (fun y hy f hyf s' _ => by
      have hy' : y ∈ g :: (l ++ B :: r) := by simp [hy]
      rw [hslot, upd_other _ _ (hnew y hy')] at hyf
      exact hin y (List.mem_append_right _ hy) f hyf s')
  have hst := @Attached.stack_after s sc g _ ts h (entries sc s.depth r)
    (by rw [hsc, hsb]; rfl) (by rw [hsc, hsb]; rfl) (by rw [hsc, hsb]; rfl)
  refine ⟨_, hrun, ?_, ?_, ?_, ?_, hst.2.2.2, ?_⟩
  · have he : entries sc s.depth r = entries s s.depth r :=
      entries_congr
        (fun x hx => by rw [hslot, upd_other _ _ (hnew x (by simp [hx]))])
        (fun x hx => by rw [hident, upd_other _ _ (hnew x (by simp [hx]))])
    rw [finish_log, he, hlog, entries_append s s.depth l, entries_cons_some hB]
    simp
  · refine ⟨?_, ?_, ?_, ?_, ?_, ?_, ?_, hst.1, hst.2.1, hst.2.2.1⟩
    · rw [finish_sigs, hsigs]; exact h.alive
    · have := hring0.finish s.depth g (entries sc s.depth r)
      simpa using this
    · intro x hx
      rw [finish_csig, hcsig]
      simp only [List.cons_append, List.mem_cons] at hx
      rcases hx with e | hx
      · rw [e, upd_same]
      · rw [upd_other _ _ (hnew x (List.mem_cons_of_mem _ hx))]
        exact h.sig x hx
    · intro x hx
      rw [finish_sigs, hsigs]
      simp only [List.cons_append, List.mem_cons] at hx
      rcases hx with e | hx
      · rw [e]; exact hDs
      · exact h.conn x hx
    · intro a ha
      rw [finish_freed, hfreed]
      simp only [List.cons_append, List.mem_cons] at ha
      rcases ha with e | e | ha
      · rw [e]; exact h.live g (by simp)
      · rw [e]; exact hDf
      · exact h.live a (List.mem_cons_of_mem _ ha)
    · intro a ha
      rw [finish_alloc, hsc, connect_alloc, halloc]
      simp only [List.cons_append, List.mem_cons] at ha
      rcases ha with e | e | ha
      · rw [e]; exact Nat.lt_succ_of_lt (h.below g (by simp))
      · rw [e]; exact Nat.lt_succ_self _
      · exact Nat.lt_succ_of_lt (h.below a (List.mem_cons_of_mem _ ha))
    · intro a ha
      rw [finish_freed, finish_sigs, hfreed, hsigs] at ha
      rw [finish_alloc, hsc, connect_alloc, halloc]
      exact Nat.lt_succ_of_lt (h.fresh a ha)
  · rw [finish_slot, hslot]
  · rw [finish_ident, hident]
  · rw [finish_alloc, hsc, connect_alloc, halloc]

/-- C7: in a live signal with the connected subscriptions `l ++ B :: r`, where the callable
of `B` subscribes a new callable `fD` (which does nothing) and the other callables do
nothing, `emit()` returns after calling exactly the subscriptions present at its start,
front to back, and not the new one; the new subscription `D` then stands at the front, and
the next `emit()` calls `D` first and then the others. -/
theorem C7_subscribed_during_emission_waits (beh : Nat → State → List Action) (s : State)
    (g B fB fD : Nat) (l r ts : List Nat) (h : Attached s g (l ++ B :: r) ts)
    (hB : s.slot B = some fB) (hbB : ∀ s' : State, beh fB s' = [.connect g fD])
    (hD : ∀ s' : State, beh fD s' = [])
    (hin : ∀ y ∈ l ++ r, ∀ f, s.slot y = some f → ∀ s' : State, beh f s' = []) :
    ∃ s1 N1 s2 N2, (∀ fuel, N1 ≤ fuel → emit beh fuel s g = some s1) ∧
      s1.log = s.log ++ entries s s.depth (l ++ B :: r) ∧
      walk s1 g ((s.alloc :: l ++ B :: r).length + 1) (s1.next g) = s.alloc :: l ++ B :: r ∧
      s1.slot s.alloc = some fD ∧
      (∀ fuel, N2 ≤ fuel → emit beh fuel s1 g = some s2) ∧
      s2.log = s1.log ++ ⟨s.depth, s.alloc, fD⟩ :: entries s s.depth (l ++ B :: r) := by
  obtain ⟨s1, hrun1, hlog1, hat1, hslot1, hident1, hdepth1, _⟩ :=
    emit_subscriber h hB hbB hin
  have hnew : ∀ a ∈ l ++ B :: r, a ≠ s.alloc := fun a ha =>
    Nat.ne_of_lt (h.below a (List.mem_cons_of_mem _ ha))
  have hD1 : s1.slot s.alloc = some fD := by rw [hslot1, upd_same]
  have hB1 : s1.slot B = some fB := by
    rw [hslot1, upd_other _ _ (hnew B (by simp))]
    exact hB
  have hin1 : ∀ y ∈ (s.alloc :: l) ++ r, ∀ f, s1.slot y = some f →
      ∀ s' : State, beh f s' = [] := by
    intro y hy f hyf s'
    simp only [List.cons_append, List.mem_cons] at hy
    rcases hy with e | hy
    · rw [e, hD1] at hyf
      rw [← Option.some.inj hyf]
      exact hD s'
    · have hy' : y ∈ l ++ B :: r := by
        simp only [List.mem_append, List.mem_cons] at hy ⊢
        tauto
      rw [hslot1, upd_other _ _ (hnew y hy')] at hyf
      exact hin y hy f hyf s'
  obtain ⟨s2, hrun2, hlog2, _⟩ :=
    @emit_subscriber beh s1 g B fB fD (s.alloc :: l) r ts hat1 hB1 hbB hin1
  obtain ⟨N1, hN1⟩ := hrun1.mono
  obtain ⟨N2, hN2⟩ := hrun2.mono
  refine ⟨s1, N1, s2, N2, hN1, hlog1, hat1.ring.walk_all, hD1, hN2, ?_⟩
  have he : entries s1 s.depth (l ++ B :: r) = entries s s.depth (l ++ B :: r) :=
    entries_congr (fun x hx => by rw [hslot1, upd_other _ _ (hnew x hx)])
      (fun x hx => by rw [hident1, upd_other _ _ (hnew x hx)])
  rw [hlog2, hdepth1]
  show s1.log ++ entries s1 s.depth (s.alloc :: (l ++ B :: r)) = _
  rw [entries_cons_some hD1, he, hident1, upd_same]

/-- C7 at a concrete input: container C, B, A (callables 30, 20, 10) where B subscribes
the callable 40; the first emission calls C, B, A and the second calls D, C, B, A. -/
theorem C7_subscribed_during_emission_waits_witness :
    Attached demo 0 ([3] ++ 2 :: [1]) [] ∧
    calls (emit (fun f _ => if f = 20 then [.connect 0 40] else []) 10 demo 0) =
      some [30, 20, 10] ∧
    calls ((emit (fun f _ => if f = 20 then [.connect 0 40] else []) 10 demo 0).bind
      fun s1 => emit (fun f _ => if f = 20 then [.connect 0 40] else []) 10 s1 0) =
      some [30, 20, 10, 40, 30, 20, 10] ∧
    ∃ s1 N1 s2 N2, (∀ fuel, N1 ≤ fuel →
        emit (fun f _ => if f = 20 then [.connect 0 40] else []) fuel demo 0 = some s1) ∧
      s1.log = demo.log ++ entries demo demo.depth ([3] ++ 2 :: [1]) ∧
      walk s1 0 ((demo.alloc :: [3] ++ 2 :: [1]).length + 1) (s1.next 0) =
        demo.alloc :: [3] ++ 2 :: [1] ∧
      s1.slot demo.alloc = some 40 ∧
      (∀ fuel, N2 ≤ fuel →
        emit (fun f _ => if f = 20 then [.connect 0 40] else []) fuel s1 0 = some s2) ∧
      s2.log = s1.log ++ ⟨demo.depth, demo.alloc, 40⟩ ::
        entries demo demo.depth ([3] ++ 2 :: [1]) :=
  ⟨demo_attached, by decide, by decide,
    C7_subscribed_during_emission_waits (fun f _ => if f = 20 then [.connect 0 40] else [])
      demo 0 2 20 40 [3] [1] [] demo_attached rfl (fun _ => rfl) (fun _ => rfl)
      (by
        intro y hy f hf s'
        simp only [List.mem_append, List.mem_singleton] at hy
        rcases hy with e | e
        · subst e
          have : f = 30 := (Option.some.inj hf).symm
          subst this
          rfl
        · subst e
          have : f = 10 := (Option.some.inj hf).symm
          subst this
          rfl)⟩

/-! ## A callable that destroys the signal (C8, C9) -/

/-- C8: in a live signal with the connected subscriptions `l ++ X :: r`, where the callable
of `X` destroys the signal and the callables before `X` do nothing, `emit()` returns after
calling exactly the subscriptions from the front up to `X`, each once and in order; and
every outer, suspended emission of the signal, when it resumes, returns at once without
another call. -/
theorem C8_destroyed_signal_stops_emission (beh : Nat → State → List Action) (s : State)
    (g X fX : Nat) (l r ts : List Nat) (h : Attached s g (l ++ X :: r) ts)
    (hX : s.slot X = some fX) (hbX : ∀ s' : State, beh fX s' = [.destroy_signal g])
    (hin : ∀ y ∈ l, ∀ f, s.slot y = some f → ∀ s' : State, beh f s' = []) :
    ∃ s' N, (∀ fuel, N ≤ fuel → emit beh fuel s g = some s') ∧
      s'.log = s.log ++ entries s s.depth (l ++ [X]) ∧
      ∀ u ∈ ts, ∀ n, exec beh (n + 1) (.loop u g) (advance s' u) = some (advance s' u) ∧
        (advance s' u).log = s'.log := by
  obtain ⟨s', hrun, hlog, _, _, htsig, _⟩ := emit_destroyer h hX hbX hin
  obtain ⟨N, hN⟩ := hrun.mono
  refine ⟨s', N, hN, hlog, fun u hu n => ⟨?_, advance_log _ _⟩⟩
  exact exec_loop_null beh n g (by rw [advance_tsig]; exact htsig u hu)

/-- C8 at a concrete input: container C, B, A (callables 30, 20, 10) inside an emission
suspended in the callable of C; a nested emission in which B destroys the signal calls C
and B, and the suspended emission resumes without another call.  Run from the start, with
C starting the nested emission on its first call, the calls are C, C, B. -/
theorem C8_destroyed_signal_stops_emission_witness :
    Attached demo_suspended 0 ([3] ++ 2 :: [1]) [0] ∧
    calls (emit (fun f _ => if f = 20 then [.destroy_signal 0] else []) 10 demo 0) =
      some [30, 20] ∧
    calls (emit (fun f s => if f = 20 then [.destroy_signal 0]
      else if f = 30 ∧ 30 ∉ s.log.map Invocation.fn then [.emit 0] else []) 20 demo 0) =
      some [30, 30, 20] ∧
    ∃ s' N, (∀ fuel, N ≤ fuel →
        emit (fun f _ => if f = 20 then [.destroy_signal 0] else []) fuel demo_suspended 0 =
          some s') ∧
      s'.log = demo_suspended.log ++ entries demo_suspended demo_suspended.depth ([3] ++ [2]) ∧
      ∀ u ∈ [0], ∀ n,
        exec (fun f _ => if f = 20 then [.destroy_signal 0] else []) (n + 1) (.loop u 0)
          (advance s' u) = some (advance s' u) ∧
        (advance s' u).log = s'.log :=
  ⟨demo_suspended_attached, by decide, by decide,
    C8_destroyed_signal_stops_emission (fun f _ => if f = 20 then [.destroy_signal 0] else [])
      demo_suspended 0 2 20 [3] [1] [0] demo_suspended_attached rfl (fun _ => rfl)
      (by
        intro y hy f hf s'
        simp only [List.mem_singleton] at hy
        subst hy
        have : f = 30 := (Option.some.inj hf).symm
        subst this
        rfl)⟩

/-- C9 (the code reads the destroyed signal): in a live signal with the connected
subscriptions `l ++ X :: r`, where the callable of `X` destroys the signal and the callables
before `X` do nothing, the emission loop, after the callable of `X` has returned, reads the
`next` link of the sentinel of the destroyed signal: the signal is recorded as destroyed and
its address as read by the loop afterwards. -/
theorem C9_loop_reads_destroyed_sentinel (beh : Nat → State → List Action) (s : State)
    (g X fX : Nat) (l r ts : List Nat) (h : Attached s g (l ++ X :: r) ts)
    (hX : s.slot X = some fX) (hbX : ∀ s' : State, beh fX s' = [.destroy_signal g])
    (hin : ∀ y ∈ l, ∀ f, s.slot y = some f → ∀ s' : State, beh f s' = []) :
    ∃ s' N, (∀ fuel, N ≤ fuel → emit beh fuel s g = some s') ∧
      s'.freed = g :: s.freed ∧ s'.stale = s.stale ++ [g] := by
  obtain ⟨s', hrun, _, hstale, hfreed, _, _⟩ := emit_destroyer h hX hbX hin
  obtain ⟨N, hN⟩ := hrun.mono
  exact ⟨s', N, hN, hfreed, hstale⟩

/-- C9 at a concrete input: container C, B, A (callables 30, 20, 10) where B destroys the
signal at address 0; the emission loop reads address 0 after the destruction. -/
theorem C9_loop_reads_destroyed_sentinel_witness :
    Attached demo 0 ([3] ++ 2 :: [1]) [] ∧
    (emit (fun f _ => if f = 20 then [.destroy_signal 0] else []) 10 demo 0).map
      (fun s' => (s'.freed, s'.stale)) = some ([0], [0]) ∧
    ∃ s' N, (∀ fuel, N ≤ fuel →
        emit (fun f _ => if f = 20 then [.destroy_signal 0] else []) fuel demo 0 = some s') ∧
      s'.freed = 0 :: demo.freed ∧ s'.stale = demo.stale ++ [0] :=
  ⟨demo_attached, by decide,
    C9_loop_reads_destroyed_sentinel (fun f _ => if f = 20 then [.destroy_signal 0] else [])
      demo 0 2 20 [3] [1] [] demo_attached rfl (fun _ => rfl)
      (by
        intro y hy f hf s'
        simp only [List.mem_singleton] at hy
        subst hy
        have : f = 30 := (Option.some.inj hf).symm
        subst this
        rfl)⟩

/-! ## A callable that starts a nested emission (C10) -/

theorem fn_mem_entries {s : State} {t f : Nat} {xs : List Nat}
    (h : f ∈ (entries s t xs).map Invocation.fn) : ∃ x ∈ xs, s.slot x = some f := by
  simp only [entries, List.mem_map, List.mem_filterMap, Option.map_eq_some'] at h
  obtain ⟨e, ⟨x, hx, f', hf', he⟩, hfe⟩ := h
  refine ⟨x, hx, ?_⟩
  rw [hf', ← hfe, ← he]

/-- C10: in a live signal with the connected subscriptions `l ++ xk :: r`, where the
callable of `xk` starts a nested `emit()` on the same signal when it is called for the
first time and nothing else is done by any callable, `emit()` returns and the calls are:
`l` and `xk` by the outer emission, then every subscription once, front to back, by the
nested emission, then `r` by the outer emission, which calls none of `l`, `xk` again. -/
theorem C10_nested_emission_resumes_behind (beh : Nat → State → List Action) (s : State)
    (g xk fk : Nat) (l r ts : List Nat) (h : Attached s g (l ++ xk :: r) ts)
    (hk : s.slot xk = some fk) (hfirst : fk ∉ s.log.map Invocation.fn)
    (hbk : ∀ s' : State,
      beh fk s' = if fk ∈ s'.log.map Invocation.fn then [] else [.emit g])
    (hin : ∀ y ∈ l ++ r, ∀ f, s.slot y = some f → ∀ s' : State, beh f s' = []) :
    ∃ s' N, (∀ fuel, N ≤ fuel → emit beh fuel s g = some s') ∧
      s'.log = s.log ++ entries s s.depth (l ++ [xk]) ++
        entries s (s.depth + 1) (l ++ xk :: r) ++ entries s s.depth r := by
  obtain ⟨sb, hsb⟩ : ∃ sb, sb = record (reached s g l xk) s.depth fk := ⟨_, rfl⟩
  obtain ⟨sc, hsc⟩ : ∃ sc, sc = emitted sb g (entries sb sb.depth (l ++ xk :: r)) := ⟨_, rfl⟩
  have hne : ∀ y ∈ l ++ r, s.slot y ≠ some fk := by
    intro y hy hyf
    have h1 := hin y hy fk hyf s
    rw [hbk, if_neg hfirst] at h1
    cases h1
  have hfresh : fk ∉ (reached s g l xk).log.map Invocation.fn := by
    show fk ∉ (s.log ++ entries s s.depth l).map Invocation.fn
    rw [List.map_append, List.mem_append]
    rintro (hm | hm)
    · exact hfirst hm
    · obtain ⟨y, hy, hyf⟩ := fn_mem_entries hm
      exact hne y (List.mem_append_left _ hy) hyf
  have hlogb : sb.log = s.log ++ entries s s.depth l ++ [⟨s.depth, s.ident xk, fk⟩] := by
    rw [hsb]
    show s.log ++ entries s s.depth l ++ [⟨s.depth, s.ident (upd _ s.depth xk s.depth), fk⟩] = _
    rw [upd_same]
  have hdepth : sb.depth = s.depth + 1 := by rw [hsb]; rfl
  have hnested : Runs beh (.emit g) sb sc := by
    rw [hsc]
    refine emit_inert (by rw [hsb]; exact h.ring.of_eq rfl rfl)
      (fun a ha => by rw [hsb]; exact h.live a (List.mem_cons_of_mem _ ha)) ?_
    intro x hx f hxf s' hs'
    have hxf' : s.slot x = some f := by rw [hsb] at hxf; exact hxf
    by_cases hfk : f = fk
    · obtain ⟨ext, he⟩ := hs'
      rw [hfk, hbk, if_pos]
      rw [he, hlogb]
      simp
    · have hx' : x ∈ l ++ r := by
        simp only [List.mem_append, List.mem_cons] at hx ⊢
        rcases hx with hx | hx | hx
        · exact Or.inl hx
        · rw [hx, hk] at hxf'
          exact absurd (Option.some.inj hxf').symm hfk
        · exact Or.inr hx
      exact hin x hx' f hxf' s'
  have hbody : Runs beh (.script (beh fk (reached s g l xk)))
      (record (reached s g l xk) s.depth fk) sc := by
    rw [hbk, if_neg hfresh, ← hsb]
    exact Runs.script_emit (by rw [hsb]; exact h.alive) hnested Runs.script_nil
  have hring : Ring sc g ((l ++ [xk]) ++ r) := by
    rw [hsc, hsb]
    have := h.ring
    simp only [List.append_assoc, List.singleton_append]
    exact this.of_eq rfl rfl
  have htit : sc.tit s.depth = (l ++ [xk]).getLastD g := by
    rw [getLastD_concat, hsc]
    show upd sb.tit sb.depth g s.depth = xk
    rw [hdepth, upd_other _ _ (Nat.ne_of_lt (Nat.lt_succ_self _)), hsb]
    exact upd_same _ _ _
  have htsig : sc.tsig s.depth = some g := by
    rw [hsc]
    show upd sb.tsig sb.depth (some g) s.depth = some g
    rw [hdepth, upd_other _ _ (Nat.ne_of_lt (Nat.lt_succ_self _)), hsb]
    exact upd_same _ _ _
  have hrun : Runs beh (.emit g) s _ := emit_pivot h hk
    (fun y hy f hyf s' _ => hin y (List.mem_append_left _ hy) f hyf s') hbody hring htit htsig
    (fun a ha => by
      rw [hsc, hsb]
      apply h.live
      simp only [List.mem_cons, List.mem_append, List.mem_singleton] at ha ⊢
      tauto)
    (fun y hy f hyf s' _ =>
      hin y (List.mem_append_right _ hy) f (by rw [hsc, hsb] at hyf; exact hyf) s')
  obtain ⟨N, hN⟩ := hrun.mono
  refine ⟨_, N, hN, ?_⟩
  have he1 : entries sc s.depth r = entries s s.depth r := by
    rw [hsc, hsb]; rfl
  have he2 : entries sb sb.depth (l ++ xk :: r) = entries s (s.depth + 1) (l ++ xk :: r) := by
    rw [hdepth, hsb]; rfl
  have hlogc : sc.log = sb.log ++ entries sb sb.depth (l ++ xk :: r) := by rw [hsc]; rfl
  rw [finish_log, he1, hlogc, he2, hlogb, entries_append s s.depth l [xk]]
  simp [entries, hk]

/-- C10 at a concrete input: container C, B, A (callables 30, 20, 10) where A starts a
nested emission on its first call; the calls are C, B, A, C, B, A. -/
theorem C10_nested_emission_resumes_behind_witness :
    Attached demo 0 ([3, 2] ++ 1 :: []) [] ∧
    calls (emit (fun f s => if f = 10 then
        (if 10 ∈ s.log.map Invocation.fn then [] else [.emit 0]) else []) 20 demo 0) =
      some [30, 20, 10, 30, 20, 10] ∧
    ∃ s' N, (∀ fuel, N ≤ fuel →
        emit (fun f s => if f = 10 then
          (if 10 ∈ s.log.map Invocation.fn then [] else [.emit 0]) else []) fuel demo 0 =
          some s') ∧
      s'.log = demo.log ++ entries demo demo.depth ([3, 2] ++ [1]) ++
        entries demo (demo.depth + 1) ([3, 2] ++ 1 :: []) ++ entries demo demo.depth [] :=
  ⟨demo_attached, by decide,
    C10_nested_emission_resumes_behind (fun f s => if f = 10 then
        (if 10 ∈ s.log.map Invocation.fn then [] else [.emit 0]) else [])
      demo 0 1 10 [3, 2] [] [] demo_attached rfl (by decide) (fun _ => rfl)
      (by
        intro y hy f hf s'
        simp only [List.append_nil, List.mem_cons, List.mem_singleton, List.not_mem_nil,
          or_false] at hy
        rcases hy with e | e
        · subst e
          have : f = 30 := (Option.some.inj hf).symm
          subst this
          rfl
        · subst e
          have : f = 20 := (Option.some.inj hf).symm
          subst this
          rfl)⟩

/-! ## `disconnect()` is idempotent (C11) -/

theorem disconnect_csig {fuel : Nat} {s s1 : State} {c : Nat}
    (h : disconnect fuel s c = some s1) : s1.csig c = none := by
  unfold disconnect at h
  cases hc : s.csig c with
  | none =>
    rw [hc] at h
    rw [← Option.some.inj h]
    exact hc
  | some g =>
    rw [hc] at h
    simp only [Option.map_eq_some'] at h
    obtain ⟨s0, _, e⟩ := h
    rw [← e]
    exact upd_same _ _ _

/-- C11: `disconnect()` is idempotent.  On a subscription whose `sig` is null, whether it
was default-constructed, disconnected before or moved from, `disconnect()` returns and
changes nothing.  On a subscription connected to a signal with the token stack `ts`,
`disconnect()` returns a state in which `sig` is null, and a second `disconnect()`
returns that very state: subscription, container and tokens are as after the first
call. -/
theorem C11_disconnect_idempotent (s : State) (c : Nat) (ts : List Nat)
    (hst : ∀ g, s.csig c = some g →
      Stack s (s.top_token g) ts ∧ ∀ t ∈ ts, s.tsig t ≠ none) :
    (s.csig c = none → ∀ fuel, disconnect fuel s c = some s) ∧
    (∃ s1, (∀ fuel, ts.length ≤ fuel → disconnect fuel s c = some s1) ∧
      s1.csig c = none ∧
      (∀ fuel, disconnect fuel s1 c = some s1) ∧
      ∀ fuel fuel2, ts.length ≤ fuel →
        (disconnect fuel s c).bind (fun s2 => disconnect fuel2 s2 c) = disconnect fuel s c) ∧
    (∀ fuel s1, disconnect fuel s c = some s1 → ∀ fuel2, disconnect fuel2 s1 c = some s1) := by
  refine ⟨fun hc fuel => disconnect_null hc, ?_, ?_⟩
  · cases hc : s.csig c with
    | none =>
      refine ⟨s, fun fuel _ => disconnect_null hc, hc, fun fuel => disconnect_null hc, ?_⟩
      intro fuel fuel2 _
      rw [disconnect_null hc, Option.some_bind, disconnect_null hc]
    | some g =>
      obtain ⟨h1, h2⟩ := hst g hc
      have hd : ∀ fuel, ts.length ≤ fuel → disconnect fuel s c = some (disconnected s c ts) :=
        fun fuel hf => disconnect_eq hc h1 h2 hf
      have hn : (disconnected s c ts).csig c = none := upd_same _ _ _
      refine ⟨disconnected s c ts, hd, hn, fun fuel => disconnect_null hn, ?_⟩
      intro fuel fuel2 hf
      rw [hd fuel hf, Option.some_bind, disconnect_null hn]
  · intro fuel s1 h fuel2
    exact disconnect_null (disconnect_csig h)

/-- C11 at a concrete input: in the container C, B, A disconnect B, then disconnect it
again; the container holds C, A after the first call and after the second. -/
theorem C11_disconnect_idempotent_witness :
    (∀ g, demo.csig 2 = some g →
      Stack demo (demo.top_token g) [] ∧ ∀ t ∈ ([] : List Nat), demo.tsig t ≠ none) ∧
    ((disconnect 0 demo 2).map fun s1 => walk s1 0 4 (s1.next 0)) = some [3, 1] ∧
    (((disconnect 0 demo 2).bind fun s1 => disconnect 0 s1 2).map
      fun s1 => walk s1 0 4 (s1.next 0)) = some [3, 1] ∧
    (demo.csig 2 = none → ∀ fuel, disconnect fuel demo 2 = some demo) ∧
    (∃ s1, (∀ fuel, ([] : List Nat).length ≤ fuel → disconnect fuel demo 2 = some s1) ∧
      s1.csig 2 = none ∧
      (∀ fuel, disconnect fuel s1 2 = some s1) ∧
      ∀ fuel fuel2, ([] : List Nat).length ≤ fuel →
        (disconnect fuel demo 2).bind (fun s2 => disconnect fuel2 s2 2) =
          disconnect fuel demo 2) ∧
    (∀ fuel s1, disconnect fuel demo 2 = some s1 →
      ∀ fuel2, disconnect fuel2 s1 2 = some s1) :=
  ⟨by
    intro g hg
    have e : demo.csig 2 = some 0 := by decide
    rw [e] at hg
    cases hg
    exact ⟨rfl, fun t ht => by cases ht⟩,
   by decide, by decide,
   C11_disconnect_idempotent demo 2 []
    (by
      intro g hg
      have e : demo.csig 2 = some 0 := by decide
      rw [e] at hg
      cases hg
      exact ⟨rfl, fun t ht => by cases ht⟩)⟩

/-! ## Nothing refers to a destroyed signal (C14) -/

/-- C14: the destructor of a live signal `g` returns, and then nothing refers to `g`: every
subscription that was in its container is unlinked and has a null `sig`, so that its
`disconnect()` and its destructor change nothing; no connection object refers to `g`; and
every token that was on the token stack of `g` has a null `sig`, so that its destructor
does not write `top_token`. -/
theorem C14_destroyed_signal_not_referred_to (s : State) (R T : Nat → List Nat) (g : Nat)
    (h : WF False s R T) (hg : g ∈ s.sigs) :
    ∃ s', (∀ fuel, (R g).length + (T g).length ≤ fuel → signal_dtor fuel s g = some s') ∧
      g ∉ s'.sigs ∧
      (∀ x ∈ R g, s'.csig x = none ∧ s'.next x = x ∧ s'.prev x = x ∧
        (∀ fuel, disconnect fuel s' x = some s') ∧
        (∀ fuel, connection_dtor fuel s' x = some s')) ∧
      (∀ c, IsConn s c → s'.csig c ≠ some g) ∧
      (∀ t ∈ T g, s'.tsig t = none ∧ (token_dtor s' t).top_token = s'.top_token) := by
  have hcs : ∀ x ∈ R g, (destroyed s g (R g) (T g)).csig x = none := by
    intro x hx
    show (if x ∈ R g then none else s.csig x) = none
    rw [if_pos hx]
  have hnx : ∀ x ∈ R g, (destroyed s g (R g) (T g)).next x = x := by
    intro x hx
    show (if x ∈ g :: R g then x else s.next x) = x
    rw [if_pos (List.mem_cons_of_mem _ hx)]
  have hpx : ∀ x ∈ R g, (destroyed s g (R g) (T g)).prev x = x := by
    intro x hx
    show (if x ∈ g :: R g then x else s.prev x) = x
    rw [if_pos (List.mem_cons_of_mem _ hx)]
  refine ⟨destroyed s g (R g) (T g), ?_, ?_, ?_, ?_, ?_⟩
  · intro fuel hf
    exact signal_dtor_eq (h.ring g hg) (fun x hx => (h.mem g hg x hx).2) (h.stack g hg)
      (fun t ht => by rw [(h.tok g hg t ht).1]; simp) hf
  · show g ∉ s.sigs.erase g
    exact fun hm => (h.sigs_nodup.mem_erase_iff.1 hm).1 rfl
  · intro x hx
    refine ⟨hcs x hx, hnx x hx, hpx x hx, fun fuel => disconnect_null (hcs x hx), ?_⟩
    intro fuel
    unfold connection_dtor
    rw [hcs x hx]
    show some (unlink _ x) = some _
    rw [unlink_self (hnx x hx) (hpx x hx)]
  · intro c hc
    show (if c ∈ R g then none else s.csig c) ≠ some g
    by_cases hm : c ∈ R g
    · rw [if_pos hm]
      simp
    · rw [if_neg hm]
      exact fun e => hm (h.att c g hc e).2
  · intro t ht
    have e : (destroyed s g (R g) (T g)).tsig t = none := by
      show (if t ∈ T g then none else s.tsig t) = none
      rw [if_pos ht]
    refine ⟨e, ?_⟩
    unfold token_dtor
    rw [e]

/-- C14 at a concrete input: the signal with the container C, B, A is destroyed while the
emission with token 0 is suspended in the callable of C. -/
theorem C14_destroyed_signal_not_referred_to_witness :
    WF False demo_suspended demo_containers demo_suspended_stacks ∧ 0 ∈ demo_suspended.sigs ∧
    demo_containers 0 = [3, 2, 1] ∧ demo_suspended_stacks 0 = [0] ∧
    ∃ s', (∀ fuel, (demo_containers 0).length + (demo_suspended_stacks 0).length ≤ fuel →
        signal_dtor fuel demo_suspended 0 = some s') ∧
      0 ∉ s'.sigs ∧
      (∀ x ∈ demo_containers 0, s'.csig x = none ∧ s'.next x = x ∧ s'.prev x = x ∧
        (∀ fuel, disconnect fuel s' x = some s') ∧
        (∀ fuel, connection_dtor fuel s' x = some s')) ∧
      (∀ c, IsConn demo_suspended c → s'.csig c ≠ some 0) ∧
      (∀ t ∈ demo_suspended_stacks 0,
        s'.tsig t = none ∧ (token_dtor s' t).top_token = s'.top_token) :=
  ⟨demo_suspended_wf, by decide, rfl, rfl,
    C14_destroyed_signal_not_referred_to demo_suspended demo_containers
      demo_suspended_stacks 0 demo_suspended_wf (by decide)⟩

/-! ## Relocation by move construction (C12) -/

/-- C12: move construction from a connection object `old` returns; the new object, at the
address `s.alloc`, owns the callable of `old`, stands for its subscription and refers to
its signal, and `old` is unlinked with a null `sig`.  Memory stays well formed with every
container mapped through "`old` becomes the new object": the container of the signal of
`old` has the same length, the new object stands where `old` stood and every other
subscription keeps its position; a walk from the sentinel yields that list.  Moving from a
disconnected `old` yields a disconnected object and changes no container. -/
theorem C12_move_construction_keeps_place (s : State) (R T : Nat → List Nat) (old : Nat)
    (h : WF False s R T) (hold : IsConn s old) :
    ∃ s', (∃ N, ∀ fuel, N ≤ fuel → connection_move_ctor fuel s old = some s') ∧
      s'.alloc = s.alloc + 1 ∧ s'.sigs = s.sigs ∧
      s'.slot s.alloc = s.slot old ∧ s'.csig s.alloc = s.csig old ∧
      s'.ident s.alloc = s.ident old ∧
      s'.csig old = none ∧ s'.next old = old ∧ s'.prev old = old ∧
      WF False s' (fun g => (R g).map fun x => if x = old then s.alloc else x) T ∧
      (∀ g ∈ s.sigs, walk s' g ((R g).length + 1) (s'.next g) =
        (R g).map fun x => if x = old then s.alloc else x) ∧
      (s.csig old = none →
        (∀ g ∈ s.sigs, (R g).map (fun x => if x = old then s.alloc else x) = R g) ∧
        s'.next s.alloc = s.alloc ∧ s'.prev s.alloc = s.alloc ∧
        ∀ a, a ≠ s.alloc → s'.next a = s.next a ∧ s'.prev a = s.prev a) := by
  obtain ⟨s0, hs0⟩ : ∃ s0, s0 =
      { list_element_ctor { s with alloc := s.alloc + 1 } s.alloc with
        csig := upd s.csig s.alloc none } := ⟨_, rfl⟩
  have hk0 : Kept False [] none s s0 R T R := by
    rw [hs0]
    exact allocated_kept h
  have hne : old ≠ s.alloc := Nat.ne_of_lt hold.1
  have hnew : IsConn s0 s.alloc := by
    rw [hs0]
    exact ⟨Nat.lt_succ_self _,
      fun hm => Nat.lt_irrefl _ (h.bound _ (List.mem_append_left _ hm)),
      fun hm => Nat.lt_irrefl _ (h.bound _ (List.mem_append_right _ hm))⟩
  have hold0 : IsConn s0 old := by
    rw [hs0]
    exact ⟨Nat.lt_succ_of_lt hold.1, hold.2.1, hold.2.2⟩
  have hnews : s0.csig s.alloc = none := by
    rw [hs0]
    exact upd_same _ _ _
  have hcs0 : s0.csig old = s.csig old := by
    rw [hs0]
    exact upd_other _ _ hne
  have hrun : ∀ fuel, connection_move_ctor fuel s old =
      replace fuel (transferred s0 s.alloc old) s.alloc old := by
    intro fuel
    rw [hs0]
    exact move_ctor_unfold hne
  have hwalk : ∀ (s' : State) (R' : Nat → List Nat), WF False s' R' T → s'.sigs = s.sigs →
      (∀ g, (R' g).length = (R g).length) →
      ∀ g ∈ s.sigs, walk s' g ((R g).length + 1) (s'.next g) = R' g := by
    intro s' R' hw hsg hlen g hg
    have hr := (hw.ring g (by rw [hsg]; exact hg)).walk_all
    rw [hlen g] at hr
    exact hr
  cases hcs : s.csig old with
  | none =>
    have hmap : ∀ g ∈ s.sigs, (R g).map (fun x => if x = old then s.alloc else x) = R g :=
      fun g hg => map_swap_of_not_mem
        (fun hm => h.detached_not_mem hg hold hcs (List.mem_cons_of_mem _ hm))
    have hw : WF False (transferred s0 s.alloc old)
        (fun g => (R g).map fun x => if x = old then s.alloc else x) T := by
      have hk1 : Kept False [] none s0 (transferred s0 s.alloc old) R T R :=
        transferred_kept hk0.wf hnew hnews hold0 (by rw [hcs0]; exact hcs)
      exact hk1.wf.congr_containers (fun g hg => hmap g (by rw [hs0] at hg; exact hg))
    obtain ⟨hn, hp⟩ := h.det old hold hcs
    refine ⟨transferred s0 s.alloc old, ⟨0, fun fuel _ => ?_⟩, ?_, ?_, ?_, ?_, ?_, ?_, ?_, ?_,
      hw, ?_, fun _ => ⟨hmap, ?_, ?_, ?_⟩⟩
    · rw [hrun fuel]
      exact replace_null (by rw [hcs0]; exact hcs)
    · rw [hs0]
      rfl
    · rw [hs0]
      rfl
    · show upd (upd s0.slot s.alloc (s0.slot old)) old none s.alloc = s.slot old
      rw [upd_other _ _ (Ne.symm hne), upd_same, hs0]
      rfl
    · show upd s0.csig s.alloc (s0.csig old) s.alloc = none
      rw [upd_same, hcs0]
      exact hcs
    · show upd s0.ident s.alloc (s0.ident old) s.alloc = s.ident old
      rw [upd_same, hs0]
      rfl
    · show upd s0.csig s.alloc (s0.csig old) old = none
      rw [upd_other _ _ hne, hcs0]
      exact hcs
    · show s0.next old = old
      rw [hs0]
      show upd s.next s.alloc s.alloc old = old
      rw [upd_other _ _ hne]
      exact hn
    · show s0.prev old = old
      rw [hs0]
      show upd s.prev s.alloc s.alloc old = old
      rw [upd_other _ _ hne]
      exact hp
    · exact hwalk _ _ hw (by rw [hs0]; rfl) (fun g => List.length_map _ _)
    · show s0.next s.alloc = s.alloc
      rw [hs0]
      exact upd_same _ _ _
    · show s0.prev s.alloc = s.alloc
      rw [hs0]
      exact upd_same _ _ _
    · intro a ha
      show s0.next a = s.next a ∧ s0.prev a = s.prev a
      rw [hs0]
      exact ⟨upd_other _ _ ha, upd_other _ _ ha⟩
  | some g =>
    obtain ⟨hg, hmem⟩ := h.att old g hold hcs
    have hmap : ∀ g1 ∈ s.sigs,
        Function.update R g ((R g).map fun x => if x = old then s.alloc else x) g1 =
          (R g1).map fun x => if x = old then s.alloc else x := by
      intro g1 hg1
      by_cases e : g1 = g
      · rw [e, Function.update_same]
      · rw [Function.update_noteq e]
        refine (map_swap_of_not_mem (fun hm => ?_)).symm
        exact h.disjoint hg hg1 (Ne.symm e) (List.mem_cons_of_mem _ hmem)
          (List.mem_cons_of_mem _ hm)
    have hw : WF False (relocated s0 s.alloc old (T g))
        (fun g => (R g).map fun x => if x = old then s.alloc else x) T := by
      have hk1 : Kept False [] none s0 (relocated s0 s.alloc old (T g)) R T _ :=
        relocated_kept hk0.wf hnew hnews hold0 (by rw [hcs0]; exact hcs)
      exact hk1.wf.congr_containers
        (fun g1 hg1 => (hmap g1 (by rw [hs0] at hg1; exact hg1)).symm)
    refine ⟨relocated s0 s.alloc old (T g), ⟨(T g).length, fun fuel hf => ?_⟩, ?_, ?_, ?_, ?_,
      ?_, ?_, ?_, ?_, hw, ?_, fun e => by cases e⟩
    · rw [hrun fuel]
      exact replace_eq hk0.wf hold0 (Ne.symm hne) (by rw [hcs0]; exact hcs) hf
    · rw [hs0]
      rfl
    · rw [hs0]
      rfl
    · show upd (upd s0.slot s.alloc (s0.slot old)) old none s.alloc = s.slot old
      rw [upd_other _ _ (Ne.symm hne), upd_same, hs0]
      rfl
    · show upd (upd s0.csig s.alloc (s0.csig old)) old none s.alloc = some g
      rw [upd_other _ _ (Ne.symm hne), upd_same, hcs0]
      exact hcs
    · show upd s0.ident s.alloc (s0.ident old) s.alloc = s.ident old
      rw [upd_same, hs0]
      rfl
    · exact upd_same _ _ _
    · show (disconnected _ old (T g)).next old = old
      rw [disconnected_next]
      exact upd_same _ _ _
    · show (disconnected _ old (T g)).prev old = old
      rw [disconnected_prev]
      exact upd_same _ _ _
    · exact hwalk _ _ hw (by rw [hs0]; rfl) (fun g => List.length_map _ _)

/-- C12 at a concrete input: in the container C, B, A (objects 3, 2, 1) a new object is
move-constructed from B; it gets the address 4, and the container holds 3, 4, 1. -/
theorem C12_move_construction_keeps_place_witness :
    WF False demo demo_containers demo_stacks ∧ IsConn demo 2 ∧
    ((connection_move_ctor 0 demo 2).map fun s1 =>
      (walk s1 0 4 (s1.next 0), s1.csig 4, s1.slot 4, s1.csig 2, s1.slot 2)) =
      some ([3, 4, 1], some 0, some 20, none, none) ∧
    ∃ s', (∃ N, ∀ fuel, N ≤ fuel → connection_move_ctor fuel demo 2 = some s') ∧
      s'.alloc = demo.alloc + 1 ∧ s'.sigs = demo.sigs ∧
      s'.slot demo.alloc = demo.slot 2 ∧ s'.csig demo.alloc = demo.csig 2 ∧
      s'.ident demo.alloc = demo.ident 2 ∧
      s'.csig 2 = none ∧ s'.next 2 = 2 ∧ s'.prev 2 = 2 ∧
      WF False s' (fun g => (demo_containers g).map fun x => if x = 2 then demo.alloc else x)
        demo_stacks ∧
      (∀ g ∈ demo.sigs, walk s' g ((demo_containers g).length + 1) (s'.next g) =
        (demo_containers g).map fun x => if x = 2 then demo.alloc else x) ∧
      (demo.csig 2 = none →
        (∀ g ∈ demo.sigs,
          (demo_containers g).map (fun x => if x = 2 then demo.alloc else x) =
            demo_containers g) ∧
        s'.next demo.alloc = demo.alloc ∧ s'.prev demo.alloc = demo.alloc ∧
        ∀ a, a ≠ demo.alloc → s'.next a = demo.next a ∧ s'.prev a = demo.prev a) :=
  ⟨demo_wf, by decide, by decide,
    C12_move_construction_keeps_place demo demo_containers demo_stacks 2 demo_wf
      (by decide)⟩

/-! ## Move assignment (C13) -/

/-- C13: self-assignment changes nothing.  For two distinct connection objects the move
assignment `a = move(b)` returns, having first disconnected `a` and then relocated `b`
into `a`: `a` owns the callable of `b`, stands for its subscription and refers to its
signal, and `b` is unlinked with a null `sig`.  Memory stays well formed with every
container first filtered of `a` and then mapped through "`b` becomes `a`": the
subscription `a` held is gone from its container, `a` stands where `b` stood, and the
other subscriptions keep their order; a walk from the sentinel yields that list. -/
theorem C13_move_assignment_relocates (s : State) (R T : Nat → List Nat) (a b : Nat)
    (h : WF False s R T) (ha : IsConn s a) (hb : IsConn s b) :
    (∀ fuel, connection_move_assign fuel s a a = some s) ∧
    (a ≠ b → ∃ s', (∃ N, ∀ fuel, N ≤ fuel → connection_move_assign fuel s a b = some s') ∧
      s'.slot a = s.slot b ∧ s'.csig a = s.csig b ∧ s'.ident a = s.ident b ∧
      s'.csig b = none ∧ s'.next b = b ∧ s'.prev b = b ∧
      WF False s'
        (fun g => ((R g).filter fun x => x ≠ a).map fun x => if x = b then a else x) T ∧
      ∀ g ∈ s.sigs, walk s' g ((R g).length + 1) (s'.next g) =
        ((R g).filter fun x => x ≠ a).map fun x => if x = b then a else x) := by
  refine ⟨fun fuel => by simp [connection_move_assign], fun hab => ?_⟩
  obtain ⟨s1, N1, hd1, hw1, hal1, hsg1, hfr1, hsl1, hid1, hca1, hcs1, _, _⟩ :=
    disconnect_result h ha
  have ha1 : IsConn s1 a := by
    unfold IsConn
    rw [hal1, hsg1, hfr1]
    exact ha
  have hb1 : IsConn s1 b := by
    unfold IsConn
    rw [hal1, hsg1, hfr1]
    exact hb
  obtain ⟨s', N2, hd2, hw2, _, hsg2, hsl2, hcs2, hid2, hcb2, hnb, hpb⟩ :=
    relocate_result hw1 ha1 hca1 hb1 hab
  refine ⟨s', ⟨N1 + N2, fun fuel hf => ?_⟩, ?_, ?_, ?_, hcb2, hnb, hpb, hw2, ?_⟩
  · unfold connection_move_assign
    rw [if_neg hab, hd1 fuel (by omega), Option.some_bind]
    exact hd2 fuel (by omega)
  · rw [hsl2, hsl1]
  · rw [hcs2, hcs1 b (Ne.symm hab)]
  · rw [hid2, hid1]
  · intro g hg
    have hr := hw2.ring g (by rw [hsg2, hsg1]; exact hg)
    have hlen : (((R g).filter fun x => x ≠ a).map fun x => if x = b then a else x).length <
        (R g).length + 1 := by
      rw [List.length_map]
      exact Nat.lt_succ_of_le (List.length_filter_le _ _)
    have hw := Ring.walk _ [] ((R g).length + 1) (by simpa using hr) hlen
    rw [hr.next_sentinel]
    exact hw

/-- C13 at a concrete input: in the container C, B, A (objects 3, 2, 1) the assignment
`C = move(A)` leaves the container B, C, in which the object 3 holds the callable 10 of
A. -/
theorem C13_move_assignment_relocates_witness :
    WF False demo demo_containers demo_stacks ∧ IsConn demo 3 ∧ IsConn demo 1 ∧
    ((connection_move_assign 0 demo 3 1).map fun s1 =>
      (walk s1 0 4 (s1.next 0), s1.slot 3, s1.csig 1)) = some ([2, 3], some 10, none) ∧
    (∀ fuel, connection_move_assign fuel demo 3 3 = some demo) ∧
    ((3 : Nat) ≠ 1 → ∃ s', (∃ N, ∀ fuel, N ≤ fuel →
        connection_move_assign fuel demo 3 1 = some s') ∧
      s'.slot 3 = demo.slot 1 ∧ s'.csig 3 = demo.csig 1 ∧ s'.ident 3 = demo.ident 1 ∧
      s'.csig 1 = none ∧ s'.next 1 = 1 ∧ s'.prev 1 = 1 ∧
      WF False s'
        (fun g => ((demo_containers g).filter fun x => x ≠ 3).map
          fun x => if x = 1 then 3 else x) demo_stacks ∧
      ∀ g ∈ demo.sigs, walk s' g ((demo_containers g).length + 1) (s'.next g) =
        ((demo_containers g).filter fun x => x ≠ 3).map fun x => if x = 1 then 3 else x) :=
  ⟨demo_wf, by decide, by decide, by decide,
    C13_move_assignment_relocates demo demo_containers demo_stacks 3 1 demo_wf
      (by decide) (by decide)⟩

/-! ## C15: moving a whole container -/

/-- C15: moving a whole container transfers its link structure.  When the container with
sentinel `other` holds the elements `xs` and `this` is another sentinel, then after the
move-assignment `this = std::move(other)`, and after the move-construction of `this` from
`other`, the container `this` holds `xs` in the same order (its front-to-back walk yields
`xs`), and `other` is empty; for `xs = []` the destination is empty as well. -/
theorem C15_container_move_transfers (s : State) (this other : Nat) (xs : List Nat)
    (h : Ring s other xs) (hthis : this ∉ other :: xs) :
    (Ring (list_move_assign s this other) this xs ∧
      walk (list_move_assign s this other) this (xs.length + 1)
        ((list_move_assign s this other).next this) = xs ∧
      Ring (list_move_assign s this other) other [] ∧
      empty (list_move_assign s this other) other = true ∧
      (xs = [] → empty (list_move_assign s this other) this = true)) ∧
    (Ring (list_move_ctor s this other) this xs ∧
      walk (list_move_ctor s this other) this (xs.length + 1)
        ((list_move_ctor s this other).next this) = xs ∧
      Ring (list_move_ctor s this other) other [] ∧
      empty (list_move_ctor s this other) other = true ∧
      (xs = [] → empty (list_move_ctor s this other) this = true)) := by
  obtain ⟨a1, a2⟩ := h.move_assigned hthis
  obtain ⟨c1, c2⟩ := h.move_constructed hthis
  refine ⟨⟨a1, a1.walk_all, a2, empty_of_ring_nil a2, ?_⟩,
    ⟨c1, c1.walk_all, c2, empty_of_ring_nil c2, ?_⟩⟩
  · intro e
    subst e
    exact empty_of_ring_nil a1
  · intro e
    subst e
    exact empty_of_ring_nil c1

/-- C15 on concrete containers: the container `0` with the elements `1, 2, 3` is moved into
the empty container `20`, by assignment and by construction. -/
theorem C15_container_move_transfers_witness :
    Ring demo_lists 0 [1, 2, 3] ∧ 20 ∉ [0, 1, 2, 3] ∧
    walk (list_move_assign demo_lists 20 0) 20 4 ((list_move_assign demo_lists 20 0).next 20)
      = [1, 2, 3] ∧
    empty (list_move_assign demo_lists 20 0) 0 = true ∧
    walk (list_move_ctor demo_lists 20 0) 20 4 ((list_move_ctor demo_lists 20 0).next 20)
      = [1, 2, 3] ∧
    empty (list_move_ctor demo_lists 20 0) 0 = true :=
  ⟨by decide, by decide,
    (C15_container_move_transfers demo_lists 20 0 [1, 2, 3] (by decide) (by decide)).1.2.1,
    (C15_container_move_transfers demo_lists 20 0 [1, 2, 3] (by decide) (by decide)).1.2.2.2.1,
    (C15_container_move_transfers demo_lists 20 0 [1, 2, 3] (by decide) (by decide)).2.2.1,
    (C15_container_move_transfers demo_lists 20 0 [1, 2, 3] (by decide) (by decide)).2.2.2.2.1⟩

/-! ## C16: the two-way link invariant -/

/-- C16: `clear()` and the move-assignment of a container do not keep the invariant, and
the destructor of a former element then corrupts the container.  In the state where the
container `0` holds `1, 2, 3` and the container `10` holds `11, 12` every node `n` satisfies
`n.next.prev = n` and `n.prev.next = n`.
* After `clear()` of the container `0` the invariant fails (the element `1` still points to
  the sentinel, which points to itself).  The container walks as empty; when the former
  element `1` is then destroyed (`~list_element()` is `unlink()`), the container walks
  `2, 3`: the cleared elements are back.  An element `7` pushed after the `clear()` is lost
  in the same way.
* After the move-assignment of the container `10` to the non-empty container `0` the
  invariant fails; the container `0` walks `11, 12`, and when the former element `1` is
  destroyed it walks `2, 3`: the elements moved in are lost. -/
theorem C16_clear_leaves_elements_linked :
    Linked demo_lists ∧
    walk demo_lists 0 4 (demo_lists.next 0) = [1, 2, 3] ∧
    ¬ Linked (clear demo_lists 0) ∧
    walk (clear demo_lists 0) 0 4 ((clear demo_lists 0).next 0) = [] ∧
    walk (unlink (clear demo_lists 0) 1) 0 4 ((unlink (clear demo_lists 0) 1).next 0)
      = [2, 3] ∧
    walk (push_back (clear demo_lists 0) 0 7) 0 4 ((push_back (clear demo_lists 0) 0 7).next 0)
      = [7] ∧
    walk (unlink (push_back (clear demo_lists 0) 0 7) 1) 0 4
      ((unlink (push_back (clear demo_lists 0) 0 7) 1).next 0) = [2, 3] ∧
    ¬ Linked (list_move_assign demo_lists 0 10) ∧
    walk (list_move_assign demo_lists 0 10) 0 4 ((list_move_assign demo_lists 0 10).next 0)
      = [11, 12] ∧
    walk (unlink (list_move_assign demo_lists 0 10) 1) 0 4
      ((unlink (list_move_assign demo_lists 0 10) 1).next 0) = [2, 3] :=
  ⟨demo_lists_linked, by decide,
    fun h => absurd (h 1).2 (by decide), by decide, by decide, by decide, by decide,
    fun h => absurd (h 1).2 (by decide), by decide, by decide⟩

/-! ## A disconnection inside a nested emission (C17) -/

/-- C17: `disconnect()` rewinds every token of the stack of the signal.  In a live signal
with the suspended emissions `ts`, disconnecting `X` moves each of their tokens that stood
at `X` to the predecessor of `X`.  And in the container `l1 ++ Y :: l2 ++ X :: r`, where
the callable of `X` starts a nested `emit()` when it is called for the first time, the
callable of `Y` disconnects `X` once `X` has been called, and the other callables do
nothing: inside the nested emission the token of that emission stands at `Y` and the token
of the outer emission at `X`; the disconnection moves the outer token to the predecessor of
`X`; and `emit()` returns after the calls of `l1`, `Y`, `l2`, `X` by the outer emission, of
`l1`, `Y`, `l2`, `r` by the nested one, and of `r` by the outer emission, which resumes
with the subscription that followed `X`. -/
theorem C17_disconnect_rewinds_outer_token (beh : Nat → State → List Action) (s : State)
    (g X Y fX fY : Nat) (l1 l2 r ts : List Nat)
    (h : Attached s g ((l1 ++ Y :: l2) ++ X :: r) ts)
    (hX : s.slot X = some fX) (hY : s.slot Y = some fY)
    (hfirst : fX ∉ s.log.map Invocation.fn)
    (hbX : ∀ s' : State,
      beh fX s' = if fX ∈ s'.log.map Invocation.fn then [] else [.emit g])
    (hbY : ∀ s' : State,
      beh fY s' = if fX ∈ s'.log.map Invocation.fn then [.disconnect X] else [])
    (hin : ∀ y ∈ l1 ++ l2 ++ r, ∀ f, s.slot y = some f → ∀ s' : State, beh f s' = []) :
    (∃ s1, (∀ fuel, ts.length ≤ fuel → disconnect fuel s X = some s1) ∧
      ∀ u ∈ ts, s.tit u = X → s1.tit u = s.prev X) ∧
    (∃ sn sd, sn = record (reached (record (reached s g (l1 ++ Y :: l2) X) s.depth fX) g l1 Y)
        (s.depth + 1) fY ∧
      Runs beh (.script [.disconnect X]) sn sd ∧
      sn.tit (s.depth + 1) = Y ∧ sn.tit s.depth = X ∧
      sd.tit (s.depth + 1) = Y ∧ sd.tit s.depth = s.prev X ∧
      s.prev X = (l1 ++ Y :: l2).getLastD g) ∧
    ∃ s' N, (∀ fuel, N ≤ fuel → emit beh fuel s g = some s') ∧
      s'.log = s.log ++ entries s s.depth ((l1 ++ Y :: l2) ++ [X]) ++
        entries s (s.depth + 1) (l1 ++ Y :: (l2 ++ r)) ++ entries s s.depth r ∧
      s'.csig X = none ∧
      Ring s' g ((l1 ++ Y :: l2) ++ r) := by
  obtain ⟨L, hL⟩ : ∃ L, L = l1 ++ Y :: l2 := ⟨_, rfl⟩
  rw [← hL] at h ⊢
  obtain ⟨sb, hsb⟩ : ∃ sb, sb = record (reached s g L X) s.depth fX := ⟨_, rfl⟩
  have hdepth : sb.depth = s.depth + 1 := by rw [hsb, entered_depth]
  obtain ⟨sn, hsn⟩ : ∃ sn, sn = record (reached sb g l1 Y) sb.depth fY := ⟨_, rfl⟩
  obtain ⟨sd, hsd⟩ : ∃ sd, sd = disconnected sn X (sb.depth :: s.depth :: ts) := ⟨_, rfl⟩
  obtain ⟨se, hse⟩ : ∃ se, se = finish sd sb.depth g (entries sd sb.depth (l2 ++ r)) :=
    ⟨_, rfl⟩
  have hlist : L ++ X :: r = l1 ++ Y :: (l2 ++ X :: r) := by rw [hL]; simp
  have hlist2 : L ++ r = (l1 ++ [Y]) ++ (l2 ++ r) := by rw [hL]; simp
  have hnd : (L ++ X :: r).Nodup := (List.nodup_cons.1 h.ring.nodup).2
  have hYL : Y ∈ L := by rw [hL]; simp
  have hYX : Y ≠ X := fun e =>
    (List.nodup_append.1 hnd).2.2 hYL (e ▸ List.mem_cons_self _ _)
  have hfYX : fY ≠ fX := by
    intro e
    have h1 := hbX s
    have h2 := hbY s
    rw [if_neg hfirst] at h1 h2
    rw [e, h1] at h2
    cases h2
  have hne : ∀ z ∈ L, s.slot z ≠ some fX := by
    intro z hz hzf
    rw [hL] at hz
    rcases List.mem_append.1 hz with hm | hm
    · have h1 := hin z (by simp [hm]) fX hzf s
      rw [hbX, if_neg hfirst] at h1
      cases h1
    · rcases List.mem_cons.1 hm with e | hm2
      · rw [e, hY] at hzf
        exact hfYX (Option.some.inj hzf)
      · have h1 := hin z (by simp [hm2]) fX hzf s
        rw [hbX, if_neg hfirst] at h1
        cases h1
  have hfresh : ∀ p, (∀ z ∈ p, z ∈ L) →
      fX ∉ (s.log ++ entries s s.depth p).map Invocation.fn := by
    intro p hp
    rw [List.map_append, List.mem_append]
    rintro (hm | hm)
    · exact hfirst hm
    · obtain ⟨z, hz, hzf⟩ := fn_mem_entries hm
      exact hne z (hp z hz) hzf
  have hinO : ∀ p y q, L = p ++ y :: q → ∀ f', s.slot y = some f' →
      beh f' (reached s g p y) = [] := by
    intro p y q hpq f' hyf
    have hy : y ∈ L := by rw [hpq]; simp
    have hfr : fX ∉ (reached s g p y).log.map Invocation.fn :=
      hfresh p (fun z hz => by rw [hpq]; simp [hz])
    rw [hL] at hy
    rcases List.mem_append.1 hy with hm | hm
    · exact hin y (by simp [hm]) f' hyf _
    · rcases List.mem_cons.1 hm with e | hm2
      · rw [e, hY] at hyf
        rw [← Option.some.inj hyf, hbY, if_neg hfr]
      · exact hin y (by simp [hm2]) f' hyf _
  have hlogb : sb.log = s.log ++ entries s s.depth L ++ [⟨s.depth, s.ident X, fX⟩] := by
    rw [hsb, entered_log]
  have hslotb : sb.slot = s.slot := by rw [hsb, entered_slot]
  have hidentb : sb.ident = s.ident := by rw [hsb, entered_ident]
  have hfreedb : sb.freed = s.freed := by rw [hsb, entered_freed]
  have hslotn : sn.slot = s.slot := by rw [hsn, entered_slot, hslotb]
  have hidentn : sn.ident = s.ident := by rw [hsn, entered_ident, hidentb]
  have hfreedn : sn.freed = s.freed := by rw [hsn, entered_freed, hfreedb]
  have hprevn : sn.prev = s.prev := by rw [hsn, entered_prev, hsb, entered_prev]
  have h' : Attached s g (l1 ++ Y :: (l2 ++ X :: r)) ts := hlist ▸ h
  have hb : Attached sb g (l1 ++ Y :: (l2 ++ X :: r)) (s.depth :: ts) := by
    rw [hsb]
    exact h'.in_emission L X fX
  have hbn : Attached sn g (l1 ++ Y :: (l2 ++ X :: r)) (sb.depth :: s.depth :: ts) := by
    rw [hsn]
    exact hb.in_emission l1 Y fY
  have hXsig : s.csig X = some g := h.sig X (by simp)
  have hXm : X ∈ l1 ++ Y :: (l2 ++ X :: r) := by simp
  have hd : disconnect (ts.length + 2) sn X = some sd := by
    rw [hsd]
    exact disconnect_eq (hbn.sig X hXm) hbn.stack
      (fun t ht => by rw [hbn.tok_sig t ht]; simp) (by simp)
  have hXc : IsConn sn X := hbn.is_conn hXm
  have hseen : fX ∈ (reached sb g l1 Y).log.map Invocation.fn := by
    show fX ∈ (sb.log ++ entries sb sb.depth l1).map Invocation.fn
    rw [hlogb]
    simp
  have hdisc : Runs beh (.script [.disconnect X]) sn sd :=
    Runs.script_disconnect hXc hd Runs.script_nil
  have hbodyN : Runs beh (.script (beh fY (reached sb g l1 Y)))
      (record (reached sb g l1 Y) sb.depth fY) sd := by
    rw [hbY, if_pos hseen, ← hsn]
    exact hdisc
  have hringn : Ring sn g (L ++ X :: r) := hlist ▸ hbn.ring
  have hringd : Ring sd g (L ++ r) := by
    rw [hsd]
    exact hringn.disconnected _
  have hne01 : s.depth ≠ sb.depth := by rw [hdepth]; exact Nat.ne_of_lt (Nat.lt_succ_self _)
  have htn1 : sn.tit sb.depth = Y := by
    rw [hsn, entered_tit, upd_same]
  have htn0 : sn.tit s.depth = X := by
    rw [hsn, entered_tit, upd_other _ _ hne01, hsb, entered_tit, upd_same]
  have hprev : s.prev X = L.getLastD g := h.ring.prev_mem
  have htd1 : sd.tit sb.depth = Y := by
    rw [hsd, disconnected_tit, htn1, if_neg (fun hc => hYX hc.2)]
  have htd0 : sd.tit s.depth = s.prev X := by
    rw [hsd, disconnected_tit, htn0, if_pos ⟨by simp, rfl⟩, hprevn]
  have hfreed : sd.freed = s.freed := by rw [hsd, disconnected_freed, hfreedn]
  have hslot : sd.slot = s.slot := by rw [hsd, disconnected_slot, hslotn]
  have hident : sd.ident = s.ident := by rw [hsd, disconnected_ident, hidentn]
  have htsigd : sd.tsig = upd sb.tsig sb.depth (some g) := by
    rw [hsd, disconnected_tsig, hsn, entered_tsig]
  have hlive : ∀ a ∈ g :: (L ++ r), a ∉ s.freed := by
    intro a ha
    apply h.live
    simp only [List.mem_cons, List.mem_append] at ha ⊢
    tauto
  have hnested : Runs beh (.emit g) sb se := by
    rw [hse]
    refine emit_pivot hb (by rw [hslotb]; exact hY) ?_ hbodyN (hlist2 ▸ hringd)
      (by rw [getLastD_concat]; exact htd1)
      (by rw [htsigd, upd_same])
      (fun a ha => by rw [hfreed]; exact hlive a (by rw [hlist2]; exact ha)) ?_
    · intro y hy f' hyf s' _
      exact hin y (by simp [hy]) f' (by rw [hslotb] at hyf; exact hyf) s'
    · intro y hy f' hyf s' _
      refine hin y ?_ f' (by rw [hslot] at hyf; exact hyf) s'
      simp only [List.mem_append] at hy ⊢
      tauto
  have hfreshX : fX ∉ (reached s g L X).log.map Invocation.fn := hfresh L (fun _ hz => hz)
  have hbodyO : Runs beh (.script (beh fX (reached s g L X)))
      (record (reached s g L X) s.depth fX) se := by
    rw [hbX, if_neg hfreshX, ← hsb]
    exact Runs.script_emit hb.alive hnested Runs.script_nil
  have hringe : Ring se g (L ++ r) := by
    rw [hse]
    exact hringd.finish _ _ _
  have htite : se.tit s.depth = L.getLastD g := by
    rw [hse, finish_tit, upd_other _ _ hne01, htd0, hprev]
  have htsige : se.tsig s.depth = some g := by
    rw [hse, finish_tsig, htsigd, upd_other _ _ hne01, hsb, entered_tsig, upd_same]
  have hrun : Runs beh (.emit g) s _ := emit_pivot_at h hX hinO hbodyO hringe htite htsige
    (fun a ha => by rw [hse, finish_freed, hfreed]; exact hlive a ha)
    (fun y hy f' hyf s' _ => by
      refine hin y (by simp [hy]) f' ?_ s'
      rw [hse, finish_slot, hslot] at hyf
      exact hyf)
  obtain ⟨N, hN⟩ := hrun.mono
  refine ⟨?_, ⟨sn, sd, ?_, hdisc, ?_, htn0, ?_, htd0, hprev⟩, _, N, hN, ?_, ?_, ?_⟩
  · refine ⟨disconnected s X ts, fun fuel hf => ?_, fun u hu hux => ?_⟩
    · exact disconnect_eq hXsig h.stack (fun t ht => by rw [h.tok_sig t ht]; simp) hf
    · rw [disconnected_tit, if_pos ⟨hu, hux⟩]
  · rw [hsn, hsb, entered_depth]
  · rw [← hdepth]
    exact htn1
  · rw [← hdepth]
    exact htd1
  · have he1 : entries se s.depth r = entries s s.depth r :=
      entries_congr (fun x _ => by rw [hse, finish_slot, hslot])
        (fun x _ => by rw [hse, finish_ident, hident])
    have he2 : entries sd sb.depth (l2 ++ r) = entries s (s.depth + 1) (l2 ++ r) := by
      rw [hdepth]
      exact entries_congr (fun x _ => by rw [hslot]) (fun x _ => by rw [hident])
    have he3 : entries sb sb.depth l1 = entries s (s.depth + 1) l1 := by
      rw [hdepth]
      exact entries_congr (fun x _ => by rw [hslotb]) (fun x _ => by rw [hidentb])
    have hlogn : sn.log = sb.log ++ entries s (s.depth + 1) l1 ++
        [⟨s.depth + 1, s.ident Y, fY⟩] := by
      rw [hsn, entered_log, he3, hdepth, hidentb]
    have hlogd : sd.log = sn.log := by rw [hsd, disconnected_log]
    have hloge : se.log = sd.log ++ entries s (s.depth + 1) (l2 ++ r) := by
      rw [hse, finish_log, he2]
    rw [finish_log, he1, hloge, hlogd, hlogn, hlogb, entries_append s s.depth L [X],
      entries_append s (s.depth + 1) l1, entries_cons_some hY, entries_cons_some hX]
    simp [entries]
  · rw [finish_csig, hse, finish_csig, hsd]
    exact upd_same _ _ _
  · exact hringe.finish _ _ _

/-- C17 at a concrete input: container C, B, A (callables 30, 20, 10) where B, called for
the first time, starts a nested emission in which C disconnects B; the calls are C, B, C,
A, A. -/
theorem C17_disconnect_rewinds_outer_token_witness :
    Attached demo 0 (([] ++ 3 :: []) ++ 2 :: [1]) [] ∧
    calls (emit (fun f s =>
        if f = 20 then (if 20 ∈ s.log.map Invocation.fn then [] else [.emit 0])
        else if f = 30 then (if 20 ∈ s.log.map Invocation.fn then [.disconnect 2] else [])
        else []) 20 demo 0) = some [30, 20, 30, 10, 10] ∧
    ∃ s' N, (∀ fuel, N ≤ fuel → emit (fun f s =>
        if f = 20 then (if 20 ∈ s.log.map Invocation.fn then [] else [.emit 0])
        else if f = 30 then (if 20 ∈ s.log.map Invocation.fn then [.disconnect 2] else [])
        else []) fuel demo 0 = some s') ∧
      s'.log = demo.log ++ entries demo demo.depth (([] ++ 3 :: []) ++ [2]) ++
        entries demo (demo.depth + 1) ([] ++ 3 :: ([] ++ [1])) ++ entries demo demo.depth [1] ∧
      s'.csig 2 = none ∧
      Ring s' 0 (([] ++ 3 :: []) ++ [1]) :=
  ⟨demo_attached, by decide,
    (C17_disconnect_rewinds_outer_token (fun f s =>
        if f = 20 then (if 20 ∈ s.log.map Invocation.fn then [] else [.emit 0])
        else if f = 30 then (if 20 ∈ s.log.map Invocation.fn then [.disconnect 2] else [])
        else [])
      demo 0 2 3 20 30 [] [] [1] [] demo_attached rfl rfl (by decide) (fun _ => rfl)
      (fun _ => rfl)
      (by
        intro y hy f hf s'
        simp only [List.append_nil, List.nil_append, List.mem_singleton] at hy
        subst hy
        have : f = 10 := (Option.some.inj hf).symm
        subst this
        rfl)).2.2⟩

/-! ## A callable that relocates its own subscription (C18) -/

/-- C18: in a live signal with the connected subscriptions `l ++ X :: r`, where the
callable of `X` move-constructs a new object from `X` and the other callables do nothing:
when that callable returns, the token of the emission stands at the new object (at the
address `s.alloc`), which has taken the place of `X`; `emit()` returns after calling every
subscription exactly once, front to back, so the relocated subscription is not invoked
again and its successor is not skipped. -/
theorem C18_relocated_in_own_callable (beh : Nat → State → List Action) (s : State)
    (g X fX : Nat) (l r ts : List Nat) (h : Attached s g (l ++ X :: r) ts)
    (hX : s.slot X = some fX) (hbX : ∀ s' : State, beh fX s' = [.move_construct X])
    (hin : ∀ y ∈ l ++ r, ∀ f, s.slot y = some f → ∀ s' : State, beh f s' = []) :
    (∃ sc, Runs beh (.script (beh fX (reached s g l X)))
        (record (reached s g l X) s.depth fX) sc ∧
      sc.tit s.depth = s.alloc ∧ Ring sc g (l ++ s.alloc :: r)) ∧
    ∃ s' N, (∀ fuel, N ≤ fuel → emit beh fuel s g = some s') ∧
      s'.log = s.log ++ entries s s.depth (l ++ X :: r) ∧
      s'.slot s.alloc = some fX ∧ s'.ident s.alloc = s.ident X ∧
      s'.csig s.alloc = some g ∧ s'.csig X = none ∧
      Ring s' g (l ++ s.alloc :: r) ∧
      walk s' g ((l ++ s.alloc :: r).length + 1) (s'.next g) = l ++ s.alloc :: r := by
  obtain ⟨sb, hsb⟩ : ∃ sb, sb = record (reached s g l X) s.depth fX := ⟨_, rfl⟩
  obtain ⟨s0, hs0⟩ : ∃ s0, s0 =
      { list_element_ctor { sb with alloc := sb.alloc + 1 } sb.alloc with
        csig := upd sb.csig sb.alloc none } := ⟨_, rfl⟩
  obtain ⟨sc, hsc⟩ : ∃ sc, sc = relocated s0 s.alloc X (s.depth :: ts) := ⟨_, rfl⟩
  have hal : sb.alloc = s.alloc := by rw [hsb]; rfl
  have hXc : IsConn s X := h.is_conn (by simp)
  have hXne : X ≠ s.alloc := Nat.ne_of_lt hXc.1
  have hlt : ∀ a ∈ g :: (l ++ X :: r), a ≠ s.alloc := fun a ha => Nat.ne_of_lt (h.below a ha)
  have hst : Stack sb (sb.top_token g) (s.depth :: ts) ∧
      ∀ u ∈ s.depth :: ts, sb.tsig u ≠ none := by
    rw [hsb]
    exact h.stack_in_emission rfl rfl rfl
  have hst0 : Stack s0 (s0.top_token g) (s.depth :: ts) := by
    rw [hs0]
    exact hst.1.keep rfl
  have hcs0 : s0.csig X = some g := by
    rw [hs0]
    show upd sb.csig sb.alloc none X = some g
    rw [hal, upd_other _ _ hXne, hsb]
    exact h.sig X (by simp)
  have hd : connection_move_ctor (ts.length + 1) sb X = some sc := by
    rw [move_ctor_unfold (by rw [hal]; exact hXne), ← hs0, hal, hsc]
    exact replace_eq_of_stack (Ne.symm hXne) hcs0 hst0
      (by rw [hs0]; exact hst.2) (by simp)
  have hbody : Runs beh (.script (beh fX (reached s g l X)))
      (record (reached s g l X) s.depth fX) sc := by
    rw [hbX, ← hsb]
    have hc : IsConn sb X := by rw [hsb]; exact hXc
    exact Runs.script_act
      (show act (ts.length + 1) sb (.move_construct X) = some sc by simp [act, hc, hd])
      Runs.script_nil
  have hring0 : Ring s0 g (l ++ X :: r) := by
    rw [hs0, hal]
    refine h.ring.frame (fun a ha => ?_) (fun a ha => ?_)
    · show upd sb.next s.alloc s.alloc a = s.next a
      rw [upd_other _ _ (hlt a ha), hsb]
      rfl
    · show upd sb.prev s.alloc s.alloc a = s.prev a
      rw [upd_other _ _ (hlt a ha), hsb]
      rfl
  have hring : Ring sc g (l ++ s.alloc :: r) := by
    rw [hsc]
    exact hring0.relocated _ (fun hm => hlt _ hm rfl)
  have htit : sc.tit s.depth = s.alloc := by
    rw [hsc, relocated_tit, if_pos]
    refine ⟨List.mem_cons_self _ _, ?_⟩
    rw [hs0, hsb]
    exact upd_same _ _ _
  have hfreed : sc.freed = s.freed := by rw [hsc, hs0, hsb]; rfl
  have hslot : sc.slot = upd (upd s.slot s.alloc (s.slot X)) X none := by
    rw [hsc, hs0, hsb]
    rfl
  have hident : sc.ident = upd s.ident s.alloc (s.ident X) := by
    rw [hsc, hs0, hsb]
    rfl
  have hcsig : sc.csig = upd (upd (upd s.csig s.alloc none) s.alloc (some g)) X none := by
    rw [hsc]
    show upd (upd s0.csig s.alloc (s0.csig X)) X none = _
    rw [hcs0, hs0, hal, hsb]
    rfl
  have hlog : sc.log = s.log ++ entries s s.depth l ++ [⟨s.depth, s.ident X, fX⟩] := by
    rw [hsc, hs0, hsb]
    show s.log ++ entries s s.depth l ++ [⟨s.depth, s.ident (upd _ s.depth X s.depth), fX⟩] = _
    rw [upd_same]
  have htsig : sc.tsig s.depth = some g := by
    rw [hsc, hs0, hsb]
    exact upd_same _ _ _
  have hrm : ∀ y ∈ r, y ≠ s.alloc ∧ y ≠ X := by
    intro y hy
    refine ⟨hlt y (by simp [hy]), ?_⟩
    intro e
    have hnd := (List.nodup_cons.1 h.ring.nodup).2
    exact (List.nodup_cons.1 (List.nodup_append.1 hnd).2.1).1 (e ▸ hy)
  have hring2 : Ring sc g ((l ++ [s.alloc]) ++ r) := by simpa using hring
  have hrun : Runs beh (.emit g) s _ := emit_pivot h hX
    (fun y hy f hyf s' _ => hin y (List.mem_append_left _ hy) f hyf s') hbody hring2
    (by rw [htit, getLastD_concat]) htsig
    (fun a ha => by
      rw [hfreed]
      simp only [List.mem_cons, List.mem_append, List.mem_singleton, List.not_mem_nil,
        or_false] at ha
      rcases ha with e | (e | e) | e
      · rw [e]
        exact h.live g (List.mem_cons_self _ _)
      · exact h.live a (by simp [e])
      · rw [e]
        exact fun hm => Nat.lt_irrefl _ (h.fresh _ (List.mem_append_left _ hm))
      · exact h.live a (by simp [e]))
    (fun y hy f hyf s' _ => by
      refine hin y (List.mem_append_right _ hy) f ?_ s'
      rw [hslot, upd_other _ _ (hrm y hy).2, upd_other _ _ (hrm y hy).1] at hyf
      exact hyf)
  obtain ⟨N, hN⟩ := hrun.mono
  have hfin := hring.finish s.depth g (entries sc s.depth r)
  refine ⟨⟨sc, hbody, htit, hring⟩, _, N, hN, ?_, ?_, ?_, ?_, ?_, hfin, hfin.walk_all⟩
  · have he : entries sc s.depth r = entries s s.depth r :=
      entries_congr
        (fun x hx => by
          rw [hslot, upd_other _ _ (hrm x hx).2, upd_other _ _ (hrm x hx).1])
        (fun x hx => by rw [hident, upd_other _ _ (hrm x hx).1])
    rw [finish_log, entries_append, entries_cons_some hX, hlog, he]
    simp
  · rw [finish_slot, hslot, upd_other _ _ (Ne.symm hXne), upd_same]
    exact hX
  · rw [finish_ident, hident, upd_same]
  · rw [finish_csig, hcsig, upd_other _ _ (Ne.symm hXne), upd_same]
  · rw [finish_csig, hcsig, upd_same]

/-- C18 at a concrete input: container C, B, A (callables 30, 20, 10) where B relocates
itself; the emission calls C, B, A and the container then holds C, the new object 4, A. -/
theorem C18_relocated_in_own_callable_witness :
    Attached demo 0 ([3] ++ 2 :: [1]) [] ∧
    calls (emit (fun f _ => if f = 20 then [.move_construct 2] else []) 10 demo 0) =
      some [30, 20, 10] ∧
    ((∃ sc, Runs (fun f _ => if f = 20 then [.move_construct 2] else [])
        (.script ((fun f _ => if f = 20 then [.move_construct 2] else []) 20
          (reached demo 0 [3] 2)))
        (record (reached demo 0 [3] 2) demo.depth 20) sc ∧
      sc.tit demo.depth = demo.alloc ∧ Ring sc 0 ([3] ++ demo.alloc :: [1])) ∧
    ∃ s' N, (∀ fuel, N ≤ fuel →
        emit (fun f _ => if f = 20 then [.move_construct 2] else []) fuel demo 0 = some s') ∧
      s'.log = demo.log ++ entries demo demo.depth ([3] ++ 2 :: [1]) ∧
      s'.slot demo.alloc = some 20 ∧ s'.ident demo.alloc = demo.ident 2 ∧
      s'.csig demo.alloc = some 0 ∧ s'.csig 2 = none ∧
      Ring s' 0 ([3] ++ demo.alloc :: [1]) ∧
      walk s' 0 (([3] ++ demo.alloc :: [1]).length + 1) (s'.next 0) =
        [3] ++ demo.alloc :: [1]) :=
  ⟨demo_attached, by decide,
    C18_relocated_in_own_callable (fun f _ => if f = 20 then [.move_construct 2] else [])
      demo 0 2 20 [3] [1] [] demo_attached rfl (fun _ => rfl)
      (by
        intro y hy f hf s'
        simp only [List.singleton_append, List.mem_cons, List.mem_singleton,
          List.not_mem_nil, or_false] at hy
        rcases hy with e | e
        · subst e
          have : f = 30 := (Option.some.inj hf).symm
          subst this
          rfl
        · subst e
          have : f = 10 := (Option.some.inj hf).symm
          subst this
          rfl)⟩

/-! ## A subscription added behind a rewound position (C20) -/

/-- C20: in a live signal whose container is `X :: r`, where the callable of the front
subscription `X` disconnects `X` and then subscribes the callable `fD`, and the other
callables, `fD` included, do nothing: the disconnection rewinds the position to the
sentinel, the new subscription `D` (at the address `s.alloc`) is linked behind it, and
`emit()` returns after calling `X`, then `D`, then the subscriptions `r` that followed
`X`. -/
theorem C20_subscribed_after_rewind_is_called (beh : Nat → State → List Action) (s : State)
    (g X fX fD : Nat) (r ts : List Nat) (h : Attached s g ([] ++ X :: r) ts)
    (hX : s.slot X = some fX)
    (hbX : ∀ s' : State, beh fX s' = [.disconnect X, .connect g fD])
    (hbD : ∀ s' : State, beh fD s' = [])
    (hin : ∀ y ∈ r, ∀ f, s.slot y = some f → ∀ s' : State, beh f s' = []) :
    ∃ s' N, (∀ fuel, N ≤ fuel → emit beh fuel s g = some s') ∧
      s'.log = s.log ++
        ⟨s.depth, s.ident X, fX⟩ :: ⟨s.depth, s.alloc, fD⟩ :: entries s s.depth r ∧
      s'.csig X = none ∧
      Ring s' g (s.alloc :: r) ∧
      walk s' g ((s.alloc :: r).length + 1) (s'.next g) = s.alloc :: r := by
  obtain ⟨sb, hsb⟩ : ∃ sb, sb = record (reached s g [] X) s.depth fX := ⟨_, rfl⟩
  obtain ⟨s1, hs1⟩ : ∃ s1, s1 = disconnected sb X (s.depth :: ts) := ⟨_, rfl⟩
  obtain ⟨sc, hsc⟩ : ∃ sc, sc = connect s1 g fD := ⟨_, rfl⟩
  have hXc : IsConn s X := h.is_conn (by simp)
  have hXne : X ≠ s.alloc := Nat.ne_of_lt hXc.1
  have hst : Stack sb (sb.top_token g) (s.depth :: ts) ∧
      ∀ u ∈ s.depth :: ts, sb.tsig u ≠ none := by
    rw [hsb]
    exact h.stack_in_emission rfl rfl rfl
  have hd : disconnect (ts.length + 1) sb X = some s1 := by
    rw [hs1]
    exact disconnect_eq (by rw [hsb]; exact h.sig X (by simp)) hst.1 hst.2 (by simp)
  have hal : s1.alloc = s.alloc := by rw [hs1, hsb]; rfl
  have hbody : Runs beh (.script (beh fX (reached s g [] X)))
      (record (reached s g [] X) s.depth fX) sc := by
    rw [hbX, ← hsb]
    refine Runs.script_disconnect (by rw [hsb]; exact hXc) hd ?_
    refine Runs.script_connect (by rw [hs1, hsb]; exact h.alive) ?_
    rw [← hsc]
    exact Runs.script_nil
  have hring1 : Ring s1 g ([] ++ r) := by
    have h0 : Ring sb g ([] ++ X :: r) := by
      rw [hsb]
      exact h.ring.of_eq rfl rfl
    rw [hs1]
    exact h0.disconnected _
  have hring : Ring sc g (s.alloc :: r) := by
    rw [hsc, ← hal]
    refine Ring.connect fD (by simpa using hring1) (fun a ha => ?_)
    rw [hal]
    exact h.below a (by
      simp only [List.nil_append, List.mem_cons] at ha ⊢
      tauto)
  have htit : sc.tit s.depth = g := by
    rw [hsc, connect_tit, hs1, hsb]
    show (if s.depth ∈ s.depth :: ts ∧ upd (upd s.tit s.depth (s.next g)) s.depth X s.depth = X
      then s.prev X else _) = _
    rw [upd_same, if_pos ⟨List.mem_cons_self _ _, rfl⟩]
    exact h.ring.prev_mem
  have hfreed : sc.freed = s.freed := by rw [hsc, connect_freed, hs1, hsb]; rfl
  have hslot : sc.slot = upd s.slot s.alloc (some fD) := by
    rw [hsc, connect_slot, hal, hs1, hsb]
    rfl
  have hident : sc.ident = upd s.ident s.alloc s.alloc := by
    rw [hsc, connect_ident, hal, hs1, hsb]
    rfl
  have hlog : sc.log = s.log ++ [⟨s.depth, s.ident X, fX⟩] := by
    rw [hsc, connect_log, hs1, hsb]
    show s.log ++ entries s s.depth [] ++ [⟨s.depth, s.ident (upd _ s.depth X s.depth), fX⟩] = _
    rw [upd_same]
    simp [entries]
  have htsig : sc.tsig s.depth = some g := by
    rw [hsc, connect_tsig, hs1, hsb]
    exact upd_same _ _ _
  have hcsig : sc.csig X = none := by
    rw [hsc, connect_csig, hal, upd_other _ _ hXne, hs1]
    exact upd_same _ _ _
  have hrm : ∀ y ∈ r, y ≠ s.alloc := fun y hy => Nat.ne_of_lt (h.below y (by simp [hy]))
  have hrun : Runs beh (.emit g) s _ := emit_pivot h hX
    (fun y hy => by cases hy) hbody (show Ring sc g ([] ++ s.alloc :: r) from hring)
    htit htsig
    (fun a ha => by
      rw [hfreed]
      simp only [List.nil_append, List.mem_cons] at ha
      rcases ha with e | e | e
      · rw [e]
        exact h.live g (List.mem_cons_self _ _)
      · rw [e]
        exact fun hm => Nat.lt_irrefl _ (h.fresh _ (List.mem_append_left _ hm))
      · exact h.live a (by simp [e]))
    (fun y hy f hyf s' _ => by
      rcases List.mem_cons.1 hy with e | hm
      · rw [e, hslot, upd_same] at hyf
        rw [← Option.some.inj hyf]
        exact hbD s'
      · rw [hslot, upd_other _ _ (hrm y hm)] at hyf
        exact hin y hm f hyf s')
  obtain ⟨N, hN⟩ := hrun.mono
  have hfin := hring.finish s.depth g (entries sc s.depth (s.alloc :: r))
  refine ⟨_, N, hN, ?_, ?_, hfin, hfin.walk_all⟩
  · have he : entries sc s.depth r = entries s s.depth r :=
      entries_congr (fun x hx => by rw [hslot, upd_other _ _ (hrm x hx)])
        (fun x hx => by rw [hident, upd_other _ _ (hrm x hx)])
    have hD : sc.slot s.alloc = some fD := by rw [hslot, upd_same]
    rw [finish_log, entries_cons_some hD, he, hlog, hident, upd_same]
    simp
  · rw [finish_csig]
    exact hcsig

/-- C20 at a concrete input: a signal with the container C, A (callables 30, 10) where C
disconnects itself and subscribes the callable 40; the emission calls C, D, A. -/
theorem C20_subscribed_after_rewind_is_called_witness :
    Attached (subscribe_all (signal_ctor State.init) 0 [10, 30]) 0 ([] ++ 2 :: [1]) [] ∧
    calls (emit (fun f _ => if f = 30 then [.disconnect 2, .connect 0 40] else []) 10
      (subscribe_all (signal_ctor State.init) 0 [10, 30]) 0) = some [30, 40, 10] ∧
    ∃ s' N, (∀ fuel, N ≤ fuel →
        emit (fun f _ => if f = 30 then [.disconnect 2, .connect 0 40] else []) fuel
          (subscribe_all (signal_ctor State.init) 0 [10, 30]) 0 = some s') ∧
      s'.log = (subscribe_all (signal_ctor State.init) 0 [10, 30]).log ++
        ⟨(subscribe_all (signal_ctor State.init) 0 [10, 30]).depth,
          (subscribe_all (signal_ctor State.init) 0 [10, 30]).ident 2, 30⟩ ::
        ⟨(subscribe_all (signal_ctor State.init) 0 [10, 30]).depth,
          (subscribe_all (signal_ctor State.init) 0 [10, 30]).alloc, 40⟩ ::
        entries (subscribe_all (signal_ctor State.init) 0 [10, 30])
          (subscribe_all (signal_ctor State.init) 0 [10, 30]).depth [1] ∧
      s'.csig 2 = none ∧
      Ring s' 0 ((subscribe_all (signal_ctor State.init) 0 [10, 30]).alloc :: [1]) ∧
      walk s' 0 (((subscribe_all (signal_ctor State.init) 0 [10, 30]).alloc :: [1]).length + 1)
        (s'.next 0) = (subscribe_all (signal_ctor State.init) 0 [10, 30]).alloc :: [1] :=
  ⟨⟨by decide, by decide, by decide, by decide, by decide, by decide, by decide, rfl,
      by decide, by decide⟩,
    by decide,
    C20_subscribed_after_rewind_is_called
      (fun f _ => if f = 30 then [.disconnect 2, .connect 0 40] else [])
      (subscribe_all (signal_ctor State.init) 0 [10, 30]) 0 2 30 40 [1] []
      ⟨by decide, by decide, by decide, by decide, by decide, by decide, by decide, rfl,
        by decide, by decide⟩
      rfl (fun _ => rfl) (fun _ => rfl)
      (by
        intro y hy f hf s'
        simp only [List.mem_singleton] at hy
        subst hy
        have : f = 10 := (Option.some.inj hf).symm
        subst this
        rfl)⟩

/-! ## C19: splice -/

/-- C19: `splice(pos, other, begin, end)` moves the range.  A range is a stretch `x :: m` of
a container `a ++ x :: m ++ b` (`begin = x`, `end` the node after the stretch, the sentinel
when `b` is empty), and a position outside the range is the node after a prefix `l` of the
other elements `l ++ r`, of the same container or of another one (`pos` the head of `r`, the
sentinel when `r` is empty).  After the call the range stands immediately before `pos` in
its original order, the source holds `a ++ b`, and the other elements keep their order: the
front-to-back walks yield these lists.  An empty range changes nothing, and neither does the
position `pos = end`. -/
theorem C19_splice_moves_range (s : State) :
    (∀ pos e, splice s pos e e = s) ∧
    (∀ g x a m b, Ring s g (a ++ x :: m ++ b) →
      splice s (b.headD g) x (b.headD g) = s) ∧
    (∀ g x a m b l r, Ring s g (a ++ x :: m ++ b) → a ++ b = l ++ r →
      Ring (splice s (r.headD g) x (b.headD g)) g (l ++ x :: m ++ r) ∧
      walk (splice s (r.headD g) x (b.headD g)) g ((l ++ x :: m ++ r).length + 1)
        ((splice s (r.headD g) x (b.headD g)).next g) = l ++ x :: m ++ r) ∧
    (∀ g1 g2 x a m b l r, Ring s g1 (a ++ x :: m ++ b) → Ring s g2 (l ++ r) →
      (g1 :: (a ++ x :: m ++ b) ++ g2 :: (l ++ r)).Nodup →
      Ring (splice s (r.headD g2) x (b.headD g1)) g1 (a ++ b) ∧
      Ring (splice s (r.headD g2) x (b.headD g1)) g2 (l ++ x :: m ++ r) ∧
      walk (splice s (r.headD g2) x (b.headD g1)) g1 ((a ++ b).length + 1)
        ((splice s (r.headD g2) x (b.headD g1)).next g1) = a ++ b ∧
      walk (splice s (r.headD g2) x (b.headD g1)) g2 ((l ++ x :: m ++ r).length + 1)
        ((splice s (r.headD g2) x (b.headD g1)).next g2) = l ++ x :: m ++ r) := by
  refine ⟨?_, ?_, ?_, ?_⟩
  · intro pos e
    unfold splice
    rw [if_pos rfl]
  · intro g x a m b h
    have h1 : Ring s g (a ++ x :: (m ++ b)) := by
      rw [List.append_assoc] at h
      exact h
    apply splice_end
    · rw [h1.prev_mem, h1.next_pred]
    · rw [h.prev_headD, h.next_getLastD]
  · intro g x a m b l r h e
    have h1 := h.splice_within e
    exact ⟨h1, h1.walk_all⟩
  · intro g1 g2 x a m b l r h1 h2 hnd
    obtain ⟨k1, k2⟩ := h1.splice_between h2 hnd
    exact ⟨k1, k2, k1.walk_all, k2.walk_all⟩

/-- C19 on concrete containers: the element `2` of the container `1, 2, 3` is spliced in
front of the element `12` of the container `11, 12`. -/
theorem C19_splice_moves_range_witness :
    Ring demo_lists 0 ([1] ++ 2 :: [] ++ [3]) ∧ Ring demo_lists 10 ([11] ++ [12]) ∧
    walk (splice demo_lists 12 2 3) 0 3 ((splice demo_lists 12 2 3).next 0) = [1, 3] ∧
    walk (splice demo_lists 12 2 3) 10 4 ((splice demo_lists 12 2 3).next 10) = [11, 2, 12] :=
  ⟨by decide, by decide,
    ((C19_splice_moves_range demo_lists).2.2.2 0 10 2 [1] [] [3] [11] [12]
      (by decide) (by decide) (by decide)).2.2.1,
    ((C19_splice_moves_range demo_lists).2.2.2 0 10 2 [1] [] [3] [11] [12]
      (by decide) (by decide) (by decide)).2.2.2⟩

end Signals
